import Mathlib

/-!
# KaGen: the chunk / cell engine of the three-dimensional geometric generators

A shallow embedding of `kagen/generators/geometric/geometric_3d.h`
(class `Geometric3D`) together with the properties of its recursive
multinomial chunk decomposition.

Conventions of the embedding.

* `SInt` is a 64-bit unsigned integer.  Values are natural numbers and every
  addition, subtraction and multiplication of the source is written with an
  explicit reduction modulo `2 ^ 64` (`add64`, `sub64`, `mul64`).
* `LPFloat` is a type parameter `F` carrying the arithmetic operations the
  source uses.  Statements that speak about exact arithmetic take `F := ℚ`.
* `google::dense_hash_map<SInt, T>` is a function `Nat → Option T`.
* The collaborators that are not part of the class (the hash, the binomial
  sampler, the Mersenne generator, the pure virtual `GenerateEdges`) are
  fields of the environment `Env`.
* The recursion of `ComputeChunk` carries a fuel argument: the source recursion
  has no bound of its own.  Running out of fuel is the result `none`.
-/

set_option linter.unusedSectionVars false

namespace KaGen

/-! ## 64-bit unsigned arithmetic -/

/-- Addition of two `SInt` values. -/
def add64 (a b : Nat) : Nat := (a + b) % 2 ^ 64

/-- Subtraction of two `SInt` values (wraps around below zero). -/
def sub64 (a b : Nat) : Nat := (a + (2 ^ 64 - b % 2 ^ 64)) % 2 ^ 64

/-- Multiplication of two `SInt` values. -/
def mul64 (a b : Nat) : Nat := (a * b) % 2 ^ 64

/-! ## Morton coding -/

/-- Modelled from the spec: `libmorton::m3D_e_sLUT` is a third-party header that
is not part of the sources; the spec describes it as the bit interleaving of
three coordinates.  `m3D_e b x y z` interleaves the lowest `b` bits of each
coordinate, `x` occupying the bit positions `0, 3, 6, …`, `y` the positions
`1, 4, 7, …` and `z` the positions `2, 5, 8, …`. -/
def m3D_e : Nat → Nat → Nat → Nat → Nat
  | 0, _, _, _ => 0
  | b + 1, x, y, z => x % 2 + 2 * (y % 2) + 4 * (z % 2) + 8 * m3D_e b (x / 2) (y / 2) (z / 2)

/-- Modelled from the spec: `libmorton::m3D_d_sLUT`, the inverse bit
de-interleaving; the result is the triple `(x, y, z)` read from the lowest
`3 * b` bits of the code. -/
def m3D_d : Nat → Nat → Nat × Nat × Nat
  | 0, _ => (0, 0, 0)
  | b + 1, m =>
    let r := m3D_d b (m / 8)
    (m % 2 + 2 * r.1, m / 2 % 2 + 2 * r.2.1, m / 4 % 2 + 2 * r.2.2)

/-- Source: `Geometric3D::Encode(x, y, z)`: `libmorton::m3D_e_sLUT<SInt>(z, x, y)`.  A
64-bit code holds 22 bits of the first library coordinate and 21 of the other
two. -/
def Encode (x y z : Nat) : Nat := m3D_e 22 z x y % 2 ^ 64

/-- Source: `Geometric3D::Decode(id, x, y, z)`: `libmorton::m3D_d_sLUT(id, z, x, y)`;
the result is the triple `(x, y, z)`. -/
def Decode (id : Nat) : Nat × Nat × Nat :=
  let r := m3D_d 22 id
  (r.2.1, r.2.2, r.1)

/-! ## Data model -/

/-- Source: `Geometric3D::Chunk`: the tuple `(n, x_off, y_off, z_off, generated, offset)`. -/
structure Chunk (F : Type) where
  n : Nat
  x_off : F
  y_off : F
  z_off : F
  generated : Bool
  offset : Nat
  deriving DecidableEq, Repr

/-- Source: `Geometric3D::Cell`: the same tuple type as `Chunk`. -/
abbrev Cell (F : Type) : Type := Chunk F

/-- Source: `Geometric3D::Vertex`: the tuple `(x, y, z, id)`. -/
structure Vertex (F : Type) where
  x : F
  y : F
  z : F
  id : Nat
  deriving DecidableEq, Repr

/-- A call of one of the state-changing member functions, as issued by an
implementation of the pure virtual `GenerateEdges`. -/
inductive Call where
  | ComputeChunk (chunk_id : Nat)
  | GenerateCells (chunk_id : Nat)
  | GenerateVertices (chunk_id cell_id : Nat) (push_coordinates : Bool)
  deriving DecidableEq, Repr

/-- The members of `Geometric3D` that stay fixed during generation, and the
collaborators of the class. -/
structure Env (F : Type) where
  /-- Source: `config_.seed` -/
  seed : Nat
  /-- Source: `config_.n` -/
  n : Nat
  /-- Source: `config_.coordinates` -/
  coordinates : Bool
  rank_ : Nat
  size_ : Nat
  chunk_size_ : F
  total_chunks_ : Nat
  chunks_per_dim_ : Nat
  local_chunk_start_ : Nat
  local_chunk_end_ : Nat
  cell_size_ : F
  cells_per_chunk_ : Nat
  cells_per_dim_ : Nat
  /-- Source: `sampling::Spooky::hash` -/
  hash : Nat → Nat
  /-- Source: `rng_.GenerateBinomial(h, n, p)` -/
  GenerateBinomial : Nat → Nat → F → Nat
  /-- Source: `mersenne_.Random()`: the value of draw number `k` after `RandomInit(h)` -/
  Random : Nat → Nat → F
  /-- the pure virtual `GenerateEdges(chunk_row, chunk_column, chunk_depth)`,
  seen through the member functions it calls -/
  GenerateEdges : Nat → Nat → Nat → List Call

/-- The mutable members of `Geometric3D` and of its base class `Generator`. -/
structure State (F : Type) where
  chunks_ : Nat → Option (Chunk F)
  cells_ : Nat → Option (Cell F)
  vertices_ : Nat → Option (List (Vertex F))
  start_node_ : Nat
  num_nodes_ : Nat
  /-- the Mersenne generator: the seed of the last `RandomInit` and the number
  of draws since -/
  mersenne_ : Nat × Nat
  coordinates3d_ : List (F × F × F)
  vertex_range_ : Nat × Nat

/-- The assignment `m[k] = v` on a hash map. -/
def setKey {α : Type} (m : Nat → Option α) (k : Nat) (v : α) : Nat → Option α :=
  fun j => if j = k then some v else m j

variable {F : Type} [NatCast F] [Add F] [Sub F] [Mul F] [Div F]

/-- The state left by the constructor `Geometric3D::Geometric3D`. -/
def State.init : State F :=
  State.mk (fun _ => none) (fun _ => none) (fun _ => none) (2 ^ 64 - 1) 0 (0, 0) [] (0, 0)

/-- Source: `Geometric3D::InitDatastructures`: the chunk distribution. -/
def InitDatastructures (e : Env F) : Env F :=
  let leftover_chunks := e.total_chunks_ % e.size_
  let local_chunks := add64 (e.total_chunks_ / e.size_) (if e.rank_ < leftover_chunks then 1 else 0)
  let local_chunk_start := add64 (mul64 e.rank_ local_chunks)
    (if leftover_chunks ≤ e.rank_ then leftover_chunks else 0)
  { e with
    local_chunk_start_ := local_chunk_start
    local_chunk_end_ := add64 local_chunk_start local_chunks }

/-- Source: `Geometric3D::IsLocalChunk`. -/
def IsLocalChunk (e : Env F) (chunk_id : Nat) : Bool :=
  decide (e.local_chunk_start_ ≤ chunk_id) && decide (chunk_id < e.local_chunk_end_)

/-- Source: `Geometric3D::ComputeGlobalCellId`. -/
def ComputeGlobalCellId (e : Env F) (chunk_id cell_id : Nat) : Nat :=
  add64 (mul64 chunk_id e.cells_per_chunk_) cell_id

/-- Source: `Generator::SetVertexRange`. -/
def SetVertexRange (first_vertex first_invalid_vertex : Nat) (s : State F) : State F :=
  { s with vertex_range_ := (first_vertex, first_invalid_vertex) }

/-- Source: `Generator::PushCoordinate(x, y, z)`. -/
def PushCoordinate (x y z : F) (s : State F) : State F :=
  { s with coordinates3d_ := s.coordinates3d_ ++ [(x, y, z)] }

/-! ## ComputeChunk -/

/-- The arguments of the recursive `ComputeChunk` other than `chunk_id`, in the
order of the source. -/
structure Args where
  n : Nat
  row_k : Nat
  column_k : Nat
  depth_k : Nat
  chunk_start_row : Nat
  chunk_start_column : Nat
  chunk_start_depth : Nat
  level : Nat
  offset : Nat
  deriving DecidableEq, Repr

/-- The arguments of the recursive call of `ComputeChunk` (source lines
140-218): the three flags are the outcomes of the comparisons
`chunk_row < row_splitter + chunk_start_row`,
`chunk_column < column_splitter + chunk_start_column` and
`chunk_depth < depth_splitter + chunk_start_depth`. -/
def octant (e : Env F) (a : Args) (upper left front : Bool) : Args :=
  let chunk_start := Encode a.chunk_start_column a.chunk_start_row a.chunk_start_depth
  let row_splitter := add64 a.row_k 1 / 2
  let column_splitter := add64 a.column_k 1 / 2
  let depth_splitter := add64 a.depth_k 1 / 2
  let h := e.hash (add64 (add64 e.seed chunk_start) (mul64 a.level e.total_chunks_))
  let v_variate := e.GenerateBinomial h a.n ((row_splitter : F) / (a.row_k : F))
  if upper then
    let h_variate := e.GenerateBinomial h v_variate ((column_splitter : F) / (a.column_k : F))
    if left then
      let z_variate := e.GenerateBinomial h h_variate ((depth_splitter : F) / (a.depth_k : F))
      if front then
        Args.mk z_variate row_splitter column_splitter depth_splitter a.chunk_start_row
          a.chunk_start_column a.chunk_start_depth (add64 a.level 1) a.offset
      else
        Args.mk (sub64 h_variate z_variate) row_splitter column_splitter
          (sub64 a.depth_k depth_splitter) a.chunk_start_row a.chunk_start_column
          (add64 a.chunk_start_depth depth_splitter) (add64 a.level 1)
          (add64 a.offset z_variate)
    else
      let z_variate := e.GenerateBinomial h (sub64 v_variate h_variate)
        ((depth_splitter : F) / (a.depth_k : F))
      if front then
        Args.mk z_variate row_splitter (sub64 a.column_k column_splitter) depth_splitter
          a.chunk_start_row (add64 a.chunk_start_column column_splitter) a.chunk_start_depth
          (add64 a.level 1) (add64 a.offset h_variate)
      else
        Args.mk (sub64 (sub64 v_variate h_variate) z_variate) row_splitter
          (sub64 a.column_k column_splitter) (sub64 a.depth_k depth_splitter)
          a.chunk_start_row (add64 a.chunk_start_column column_splitter)
          (add64 a.chunk_start_depth depth_splitter) (add64 a.level 1)
          (add64 (add64 a.offset h_variate) z_variate)
  else
    let h_variate := e.GenerateBinomial h (sub64 a.n v_variate)
      ((column_splitter : F) / (a.column_k : F))
    if left then
      let z_variate := e.GenerateBinomial h h_variate ((depth_splitter : F) / (a.depth_k : F))
      if front then
        Args.mk z_variate (sub64 a.row_k row_splitter) column_splitter depth_splitter
          (add64 a.chunk_start_row row_splitter) a.chunk_start_column a.chunk_start_depth
          (add64 a.level 1) (add64 a.offset v_variate)
      else
        Args.mk (sub64 h_variate z_variate) (sub64 a.row_k row_splitter) column_splitter
          (sub64 a.depth_k depth_splitter) (add64 a.chunk_start_row row_splitter)
          a.chunk_start_column (add64 a.chunk_start_depth depth_splitter) (add64 a.level 1)
          (add64 (add64 a.offset v_variate) z_variate)
    else
      let z_variate := e.GenerateBinomial h (sub64 (sub64 a.n v_variate) h_variate)
        ((depth_splitter : F) / (a.depth_k : F))
      if front then
        Args.mk z_variate (sub64 a.row_k row_splitter) (sub64 a.column_k column_splitter)
          depth_splitter (add64 a.chunk_start_row row_splitter)
          (add64 a.chunk_start_column column_splitter) a.chunk_start_depth (add64 a.level 1)
          (add64 (add64 a.offset v_variate) h_variate)
      else
        Args.mk (sub64 (sub64 (sub64 a.n v_variate) h_variate) z_variate)
          (sub64 a.row_k row_splitter) (sub64 a.column_k column_splitter)
          (sub64 a.depth_k depth_splitter) (add64 a.chunk_start_row row_splitter)
          (add64 a.chunk_start_column column_splitter)
          (add64 a.chunk_start_depth depth_splitter) (add64 a.level 1)
          (add64 (add64 (add64 a.offset v_variate) h_variate) z_variate)

/-- The base case of `ComputeChunk` (source lines 128-138): store the chunk
under the key `Encode(region start)` and, when the requested chunk is local,
account for its vertices. -/
def storeChunk (e : Env F) (chunk_id : Nat) (a : Args) (s : State F) : State F :=
  let chunk_start := Encode a.chunk_start_column a.chunk_start_row a.chunk_start_depth
  let s1 : State F :=
    { s with
      chunks_ := setKey s.chunks_ chunk_start
        (Chunk.mk a.n ((a.chunk_start_row : F) * e.chunk_size_)
          ((a.chunk_start_column : F) * e.chunk_size_)
          ((a.chunk_start_depth : F) * e.chunk_size_) false a.offset) }
  if IsLocalChunk e chunk_id then
    { s1 with
      start_node_ := if a.offset < s1.start_node_ then a.offset else s1.start_node_
      num_nodes_ := add64 s1.num_nodes_ a.n }
  else s1

/-- The recursive `Geometric3D::ComputeChunk(chunk_id, n, row_k, …, offset)`. -/
def ComputeChunkRec (e : Env F) : Nat → Nat → Args → State F → Option (State F)
  | 0, _, _, _ => none
  | fuel + 1, chunk_id, a, s =>
    if (s.chunks_ chunk_id).isSome then some s
    else if a.n = 0 ∨ e.n < a.n then some s
    else
      let d := Decode chunk_id
      let chunk_column := d.1
      let chunk_row := d.2.1
      let chunk_depth := d.2.2
      if a.row_k = 1 ∧ a.column_k = 1 ∧ a.depth_k = 1 then some (storeChunk e chunk_id a s)
      else
        let row_splitter := add64 a.row_k 1 / 2
        let column_splitter := add64 a.column_k 1 / 2
        let depth_splitter := add64 a.depth_k 1 / 2
        ComputeChunkRec e fuel chunk_id
          (octant e a (decide (chunk_row < add64 row_splitter a.chunk_start_row))
            (decide (chunk_column < add64 column_splitter a.chunk_start_column))
            (decide (chunk_depth < add64 depth_splitter a.chunk_start_depth))) s

/-- The arguments of the outermost call (source line 107). -/
def rootArgs (e : Env F) : Args :=
  Args.mk e.n e.chunks_per_dim_ e.chunks_per_dim_ e.chunks_per_dim_ 0 0 0 1 0

/-- Source: `Geometric3D::ComputeChunk(chunk_id)`. -/
def ComputeChunk (e : Env F) (fuel chunk_id : Nat) (s : State F) : Option (State F) :=
  ComputeChunkRec e fuel chunk_id (rootArgs e) s

/-! ## GenerateCells -/

/-- The value-initialised tuple that `operator[]` of the hash map inserts for an
absent key. -/
def Chunk.fresh : Chunk F :=
  Chunk.mk 0 ((0 : Nat) : F) ((0 : Nat) : F) ((0 : Nat) : F) false 0

/-- Source: `auto& chunk = chunks_[chunk_id]`: the entry read through `operator[]`. -/
def chunkAt (chunk_id : Nat) (s : State F) : Chunk F :=
  (s.chunks_ chunk_id).getD Chunk.fresh

/-- Source: `chunks_[chunk_id]` as a state change: the entry exists afterwards. -/
def touchChunk (chunk_id : Nat) (s : State F) : State F :=
  { s with chunks_ := setKey s.chunks_ chunk_id (chunkAt chunk_id s) }

/-- The variables that the loop of `GenerateCells` updates. -/
structure CellLoop (F : Type) where
  cells_ : Nat → Option (Cell F)
  n : Nat
  offset : Nat
  total_area : F

/-- The count `cell_vertices` drawn in iteration `i` of the loop of
`GenerateCells` (source lines 251-253). -/
def cellDraw (e : Env F) (chunk_id : Nat) (l : CellLoop F) (i : Nat) : Nat :=
  let cell_area := e.cell_size_ * e.cell_size_ * e.cell_size_
  let seed := add64 (add64 (add64 e.seed (mul64 chunk_id e.cells_per_chunk_)) i)
    (mul64 e.total_chunks_ e.cells_per_chunk_)
  let h := e.hash seed
  e.GenerateBinomial h l.n (cell_area / l.total_area)

/-- One iteration of the loop of `GenerateCells` (source lines 250-268). -/
def cellStep (e : Env F) (chunk_id : Nat) (chunk : Chunk F) (l : CellLoop F) (i : Nat) :
    CellLoop F :=
  let cell_area := e.cell_size_ * e.cell_size_ * e.cell_size_
  let cell_vertices := cellDraw e chunk_id l i
  let cell_start_x := chunk.x_off + ((i / e.cells_per_dim_ % e.cells_per_dim_ : Nat) : F) * e.cell_size_
  let cell_start_y := chunk.y_off + ((i % e.cells_per_dim_ : Nat) : F) * e.cell_size_
  let cell_start_z :=
    chunk.z_off + ((i / mul64 e.cells_per_dim_ e.cells_per_dim_ : Nat) : F) * e.cell_size_
  CellLoop.mk
    (if cell_vertices ≠ 0 then
      setKey l.cells_ (ComputeGlobalCellId e chunk_id i)
        (Chunk.mk cell_vertices cell_start_x cell_start_y cell_start_z false l.offset)
    else l.cells_)
    (sub64 l.n cell_vertices) (add64 l.offset cell_vertices) (l.total_area - cell_area)

/-- The loop variables of `GenerateCells` on entry of the loop. -/
def cellLoopInit (e : Env F) (chunk : Chunk F) (s : State F) : CellLoop F :=
  CellLoop.mk s.cells_ chunk.n chunk.offset (e.chunk_size_ * e.chunk_size_ * e.chunk_size_)

/-- The loop variables of `GenerateCells` after the iterations `0, …, k - 1`. -/
def cellLoop (e : Env F) (chunk_id : Nat) (chunk : Chunk F) (s : State F) (k : Nat) :
    CellLoop F :=
  (List.range k).foldl (cellStep e chunk_id chunk) (cellLoopInit e chunk s)

/-- Source: `Geometric3D::GenerateCells(chunk_id)`. -/
def GenerateCells (e : Env F) (fuel chunk_id : Nat) (s : State F) : Option (State F) :=
  match (if (s.chunks_ chunk_id).isNone then ComputeChunk e fuel chunk_id s else some s) with
  | none => none
  | some s1 =>
    let chunk := chunkAt chunk_id s1
    let s2 := touchChunk chunk_id s1
    if chunk.generated then some s2
    else
      let l := cellLoop e chunk_id chunk s2 e.cells_per_chunk_
      some { s2 with
        cells_ := l.cells_
        chunks_ := setKey s2.chunks_ chunk_id
          (Chunk.mk chunk.n chunk.x_off chunk.y_off chunk.z_off true chunk.offset) }

/-! ## GenerateVertices -/

/-- One iteration of the loop of `GenerateVertices(chunk_id, cell_id,
push_coordinates)` (source lines 304-316). -/
def vertexStep (e : Env F) (global_cell_id : Nat) (cell : Cell F) (push_coordinates : Bool)
    (s : State F) (i : Nat) : State F :=
  let x := e.Random s.mersenne_.1 s.mersenne_.2 * e.cell_size_ + cell.x_off
  let y := e.Random s.mersenne_.1 (s.mersenne_.2 + 1) * e.cell_size_ + cell.y_off
  let z := e.Random s.mersenne_.1 (s.mersenne_.2 + 2) * e.cell_size_ + cell.z_off
  let s1 : State F :=
    { s with
      mersenne_ := (s.mersenne_.1, s.mersenne_.2 + 3)
      vertices_ := setKey s.vertices_ global_cell_id
        ((s.vertices_ global_cell_id).getD [] ++ [Vertex.mk x y z (add64 cell.offset i)]) }
  if push_coordinates && e.coordinates then PushCoordinate x y z s1 else s1

/-- Source: `Geometric3D::GenerateVertices(chunk_id, cell_id, push_coordinates)`. -/
def GenerateVertices (e : Env F) (fuel chunk_id cell_id : Nat) (push_coordinates : Bool)
    (s : State F) : Option (State F) :=
  match (if (s.chunks_ chunk_id).isNone then ComputeChunk e fuel chunk_id s else some s) with
  | none => none
  | some s1 =>
    let chunk := chunkAt chunk_id s1
    let s2 := touchChunk chunk_id s1
    match (if chunk.generated then some s2 else GenerateCells e fuel chunk_id s2) with
    | none => none
    | some s3 =>
      let global_cell_id := ComputeGlobalCellId e chunk_id cell_id
      match s3.cells_ global_cell_id with
      | none => some s3
      | some cell =>
        if cell.generated then some s3
        else
          let seed := add64 (add64 e.seed (mul64 chunk_id e.cells_per_chunk_)) cell_id
          let h := e.hash seed
          let s4 : State F :=
            { s3 with
              mersenne_ := (h, 0)
              vertices_ := setKey s3.vertices_ global_cell_id
                ((s3.vertices_ global_cell_id).getD []) }
          let s5 := (List.range cell.n).foldl (vertexStep e global_cell_id cell push_coordinates) s4
          some { s5 with
            cells_ := setKey s5.cells_ global_cell_id
              (Chunk.mk cell.n cell.x_off cell.y_off cell.z_off true cell.offset) }

/-! ## GenerateChunk and GenerateEdgeList -/

/-- One call issued by `GenerateEdges`. -/
def runCall (e : Env F) (fuel : Nat) (s : State F) : Call → Option (State F)
  | Call.ComputeChunk chunk_id => ComputeChunk e fuel chunk_id s
  | Call.GenerateCells chunk_id => GenerateCells e fuel chunk_id s
  | Call.GenerateVertices chunk_id cell_id push_coordinates =>
    GenerateVertices e fuel chunk_id cell_id push_coordinates s

/-- Source: `Geometric3D::GenerateChunk(chunk_id)`. -/
def GenerateChunk (e : Env F) (fuel chunk_id : Nat) (s : State F) : Option (State F) :=
  let d := Decode chunk_id
  let chunk_column := d.1
  let chunk_row := d.2.1
  let chunk_depth := d.2.2
  match GenerateCells e fuel chunk_id s with
  | none => none
  | some s1 =>
    match (List.range e.cells_per_chunk_).foldlM
        (fun t i => GenerateVertices e fuel chunk_id i true t) s1 with
    | none => none
    | some s2 => (e.GenerateEdges chunk_row chunk_column chunk_depth).foldlM (runCall e fuel) s2

/-- The chunk ids of the loops of `GenerateEdgeList`. -/
def localChunks (e : Env F) : List Nat :=
  List.range' e.local_chunk_start_ (e.local_chunk_end_ - e.local_chunk_start_)

/-- Source: `Geometric3D::GenerateEdgeList`. -/
def GenerateEdgeList (e : Env F) (fuel : Nat) (s : State F) : Option (State F) :=
  match (localChunks e).foldlM (fun t i => ComputeChunk e fuel i t) s with
  | none => none
  | some s1 =>
    match (localChunks e).foldlM (fun t i => GenerateChunk e fuel i t) s1 with
    | none => none
    | some s2 => some (SetVertexRange s2.start_node_ (add64 s2.start_node_ s2.num_nodes_) s2)

/-! ## Definitions used to state the properties -/

/-- The arguments of the recursive call into octant number `o` of the
`(row, column, depth)` order: `o = 4 * row bit + 2 * column bit + depth bit`,
a bit being `0` on the side of the splitter where the comparison of the source
succeeds. -/
def octantAt (e : Env F) (a : Args) (o : Nat) : Args :=
  octant e a (decide (o / 4 % 2 = 0)) (decide (o / 2 % 2 = 0)) (decide (o % 2 = 0))

/-- The descent of the recursive `ComputeChunk` without the chunk table: the
arguments with which the base case is reached (`some (some a)`), or
`some none` when the descent stops at a region without points, or `none` when
the fuel is used up. -/
def descend (e : Env F) : Nat → Nat → Args → Option (Option Args)
  | 0, _, _ => none
  | fuel + 1, chunk_id, a =>
    if a.n = 0 ∨ e.n < a.n then some none
    else if a.row_k = 1 ∧ a.column_k = 1 ∧ a.depth_k = 1 then some (some a)
    else
      descend e fuel chunk_id
        (octant e a
          (decide ((Decode chunk_id).2.1 < add64 (add64 a.row_k 1 / 2) a.chunk_start_row))
          (decide ((Decode chunk_id).1 < add64 (add64 a.column_k 1 / 2) a.chunk_start_column))
          (decide ((Decode chunk_id).2.2 < add64 (add64 a.depth_k 1 / 2) a.chunk_start_depth)))

/-- The point count recorded for a chunk id, an absent chunk counting as empty. -/
def chunkCount (s : State F) (chunk_id : Nat) : Nat :=
  match s.chunks_ chunk_id with
  | some c => c.n
  | none => 0

/-- The same generator seen from another process: another rank in a
communicator of another size, owning another range of chunks. -/
def atRank (e : Env F) (rank size lo hi : Nat) : Env F :=
  { e with rank_ := rank, size_ := size, local_chunk_start_ := lo, local_chunk_end_ := hi }

/-- The effect of a finished descent on the state: the base case stores the
chunk, a descent that stops at an empty region leaves the state as it is. -/
def applyLeaf (e : Env F) (chunk_id : Nat) (s : State F) : Option Args → State F
  | none => s
  | some a => storeChunk e chunk_id a s

/-- A concrete generator over exact arithmetic, used to evaluate the model:
`K` chunks per dimension, `N` points, one cell per chunk, the identity as hash,
the given sampler, and an implementation of `GenerateEdges` that issues no
call. -/
def sampleEnv (K N : Nat) (binom : Nat → Nat → ℚ → Nat) (first last : Nat) : Env ℚ :=
  Env.mk 1 N true 0 1 (1 / (K : ℚ)) (K ^ 3) K first last (1 / (K : ℚ)) 1 1 (fun x => x) binom
    (fun _ _ => 0) (fun _ _ _ => [])

/-- A sampler that sends half of the points (rounded down) to the low side. -/
def halfSampler (_h m : Nat) (_p : ℚ) : Nat := m / 2

/-- The point count recorded for a global cell id, an absent cell counting as
empty. -/
def cellCount (s : State F) (global_cell_id : Nat) : Nat :=
  match s.cells_ global_cell_id with
  | some c => c.n
  | none => 0

/-- The count drawn for local cell `i` when `GenerateCells(chunk_id)` runs its loop
on the chunk entry `chunk` in state `s`: the draw of iteration `i`, made on the
loop variables left by the iterations before it. -/
def drawnCount (e : Env F) (chunk_id : Nat) (chunk : Chunk F) (s : State F) (i : Nat) : Nat :=
  cellDraw e chunk_id (cellLoop e chunk_id chunk s i) i

/-- A state in which chunk 1 is resolved (3 points from id 5 on) and its cells
are not distributed yet. -/
def sampleChunkState : State ℚ :=
  State.mk (setKey (fun _ => none) 1 (Chunk.mk 3 0 0 0 false 5)) (fun _ => none)
    (fun _ => none) 5 3 (0, 0) [] (0, 0)

/-- A state in which chunk 1 has its cells distributed and its cell 0 (3 points
from id 5 on) is stored and not materialised yet. -/
def sampleCellState : State ℚ :=
  State.mk (setKey (fun _ => none) 1 (Chunk.mk 3 0 0 0 true 5))
    (setKey (fun _ => none) 1 (Chunk.mk 3 0 0 0 false 5)) (fun _ => none) 5 3 (0, 0) [] (0, 0)

/-- A sampler that is exact for `p = 1` and halves the count otherwise. -/
def exactSampler (_h m : Nat) (p : ℚ) : Nat := if p = 1 then m else m / 2

/-- The point count of the result of a descent: the count of the leaf that is
reached, `0` when the descent stops at an empty region. -/
def leafCount : Option (Option Args) → Nat
  | some (some a) => a.n
  | _ => 0

/-- The recursion node `a` is the aligned cube of side `2 ^ j` of a power-of-two
grid whose chunk ids are `base, …, base + 8 ^ j - 1`: the decoded coordinates
of `base + t` are the region start plus the de-interleaved digits of `t`, the
region arithmetic does not wrap around, and the id interval of the node lies
inside `[0, config_.n)`. -/
def NodeOK (e : Env F) (j base : Nat) (a : Args) : Prop :=
  a.row_k = 2 ^ j ∧ a.column_k = 2 ^ j ∧ a.depth_k = 2 ^ j ∧
  a.chunk_start_row + 2 ^ j < 2 ^ 63 ∧ a.chunk_start_column + 2 ^ j < 2 ^ 63 ∧
  a.chunk_start_depth + 2 ^ j < 2 ^ 63 ∧
  base + 8 ^ j ≤ 2 ^ 64 ∧
  (∀ t, t < 8 ^ j → Decode (base + t) =
    (a.chunk_start_column + (m3D_d j t).2.1, a.chunk_start_row + (m3D_d j t).2.2,
      a.chunk_start_depth + (m3D_d j t).1)) ∧
  a.offset + a.n ≤ e.n

/-- The result of the descent of `ComputeChunk(c)` from the root of a grid with
`2 ^ ex` chunks per dimension, with just enough fuel. -/
def chunkLeaf (e : Env F) (ex c : Nat) : Option (Option Args) :=
  descend e (ex + 1) c (rootArgs e)

/-- The number of points that the descent assigns to chunk `c`. -/
def trueCount (e : Env F) (ex c : Nat) : Nat :=
  leafCount (chunkLeaf e ex c)

/-- The id offset that the descent assigns to chunk `c` (`0` for an empty chunk). -/
def trueOffset (e : Env F) (ex c : Nat) : Nat :=
  match chunkLeaf e ex c with
  | some (some a) => a.offset
  | _ => 0

/-- Every entry of the chunk table carries the count of the descent, and the
offset of the descent when it is not empty. -/
def Truthful (e : Env F) (ex : Nat) (s : State F) : Prop :=
  ∀ c, c < 8 ^ ex → ∀ ch, s.chunks_ c = some ch →
    ch.n = trueCount e ex c ∧ (0 < ch.n → ch.offset = trueOffset e ex c)

/-- No entry of the chunk table is empty. -/
def NoEmpty (s : State F) : Prop :=
  ∀ c ch, s.chunks_ c = some ch → 0 < ch.n

/-- Entries of the chunk table are never removed. -/
def Grows (s t : State F) : Prop :=
  ∀ c, s.chunks_ c ≠ none → t.chunks_ c ≠ none

/-- Chunk `c` has been looked at: it is in the table or it is empty. -/
def Settled (e : Env F) (ex : Nat) (s : State F) (c : Nat) : Prop :=
  s.chunks_ c ≠ none ∨ trueCount e ex c = 0

/-- The bookkeeping of the local vertices agrees with the chunk table:
`num_nodes_` is the sum of the recorded counts of the local chunks, and
`start_node_` is the least offset of a recorded non-empty local chunk (the
initial value `2 ^ 64 - 1` when there is none). -/
def Account (e : Env F) (s : State F) : Prop :=
  s.num_nodes_ = ∑ c in Finset.Ico e.local_chunk_start_ e.local_chunk_end_, chunkCount s c ∧
  (∀ c, e.local_chunk_start_ ≤ c → c < e.local_chunk_end_ → ∀ ch, s.chunks_ c = some ch →
    0 < ch.n → s.start_node_ ≤ ch.offset) ∧
  (s.start_node_ = 2 ^ 64 - 1 ∨
    ∃ c, e.local_chunk_start_ ≤ c ∧ c < e.local_chunk_end_ ∧
      ∃ ch, s.chunks_ c = some ch ∧ 0 < ch.n ∧ ch.offset = s.start_node_)

/-- State `t` differs from `s` in the chunk table at most at the entry of
`c`, which exists in `t` and has the count and offset read through
`chunks_[c]` in `s`; the bookkeeping of the local vertices is the same. -/
def Marks (c : Nat) (s t : State F) : Prop :=
  (∀ x, x ≠ c → t.chunks_ x = s.chunks_ x) ∧
  (∃ ch, t.chunks_ c = some ch ∧ ch.n = (chunkAt c s).n ∧ ch.offset = (chunkAt c s).offset) ∧
  t.num_nodes_ = s.num_nodes_ ∧ t.start_node_ = s.start_node_

/-- The lazy computation of a chunk at the head of `GenerateCells` and
`GenerateVertices` (source lines 234-236 and 274-276). -/
def lazyChunk (e : Env F) (fuel chunk_id : Nat) (s : State F) : Option (State F) :=
  if (s.chunks_ chunk_id).isNone then ComputeChunk e fuel chunk_id s else some s

/-- The function `ComputeChunk` run for a list of chunk ids, starting from the state left by
the constructor. -/
def computeChunks (e : Env F) (fuel : Nat) (cs : List Nat) : Option (State F) :=
  cs.foldlM (fun s c => ComputeChunk e fuel c s) State.init

/-- State `t` is reached from `s` by steps that keep the chunk table truthful,
never remove an entry and keep the bookkeeping of the local vertices in step
with the table. -/
def Keeps (e : Env F) (ex : Nat) (s t : State F) : Prop :=
  Truthful e ex t ∧ Grows s t ∧ (e.local_chunk_end_ ≤ 8 ^ ex → Account e s → Account e t)

/-- The chunk id named by a call. -/
def Call.chunk : Call → Nat
  | Call.ComputeChunk chunk_id => chunk_id
  | Call.GenerateCells chunk_id => chunk_id
  | Call.GenerateVertices chunk_id _ _ => chunk_id

/-- The generator of rank `r` in a communicator of size `P`, with the chunk
distribution of `InitDatastructures`. -/
def rankEnv (e : Env F) (P r : Nat) : Env F :=
  InitDatastructures (atRank e r P e.local_chunk_start_ e.local_chunk_end_)

/-- The vertex range that `GenerateEdgeList` sets on rank `r` of `P`. -/
def rankRange (e : Env F) (fuel P r : Nat) : Option (Nat × Nat) :=
  (GenerateEdgeList (rankEnv e P r) fuel State.init).map (fun t => t.vertex_range_)

/-- A sampler that sends all points to the low side. -/
def lowSampler (_h m : Nat) (_p : ℚ) : Nat := m

/-- A sampler that sends half of the points (rounded up) to the low side. -/
def ceilSampler (_h m : Nat) (_p : ℚ) : Nat := (m + 1) / 2

/-! ## The validator (tools/validator.cpp) -/

/-- Source: `static_cast<SInt>` of a signed value: the value modulo `2 ^ 64`. -/
def toSInt (w : Int) : Nat := (w % 2 ^ 64).toNat

/-- Source: `static_cast<SSInt>` of an unsigned 64-bit value: the two's complement
reading. -/
def toSSInt (x : Nat) : Int :=
  if x % 2 ^ 64 < 2 ^ 63 then ((x % 2 ^ 64 : Nat) : Int) else ((x % 2 ^ 64 : Nat) : Int) - 2 ^ 64

/-- The loop of `FindPEInRange`: the index of the first range that contains
`node`. -/
def findRange (node : Nat) : List (Nat × Nat) → Option Nat
  | [] => none
  | r :: ranges =>
    if r.1 ≤ node ∧ node < r.2 then some 0 else (findRange node ranges).map (fun i => i + 1)

/-- Source: `FindPEInRange` (validator.cpp 13-23): the index of the first range
that contains `node`, and `-1` when no range does. -/
def FindPEInRange (node : Nat) (ranges : List (Nat × Nat)) : Int :=
  match findRange node ranges with
  | some i => (i : Int)
  | none => -1

/-- The loop of `ValidateVertexRanges` over `i = 1, …, size - 1` (source lines
62-70): no range starts elsewhere than where the one before it ends. -/
def consecutive : List (Nat × Nat) → Bool
  | a :: b :: ranges => b.1 == a.2 && consecutive (b :: ranges)
  | _ => true

/-- Source: `ValidateVertexRanges` (validator.cpp 38-89) as a function of the
edge list, of the list `ranges` that `AllgatherVertexRange` returns and of the
rank of the caller. The result is `none` where the source reads
`ranges.front()`, `ranges.back()` or `ranges[rank]` of a list without that
element. The diagnostics written to `std::cerr` are left out. -/
def ValidateVertexRanges (edge_list : List (Nat × Nat)) (ranges : List (Nat × Nat))
    (rank : Nat) : Option Bool :=
  if ranges.any (fun r => decide (r.1 > r.2)) then some false
  else
    match ranges.head? with
    | none => none
    | some front =>
      if front.1 ≠ 0 then some false
      else if !consecutive ranges then some false
      else
        match ranges[rank]?, ranges.getLast? with
        | some loc, some back =>
          some (edge_list.all (fun e =>
            !(decide (e.1 < loc.1) || decide (e.1 ≥ loc.2)) && !decide (e.2 ≥ back.2)))
        | _, _ => none

/-- Source: `using Edge = std::tuple<SInt, SInt, SSInt>` (from, to, weight). -/
abbrev Edge : Type := Nat × Nat × Int

/-- Source: `operator<` of `std::tuple`, the lexicographic order, which is the
order of `std::sort` and `std::binary_search` on `sorted_edges`. -/
def Edge.less (a b : Edge) : Bool :=
  decide (a.1 < b.1) || (decide (a.1 = b.1) &&
    (decide (a.2.1 < b.2.1) || (decide (a.2.1 = b.2.1) && decide (a.2.2 < b.2.2))))

/-- The order `a <= b` of two edges: not `b < a`. -/
def Edge.le (a b : Edge) : Prop := Edge.less b a = false

/-- Source lines 113-121: the edges with their weights before sorting; edge number
`e` carries `edge_weights[e]` when that exists and the weight `1` otherwise. -/
def attachWeights : List (Nat × Nat) → List Int → List Edge
  | [], _ => []
  | e :: edge_list, [] => (e.1, e.2, 1) :: attachWeights edge_list []
  | e :: edge_list, w :: edge_weights => (e.1, e.2, w) :: attachWeights edge_list edge_weights

/-- The order of edges can be decided. -/
def Edge.decLe : DecidableRel Edge.le :=
  fun a b => inferInstanceAs (Decidable (Edge.less b a = false))

/-- Source: `std::sort(sorted_edges.begin(), sorted_edges.end())`: the sorted
arrangement of the edges, which is the same for every sorting algorithm because
the order of tuples is total and equivalent tuples are equal. -/
def sortEdges (edges : List Edge) : List Edge :=
  @List.insertionSort Edge Edge.le Edge.decLe edges

/-- The loop of the duplicate check (source lines 135-142): the second edge of
the first pair of neighbours in `sorted_edges` with the same tail and head. -/
def findDuplicate : List Edge → Option Edge
  | a :: b :: sorted_edges =>
    if a.1 = b.1 ∧ a.2.1 = b.2.1 then some b else findDuplicate (b :: sorted_edges)
  | _ => none

/-- Source: `++node_offset[i]`; `none` when `i` is not an index of the vector. -/
def increment (node_offset : List Nat) (i : Nat) : Option (List Nat) :=
  if i < node_offset.length then some (node_offset.set i (node_offset.getD i 0 + 1)) else none

/-- Source: `std::partial_sum` written back in place, with the running sum as
first argument. -/
def partial_sum : Nat → List Nat → List Nat
  | _, [] => []
  | acc, x :: xs => (acc + x) :: partial_sum (acc + x) xs

/-- Source lines 150-154: the vector `node_offset` of `to - from + 1` entries,
counting the edges by tail and then summed up. -/
def nodeOffset (local_from local_to : Nat) (sorted_edges : List Edge) : Option (List Nat) :=
  (sorted_edges.foldlM (fun v e => increment v (add64 (sub64 e.1 local_from) 1))
    (List.replicate (add64 (sub64 local_to local_from) 1) 0)).map (partial_sum 0)

/-- Source: `std::lower_bound` on the positions `first, …, first + len - 1` of
`sorted_edges`, by bisection; the first argument bounds the number of
iterations. -/
def lower_bound (sorted_edges : List Edge) (x : Edge) : Nat → Nat → Nat → Nat
  | 0, first, _ => first
  | fuel + 1, first, len =>
    if len = 0 then first
    else
      let half := len / 2
      let middle := first + half
      if Edge.less (sorted_edges.getD middle (0, 0, 0)) x then
        lower_bound sorted_edges x fuel (middle + 1) (len - half - 1)
      else lower_bound sorted_edges x fuel first half

/-- Source: `std::binary_search(sorted_edges.begin() + lo, sorted_edges.begin() +
hi, x)`: `lower_bound` finds a position before `hi` whose edge is not greater
than `x`. -/
def binary_search (sorted_edges : List Edge) (lo hi : Nat) (x : Edge) : Bool :=
  let i := lower_bound sorted_edges x (hi - lo) lo (hi - lo)
  decide (i ≠ hi) && !Edge.less x (sorted_edges.getD i (0, 0, 0))

/-- The search for the reverse edge `(v, u, weight)` in the bucket of `v`
(source lines 159-161 and 218-220); `none` when `v - from` or `v - from + 1` is
not an index of `node_offset`. -/
def hasReverse (sorted_edges : List Edge) (node_offset : List Nat) (local_from : Nat)
    (u v : Nat) (weight : Int) : Option Bool :=
  match node_offset[sub64 v local_from]?, node_offset[add64 (sub64 v local_from) 1]? with
  | some lo, some hi => some (binary_search sorted_edges lo hi (v, u, weight))
  | _, _ => none

/-- What the validator writes to `std::cerr` when it returns `false`. -/
inductive Diagnostic where
  | vertex_ranges
  | vertex_weights
  | edge_weights
  | self_loops
  | duplicated_edge (tail head : Nat)
  | missing_internal (v u : Nat) (weight : Int)
  | missing_external (v u : Nat) (weight : Int)
  deriving DecidableEq, Repr

/-- The loop over the local edges that looks for the reverse edge of every edge
whose head is local (source lines 157-167), on the edges that are still to be
visited. -/
def checkInternal (sorted_edges : List Edge) (node_offset : List Nat)
    (local_from local_to : Nat) : List Edge → Option (Option Diagnostic)
  | [] => some none
  | e :: rest =>
    if local_from ≤ e.2.1 ∧ e.2.1 < local_to then
      match hasReverse sorted_edges node_offset local_from e.1 e.2.1 e.2.2 with
      | none => none
      | some false => some (some (Diagnostic.missing_internal e.2.1 e.1 e.2.2))
      | some true => checkInternal sorted_edges node_offset local_from local_to rest
    else checkInternal sorted_edges node_offset local_from local_to rest

/-- One iteration of the loop that fills `message_buffers` (source lines
174-181); `none` when `pe` is not an index of `message_buffers`. -/
def pushMessage (ranges : List (Nat × Nat)) (local_from local_to : Nat)
    (message_buffers : List (List Nat)) (e : Edge) : Option (List (List Nat)) :=
  if e.2.1 < local_from ∨ e.2.1 ≥ local_to then
    let pe := toSInt (FindPEInRange e.2.1 ranges)
    if pe < message_buffers.length then
      some (message_buffers.set pe (message_buffers.getD pe [] ++ [e.1, e.2.1, toSInt e.2.2]))
    else none
  else some message_buffers

/-- Source lines 173-181: the message buffers, one for every rank. -/
def messageBuffers (ranges : List (Nat × Nat)) (local_from local_to : Nat)
    (sorted_edges : List Edge) : Option (List (List Nat)) :=
  sorted_edges.foldlM (pushMessage ranges local_from local_to) (List.replicate ranges.length [])

/-- The loop over the received triples (source lines 212-225); `none` when the
length of `recv_buf` is not a multiple of three. -/
def checkReceived (sorted_edges : List Edge) (node_offset : List Nat) (local_from : Nat) :
    List Nat → Option (Option Diagnostic)
  | u :: v :: w :: recv_buf =>
    match hasReverse sorted_edges node_offset local_from u v (toSSInt w) with
    | none => none
    | some false => some (some (Diagnostic.missing_external v u (toSSInt w)))
    | some true => checkReceived sorted_edges node_offset local_from recv_buf
  | [] => some none
  | _ => none

/-- The part of `ValidateSimpleGraph` before the exchange (source lines 94-167):
the diagnostic of the first check that fails, or `sorted_edges` and
`node_offset` when all the checks pass. -/
def localChecks (edge_list : List (Nat × Nat)) (vertex_range : Nat × Nat)
    (vertex_weights edge_weights : List Int) (ranges : List (Nat × Nat)) (rank : Nat) :
    Option (Except Diagnostic (List Edge × List Nat)) :=
  match ValidateVertexRanges edge_list ranges rank with
  | none => none
  | some false => some (Except.error Diagnostic.vertex_ranges)
  | some true =>
    if !vertex_weights.isEmpty ∧ vertex_weights.length ≠ sub64 vertex_range.2 vertex_range.1 then
      some (Except.error Diagnostic.vertex_weights)
    else if !edge_weights.isEmpty ∧ edge_list.length ≠ edge_weights.length then
      some (Except.error Diagnostic.edge_weights)
    else
      let sorted_edges := sortEdges (attachWeights edge_list edge_weights)
      if sorted_edges.any (fun e => decide (e.1 = e.2.1)) then
        some (Except.error Diagnostic.self_loops)
      else
        match findDuplicate sorted_edges with
        | some e => some (Except.error (Diagnostic.duplicated_edge e.1 e.2.1))
        | none =>
          match ranges[rank]? with
          | none => none
          | some r =>
            match nodeOffset r.1 r.2 sorted_edges with
            | none => none
            | some node_offset =>
              match checkInternal sorted_edges node_offset r.1 r.2 sorted_edges with
              | none => none
              | some (some d) => some (Except.error d)
              | some none => some (Except.ok (sorted_edges, node_offset))

/-- Source: `ValidateSimpleGraph` (validator.cpp 91-228) with what it writes to
`std::cerr`: `some none` when it returns `true`, `some (some d)` when it
returns `false` after the diagnostic `d`, and `none` when it indexes a vector
out of bounds. The communicator enters through `ranges` (the result of
`AllgatherVertexRange`), `rank`, and `Alltoallv`, which maps the message buffers
of this rank to the `recv_buf` that `MPI_Alltoallv` delivers to it. -/
def ValidateSimpleGraphReport (edge_list : List (Nat × Nat)) (vertex_range : Nat × Nat)
    (vertex_weights edge_weights : List Int) (ranges : List (Nat × Nat)) (rank : Nat)
    (Alltoallv : List (List Nat) → List Nat) : Option (Option Diagnostic) :=
  match localChecks edge_list vertex_range vertex_weights edge_weights ranges rank with
  | none => none
  | some (Except.error d) => some (some d)
  | some (Except.ok (sorted_edges, node_offset)) =>
    match ranges[rank]? with
    | none => none
    | some r =>
      match messageBuffers ranges r.1 r.2 sorted_edges with
      | none => none
      | some message_buffers =>
        checkReceived sorted_edges node_offset r.1 (Alltoallv message_buffers)

/-- Source: `ValidateSimpleGraph` (validator.cpp 91-228): the value returned. -/
def ValidateSimpleGraph (edge_list : List (Nat × Nat)) (vertex_range : Nat × Nat)
    (vertex_weights edge_weights : List Int) (ranges : List (Nat × Nat)) (rank : Nat)
    (Alltoallv : List (List Nat) → List Nat) : Option Bool :=
  (ValidateSimpleGraphReport edge_list vertex_range vertex_weights edge_weights ranges rank
    Alltoallv).map Option.isNone

/-- The arguments with which one rank calls `ValidateSimpleGraph`. -/
structure RankInput where
  edge_list : List (Nat × Nat)
  vertex_range : Nat × Nat
  vertex_weights : List Int
  edge_weights : List Int

/-- Source: `AllgatherVertexRange` (validator.cpp 25-35): the vertex ranges of
all ranks, in rank order. -/
def AllgatherVertexRange (job : List RankInput) : List (Nat × Nat) :=
  job.map (fun r => r.vertex_range)

/-- The message buffers that rank `p` of a job hands to `MPI_Alltoallv`; a rank
that does not reach the exchange sends nothing. -/
def sentBy (job : List RankInput) (p : Nat) : List (List Nat) :=
  match job[p]? with
  | none => []
  | some r =>
    match localChecks r.edge_list r.vertex_range r.vertex_weights r.edge_weights
        (AllgatherVertexRange job) p with
    | some (Except.ok (sorted_edges, _)) =>
      (messageBuffers (AllgatherVertexRange job) r.vertex_range.1 r.vertex_range.2
        sorted_edges).getD []
    | _ => []

/-- The exchange `MPI_Alltoallv` seen from rank `q` of a job: `recv_buf` is the
concatenation, in rank order, of the buffers that the ranks address to `q`,
the own buffer being the one that `q` passes in. -/
def Alltoallv (job : List RankInput) (q : Nat) (message_buffers : List (List Nat)) : List Nat :=
  ((List.range job.length).map
    (fun p => (if p = q then message_buffers else sentBy job p).getD q [])).flatten

/-- All the checks of `ValidateSimpleGraph` before the exchange pass. -/
def passesLocalChecks (edge_list : List (Nat × Nat)) (vertex_range : Nat × Nat)
    (vertex_weights edge_weights : List Int) (ranges : List (Nat × Nat)) (rank : Nat) : Bool :=
  match localChecks edge_list vertex_range vertex_weights edge_weights ranges rank with
  | some (Except.ok _) => true
  | _ => false

/-- A job of two ranks with the vertex ranges `[0, 2)` and `[2, 3)`, whose
weighted edges `0 - 2` and `1 - 2` cross the ranks. -/
def sampleJob : List RankInput :=
  [RankInput.mk [(0, 2), (1, 2)] (0, 2) [] [5, 6], RankInput.mk [(2, 0), (2, 1)] (2, 3) [] [5, 6]]

/-- The conditions of the vertex range check in the words of the specification:
every range has `first <= first_invalid`, the first range starts at `0`, every
range starts where the previous one ends, every edge tail lies in the local
range, and every edge head is smaller than the end of the last range. -/
def VertexRangesValid (edge_list : List (Nat × Nat)) (ranges : List (Nat × Nat))
    (rank : Nat) : Prop :=
  (∀ r, r ∈ ranges → r.1 ≤ r.2) ∧
  (∀ front, ranges.head? = some front → front.1 = 0) ∧
  (∀ i a b, ranges[i]? = some a → ranges[i + 1]? = some b → b.1 = a.2) ∧
  (∀ loc, ranges[rank]? = some loc → ∀ e, e ∈ edge_list → loc.1 ≤ e.1 ∧ e.1 < loc.2) ∧
  (∀ back, ranges.getLast? = some back → ∀ e, e ∈ edge_list → e.2 < back.2)

/-- The vector `node_offset` holds, at every index `k`, the number of sorted
edges whose tail is below `from + k`. -/
def OffsetsOk (local_from local_to : Nat) (sorted_edges : List Edge) (node_offset : List Nat) :
    Prop :=
  node_offset.length = local_to - local_from + 1 ∧
  ∀ k, k ≤ local_to - local_from →
    node_offset[k]? = some (sorted_edges.countP (fun e => decide (e.1 < local_from + k)))

/-- The conditions that `ValidateSimpleGraph` checks before the exchange, in the
words of the specification: the vertex ranges and the edge list pass the range
check, the weight vectors are empty or have one entry for every local vertex
and for every edge, no edge is a self-loop, no two entries of the edge list
have the same tail and head, and every edge with a local head has its reverse
edge with the same weight in the list. -/
def LocalChecksPass (edge_list : List (Nat × Nat)) (vertex_range : Nat × Nat)
    (vertex_weights edge_weights : List Int) (ranges : List (Nat × Nat)) (rank : Nat) : Prop :=
  VertexRangesValid edge_list ranges rank ∧
  (vertex_weights = [] ∨ vertex_weights.length = sub64 vertex_range.2 vertex_range.1) ∧
  (edge_weights = [] ∨ edge_weights.length = edge_list.length) ∧
  (∀ e, e ∈ edge_list → e.1 ≠ e.2) ∧
  edge_list.Nodup ∧
  (∀ r, ranges[rank]? = some r → ∀ e, e ∈ attachWeights edge_list edge_weights →
    r.1 ≤ e.2.1 → e.2.1 < r.2 → (e.2.1, e.1, e.2.2) ∈ attachWeights edge_list edge_weights)

/-- The weight of edge number `i` in the words of the specification: `1` when
there are no edge weights, and entry `i` of the edge weights otherwise. -/
def weightOf (edge_weights : List Int) (i : Nat) : Int :=
  if edge_weights.isEmpty then 1 else edge_weights.getD i 0

/-- The edge `(u, v)` with weight `w` is an entry of the edge list of a rank, in
the words of the specification. -/
def RankInput.hasEdge (r : RankInput) (u v : Nat) (w : Int) : Prop :=
  ∃ i, r.edge_list[i]? = some (u, v) ∧ weightOf r.edge_weights i = w

/-- The sorted edges of rank `p` that the loop filling the message buffers
addresses to rank `q`. -/
def addressedTo (job : List RankInput) (q p : Nat) : List Edge :=
  match job[p]? with
  | none => []
  | some r =>
    (sortEdges (attachWeights r.edge_list r.edge_weights)).filter
      (fun e => (decide (e.2.1 < r.vertex_range.1) || decide (e.2.1 ≥ r.vertex_range.2)) &&
        decide (findRange e.2.1 (AllgatherVertexRange job) = some q))

/-! ## The image mesh (generators/image/image_mesh.cpp) -/

/-- Source: the `SInt` fields of `ImageMeshConfig` that `NormalizeParameters`
reads and writes (context.h). -/
structure ImageMeshConfig where
  max_grid_x : Nat
  max_grid_y : Nat
  grid_x : Nat
  grid_y : Nat
  cols_per_pe : Nat
  rows_per_pe : Nat
  deriving DecidableEq, Repr

/-- The three `ConfigurationError`s that `NormalizeParameters` throws: the PE
rectangles do not cover the whole grid, the number of used columns is not
dividable by `cols_per_pe`, the number of used rows is not dividable by
`rows_per_pe`. -/
inductive ConfigurationError where
  | not_covered
  | columns
  | rows
  deriving DecidableEq, Repr

/-- The two ways in which `NormalizeParameters` ends: it returns a config or it
throws. -/
inductive Normalized where
  | returned (config : ImageMeshConfig)
  | thrown (error : ConfigurationError)
  deriving DecidableEq, Repr

/-- Source: `a / b` on `SInt`; `none` for the zero divisor. -/
def div64 (a b : Nat) : Option Nat := if b = 0 then none else some (a / b)

/-- Source: `a % b` on `SInt`; `none` for the zero divisor. -/
def mod64 (a b : Nat) : Option Nat := if b = 0 then none else some (a % b)

/-- The largest `r <= k` with `r * r <= n`. -/
def isqrtBelow (n : Nat) : Nat → Nat
  | 0 => 0
  | k + 1 => if (k + 1) * (k + 1) ≤ n then k + 1 else isqrtBelow n k

/-- Source: `std::sqrt(size)` converted to `SInt`, the integer square root of
`size`. The quotient `size / std::sqrt(size)`, converted to `SInt`, is the same
number: it is the square root itself, and the rounding of the floating-point
operations does not reach the next integer for a positive `int`. -/
def isqrt (size : Nat) : Nat := isqrtBelow size size

/-- Source lines 16-33 of `NormalizeParameters`: the defaults of the grid. -/
def useWholeGrid (config : ImageMeshConfig) (size : Nat) : ImageMeshConfig :=
  let c1 :=
    if config.grid_x = 0 ∧ config.max_grid_x = 0 then { config with max_grid_x := isqrt size }
    else config
  let c2 :=
    if c1.grid_y = 0 ∧ c1.max_grid_y = 0 then { c1 with max_grid_y := isqrt size } else c1
  let c3 :=
    if c2.grid_x = 0 then { c2 with grid_x := c2.max_grid_x }
    else if c2.max_grid_x = 0 then { c2 with max_grid_x := c2.grid_x }
    else c2
  if c3.grid_y = 0 then { c3 with grid_y := c3.max_grid_y }
  else if c3.max_grid_y = 0 then { c3 with max_grid_y := c3.grid_y }
  else c3

/-- Source lines 39-46 of `NormalizeParameters`: the number of columns and rows
of the rectangle of one PE; `none` when a division has the divisor zero. -/
def deriveRectangles (c : ImageMeshConfig) (size : Nat) : Option ImageMeshConfig :=
  if c.cols_per_pe = 0 ∧ c.rows_per_pe = 0 then
    match div64 c.grid_y size, div64 size c.grid_y with
    | some a, some b =>
      match div64 c.grid_x (max 1 b) with
      | some cols => some { c with rows_per_pe := max 1 a, cols_per_pe := cols }
      | none => none
    | _, _ => none
  else if c.cols_per_pe = 0 then
    (div64 (mul64 c.grid_x c.grid_y) (mul64 size c.rows_per_pe)).map
      (fun cols => { c with cols_per_pe := cols })
  else if c.rows_per_pe = 0 then
    (div64 (mul64 c.grid_x c.grid_y) (mul64 size c.cols_per_pe)).map
      (fun rows => { c with rows_per_pe := rows })
  else some c

/-- Source lines 58-71 of `NormalizeParameters`: the three checks, in 64-bit
arithmetic; `none` when a remainder has the divisor zero. -/
def checkTiling (c : ImageMeshConfig) (size : Nat) : Option Normalized :=
  if mul64 (mul64 size c.cols_per_pe) c.rows_per_pe ≠ mul64 c.grid_x c.grid_y then
    some (Normalized.thrown ConfigurationError.not_covered)
  else
    match mod64 c.grid_x c.cols_per_pe with
    | none => none
    | some x =>
      if x ≠ 0 then some (Normalized.thrown ConfigurationError.columns)
      else
        match mod64 c.grid_y c.rows_per_pe with
        | none => none
        | some y =>
          if y ≠ 0 then some (Normalized.thrown ConfigurationError.rows)
          else some (Normalized.returned c)

/-- The values that `NormalizeParameters` derives from its input (source lines
16-46). -/
def derivedConfig (config : ImageMeshConfig) (size : Nat) : Option ImageMeshConfig :=
  deriveRectangles (useWholeGrid config size) size

/-- Source: `ImageMeshFactory::NormalizeParameters(config, size, output)`
(image_mesh.cpp 13-72) on the image mesh part of the config; what it prints
when `output` is set is left out. The result is `none` when a division or a
remainder has the divisor zero. -/
def ImageMeshFactory.NormalizeParameters (config : ImageMeshConfig) (size : Nat) :
    Option Normalized :=
  match derivedConfig config size with
  | none => none
  | some c => checkTiling c size

/-- The tiling conditions in the words of the specification. -/
def Tiles (c : ImageMeshConfig) (size : Nat) : Prop :=
  size * c.cols_per_pe * c.rows_per_pe = c.grid_x * c.grid_y ∧
  c.grid_x % c.cols_per_pe = 0 ∧ c.grid_y % c.rows_per_pe = 0

/-- The communicator size and the fields of the config are small enough for
every product that `NormalizeParameters` computes to be a 64-bit value. -/
abbrev Fits (config : ImageMeshConfig) (size : Nat) : Prop :=
  size < 2 ^ 21 ∧ config.max_grid_x < 2 ^ 21 ∧ config.max_grid_y < 2 ^ 21 ∧
  config.grid_x < 2 ^ 21 ∧ config.grid_y < 2 ^ 21 ∧ config.cols_per_pe < 2 ^ 21 ∧
  config.rows_per_pe < 2 ^ 21

/-! ## The binary edge list (io/edgelist.cpp) -/

/-- The `k` bytes that `fwrite` writes for an unsigned integer of `k` bytes on a
little-endian machine, the least significant byte first; the conversion to a
narrower unsigned type drops the upper bytes. Bytes are numbers below 256. -/
def bytesOf : Nat → Nat → List Nat
  | 0, _ => []
  | k + 1, x => x % 256 :: bytesOf k (x / 256)

/-- Source: `BinaryEdgeListWriter::AppendHeaderTo(filename, n, m)`: the contents of
the file after the call, `file` being its contents before. -/
def BinaryEdgeListWriter.AppendHeaderTo (file : List Nat) (n m : Nat) : List Nat :=
  file ++ bytesOf 8 n ++ bytesOf 8 m

/-- Source: `BinaryEdgeListWriter::AppendTo(filename)` of a writer with the
members `width_` and `edges_`: the contents of the file after the call. -/
def BinaryEdgeListWriter.AppendTo (width_ : Nat) (edges_ : List (Nat × Nat)) (file : List Nat) :
    List Nat :=
  edges_.foldl
    (fun f e =>
      if width_ = 64 then f ++ (bytesOf 8 e.1 ++ bytesOf 8 e.2)
      else f ++ (bytesOf 4 e.1 ++ bytesOf 4 e.2))
    file

/-- The number that a list of bytes stands for, the least significant byte
first. -/
def valueOf : List Nat → Nat
  | [] => 0
  | b :: bytes => b + 256 * valueOf bytes

/-- The `m` pairs of ids of `k` bytes each that fill a list of bytes, in the
words of the specification: no padding, nothing after the last pair. -/
def readPairs (k : Nat) : Nat → List Nat → Option (List (Nat × Nat))
  | 0, bytes => if bytes.isEmpty then some [] else none
  | m + 1, bytes =>
    if bytes.length < 2 * k then none
    else
      (readPairs k m (bytes.drop (2 * k))).map
        (fun rest => (valueOf (bytes.take k), valueOf ((bytes.drop k).take k)) :: rest)

/-- The binary edge list format in the words of the specification: two 64-bit
header fields `n` and `m`, then `m` pairs of ids of `width / 8` bytes each,
little-endian, no padding. -/
def readBinaryEdgeList (width : Nat) (bytes : List Nat) :
    Option (Nat × Nat × List (Nat × Nat)) :=
  if bytes.length < 16 then none
  else
    (readPairs (width / 8) (valueOf ((bytes.drop 8).take 8)) (bytes.drop 16)).map
      (fun edges => (valueOf (bytes.take 8), valueOf ((bytes.drop 8).take 8), edges))

/-! ## Reading a KARGB image (generators/image/image_mesh.cpp) -/

/-- Source: `struct RGB`. -/
structure RGB where
  r : Nat
  g : Nat
  b : Nat
  deriving DecidableEq, Repr

/-- Source: `constexpr std::size_t kKargbHeaderLength = 5`. -/
def kKargbHeaderLength : Nat := 5

/-- Source: `ReadDimensions(filename)` on the contents of the file: the two
64-bit numbers after the identifier; `none` when the identifier is not `KARGB`
(the source exits) or the file is shorter than its header. -/
def ReadDimensions (file : List Nat) : Option (Nat × Nat) :=
  if file.length < kKargbHeaderLength + 16 then none
  else if file.take kKargbHeaderLength ≠ [75, 65, 82, 71, 66] then none
  else
    some (valueOf ((file.drop kKargbHeaderLength).take 8),
      valueOf ((file.drop (kKargbHeaderLength + 8)).take 8))

/-- The inner loop of `ReadRect` (source lines 126-132): `num_cols` pixels of
three bytes each, read from the stream position `pos` on; `none` when a read
goes past the end of the file. -/
def readPixels (file : List Nat) : Nat → Nat → Option (List RGB)
  | 0, _ => some []
  | num_cols + 1, pos =>
    match file[pos]?, file[pos + 1]?, file[pos + 2]? with
    | some r, some g, some b =>
      (readPixels file num_cols (pos + 3)).map (fun rest => RGB.mk r g b :: rest)
    | _, _, _ => none

/-- Source: `ReadRect(filename, row, col, num_rows, num_cols)` on the contents of
the file (image_mesh.cpp 108-136). `seekg` takes a position counted from the
start of the file. -/
def ReadRect (file : List Nat) (row col num_rows num_cols : Nat) : Option (List RGB) :=
  if file.length < kKargbHeaderLength + 16 then none
  else
    let num_cols_in_file := valueOf ((file.drop (kKargbHeaderLength + 8)).take 8)
    (List.range' row num_rows).foldlM
      (fun pixels cur_row =>
        let row_start_pos := mul64 cur_row num_cols_in_file
        let col_start_pos := add64 row_start_pos col
        (readPixels file num_cols (mul64 (mul64 col_start_pos 3) 1)).map
          (fun read => pixels ++ read))
      []

/-- A well-formed KARGB file in the words of the specification: the tag `KARGB`,
the number of rows and of columns as 64-bit little-endian numbers, and the
pixels in row-major order, three bytes each. -/
def kargbFile (rows cols : Nat) (pixels : List RGB) : List Nat :=
  [75, 65, 82, 71, 66] ++ bytesOf 8 rows ++ bytesOf 8 cols ++
    pixels.flatMap (fun p => [p.r, p.g, p.b])

/-- A KARGB image of two rows and two columns. -/
def sampleImage : List RGB :=
  [RGB.mk 1 2 3, RGB.mk 4 5 6, RGB.mk 7 8 9, RGB.mk 10 11 12]

/-- The three bytes of the file from position `pos` on, as a pixel. -/
def pixelAt (file : List Nat) (pos : Nat) : RGB :=
  RGB.mk (file.getD pos 0) (file.getD (pos + 1) 0) (file.getD (pos + 2) 0)

/-! ## The Graph500 generator (generators/graph500_generator.h) -/

/-- Source: `PGeneratorConfig` (context.h): the two flags that
`Graph500Generator::PushLocalEdge` reads. -/
structure PGeneratorConfig where
  self_loops : Bool
  directed : Bool
  deriving DecidableEq, Repr

/-- Source: `Graph500Generator::PushLocalEdge(from, to)`: the buffer
`local_edges_` after the call. -/
def Graph500Generator.PushLocalEdge (config_ : PGeneratorConfig)
    (local_edges_ : List (Int × Int)) (from_v to_v : Int) : List (Int × Int) :=
  let local_edges_1 :=
    if config_.self_loops ∨ from_v ≠ to_v then local_edges_ ++ [(from_v, to_v)]
    else local_edges_
  if ¬ config_.directed ∧ from_v ≠ to_v then local_edges_1 ++ [(to_v, from_v)]
  else local_edges_1

/-- The buffer `local_edges_` after a sequence of calls `PushLocalEdge(from, to)`
on the given buffer. -/
def Graph500Generator.pushAll (config_ : PGeneratorConfig) (local_edges_ : List (Int × Int))
    (calls : List (Int × Int)) : List (Int × Int) :=
  calls.foldl (fun l c => Graph500Generator.PushLocalEdge config_ l c.1 c.2) local_edges_

/-- The number of stored copies of the edge `(u, v)`. -/
def copies (local_edges_ : List (Int × Int)) (u v : Int) : Nat :=
  local_edges_.countP (fun e => decide (e = (u, v)))

/-! ## Cell ids and seeds of Geometric3D -/

/-- The key that `InitDatastructures` reserves as the empty key of `cells_` and
`vertices_` (source lines 96-97): `total_chunks_ * cells_per_chunk_`. -/
def cellsEmptyKey (e : Env F) : Nat := mul64 e.total_chunks_ e.cells_per_chunk_

/-- The seed of the vertices of a cell (source lines 300 and 342):
`config_.seed + chunk_id * cells_per_chunk_ + cell_id`. -/
def vertexSeed (e : Env F) (chunk_id cell_id : Nat) : Nat :=
  add64 (add64 e.seed (mul64 chunk_id e.cells_per_chunk_)) cell_id

/-- The seed of the count of a cell in `GenerateCells` (source line 251):
`config_.seed + chunk_id * cells_per_chunk_ + i + total_chunks_ * cells_per_chunk_`. -/
def cellCountSeed (e : Env F) (chunk_id i : Nat) : Nat :=
  add64 (add64 (add64 e.seed (mul64 chunk_id e.cells_per_chunk_)) i)
    (mul64 e.total_chunks_ e.cells_per_chunk_)

/-- A concrete generator with `2 ^ 3` chunks of `2 ^ 3` cells each. -/
def sampleCellEnv : Env ℚ :=
  Env.mk 1 10 true 0 1 (1 / 2) 8 2 0 8 (1 / 4) 8 2 (fun x => x) halfSampler
    (fun _ _ => 0) (fun _ _ _ => [])

/-! ## The buffer overload of GenerateVertices -/

/-- Source: `std::vector<Vertex>`: the elements, whose number is `size()`, and
the capacity. -/
structure VertexBuffer (F : Type) where
  elements : List (Vertex F)
  capacity : Nat

/-- Source: `vertex_buffer.clear()`: the size becomes `0`, the capacity stays. -/
def VertexBuffer.clear (vertex_buffer : VertexBuffer F) : VertexBuffer F :=
  VertexBuffer.mk [] vertex_buffer.capacity

/-- Source: `vertex_buffer.reserve(n)`: the capacity becomes at least `n`, the
size and the elements stay. -/
def VertexBuffer.reserve (vertex_buffer : VertexBuffer F) (n : Nat) : VertexBuffer F :=
  VertexBuffer.mk vertex_buffer.elements (max vertex_buffer.capacity n)

/-- Source: `vertex_buffer[i] = v` with checked indexing: `none` when `i` is not
below `size()`. -/
def VertexBuffer.assign (vertex_buffer : VertexBuffer F) (i : Nat) (v : Vertex F) :
    Option (VertexBuffer F) :=
  if i < vertex_buffer.elements.length then
    some (VertexBuffer.mk (vertex_buffer.elements.set i v) vertex_buffer.capacity)
  else none

/-- One iteration of the loop of `GenerateVertices(chunk_id, cell_id,
vertex_buffer)` (source lines 349-359) on the generator state and the buffer;
`none` when the write `vertex_buffer[i]` is out of bounds. -/
def bufferStep (e : Env F) (cell : Cell F) (acc : State F × VertexBuffer F) (i : Nat) :
    Option (State F × VertexBuffer F) :=
  let x := e.Random acc.1.mersenne_.1 acc.1.mersenne_.2 * e.cell_size_ + cell.x_off
  let y := e.Random acc.1.mersenne_.1 (acc.1.mersenne_.2 + 1) * e.cell_size_ + cell.y_off
  let z := e.Random acc.1.mersenne_.1 (acc.1.mersenne_.2 + 2) * e.cell_size_ + cell.z_off
  match acc.2.assign i (Vertex.mk x y z (add64 cell.offset i)) with
  | none => none
  | some vertex_buffer =>
    some ({ acc.1 with mersenne_ := (acc.1.mersenne_.1, acc.1.mersenne_.2 + 3) }, vertex_buffer)

/-- Source: `Geometric3D::GenerateVertices(chunk_id, cell_id, vertex_buffer)`, the
overload that fills a buffer of the caller (source lines 320-361). The result
is `none` when the fuel of `ComputeChunk` is used up, `some none` when a write
`vertex_buffer[i]` is out of bounds, and otherwise the generator state and the
buffer on return. -/
def GenerateVerticesBuffer (e : Env F) (fuel chunk_id cell_id : Nat)
    (vertex_buffer : VertexBuffer F) (s : State F) :
    Option (Option (State F × VertexBuffer F)) :=
  match (if (s.chunks_ chunk_id).isNone then ComputeChunk e fuel chunk_id s else some s) with
  | none => none
  | some s1 =>
    let chunk := chunkAt chunk_id s1
    let s2 := touchChunk chunk_id s1
    match (if chunk.generated then some s2 else GenerateCells e fuel chunk_id s2) with
    | none => none
    | some s3 =>
      let global_cell_id := ComputeGlobalCellId e chunk_id cell_id
      match s3.cells_ global_cell_id with
      | none => some (some (s3, vertex_buffer))
      | some cell =>
        if cell.generated then some (some (s3, vertex_buffer))
        else
          let seed := add64 (add64 e.seed (mul64 chunk_id e.cells_per_chunk_)) cell_id
          let h := e.hash seed
          let s4 : State F := { s3 with mersenne_ := (h, 0) }
          some ((List.range cell.n).foldlM (bufferStep e cell)
            (s4, (vertex_buffer.clear).reserve cell.n))

/-! ## The recursion nodes of ComputeChunk -/

/-- The recursion nodes of `ComputeChunk(chunk_id)` below the node `a`: the
arguments of the calls of the recursive function in the order of the calls, as
far as the fuel reaches. The chunk table is left out: it does not change
before the base case. -/
def recursionNodes (e : Env F) : Nat → Nat → Args → List Args
  | 0, _, _ => []
  | fuel + 1, chunk_id, a =>
    a :: (if a.n = 0 ∨ e.n < a.n then []
      else if a.row_k = 1 ∧ a.column_k = 1 ∧ a.depth_k = 1 then []
      else
        recursionNodes e fuel chunk_id
          (octant e a
            (decide ((Decode chunk_id).2.1 < add64 (add64 a.row_k 1 / 2) a.chunk_start_row))
            (decide ((Decode chunk_id).1 < add64 (add64 a.column_k 1 / 2) a.chunk_start_column))
            (decide ((Decode chunk_id).2.2 < add64 (add64 a.depth_k 1 / 2) a.chunk_start_depth))))

/-- The argument of `Spooky::hash` at a recursion node (source lines 125 and
147): `config_.seed + chunk_start + level * total_chunks_` with
`chunk_start = Encode(chunk_start_column, chunk_start_row, chunk_start_depth)`. -/
def hashKey (e : Env F) (a : Args) : Nat :=
  add64 (add64 e.seed (Encode a.chunk_start_column a.chunk_start_row a.chunk_start_depth))
    (mul64 a.level e.total_chunks_)

/-- The chunk with the decoded coordinates of `chunk_id` lies in the region of
the recursion node `a`, a region of the grid of `K` chunks per dimension with
at least one chunk along every axis. -/
def Inside (K chunk_id : Nat) (a : Args) : Prop :=
  (1 ≤ a.row_k ∧ a.chunk_start_row ≤ (Decode chunk_id).2.1 ∧
    (Decode chunk_id).2.1 < a.chunk_start_row + a.row_k ∧ a.chunk_start_row + a.row_k ≤ K) ∧
  (1 ≤ a.column_k ∧ a.chunk_start_column ≤ (Decode chunk_id).1 ∧
    (Decode chunk_id).1 < a.chunk_start_column + a.column_k ∧
    a.chunk_start_column + a.column_k ≤ K) ∧
  (1 ≤ a.depth_k ∧ a.chunk_start_depth ≤ (Decode chunk_id).2.2 ∧
    (Decode chunk_id).2.2 < a.chunk_start_depth + a.depth_k ∧
    a.chunk_start_depth + a.depth_k ≤ K)

/-- The recursion node `a` of a grid with `2 ^ ex` chunks per dimension is a cube
of side `2 ^ j` inside the grid, at the level `ex - j + 1`. -/
def CubeNode (ex j : Nat) (a : Args) : Prop :=
  j ≤ ex ∧ a.row_k = 2 ^ j ∧ a.column_k = 2 ^ j ∧ a.depth_k = 2 ^ j ∧ a.level + j = ex + 1 ∧
  a.chunk_start_row + 2 ^ j ≤ 2 ^ ex ∧ a.chunk_start_column + 2 ^ j ≤ 2 ^ ex ∧
  a.chunk_start_depth + 2 ^ j ≤ 2 ^ ex

/-- A concrete generator with `2 ^ 19` chunks per dimension and `5 ^ 3` cells per
chunk: the number of cells, `125 * 2 ^ 57`, is a 64-bit value above `2 ^ 63`. -/
def sampleWideEnv : Env ℚ :=
  Env.mk 1 10 true 0 1 (1 / 2 ^ 19) (2 ^ 57) (2 ^ 19) 0 0 (1 / (5 * 2 ^ 19)) 125 5 (fun x => x)
    halfSampler (fun _ _ => 0) (fun _ _ _ => [])

/-- A concrete generator with `2 ^ 20` chunks per dimension and `4 ^ 3` cells per
chunk: the number of chunks, `2 ^ 60`, is a 64-bit value, the number of cells,
`2 ^ 66`, is not. -/
def sampleHugeEnv : Env ℚ :=
  Env.mk 1 10 true 0 1 (1 / 2 ^ 20) (2 ^ 60) (2 ^ 20) 0 0 (1 / (4 * 2 ^ 20)) 64 4 (fun x => x)
    halfSampler (fun _ _ => 0) (fun _ _ _ => [])

/-! ## Properties -/

/-! ### 64-bit arithmetic -/

theorem add64_eq {a b : Nat} (h : a + b < 2 ^ 64) : add64 a b = a + b := by
  unfold add64
  exact Nat.mod_eq_of_lt h

theorem sub64_eq {a b : Nat} (h : b ≤ a) (ha : a < 2 ^ 64) : sub64 a b = a - b := by
  unfold sub64
  have hb : b % 2 ^ 64 = b := Nat.mod_eq_of_lt (by omega)
  rw [hb]
  omega

theorem mul64_eq {a b : Nat} (h : a * b < 2 ^ 64) : mul64 a b = a * b := by
  unfold mul64
  exact Nat.mod_eq_of_lt h

/-! ### The octants of one recursion node -/

/-- The eight recursive calls of one node in plain arithmetic: there are draws
`v`, `h1`, `h2`, `z1`, …, `z4` such that the counts and offsets handed to the
octants are the expected differences and sums. -/
theorem octant_explicit (e : Env F) (a : Args)
    (hb : ∀ h m p, e.GenerateBinomial h m p ≤ m) (hn : a.offset + a.n < 2 ^ 64) :
    ∃ v h1 h2 z1 z2 z3 z4 : Nat,
      v ≤ a.n ∧ h1 ≤ v ∧ h2 ≤ a.n - v ∧ z1 ≤ h1 ∧ z2 ≤ v - h1 ∧ z3 ≤ h2 ∧ z4 ≤ a.n - v - h2 ∧
      (octantAt e a 0).n = z1 ∧ (octantAt e a 0).offset = a.offset ∧
      (octantAt e a 1).n = h1 - z1 ∧ (octantAt e a 1).offset = a.offset + z1 ∧
      (octantAt e a 2).n = z2 ∧ (octantAt e a 2).offset = a.offset + h1 ∧
      (octantAt e a 3).n = v - h1 - z2 ∧ (octantAt e a 3).offset = a.offset + h1 + z2 ∧
      (octantAt e a 4).n = z3 ∧ (octantAt e a 4).offset = a.offset + v ∧
      (octantAt e a 5).n = h2 - z3 ∧ (octantAt e a 5).offset = a.offset + v + z3 ∧
      (octantAt e a 6).n = z4 ∧ (octantAt e a 6).offset = a.offset + v + h2 ∧
      (octantAt e a 7).n = a.n - v - h2 - z4 ∧
      (octantAt e a 7).offset = a.offset + v + h2 + z4 := by
  obtain ⟨n, rk, ck, dk, sr, sc, sd, lv, off⟩ := a
  simp only at hn
  generalize hkey : e.hash (add64 (add64 e.seed (Encode sc sr sd)) (mul64 lv e.total_chunks_)) = key
  generalize hp1 : ((add64 rk 1 / 2 : Nat) : F) / (rk : F) = p1
  generalize hp2 : ((add64 ck 1 / 2 : Nat) : F) / (ck : F) = p2
  generalize hp3 : ((add64 dk 1 / 2 : Nat) : F) / (dk : F) = p3
  have hv := hb key n p1
  have hh1 := hb key (e.GenerateBinomial key n p1) p2
  have hs1 : sub64 n (e.GenerateBinomial key n p1) = n - e.GenerateBinomial key n p1 :=
    sub64_eq hv (by omega)
  have hh2 := hb key (n - e.GenerateBinomial key n p1) p2
  have hz1 := hb key (e.GenerateBinomial key (e.GenerateBinomial key n p1) p2) p3
  have hs2 : sub64 (e.GenerateBinomial key n p1)
      (e.GenerateBinomial key (e.GenerateBinomial key n p1) p2) =
      e.GenerateBinomial key n p1 - e.GenerateBinomial key (e.GenerateBinomial key n p1) p2 :=
    sub64_eq hh1 (by omega)
  have hz2 := hb key (e.GenerateBinomial key n p1 -
    e.GenerateBinomial key (e.GenerateBinomial key n p1) p2) p3
  have hz3 := hb key (e.GenerateBinomial key (n - e.GenerateBinomial key n p1) p2) p3
  have hs3 : sub64 (n - e.GenerateBinomial key n p1)
      (e.GenerateBinomial key (n - e.GenerateBinomial key n p1) p2) =
      n - e.GenerateBinomial key n p1 -
        e.GenerateBinomial key (n - e.GenerateBinomial key n p1) p2 :=
    sub64_eq hh2 (by omega)
  have hz4 := hb key (n - e.GenerateBinomial key n p1 -
    e.GenerateBinomial key (n - e.GenerateBinomial key n p1) p2) p3
  refine ⟨e.GenerateBinomial key n p1,
    e.GenerateBinomial key (e.GenerateBinomial key n p1) p2,
    e.GenerateBinomial key (n - e.GenerateBinomial key n p1) p2,
    e.GenerateBinomial key (e.GenerateBinomial key (e.GenerateBinomial key n p1) p2) p3,
    e.GenerateBinomial key (e.GenerateBinomial key n p1 -
      e.GenerateBinomial key (e.GenerateBinomial key n p1) p2) p3,
    e.GenerateBinomial key (e.GenerateBinomial key (n - e.GenerateBinomial key n p1) p2) p3,
    e.GenerateBinomial key (n - e.GenerateBinomial key n p1 -
      e.GenerateBinomial key (n - e.GenerateBinomial key n p1) p2) p3,
    hv, hh1, hh2, hz1, hz2, hz3, hz4, ?_⟩
  simp only [octantAt, octant, hkey, hp1, hp2, hp3, hs1, hs2, hs3]
  simp (disch := omega) only [add64_eq, sub64_eq, Nat.reduceDiv, Nat.reduceMod, decide_True,
    decide_False, if_true, if_false, Bool.false_eq_true, OfNat.ofNat_ne_zero, one_ne_zero,
    OfNat.zero_ne_ofNat, zero_ne_one, and_self]

/-- The counts of the eight octants are bounded by and add up to the count of
the node, and the offsets are the running sums of the counts. -/
theorem octantAt_sums (e : Env F) (a : Args)
    (hb : ∀ h m p, e.GenerateBinomial h m p ≤ m) (hn : a.offset + a.n < 2 ^ 64) :
    (∀ o, o < 8 → (octantAt e a o).n ≤ a.n) ∧
    ∑ o in Finset.range 8, (octantAt e a o).n = a.n ∧
    ∀ o, o < 8 →
      (octantAt e a o).offset = a.offset + ∑ i in Finset.range o, (octantAt e a i).n := by
  obtain ⟨v, h1, h2, z1, z2, z3, z4, b1, b2, b3, b4, b5, b6, b7, e0, f0, e1, f1, e2, f2, e3, f3,
    e4, f4, e5, f5, e6, f6, e7, f7⟩ := octant_explicit e a hb hn
  refine ⟨?_, ?_, ?_⟩
  · intro o ho
    interval_cases o <;> omega
  · simp only [Finset.sum_range_succ, Finset.sum_range_zero]
    omega
  · intro o ho
    interval_cases o <;> simp only [Finset.sum_range_succ, Finset.sum_range_zero] <;> omega

/-- C4: at a recursion node of `ComputeChunk` holding `n` points (with a
representable id interval), if every binomial draw on `(key, m, p)` returns a
value in `[0, m]`, the eight counts handed to the eight octant recursions are
all at most `n` and add up to exactly `n`, and the eight offsets are the
running sums of those counts in (row, column, depth) order, starting from the
offset of the node. -/
theorem ComputeChunk_octants_partition (e : Env F) (a : Args)
    (hb : ∀ h m p, e.GenerateBinomial h m p ≤ m) (hn : a.offset + a.n < 2 ^ 64) :
    (∀ o, o < 8 → (octantAt e a o).n ≤ a.n) ∧
    ∑ o in Finset.range 8, (octantAt e a o).n = a.n ∧
    ∀ o, o < 8 →
      (octantAt e a o).offset = a.offset + ∑ i in Finset.range o, (octantAt e a i).n :=
  octantAt_sums e a hb hn

/-- C4 at a concrete node: 100 points at offset 7 in a 4 x 4 x 4 region. -/
theorem ComputeChunk_octants_partition_witness :
    (∀ o, o < 8 →
      (octantAt (sampleEnv 4 1000 halfSampler 0 64) (Args.mk 100 4 4 4 0 0 0 1 7) o).n ≤ 100) ∧
    ∑ o in Finset.range 8,
      (octantAt (sampleEnv 4 1000 halfSampler 0 64) (Args.mk 100 4 4 4 0 0 0 1 7) o).n = 100 ∧
    ∀ o, o < 8 →
      (octantAt (sampleEnv 4 1000 halfSampler 0 64) (Args.mk 100 4 4 4 0 0 0 1 7) o).offset =
        7 + ∑ i in Finset.range o,
          (octantAt (sampleEnv 4 1000 halfSampler 0 64) (Args.mk 100 4 4 4 0 0 0 1 7) i).n :=
  ComputeChunk_octants_partition (sampleEnv 4 1000 halfSampler 0 64)
    (Args.mk 100 4 4 4 0 0 0 1 7) (fun _ m _ => Nat.div_le_self m 2) (by decide)

/-! ### The descent of ComputeChunk -/

/-- With the requested chunk absent from the table, the recursive `ComputeChunk`
is the table-free descent followed by the base-case store. -/
theorem ComputeChunkRec_eq_descend (e : Env F) (fuel chunk_id : Nat) (a : Args) (s : State F)
    (hs : s.chunks_ chunk_id = none) :
    ComputeChunkRec e fuel chunk_id a s =
      (descend e fuel chunk_id a).map (applyLeaf e chunk_id s) := by
  induction fuel generalizing a with
  | zero => rfl
  | succ fuel ih =>
    unfold ComputeChunkRec descend
    simp only [hs, Option.isSome_none, Bool.false_eq_true, if_false]
    by_cases h1 : a.n = 0 ∨ e.n < a.n
    · simp [h1, applyLeaf]
    · by_cases h2 : a.row_k = 1 ∧ a.column_k = 1 ∧ a.depth_k = 1
      · simp [h1, h2, applyLeaf]
      · simp only [h1, h2, if_false]
        exact ih _

/-- With the requested chunk present in the table, `ComputeChunk` returns at once. -/
theorem ComputeChunkRec_of_some (e : Env F) (fuel chunk_id : Nat) (a : Args) (s : State F)
    (hs : (s.chunks_ chunk_id).isSome = true) :
    ComputeChunkRec e (fuel + 1) chunk_id a s = some s := by
  unfold ComputeChunkRec
  simp [hs]

/-- The descent reads the environment only through the seed, the number of
points, the number of chunks, the hash and the sampler. -/
theorem descend_env (e e2 : Env F) (h1 : e2.seed = e.seed) (h2 : e2.n = e.n)
    (h3 : e2.total_chunks_ = e.total_chunks_) (h4 : e2.hash = e.hash)
    (h5 : e2.GenerateBinomial = e.GenerateBinomial) (fuel chunk_id : Nat) (a : Args) :
    descend e2 fuel chunk_id a = descend e fuel chunk_id a := by
  induction fuel generalizing a with
  | zero => rfl
  | succ fuel ih =>
    unfold descend
    have ho : ∀ u l f, octant e2 a u l f = octant e a u l f := by
      intro u l f
      simp only [octant, h1, h3, h4, h5]
    simp only [h2, ho, ih]

/-- The chunk table after the base case of `ComputeChunk`. -/
theorem storeChunk_chunks (e : Env F) (chunk_id : Nat) (a : Args) (s : State F) :
    (storeChunk e chunk_id a s).chunks_ =
      setKey s.chunks_ (Encode a.chunk_start_column a.chunk_start_row a.chunk_start_depth)
        (Chunk.mk a.n ((a.chunk_start_row : F) * e.chunk_size_)
          ((a.chunk_start_column : F) * e.chunk_size_)
          ((a.chunk_start_depth : F) * e.chunk_size_) false a.offset) := by
  unfold storeChunk
  split <;> rfl

/-- C3 (chunk determinism): the entry that `ComputeChunk(c)` leaves in the chunk
table for `c` is the same for every rank, every communicator size, every range
of local chunks and every prior content of the chunk table that does not
contain `c` already (a run that exhausts its fuel does so in both settings). -/
theorem ComputeChunk_deterministic (e : Env F) (rank size lo hi fuel c : Nat)
    (s1 s2 : State F) (h1 : s1.chunks_ c = none) (h2 : s2.chunks_ c = none) :
    (ComputeChunk e fuel c s1).map (fun t => t.chunks_ c) =
      (ComputeChunk (atRank e rank size lo hi) fuel c s2).map (fun t => t.chunks_ c) := by
  unfold ComputeChunk
  have hr : rootArgs (atRank e rank size lo hi) = rootArgs e := rfl
  have hd : descend (atRank e rank size lo hi) fuel c (rootArgs e) =
      descend e fuel c (rootArgs e) :=
    descend_env e (atRank e rank size lo hi) rfl rfl rfl rfl rfl fuel c _
  rw [ComputeChunkRec_eq_descend e fuel c _ s1 h1, ComputeChunkRec_eq_descend _ fuel c _ s2 h2,
    hr, hd]
  cases descend e fuel c (rootArgs e) with
  | none => rfl
  | some r =>
    cases r with
    | none => simp [applyLeaf, h1, h2]
    | some leaf =>
      simp only [Option.map_some', applyLeaf, storeChunk_chunks]
      simp [setKey, h1, h2, atRank]

/-- C3 at a concrete input: chunk 3 of a 2 x 2 x 2 grid with 10 points, computed
on a fresh table by the only rank and on a table holding chunk 0 by rank 3 of
4. -/
theorem ComputeChunk_deterministic_witness :
    (ComputeChunk (sampleEnv 2 10 halfSampler 0 8) 5 3 State.init).map (fun t => t.chunks_ 3) =
      (ComputeChunk (atRank (sampleEnv 2 10 halfSampler 0 8) 3 4 6 8) 5 3
        (touchChunk 0 State.init)).map (fun t => t.chunks_ 3) :=
  ComputeChunk_deterministic (sampleEnv 2 10 halfSampler 0 8) 3 4 6 8 5 3 State.init
    (touchChunk 0 State.init) rfl (by decide)

/-! ### GenerateCells and GenerateVertices -/

theorem touchChunk_of_some (chunk_id : Nat) (s : State F) (ch : Chunk F)
    (h : s.chunks_ chunk_id = some ch) : touchChunk chunk_id s = s := by
  obtain ⟨chunks, cells, vertices, sn, nn, mt, co, vr⟩ := s
  simp only at h
  simp only [touchChunk, chunkAt, h, Option.getD_some, State.mk.injEq, and_true]
  funext j
  by_cases hj : j = chunk_id
  · simp [setKey, hj, h]
  · simp [setKey, hj]

theorem chunkAt_of_some (chunk_id : Nat) (s : State F) (ch : Chunk F)
    (h : s.chunks_ chunk_id = some ch) : chunkAt chunk_id s = ch := by
  simp [chunkAt, h]

theorem touchChunk_chunks_self (chunk_id : Nat) (s : State F) :
    (touchChunk chunk_id s).chunks_ chunk_id = some (chunkAt chunk_id s) := by
  simp [touchChunk, setKey]

/-- After `GenerateCells(chunk_id)` the chunk is in the table and flagged. -/
theorem GenerateCells_flag (e : Env F) (fuel chunk_id : Nat) (s t : State F)
    (h : GenerateCells e fuel chunk_id s = some t) :
    ∃ ch, t.chunks_ chunk_id = some ch ∧ ch.generated = true := by
  unfold GenerateCells at h
  split at h
  · simp at h
  · rename_i s1 _
    by_cases hg : (chunkAt chunk_id s1).generated = true
    · simp only [hg, if_true, Option.some.injEq] at h
      subst h
      exact ⟨chunkAt chunk_id s1, touchChunk_chunks_self chunk_id s1, hg⟩
    · simp only [hg, Bool.false_eq_true, if_false, Option.some.injEq] at h
      subst h
      exact ⟨Chunk.mk (chunkAt chunk_id s1).n (chunkAt chunk_id s1).x_off
        (chunkAt chunk_id s1).y_off (chunkAt chunk_id s1).z_off true
        (chunkAt chunk_id s1).offset, by simp [setKey], rfl⟩

/-- The vertex loop leaves the chunk table and the cell table alone. -/
theorem vertexLoop_tables (e : Env F) (g : Nat) (cell : Cell F) (b : Bool) (l : List Nat)
    (s : State F) :
    (l.foldl (vertexStep e g cell b) s).chunks_ = s.chunks_ ∧
    (l.foldl (vertexStep e g cell b) s).cells_ = s.cells_ := by
  induction l generalizing s with
  | nil => exact ⟨rfl, rfl⟩
  | cons i l ih =>
    simp only [List.foldl_cons]
    obtain ⟨h1, h2⟩ := ih (vertexStep e g cell b s i)
    rw [h1, h2]
    unfold vertexStep PushCoordinate
    split <;> exact ⟨rfl, rfl⟩

/-- After `GenerateVertices(chunk_id, cell_id, ·)` the chunk is flagged and the
cell, when stored, is flagged. -/
theorem GenerateVertices_post (e : Env F) (fuel chunk_id cell_id : Nat) (b : Bool)
    (s t : State F) (h : GenerateVertices e fuel chunk_id cell_id b s = some t) :
    (∃ ch, t.chunks_ chunk_id = some ch ∧ ch.generated = true) ∧
    ∀ cell, t.cells_ (ComputeGlobalCellId e chunk_id cell_id) = some cell →
      cell.generated = true := by
  unfold GenerateVertices at h
  split at h
  · simp at h
  · rename_i s1 _
    dsimp only at h
    split at h
    · simp at h
    · rename_i s3 h3
      have hflag : ∃ ch, s3.chunks_ chunk_id = some ch ∧ ch.generated = true := by
        by_cases hg : (chunkAt chunk_id s1).generated = true
        · simp only [hg, if_true, Option.some.injEq] at h3
          subst h3
          exact ⟨chunkAt chunk_id s1, touchChunk_chunks_self chunk_id s1, hg⟩
        · simp only [hg, Bool.false_eq_true, if_false] at h3
          exact GenerateCells_flag e fuel chunk_id _ _ h3
      split at h
      · rename_i hc
        simp only [Option.some.injEq] at h
        subst h
        exact ⟨hflag, fun cell hcell => by simp [hc] at hcell⟩
      · rename_i cell hc
        by_cases hg : cell.generated = true
        · simp only [hg, if_true, Option.some.injEq] at h
          subst h
          refine ⟨hflag, fun cell2 hcell => ?_⟩
          rw [hc] at hcell
          simp only [Option.some.injEq] at hcell
          subst hcell
          exact hg
        · simp only [hg, Bool.false_eq_true, if_false, Option.some.injEq] at h
          subst h
          refine ⟨?_, fun cell2 hcell => ?_⟩
          · simp only [(vertexLoop_tables e _ cell b _ _).1]
            exact hflag
          · simp only [setKey, if_true, Option.some.injEq] at hcell
            subst hcell
            rfl

/-- A state in which the chunk is flagged and the cell is absent or flagged is
left as it is by `GenerateVertices`. -/
theorem GenerateVertices_fixed (e : Env F) (fuel chunk_id cell_id : Nat) (b : Bool)
    (t : State F) (h1 : ∃ ch, t.chunks_ chunk_id = some ch ∧ ch.generated = true)
    (h2 : ∀ cell, t.cells_ (ComputeGlobalCellId e chunk_id cell_id) = some cell →
      cell.generated = true) :
    GenerateVertices e fuel chunk_id cell_id b t = some t := by
  obtain ⟨ch, hch, hg⟩ := h1
  unfold GenerateVertices
  simp only [hch, Option.isNone_some, Bool.false_eq_true, if_false,
    touchChunk_of_some chunk_id t ch hch, chunkAt_of_some chunk_id t ch hch, hg, if_true]
  cases hc : t.cells_ (ComputeGlobalCellId e chunk_id cell_id) with
  | none => rfl
  | some cell => simp [h2 cell hc]

/-- C8 (vertex materialisation is idempotent): calling
`GenerateVertices(chunk_id, cell_id, push_coordinates)` a second time leaves the
whole state (chunk table, cell table, vertex lists, pushed coordinates) as it
is after the first call: two calls in a row are the same as one call. -/
theorem GenerateVertices_idempotent (e : Env F) (fuel fuel2 chunk_id cell_id : Nat)
    (push_coordinates : Bool) (s : State F) :
    (GenerateVertices e fuel chunk_id cell_id push_coordinates s).bind
        (GenerateVertices e fuel2 chunk_id cell_id push_coordinates) =
      GenerateVertices e fuel chunk_id cell_id push_coordinates s := by
  cases h : GenerateVertices e fuel chunk_id cell_id push_coordinates s with
  | none => rfl
  | some t =>
    obtain ⟨p1, p2⟩ := GenerateVertices_post e fuel chunk_id cell_id push_coordinates s t h
    simp only [Option.some_bind]
    exact GenerateVertices_fixed e fuel2 chunk_id cell_id push_coordinates t p1 p2

/-- The ids appended by the vertex loop. -/
theorem vertexLoop_ids (e : Env F) (g : Nat) (cell : Cell F) (b : Bool) (l : List Nat)
    (s : State F) :
    ∃ vs, (l.foldl (vertexStep e g cell b) s).vertices_ g = some vs ∧
      vs.map Vertex.id = ((s.vertices_ g).getD []).map Vertex.id ++ l.map (add64 cell.offset) ∨
      l = [] := by
  induction l generalizing s with
  | nil => exact ⟨[], Or.inr rfl⟩
  | cons i l ih =>
    obtain ⟨vs, hvs⟩ := ih (vertexStep e g cell b s i)
    have hstep : (vertexStep e g cell b s i).vertices_ g =
        some ((s.vertices_ g).getD [] ++ [Vertex.mk
          (e.Random s.mersenne_.1 s.mersenne_.2 * e.cell_size_ + cell.x_off)
          (e.Random s.mersenne_.1 (s.mersenne_.2 + 1) * e.cell_size_ + cell.y_off)
          (e.Random s.mersenne_.1 (s.mersenne_.2 + 2) * e.cell_size_ + cell.z_off)
          (add64 cell.offset i)]) := by
      unfold vertexStep PushCoordinate
      split <;> simp [setKey]
    rcases hvs with hvs | hl
    · refine ⟨vs, Or.inl ⟨hvs.1, ?_⟩⟩
      rw [hvs.2, hstep]
      simp
    · subst hl
      exact ⟨_, Or.inl ⟨hstep, by simp⟩⟩

/-- Without wrap-around the ids `offset + i` are the interval starting at
`offset`. -/
theorem map_add64_range (off n : Nat) (h : off + n ≤ 2 ^ 64) :
    (List.range n).map (add64 off) = List.range' off n := by
  rw [List.range'_eq_map_range]
  apply List.map_congr_left
  intro i hi
  have hi2 := List.mem_range.1 hi
  exact add64_eq (by omega)

/-- C7: for a stored cell that is not materialised yet (its chunk has its cells
distributed, the cell is not flagged and has no vertices), with count `n` and
offset `off` (the ids `off, …, off + n - 1` being 64-bit values),
`GenerateVertices(chunk_id, cell_id, push_coordinates)` returns and leaves in
`vertices_[global cell id]` exactly `n` vertices whose ids are
`off, off + 1, …, off + n - 1` in that order, and flags the cell as generated,
whatever the coordinate generator. -/
theorem GenerateVertices_ids (e : Env F) (fuel chunk_id cell_id : Nat) (push_coordinates : Bool)
    (s : State F) (ch : Chunk F) (cell : Cell F)
    (hch : s.chunks_ chunk_id = some ch) (hg : ch.generated = true)
    (hcell : s.cells_ (ComputeGlobalCellId e chunk_id cell_id) = some cell)
    (hcg : cell.generated = false)
    (hv : (s.vertices_ (ComputeGlobalCellId e chunk_id cell_id)).getD [] = [])
    (hoff : cell.offset + cell.n ≤ 2 ^ 64) :
    ∃ t vs, GenerateVertices e fuel chunk_id cell_id push_coordinates s = some t ∧
      t.vertices_ (ComputeGlobalCellId e chunk_id cell_id) = some vs ∧
      vs.length = cell.n ∧
      vs.map Vertex.id = List.range' cell.offset cell.n ∧
      t.cells_ (ComputeGlobalCellId e chunk_id cell_id) =
        some (Chunk.mk cell.n cell.x_off cell.y_off cell.z_off true cell.offset) := by
  unfold GenerateVertices
  simp only [hch, Option.isNone_some, Bool.false_eq_true, if_false,
    touchChunk_of_some chunk_id s ch hch, chunkAt_of_some chunk_id s ch hch, hg, if_true, hcell,
    hcg]
  obtain ⟨vs, hvs⟩ := vertexLoop_ids e (ComputeGlobalCellId e chunk_id cell_id) cell
    push_coordinates (List.range cell.n)
    { s with
      mersenne_ := (e.hash (add64 (add64 e.seed (mul64 chunk_id e.cells_per_chunk_)) cell_id), 0)
      vertices_ := setKey s.vertices_ (ComputeGlobalCellId e chunk_id cell_id)
        ((s.vertices_ (ComputeGlobalCellId e chunk_id cell_id)).getD []) }
  rcases hvs with ⟨h1, h2⟩ | hl
  · refine ⟨_, vs, rfl, h1, ?_, ?_, by simp [setKey]⟩
    · have := congrArg List.length h2
      simpa [setKey, hv] using this
    · rw [h2, map_add64_range _ _ hoff]
      simp [setKey, hv]
  · have hn : cell.n = 0 := by simpa using congrArg List.length hl
    refine ⟨_, [], rfl, ?_, by simp [hn], by simp [hn], by simp [setKey]⟩
    rw [hn]
    simp [setKey, hv]

/-- C7 at a concrete input: cell 0 of chunk 1, holding 3 points from id 5 on. -/
theorem GenerateVertices_ids_witness :
    ∃ t vs, GenerateVertices (sampleEnv 2 10 halfSampler 0 8) 5 1 0 true sampleCellState = some t ∧
      t.vertices_ (ComputeGlobalCellId (sampleEnv 2 10 halfSampler 0 8) 1 0) = some vs ∧
      vs.length = 3 ∧
      vs.map Vertex.id = List.range' 5 3 ∧
      t.cells_ (ComputeGlobalCellId (sampleEnv 2 10 halfSampler 0 8) 1 0) =
        some (Chunk.mk 3 0 0 0 true 5) :=
  GenerateVertices_ids (sampleEnv 2 10 halfSampler 0 8) 5 1 0 true sampleCellState
    (Chunk.mk 3 0 0 0 true 5) (Chunk.mk 3 0 0 0 false 5) rfl rfl rfl rfl rfl (by decide)

/-! ### The loop of GenerateCells -/

theorem cellLoop_succ (e : Env F) (chunk_id : Nat) (chunk : Chunk F) (s : State F) (k : Nat) :
    cellLoop e chunk_id chunk s (k + 1) =
      cellStep e chunk_id chunk (cellLoop e chunk_id chunk s k) k := by
  simp [cellLoop, List.range_succ, List.foldl_append]

/-- Different local cells of a chunk have different global ids. -/
theorem ComputeGlobalCellId_ne (e : Env F) (chunk_id i j : Nat) (hij : i ≠ j)
    (hi : i < e.cells_per_chunk_) (hj : j < e.cells_per_chunk_)
    (hc : e.cells_per_chunk_ ≤ 2 ^ 64) :
    ComputeGlobalCellId e chunk_id i ≠ ComputeGlobalCellId e chunk_id j := by
  unfold ComputeGlobalCellId add64 mul64
  generalize chunk_id * e.cells_per_chunk_ = m
  omega

/-- An iteration of the loop writes at most the entry of its own cell. -/
theorem cellStep_cells_other (e : Env F) (chunk_id : Nat) (chunk : Chunk F) (l : CellLoop F)
    (j g : Nat) (h : g ≠ ComputeGlobalCellId e chunk_id j) :
    (cellStep e chunk_id chunk l j).cells_ g = l.cells_ g := by
  unfold cellStep
  dsimp only
  split
  · simp [setKey, h]
  · rfl

/-- The entries of the cells that the loop has not reached yet are untouched. -/
theorem cellLoop_cells_later (e : Env F) (chunk_id : Nat) (chunk : Chunk F) (s : State F)
    (hc : e.cells_per_chunk_ ≤ 2 ^ 64) (i : Nat) (hi : i < e.cells_per_chunk_) (k : Nat)
    (hk : k ≤ i) :
    (cellLoop e chunk_id chunk s k).cells_ (ComputeGlobalCellId e chunk_id i) =
      s.cells_ (ComputeGlobalCellId e chunk_id i) := by
  induction k with
  | zero => rfl
  | succ k ih =>
    rw [cellLoop_succ, cellStep_cells_other, ih (by omega)]
    exact ComputeGlobalCellId_ne e chunk_id i k (by omega) hi (by omega) hc

/-- The entry of a cell is the one written (or not) by its own iteration. -/
theorem cellLoop_cells_earlier (e : Env F) (chunk_id : Nat) (chunk : Chunk F) (s : State F)
    (hc : e.cells_per_chunk_ ≤ 2 ^ 64) (i : Nat) (k : Nat) (hik : i < k)
    (hk : k ≤ e.cells_per_chunk_) :
    (cellLoop e chunk_id chunk s k).cells_ (ComputeGlobalCellId e chunk_id i) =
      (cellLoop e chunk_id chunk s (i + 1)).cells_ (ComputeGlobalCellId e chunk_id i) := by
  induction k with
  | zero => omega
  | succ k ih =>
    by_cases hki : k = i
    · rw [hki]
    · rw [cellLoop_succ, cellStep_cells_other, ih (by omega) (by omega)]
      exact ComputeGlobalCellId_ne e chunk_id i k (by omega) (by omega) (by omega) hc

/-- The running offset of the loop is the offset of the chunk plus the counts
drawn so far, in 64-bit arithmetic. -/
theorem cellLoop_offset (e : Env F) (chunk_id : Nat) (chunk : Chunk F) (s : State F)
    (hoff : chunk.offset < 2 ^ 64) (k : Nat) :
    (cellLoop e chunk_id chunk s k).offset =
      (chunk.offset + ∑ j in Finset.range k, drawnCount e chunk_id chunk s j) % 2 ^ 64 := by
  induction k with
  | zero =>
    simp only [Finset.range_zero, Finset.sum_empty, add_zero]
    exact (Nat.mod_eq_of_lt hoff).symm
  | succ k ih =>
    rw [cellLoop_succ, Finset.sum_range_succ]
    unfold cellStep
    dsimp only
    rw [ih]
    unfold add64 drawnCount
    omega

/-- The cell table after the loop of `GenerateCells`, cell by cell. -/
theorem cellLoop_cells_final (e : Env F) (chunk_id : Nat) (chunk : Chunk F) (s : State F)
    (hc : e.cells_per_chunk_ ≤ 2 ^ 64) (i : Nat) (hi : i < e.cells_per_chunk_)
    (hfree : s.cells_ (ComputeGlobalCellId e chunk_id i) = none) :
    ((cellLoop e chunk_id chunk s e.cells_per_chunk_).cells_ (ComputeGlobalCellId e chunk_id i) =
        none ↔ drawnCount e chunk_id chunk s i = 0) ∧
    ∀ cell, (cellLoop e chunk_id chunk s e.cells_per_chunk_).cells_
        (ComputeGlobalCellId e chunk_id i) = some cell →
      cell.n = drawnCount e chunk_id chunk s i ∧
      cell.offset = (cellLoop e chunk_id chunk s i).offset := by
  rw [cellLoop_cells_earlier e chunk_id chunk s hc i _ hi le_rfl, cellLoop_succ]
  have hprev := cellLoop_cells_later e chunk_id chunk s hc i hi i le_rfl
  unfold cellStep
  dsimp only
  by_cases hz : cellDraw e chunk_id (cellLoop e chunk_id chunk s i) i = 0
  · simp [hz, hprev, hfree, drawnCount]
  · simp only [ne_eq, hz, not_false_eq_true, if_true, setKey, drawnCount]
    simp only [Option.some.injEq, false_iff, reduceCtorEq, not_false_eq_true, true_and]
    intro cell hcell
    subst hcell
    exact ⟨rfl, rfl⟩

/-- The count recorded for a cell after the loop is the count drawn for it. -/
theorem cellLoop_count (e : Env F) (chunk_id : Nat) (chunk : Chunk F) (s : State F)
    (hc : e.cells_per_chunk_ ≤ 2 ^ 64) (i : Nat) (hi : i < e.cells_per_chunk_)
    (hfree : s.cells_ (ComputeGlobalCellId e chunk_id i) = none) :
    (match (cellLoop e chunk_id chunk s e.cells_per_chunk_).cells_
        (ComputeGlobalCellId e chunk_id i) with
      | some c => c.n
      | none => 0) = drawnCount e chunk_id chunk s i := by
  obtain ⟨h1, h2⟩ := cellLoop_cells_final e chunk_id chunk s hc i hi hfree
  cases hcell : (cellLoop e chunk_id chunk s e.cells_per_chunk_).cells_
      (ComputeGlobalCellId e chunk_id i) with
  | none => exact (h1.1 hcell).symm
  | some c => exact (h2 c hcell).1

/-- The function `GenerateCells` on a resolved chunk whose cells are not distributed yet. -/
theorem GenerateCells_of_resolved (e : Env F) (fuel chunk_id : Nat) (s : State F) (ch : Chunk F)
    (hch : s.chunks_ chunk_id = some ch) (hg : ch.generated = false) :
    ∃ t, GenerateCells e fuel chunk_id s = some t ∧
      t.cells_ = (cellLoop e chunk_id ch s e.cells_per_chunk_).cells_ := by
  unfold GenerateCells
  simp only [hch, Option.isNone_some, Bool.false_eq_true, if_false,
    touchChunk_of_some chunk_id s ch hch, chunkAt_of_some chunk_id s ch hch, hg]
  exact ⟨_, rfl, rfl⟩

/-- C6: after `GenerateCells(chunk_id)` on a resolved chunk with offset `off`
whose cells are not distributed yet, local cell `i` is stored in the cell table
iff its drawn count `n_i` is non-zero, and a stored cell `i` carries the count
`n_i` and the offset `off + (n_0 + … + n_{i-1})`, the sum of the counts drawn
for all earlier local cells (the unstored ones included), computed in 64-bit
arithmetic: the plain sum whenever that is a 64-bit value. -/
theorem GenerateCells_cells (e : Env F) (fuel chunk_id : Nat) (s : State F) (ch : Chunk F)
    (hch : s.chunks_ chunk_id = some ch) (hg : ch.generated = false)
    (hfree : ∀ i, i < e.cells_per_chunk_ → s.cells_ (ComputeGlobalCellId e chunk_id i) = none)
    (hc : e.cells_per_chunk_ ≤ 2 ^ 64) (hoff : ch.offset < 2 ^ 64) :
    ∃ t, GenerateCells e fuel chunk_id s = some t ∧
      ∀ i, i < e.cells_per_chunk_ →
        (t.cells_ (ComputeGlobalCellId e chunk_id i) = none ↔
          drawnCount e chunk_id ch s i = 0) ∧
        ∀ cell, t.cells_ (ComputeGlobalCellId e chunk_id i) = some cell →
          cell.n = drawnCount e chunk_id ch s i ∧
          cell.offset =
            (ch.offset + ∑ j in Finset.range i, drawnCount e chunk_id ch s j) % 2 ^ 64 ∧
          (ch.offset + ∑ j in Finset.range i, drawnCount e chunk_id ch s j < 2 ^ 64 →
            cell.offset = ch.offset + ∑ j in Finset.range i, drawnCount e chunk_id ch s j) := by
  obtain ⟨t, ht, hcells⟩ := GenerateCells_of_resolved e fuel chunk_id s ch hch hg
  refine ⟨t, ht, fun i hi => ?_⟩
  rw [hcells]
  obtain ⟨h1, h2⟩ := cellLoop_cells_final e chunk_id ch s hc i hi (hfree i hi)
  refine ⟨h1, fun cell hcell => ?_⟩
  obtain ⟨h3, h4⟩ := h2 cell hcell
  rw [cellLoop_offset e chunk_id ch s hoff i] at h4
  exact ⟨h3, h4, fun hlt => by rw [h4, Nat.mod_eq_of_lt hlt]⟩

/-- C6 at a concrete input: chunk 1 with 3 points from id 5 on, one cell per
chunk. -/
theorem GenerateCells_cells_witness :
    ∃ t, GenerateCells (sampleEnv 2 10 halfSampler 0 8) 5 1 sampleChunkState = some t ∧
      ∀ i, i < (sampleEnv 2 10 halfSampler 0 8).cells_per_chunk_ →
        (t.cells_ (ComputeGlobalCellId (sampleEnv 2 10 halfSampler 0 8) 1 i) = none ↔
          drawnCount (sampleEnv 2 10 halfSampler 0 8) 1 (Chunk.mk 3 0 0 0 false 5)
            sampleChunkState i = 0) ∧
        ∀ cell, t.cells_ (ComputeGlobalCellId (sampleEnv 2 10 halfSampler 0 8) 1 i) = some cell →
          cell.n = drawnCount (sampleEnv 2 10 halfSampler 0 8) 1 (Chunk.mk 3 0 0 0 false 5)
            sampleChunkState i ∧
          cell.offset =
            (5 + ∑ j in Finset.range i, drawnCount (sampleEnv 2 10 halfSampler 0 8) 1
              (Chunk.mk 3 0 0 0 false 5) sampleChunkState j) % 2 ^ 64 ∧
          (5 + ∑ j in Finset.range i, drawnCount (sampleEnv 2 10 halfSampler 0 8) 1
              (Chunk.mk 3 0 0 0 false 5) sampleChunkState j < 2 ^ 64 →
            cell.offset = 5 + ∑ j in Finset.range i, drawnCount (sampleEnv 2 10 halfSampler 0 8) 1
              (Chunk.mk 3 0 0 0 false 5) sampleChunkState j) :=
  GenerateCells_cells (sampleEnv 2 10 halfSampler 0 8) 5 1 sampleChunkState
    (Chunk.mk 3 0 0 0 false 5) rfl rfl (fun _ _ => rfl) (by decide) (by decide)

/-! ### Conservation of the points of a chunk by GenerateCells -/

/-- The remaining volume after `k` iterations, in exact arithmetic. -/
theorem cellLoop_total_area (e : Env ℚ) (chunk_id : Nat) (chunk : Chunk ℚ) (s : State ℚ)
    (k : Nat) :
    (cellLoop e chunk_id chunk s k).total_area =
      e.chunk_size_ * e.chunk_size_ * e.chunk_size_ -
        (k : ℚ) * (e.cell_size_ * e.cell_size_ * e.cell_size_) := by
  induction k with
  | zero => simp [cellLoop, cellLoopInit]
  | succ k ih =>
    rw [cellLoop_succ]
    unfold cellStep
    dsimp only
    rw [ih]
    push_cast
    ring

/-- The points not yet handed out and the counts drawn so far add up to the
count of the chunk. -/
theorem cellLoop_remaining (e : Env F) (chunk_id : Nat) (chunk : Chunk F) (s : State F)
    (hb : ∀ h m p, e.GenerateBinomial h m p ≤ m) (hn : chunk.n < 2 ^ 64) (k : Nat) :
    (cellLoop e chunk_id chunk s k).n + ∑ j in Finset.range k, drawnCount e chunk_id chunk s j =
      chunk.n := by
  induction k with
  | zero => simp [cellLoop, cellLoopInit]
  | succ k ih =>
    rw [cellLoop_succ, Finset.sum_range_succ]
    have hd : drawnCount e chunk_id chunk s k ≤ (cellLoop e chunk_id chunk s k).n := hb _ _ _
    unfold cellStep
    dsimp only
    have hd2 : cellDraw e chunk_id (cellLoop e chunk_id chunk s k) k =
        drawnCount e chunk_id chunk s k := rfl
    rw [hd2, sub64_eq hd (by omega)]
    omega

/-- With cells that tile the chunk exactly, the draws of the loop add up to the
count of the chunk. -/
theorem drawnCount_sum (e : Env ℚ) (chunk_id : Nat) (chunk : Chunk ℚ) (s : State ℚ)
    (hb : ∀ h m p, e.GenerateBinomial h m p ≤ m) (h1 : ∀ h m, e.GenerateBinomial h m 1 = m)
    (hn : chunk.n < 2 ^ 64)
    (harea : (e.cells_per_chunk_ : ℚ) * (e.cell_size_ * e.cell_size_ * e.cell_size_) =
      e.chunk_size_ * e.chunk_size_ * e.chunk_size_)
    (hcs : e.chunk_size_ ≠ 0) :
    ∑ j in Finset.range e.cells_per_chunk_, drawnCount e chunk_id chunk s j = chunk.n := by
  have hvol : e.chunk_size_ * e.chunk_size_ * e.chunk_size_ ≠ 0 :=
    mul_ne_zero (mul_ne_zero hcs hcs) hcs
  rw [← harea] at hvol
  have hcells : (e.cells_per_chunk_ : ℚ) ≠ 0 := left_ne_zero_of_mul hvol
  have hcell : e.cell_size_ * e.cell_size_ * e.cell_size_ ≠ 0 := right_ne_zero_of_mul hvol
  obtain ⟨k, hk⟩ : ∃ k, e.cells_per_chunk_ = k + 1 :=
    Nat.exists_eq_succ_of_ne_zero (by exact_mod_cast hcells)
  rw [hk, Finset.sum_range_succ]
  have hrem := cellLoop_remaining e chunk_id chunk s hb hn k
  have hlast : drawnCount e chunk_id chunk s k = (cellLoop e chunk_id chunk s k).n := by
    unfold drawnCount cellDraw
    dsimp only
    rw [cellLoop_total_area, ← harea, hk]
    have hp : e.cell_size_ * e.cell_size_ * e.cell_size_ /
        (((k + 1 : Nat) : ℚ) * (e.cell_size_ * e.cell_size_ * e.cell_size_) -
          (k : ℚ) * (e.cell_size_ * e.cell_size_ * e.cell_size_)) = 1 := by
      have : ((k + 1 : Nat) : ℚ) * (e.cell_size_ * e.cell_size_ * e.cell_size_) -
          (k : ℚ) * (e.cell_size_ * e.cell_size_ * e.cell_size_) =
          e.cell_size_ * e.cell_size_ * e.cell_size_ := by
        push_cast
        ring
      rw [this]
      exact div_self hcell
    rw [hp]
    exact h1 _ _
  omega

/-- C5: for a resolved chunk with `n` points whose cells are not distributed
yet, `GenerateCells(chunk_id)` returns and the point counts of the cells stored
for that chunk sum to exactly `n`, provided `cells_per_chunk * cell_size^3 =
chunk_size^3` in exact arithmetic (with a chunk of non-zero size) and the
sampler returns a value in `[0, m]` on `(key, m, p)` and returns `m` when
`p = 1`. -/
theorem GenerateCells_sum (e : Env ℚ) (fuel chunk_id : Nat) (s : State ℚ) (ch : Chunk ℚ)
    (hch : s.chunks_ chunk_id = some ch) (hg : ch.generated = false)
    (hfree : ∀ i, i < e.cells_per_chunk_ → s.cells_ (ComputeGlobalCellId e chunk_id i) = none)
    (hc : e.cells_per_chunk_ ≤ 2 ^ 64) (hn : ch.n < 2 ^ 64)
    (hb : ∀ h m p, e.GenerateBinomial h m p ≤ m) (h1 : ∀ h m, e.GenerateBinomial h m 1 = m)
    (harea : (e.cells_per_chunk_ : ℚ) * (e.cell_size_ * e.cell_size_ * e.cell_size_) =
      e.chunk_size_ * e.chunk_size_ * e.chunk_size_)
    (hcs : e.chunk_size_ ≠ 0) :
    ∃ t, GenerateCells e fuel chunk_id s = some t ∧
      ∑ i in Finset.range e.cells_per_chunk_, cellCount t (ComputeGlobalCellId e chunk_id i) =
        ch.n := by
  obtain ⟨t, ht, hcells⟩ := GenerateCells_of_resolved e fuel chunk_id s ch hch hg
  refine ⟨t, ht, ?_⟩
  rw [← drawnCount_sum e chunk_id ch s hb h1 hn harea hcs]
  apply Finset.sum_congr rfl
  intro i hi
  have hi2 := Finset.mem_range.1 hi
  unfold cellCount
  rw [hcells]
  exact cellLoop_count e chunk_id ch s hc i hi2 (hfree i hi2)

/-- C5 at a concrete input: chunk 1 with 3 points, one cell per chunk of the same
size as the chunk. -/
theorem GenerateCells_sum_witness :
    ∃ t, GenerateCells (sampleEnv 2 10 exactSampler 0 8) 5 1 sampleChunkState = some t ∧
      ∑ i in Finset.range (sampleEnv 2 10 exactSampler 0 8).cells_per_chunk_,
        cellCount t (ComputeGlobalCellId (sampleEnv 2 10 exactSampler 0 8) 1 i) = 3 :=
  GenerateCells_sum (sampleEnv 2 10 exactSampler 0 8) 5 1 sampleChunkState
    (Chunk.mk 3 0 0 0 false 5) rfl rfl (fun _ _ => rfl) (by decide) (by decide)
    (fun _ m p => by unfold sampleEnv exactSampler; dsimp only; split <;> omega)
    (fun _ m => by simp [sampleEnv, exactSampler])
    (by simp [sampleEnv]) (by simp [sampleEnv])

/-! ### Morton coding -/

theorem m3D_d_zero (b : Nat) : m3D_d b 0 = (0, 0, 0) := by
  induction b with
  | zero => rfl
  | succ b ih => simp [m3D_d, ih]

/-- De-interleaving splits at a digit boundary. -/
theorem m3D_d_split (j : Nat) : ∀ (i p t : Nat), t < 8 ^ j →
    m3D_d (i + j) (p * 8 ^ j + t) =
      (2 ^ j * (m3D_d i p).1 + (m3D_d j t).1, 2 ^ j * (m3D_d i p).2.1 + (m3D_d j t).2.1,
        2 ^ j * (m3D_d i p).2.2 + (m3D_d j t).2.2) := by
  induction j with
  | zero =>
    intro i p t ht
    have : t = 0 := by simpa using ht
    subst this
    simp [m3D_d]
  | succ j ih =>
    intro i p t ht
    have h8 : (8 : Nat) ^ (j + 1) = 8 * 8 ^ j := by rw [pow_succ]; ring
    have h2 : (2 : Nat) ^ (j + 1) = 2 * 2 ^ j := by rw [pow_succ]; ring
    have hp : p * 8 ^ (j + 1) = 8 * (p * 8 ^ j) := by rw [h8]; ring
    have hdiv : (p * 8 ^ (j + 1) + t) / 8 = p * 8 ^ j + t / 8 := by
      rw [hp]; omega
    have ht8 : t / 8 < 8 ^ j := by rw [h8] at ht; omega
    have hm2 : (p * 8 ^ (j + 1) + t) % 2 = t % 2 := by rw [hp]; omega
    have hm4 : (p * 8 ^ (j + 1) + t) / 2 % 2 = t / 2 % 2 := by rw [hp]; omega
    have hm8 : (p * 8 ^ (j + 1) + t) / 4 % 2 = t / 4 % 2 := by rw [hp]; omega
    show m3D_d ((i + j) + 1) (p * 8 ^ (j + 1) + t) = _
    simp only [m3D_d, hdiv, ih i p (t / 8) ht8, hm2, hm4, hm8, h2]
    refine Prod.ext ?_ (Prod.ext ?_ ?_) <;> simp only <;> ring

theorem m3D_d_lt (j : Nat) : ∀ t, t < 8 ^ j →
    (m3D_d j t).1 < 2 ^ j ∧ (m3D_d j t).2.1 < 2 ^ j ∧ (m3D_d j t).2.2 < 2 ^ j := by
  induction j with
  | zero => intro t _; simp [m3D_d]
  | succ j ih =>
    intro t ht
    have h8 : (8 : Nat) ^ (j + 1) = 8 * 8 ^ j := by rw [pow_succ]; ring
    have h2 : (2 : Nat) ^ (j + 1) = 2 * 2 ^ j := by rw [pow_succ]; ring
    have ht8 : t / 8 < 8 ^ j := by rw [h8] at ht; omega
    obtain ⟨a, b, c⟩ := ih (t / 8) ht8
    simp only [m3D_d, h2]
    refine ⟨?_, ?_, ?_⟩ <;> omega

theorem m3D_e_d (b : Nat) : ∀ m, m3D_e b (m3D_d b m).1 (m3D_d b m).2.1 (m3D_d b m).2.2 =
    m % 8 ^ b := by
  induction b with
  | zero => intro m; simp [m3D_e, Nat.mod_one]
  | succ b ih =>
    intro m
    have h8 : (8 : Nat) ^ (b + 1) = 8 * 8 ^ b := by rw [pow_succ]; ring
    simp only [m3D_e, m3D_d]
    have e1 : (m % 2 + 2 * (m3D_d b (m / 8)).1) / 2 = (m3D_d b (m / 8)).1 := by omega
    have e2 : (m / 2 % 2 + 2 * (m3D_d b (m / 8)).2.1) / 2 = (m3D_d b (m / 8)).2.1 := by omega
    have e3 : (m / 4 % 2 + 2 * (m3D_d b (m / 8)).2.2) / 2 = (m3D_d b (m / 8)).2.2 := by omega
    rw [e1, e2, e3, ih (m / 8), h8, Nat.mod_mul]
    omega

theorem Encode_Decode (c : Nat) (hc : c < 2 ^ 64) :
    Encode (Decode c).1 (Decode c).2.1 (Decode c).2.2 = c := by
  unfold Encode Decode
  simp only
  rw [m3D_e_d 22 c]
  omega

/-! ### The recursion tree of ComputeChunk on a power-of-two grid -/

theorem sum_range_blocks (f : Nat → Nat) (w o : Nat) :
    ∑ u in Finset.range (o * w), f u =
      ∑ i in Finset.range o, ∑ v in Finset.range w, f (i * w + v) := by
  induction o with
  | zero => simp
  | succ o ih =>
    rw [Nat.succ_mul, Finset.sum_range_add, ih, Finset.sum_range_succ]

theorem sum_range_block_add (f : Nat → Nat) (w o r : Nat) :
    ∑ u in Finset.range (o * w + r), f u =
      ∑ i in Finset.range o, ∑ v in Finset.range w, f (i * w + v) +
        ∑ v in Finset.range r, f (o * w + v) := by
  rw [Finset.sum_range_add, sum_range_blocks]

/-- The region handed to an octant, flag by flag. -/
theorem octant_region (e : Env F) (a : Args) (u l f : Bool) :
    (octant e a u l f).row_k =
      (if u then add64 a.row_k 1 / 2 else sub64 a.row_k (add64 a.row_k 1 / 2)) ∧
    (octant e a u l f).column_k =
      (if l then add64 a.column_k 1 / 2 else sub64 a.column_k (add64 a.column_k 1 / 2)) ∧
    (octant e a u l f).depth_k =
      (if f then add64 a.depth_k 1 / 2 else sub64 a.depth_k (add64 a.depth_k 1 / 2)) ∧
    (octant e a u l f).chunk_start_row =
      (if u then a.chunk_start_row else add64 a.chunk_start_row (add64 a.row_k 1 / 2)) ∧
    (octant e a u l f).chunk_start_column =
      (if l then a.chunk_start_column
        else add64 a.chunk_start_column (add64 a.column_k 1 / 2)) ∧
    (octant e a u l f).chunk_start_depth =
      (if f then a.chunk_start_depth else add64 a.chunk_start_depth (add64 a.depth_k 1 / 2)) := by
  cases u <;> cases l <;> cases f <;> exact ⟨rfl, rfl, rfl, rfl, rfl, rfl⟩

/-- The region of the octants of an even cube. -/
theorem octantAt_region (e : Env F) (a : Args) (w : Nat) (hw : 0 < w)
    (hr : a.row_k = 2 * w) (hc : a.column_k = 2 * w) (hd : a.depth_k = 2 * w)
    (br : a.chunk_start_row + 2 * w < 2 ^ 63) (bc : a.chunk_start_column + 2 * w < 2 ^ 63)
    (bd : a.chunk_start_depth + 2 * w < 2 ^ 63) (o : Nat) :
    (octantAt e a o).row_k = w ∧ (octantAt e a o).column_k = w ∧
    (octantAt e a o).depth_k = w ∧
    (octantAt e a o).chunk_start_row = a.chunk_start_row + w * (o / 4 % 2) ∧
    (octantAt e a o).chunk_start_column = a.chunk_start_column + w * (o / 2 % 2) ∧
    (octantAt e a o).chunk_start_depth = a.chunk_start_depth + w * (o % 2) := by
  have h1 : add64 (2 * w) 1 / 2 = w := by rw [add64_eq (by omega)]; omega
  have h2 : sub64 (2 * w) w = w := by rw [sub64_eq (by omega) (by omega)]; omega
  obtain ⟨e1, e2, e3, e4, e5, e6⟩ := octant_region e a (decide (o / 4 % 2 = 0))
    (decide (o / 2 % 2 = 0)) (decide (o % 2 = 0))
  unfold octantAt
  rw [e1, e2, e3, e4, e5, e6, hr, hc, hd, h1, h2]
  have m1 := Nat.mod_two_eq_zero_or_one (o / 4)
  have m2 := Nat.mod_two_eq_zero_or_one (o / 2)
  have m3 := Nat.mod_two_eq_zero_or_one o
  rcases m1 with m1 | m1 <;> rcases m2 with m2 | m2 <;> rcases m3 with m3 | m3 <;>
    simp (disch := omega) [m1, m2, m3, add64_eq]

theorem m3D_d_block (j o t : Nat) (ht : t < 8 ^ j) :
    m3D_d (j + 1) (o * 8 ^ j + t) =
      (2 ^ j * (o % 2) + (m3D_d j t).1, 2 ^ j * (o / 2 % 2) + (m3D_d j t).2.1,
        2 ^ j * (o / 4 % 2) + (m3D_d j t).2.2) := by
  have h := m3D_d_split j 1 o t ht
  rw [Nat.add_comm 1 j] at h
  rw [h]
  simp [m3D_d]

/-- The flags computed for a chunk of octant `o` select octant `o`. -/
theorem descend_step (e : Env F) (j base : Nat) (a : Args) (h : NodeOK e (j + 1) base a)
    (hn : a.n ≠ 0) (o : Nat) (t : Nat) (ht : t < 8 ^ j) (hot : o * 8 ^ j + t < 8 ^ (j + 1))
    (fuel : Nat) :
    descend e (fuel + 1) (base + (o * 8 ^ j + t)) a =
      descend e fuel (base + (o * 8 ^ j + t)) (octantAt e a o) := by
  obtain ⟨hr, hc, hd, br, bc, bd, hbase, hdec, hoff⟩ := h
  have h2 : (2 : Nat) ^ (j + 1) = 2 * 2 ^ j := by rw [pow_succ]; ring
  have hw : 0 < 2 ^ j := Nat.two_pow_pos j
  rw [h2] at hr hc hd br bc bd
  have h1 : add64 (2 * 2 ^ j) 1 / 2 = 2 ^ j := by rw [add64_eq (by omega)]; omega
  obtain ⟨l1, l2, l3⟩ := m3D_d_lt j t ht
  have hD := hdec (o * 8 ^ j + t) hot
  rw [m3D_d_block j o t ht] at hD
  have c1 : ¬(a.n = 0 ∨ e.n < a.n) := by omega
  have c2 : ¬(a.row_k = 1 ∧ a.column_k = 1 ∧ a.depth_k = 1) := by omega
  have f1 : decide ((Decode (base + (o * 8 ^ j + t))).2.1 <
      add64 (add64 a.row_k 1 / 2) a.chunk_start_row) = decide (o / 4 % 2 = 0) := by
    have ha : add64 (2 ^ j) a.chunk_start_row = 2 ^ j + a.chunk_start_row := add64_eq (by omega)
    rw [hD, hr, h1, ha, decide_eq_decide]
    dsimp only
    rcases Nat.mod_two_eq_zero_or_one (o / 4) with m | m <;> rw [m] <;> omega
  have f2 : decide ((Decode (base + (o * 8 ^ j + t))).1 <
      add64 (add64 a.column_k 1 / 2) a.chunk_start_column) = decide (o / 2 % 2 = 0) := by
    have ha : add64 (2 ^ j) a.chunk_start_column = 2 ^ j + a.chunk_start_column := add64_eq (by omega)
    rw [hD, hc, h1, ha, decide_eq_decide]
    dsimp only
    rcases Nat.mod_two_eq_zero_or_one (o / 2) with m | m <;> rw [m] <;> omega
  have f3 : decide ((Decode (base + (o * 8 ^ j + t))).2.2 <
      add64 (add64 a.depth_k 1 / 2) a.chunk_start_depth) = decide (o % 2 = 0) := by
    have ha : add64 (2 ^ j) a.chunk_start_depth = 2 ^ j + a.chunk_start_depth := add64_eq (by omega)
    rw [hD, hd, h1, ha, decide_eq_decide]
    dsimp only
    rcases Nat.mod_two_eq_zero_or_one o with m | m <;> rw [m] <;> omega
  rw [descend]
  simp only [c1, c2, if_false, f1, f2, f3]
  rfl

/-- The octants of a well-formed node are well-formed nodes. -/
theorem NodeOK_child (e : Env F) (hb : ∀ h m p, e.GenerateBinomial h m p ≤ m)
    (hN : e.n < 2 ^ 64) (j base : Nat) (a : Args) (h : NodeOK e (j + 1) base a) (o : Nat)
    (ho : o < 8) : NodeOK e j (base + o * 8 ^ j) (octantAt e a o) := by
  obtain ⟨hr, hc, hd, br, bc, bd, hbase, hdec, hoff⟩ := h
  have h2 : (2 : Nat) ^ (j + 1) = 2 * 2 ^ j := by rw [pow_succ]; ring
  have h8 : (8 : Nat) ^ (j + 1) = 8 * 8 ^ j := by rw [pow_succ]; ring
  have hw : 0 < 2 ^ j := Nat.two_pow_pos j
  rw [h2] at hr hc hd br bc bd
  rw [h8] at hbase
  obtain ⟨r1, r2, r3, r4, r5, r6⟩ := octantAt_region e a (2 ^ j) hw hr hc hd br bc bd o
  obtain ⟨s1, s2, s3⟩ := octantAt_sums e a hb (by omega)
  have b1 : 2 ^ j * (o / 4 % 2) ≤ 2 ^ j := by
    rcases Nat.mod_two_eq_zero_or_one (o / 4) with m | m <;> simp [m]
  have b2 : 2 ^ j * (o / 2 % 2) ≤ 2 ^ j := by
    rcases Nat.mod_two_eq_zero_or_one (o / 2) with m | m <;> simp [m]
  have b3 : 2 ^ j * (o % 2) ≤ 2 ^ j := by
    rcases Nat.mod_two_eq_zero_or_one o with m | m <;> simp [m]
  have b4 : o * 8 ^ j + 8 ^ j ≤ 8 * 8 ^ j := by
    have : (o + 1) * 8 ^ j ≤ 8 * 8 ^ j := Nat.mul_le_mul_right _ (by omega)
    rw [Nat.succ_mul] at this
    exact this
  refine ⟨r1, r2, r3, by omega, by omega, by omega, by omega, ?_, ?_⟩
  · intro t ht
    have hD := hdec (o * 8 ^ j + t) (by rw [h8]; omega)
    rw [m3D_d_block j o t ht] at hD
    rw [Nat.add_assoc, hD, r4, r5, r6]
    simp only [Nat.add_assoc]
  · have hs := s3 o ho
    have hle : ∑ i in Finset.range (o + 1), (octantAt e a i).n ≤
        ∑ i in Finset.range 8, (octantAt e a i).n :=
      Finset.sum_le_sum_of_subset (Finset.range_mono (by omega))
    rw [Finset.sum_range_succ] at hle
    omega

/-- The descent from a well-formed node, for all chunks of the node at once: it
ends within `j + 1` steps, a leaf is stored under the requested id and holds at
least one point, the leaf offsets are the running sums of the leaf counts in
the order of the chunk ids, and the leaf counts add up to the count of the
node. -/
theorem node_lemma (e : Env F) (hb : ∀ h m p, e.GenerateBinomial h m p ≤ m)
    (hN : e.n < 2 ^ 64) (j : Nat) : ∀ (a : Args) (base : Nat), NodeOK e j base a →
    (∀ t, t < 8 ^ j → ∃ r, descend e (j + 1) (base + t) a = some r ∧
      ∀ leaf, r = some leaf →
        Encode leaf.chunk_start_column leaf.chunk_start_row leaf.chunk_start_depth = base + t ∧
        0 < leaf.n ∧
        leaf.offset =
          a.offset + ∑ u in Finset.range t, leafCount (descend e (j + 1) (base + u) a)) ∧
    ∑ t in Finset.range (8 ^ j), leafCount (descend e (j + 1) (base + t) a) = a.n := by
  induction j with
  | zero =>
    intro a base h
    obtain ⟨hr, hc, hd, _, _, _, hbase, hdec, hoff⟩ := h
    have hD := hdec 0 (by norm_num)
    simp only [m3D_d, add_zero] at hD
    have hkey : Encode a.chunk_start_column a.chunk_start_row a.chunk_start_depth = base := by
      have := Encode_Decode base (by omega)
      rw [hD] at this
      exact this
    by_cases hn : a.n = 0
    · have hdes : ∀ c, descend e 1 c a = some none := by
        intro c
        simp [descend, hn]
      refine ⟨fun t _ => ⟨none, hdes _, fun leaf hl => by simp at hl⟩, ?_⟩
      simp [hdes, leafCount, hn]
    · have hdes : ∀ c, descend e 1 c a = some (some a) := by
        intro c
        have c1 : ¬(a.n = 0 ∨ e.n < a.n) := by omega
        simp [descend, c1, hr, hc, hd]
      refine ⟨fun t ht => ⟨some a, hdes _, fun leaf hl => ?_⟩, ?_⟩
      · have ht0 : t = 0 := by omega
        simp only [Option.some.injEq] at hl
        subst hl ht0
        exact ⟨by simpa using hkey, by omega, by simp⟩
      · simp [hdes, leafCount]
  | succ j ih =>
    intro a base h
    have h8 : (8 : Nat) ^ (j + 1) = 8 * 8 ^ j := by rw [pow_succ]; ring
    have hw : 0 < 8 ^ j := Nat.pow_pos (by decide)
    by_cases hn : a.n = 0
    · have hdes : ∀ c, descend e (j + 1 + 1) c a = some none := by
        intro c
        rw [descend]
        simp [hn]
      refine ⟨fun t _ => ⟨none, hdes _, fun leaf hl => by simp at hl⟩, ?_⟩
      simp [hdes, leafCount, hn]
    · obtain ⟨s1, s2, s3⟩ := octantAt_sums e a hb (by
        have := h.2.2.2.2.2.2.2.2
        omega)
      have hchild : ∀ o, o < 8 → NodeOK e j (base + o * 8 ^ j) (octantAt e a o) :=
        fun o ho => NodeOK_child e hb hN j base a h o ho
      have hstep : ∀ o, o < 8 → ∀ t, t < 8 ^ j →
          descend e (j + 1 + 1) (base + (o * 8 ^ j + t)) a =
            descend e (j + 1) (base + o * 8 ^ j + t) (octantAt e a o) := by
        intro o ho t ht
        have hot : o * 8 ^ j + t < 8 ^ (j + 1) := by
          have : (o + 1) * 8 ^ j ≤ 8 * 8 ^ j := Nat.mul_le_mul_right _ (by omega)
          rw [Nat.succ_mul] at this
          omega
        rw [descend_step e j base a h hn o t ht hot (j + 1), Nat.add_assoc]
      have hblock : ∀ o, o < 8 →
          ∑ v in Finset.range (8 ^ j),
            leafCount (descend e (j + 1 + 1) (base + (o * 8 ^ j + v)) a) =
            (octantAt e a o).n := by
        intro o ho
        rw [← (ih _ _ (hchild o ho)).2]
        apply Finset.sum_congr rfl
        intro v hv
        rw [hstep o ho v (Finset.mem_range.1 hv)]
      refine ⟨?_, ?_⟩
      · intro t ht
        have ho : t / 8 ^ j < 8 := by
          apply Nat.div_lt_of_lt_mul
          rw [h8] at ht
          rw [Nat.mul_comm]
          exact ht
        have hv : t % 8 ^ j < 8 ^ j := Nat.mod_lt _ hw
        have htd : t = t / 8 ^ j * 8 ^ j + t % 8 ^ j := (Nat.div_add_mod' t (8 ^ j)).symm
        generalize t / 8 ^ j = o at ho htd
        generalize t % 8 ^ j = v at hv htd
        subst htd
        obtain ⟨r, hr, hleaf⟩ := (ih _ _ (hchild o ho)).1 v hv
        refine ⟨r, by rw [hstep o ho v hv]; exact hr, fun leaf hl => ?_⟩
        obtain ⟨k1, k2, k3⟩ := hleaf leaf hl
        refine ⟨by rw [k1, Nat.add_assoc], k2, ?_⟩
        rw [k3, s3 o ho,
          sum_range_block_add (fun u => leafCount (descend e (j + 1 + 1) (base + u) a))]
        have e1 : ∑ i in Finset.range o, ∑ v in Finset.range (8 ^ j),
            leafCount (descend e (j + 1 + 1) (base + (i * 8 ^ j + v)) a) =
            ∑ i in Finset.range o, (octantAt e a i).n := by
          apply Finset.sum_congr rfl
          intro i hi
          exact hblock i (by have := Finset.mem_range.1 hi; omega)
        have e2 : ∑ u in Finset.range v,
            leafCount (descend e (j + 1) (base + o * 8 ^ j + u) (octantAt e a o)) =
            ∑ u in Finset.range v,
              leafCount (descend e (j + 1 + 1) (base + (o * 8 ^ j + u)) a) := by
          apply Finset.sum_congr rfl
          intro u hu
          rw [hstep o ho u (by have := Finset.mem_range.1 hu; omega)]
        rw [e1, e2, Nat.add_assoc]
      · rw [h8,
          sum_range_blocks (fun u => leafCount (descend e (j + 1 + 1) (base + u) a)) (8 ^ j) 8,
          ← s2]
        apply Finset.sum_congr rfl
        intro o ho
        exact hblock o (Finset.mem_range.1 ho)

/-! ### ComputeChunk on a power-of-two grid -/

/-- More fuel does not change the result of a finished descent. -/
theorem descend_mono (e : Env F) (c : Nat) (f k : Nat) : ∀ (a : Args) (r : Option Args),
    descend e f c a = some r → descend e (f + k) c a = some r := by
  induction f with
  | zero => intro a r h; simp [descend] at h
  | succ f ih =>
    intro a r h
    have hk : f + 1 + k = (f + k) + 1 := by omega
    rw [hk]
    rw [descend] at h ⊢
    by_cases c1 : a.n = 0 ∨ e.n < a.n
    · simpa [c1] using h
    · by_cases c2 : a.row_k = 1 ∧ a.column_k = 1 ∧ a.depth_k = 1
      · simpa [c1, c2] using h
      · simp only [c1, c2, if_false] at h ⊢
        exact ih _ _ h

theorem cube_two_pow (ex : Nat) : (2 ^ ex) ^ 3 = 8 ^ ex := by
  rw [← pow_mul, mul_comm, pow_mul]
  norm_num

theorem exponent_le (ex : Nat) (h : (2 ^ ex) ^ 3 < 2 ^ 64) : ex ≤ 21 := by
  by_contra hc
  have h22 : 22 ≤ ex := by omega
  have h1 : (2 ^ 22) ^ 3 ≤ (2 ^ ex) ^ 3 :=
    Nat.pow_le_pow_left (Nat.pow_le_pow_right (by decide) h22) 3
  have h2 : (2 : Nat) ^ 64 < (2 ^ 22) ^ 3 := by norm_num
  omega

/-- The root of a power-of-two grid is a well-formed node. -/
theorem root_NodeOK (e : Env F) (ex : Nat) (hK : e.chunks_per_dim_ = 2 ^ ex)
    (hrep : (2 ^ ex) ^ 3 < 2 ^ 64) : NodeOK e ex 0 (rootArgs e) := by
  have hex := exponent_le ex hrep
  have h8 := cube_two_pow ex
  have hp : 2 ^ ex ≤ 2 ^ 21 := Nat.pow_le_pow_right (by decide) hex
  have hp2 : (2 : Nat) ^ 21 < 2 ^ 63 := by norm_num
  refine ⟨hK, hK, hK, ?_, ?_, ?_, by omega, ?_, ?_⟩
  · show 0 + 2 ^ ex < 2 ^ 63
    omega
  · show 0 + 2 ^ ex < 2 ^ 63
    omega
  · show 0 + 2 ^ ex < 2 ^ 63
    omega
  · intro t ht
    have hs := m3D_d_split ex (22 - ex) 0 t ht
    have h22 : 22 - ex + ex = 22 := by omega
    rw [h22, m3D_d_zero] at hs
    simp only [zero_mul, zero_add, mul_zero] at hs
    show Decode (0 + t) = _
    unfold Decode
    simp only [zero_add, hs, rootArgs]
  · show 0 + e.n ≤ e.n
    omega

/-- The descent on a power-of-two grid, for all chunk ids at once. -/
theorem chunkLeaf_spec (e : Env F) (hb : ∀ h m p, e.GenerateBinomial h m p ≤ m)
    (hN : e.n < 2 ^ 64) (ex : Nat) (hK : e.chunks_per_dim_ = 2 ^ ex)
    (hrep : (2 ^ ex) ^ 3 < 2 ^ 64) :
    (∀ c, c < 8 ^ ex → ∃ r, chunkLeaf e ex c = some r ∧
      ∀ leaf, r = some leaf →
        Encode leaf.chunk_start_column leaf.chunk_start_row leaf.chunk_start_depth = c ∧
        0 < leaf.n ∧ leaf.offset = ∑ u in Finset.range c, trueCount e ex u) ∧
    ∑ c in Finset.range (8 ^ ex), trueCount e ex c = e.n := by
  obtain ⟨h1, h2⟩ := node_lemma e hb hN ex (rootArgs e) 0 (root_NodeOK e ex hK hrep)
  simp only [zero_add] at h1 h2
  refine ⟨fun c hc => ?_, h2⟩
  obtain ⟨r, hr, hl⟩ := h1 c hc
  refine ⟨r, hr, fun leaf hleaf => ?_⟩
  obtain ⟨k1, k2, k3⟩ := hl leaf hleaf
  refine ⟨k1, k2, ?_⟩
  rw [k3]
  show 0 + _ = _
  rw [zero_add]
  rfl

/-- What `ComputeChunk(c)` does on a power-of-two grid, for a valid chunk id and
with enough fuel: nothing when the chunk is in the table or empty, and
otherwise the base-case store of the leaf of `c` under the key `c`. -/
theorem ComputeChunk_describe (e : Env F) (hb : ∀ h m p, e.GenerateBinomial h m p ≤ m)
    (hN : e.n < 2 ^ 64) (ex : Nat) (hK : e.chunks_per_dim_ = 2 ^ ex)
    (hrep : (2 ^ ex) ^ 3 < 2 ^ 64) (fuel : Nat) (hfuel : ex < fuel) (c : Nat)
    (hc : c < 8 ^ ex) (s : State F) :
    ∃ t, ComputeChunk e fuel c s = some t ∧
      ((s.chunks_ c ≠ none ∧ t = s) ∨
       (s.chunks_ c = none ∧ trueCount e ex c = 0 ∧ t = s) ∨
       (s.chunks_ c = none ∧ ∃ leaf, chunkLeaf e ex c = some (some leaf) ∧
         Encode leaf.chunk_start_column leaf.chunk_start_row leaf.chunk_start_depth = c ∧
         0 < leaf.n ∧ leaf.offset = ∑ u in Finset.range c, trueCount e ex u ∧
         t = storeChunk e c leaf s)) := by
  obtain ⟨r, hr, hl⟩ := (chunkLeaf_spec e hb hN ex hK hrep).1 c hc
  obtain ⟨k, hk⟩ : ∃ k, fuel = ex + 1 + k := ⟨fuel - (ex + 1), by omega⟩
  have hdes : descend e fuel c (rootArgs e) = some r := by
    rw [hk]
    exact descend_mono e c (ex + 1) k _ _ hr
  cases hs : s.chunks_ c with
  | some ch =>
    refine ⟨s, ?_, Or.inl ⟨by simp, rfl⟩⟩
    unfold ComputeChunk
    have hk2 : fuel = ex + k + 1 := by omega
    rw [hk2]
    exact ComputeChunkRec_of_some e (ex + k) c _ s (by simp [hs])
  | none =>
    unfold ComputeChunk
    rw [ComputeChunkRec_eq_descend e fuel c _ s hs, hdes]
    cases r with
    | none =>
      refine ⟨s, rfl, Or.inr (Or.inl ⟨rfl, ?_, rfl⟩)⟩
      simp [trueCount, hr, leafCount]
    | some leaf =>
      obtain ⟨k1, k2, k3⟩ := hl leaf rfl
      exact ⟨storeChunk e c leaf s, rfl, Or.inr (Or.inr ⟨rfl, leaf, hr, k1, k2, k3, rfl⟩)⟩

theorem storeChunk_num (e : Env F) (c : Nat) (a : Args) (s : State F) :
    (storeChunk e c a s).num_nodes_ =
      if IsLocalChunk e c then add64 s.num_nodes_ a.n else s.num_nodes_ := by
  unfold storeChunk
  split <;> rfl

theorem storeChunk_start (e : Env F) (c : Nat) (a : Args) (s : State F) :
    (storeChunk e c a s).start_node_ =
      if IsLocalChunk e c then (if a.offset < s.start_node_ then a.offset else s.start_node_)
      else s.start_node_ := by
  unfold storeChunk
  split <;> rfl

theorem IsLocalChunk_iff (e : Env F) (c : Nat) :
    IsLocalChunk e c = true ↔ e.local_chunk_start_ ≤ c ∧ c < e.local_chunk_end_ := by
  simp [IsLocalChunk]

theorem chunkCount_le_trueCount (e : Env F) (ex : Nat) (s : State F) (h : Truthful e ex s)
    (c : Nat) (hc : c < 8 ^ ex) : chunkCount s c ≤ trueCount e ex c := by
  unfold chunkCount
  cases hs : s.chunks_ c with
  | none => exact Nat.zero_le _
  | some ch => exact le_of_eq (h c hc ch hs).1

/-- The points recorded for the local chunks are among the points of the grid. -/
theorem local_sum_le (e : Env F) (ex : Nat) (s : State F) (h : Truthful e ex s)
    (htot : ∑ c in Finset.range (8 ^ ex), trueCount e ex c = e.n)
    (hhi : e.local_chunk_end_ ≤ 8 ^ ex) :
    ∑ c in Finset.Ico e.local_chunk_start_ e.local_chunk_end_, chunkCount s c ≤ e.n := by
  rw [← htot]
  calc ∑ c in Finset.Ico e.local_chunk_start_ e.local_chunk_end_, chunkCount s c
      ≤ ∑ c in Finset.Ico e.local_chunk_start_ e.local_chunk_end_, trueCount e ex c := by
        apply Finset.sum_le_sum
        intro c hc
        exact chunkCount_le_trueCount e ex s h c (by have := (Finset.mem_Ico.1 hc).2; omega)
    _ ≤ ∑ c in Finset.range (8 ^ ex), trueCount e ex c := by
        apply Finset.sum_le_sum_of_subset
        intro c hc
        have := (Finset.mem_Ico.1 hc).2
        exact Finset.mem_range.2 (by omega)

/-- The sum of a function changed at one point where it was zero. -/
theorem sum_Ico_update (f g : Nat → Nat) (lo hi c v : Nat) (hc : lo ≤ c ∧ c < hi)
    (hf : f c = 0) (hg : ∀ x, g x = if x = c then v else f x) :
    ∑ x in Finset.Ico lo hi, g x = ∑ x in Finset.Ico lo hi, f x + v := by
  have h1 : ∀ x ∈ Finset.Ico lo hi, g x = f x + (if x = c then v else 0) := by
    intro x _
    rw [hg x]
    by_cases hx : x = c
    · simp [hx, hf]
    · simp [hx]
  rw [Finset.sum_congr rfl h1, Finset.sum_add_distrib, Finset.sum_ite_eq']
  simp [Finset.mem_Ico, hc]

theorem sum_Ico_update_outside (f g : Nat → Nat) (lo hi c : Nat) (hc : ¬(lo ≤ c ∧ c < hi))
    (hg : ∀ x, x ≠ c → g x = f x) :
    ∑ x in Finset.Ico lo hi, g x = ∑ x in Finset.Ico lo hi, f x := by
  apply Finset.sum_congr rfl
  intro x hx
  apply hg
  intro hxc
  subst hxc
  exact hc (Finset.mem_Ico.1 hx)

/-- The function `ComputeChunk(c)` on a power-of-two grid keeps the chunk table truthful and
the bookkeeping of the local vertices in step with the table. -/
theorem ComputeChunk_inv (e : Env F) (hb : ∀ h m p, e.GenerateBinomial h m p ≤ m)
    (hN : e.n < 2 ^ 64) (ex : Nat) (hK : e.chunks_per_dim_ = 2 ^ ex)
    (hrep : (2 ^ ex) ^ 3 < 2 ^ 64) (fuel : Nat) (hfuel : ex < fuel) (c : Nat)
    (hc : c < 8 ^ ex) (s : State F) (hT : Truthful e ex s) :
    ∃ t, ComputeChunk e fuel c s = some t ∧ Truthful e ex t ∧ Grows s t ∧ Settled e ex t c ∧
      (NoEmpty s → NoEmpty t) ∧
      (e.local_chunk_end_ ≤ 8 ^ ex → Account e s → Account e t) := by
  obtain ⟨t, ht, hcase⟩ := ComputeChunk_describe e hb hN ex hK hrep fuel hfuel c hc s
  refine ⟨t, ht, ?_⟩
  rcases hcase with ⟨hs, rfl⟩ | ⟨hs, h0, rfl⟩ | ⟨hs, leaf, hleaf, hkey, hpos, _, rfl⟩
  · exact ⟨hT, fun _ h => h, Or.inl hs, fun h => h, fun _ h => h⟩
  · exact ⟨hT, fun _ h => h, Or.inr h0, fun h => h, fun _ h => h⟩
  · have hch : (storeChunk e c leaf s).chunks_ = setKey s.chunks_ c
        (Chunk.mk leaf.n ((leaf.chunk_start_row : F) * e.chunk_size_)
          ((leaf.chunk_start_column : F) * e.chunk_size_)
          ((leaf.chunk_start_depth : F) * e.chunk_size_) false leaf.offset) := by
      rw [storeChunk_chunks, hkey]
    have htc : trueCount e ex c = leaf.n := by simp [trueCount, hleaf, leafCount]
    have hto : trueOffset e ex c = leaf.offset := by simp [trueOffset, hleaf]
    have hcount : ∀ x, chunkCount (storeChunk e c leaf s) x =
        if x = c then leaf.n else chunkCount s x := by
      intro x
      unfold chunkCount
      rw [hch]
      by_cases hx : x = c <;> simp [setKey, hx]
    have hT2 : Truthful e ex (storeChunk e c leaf s) := by
      intro x hx ch hxc
      rw [hch] at hxc
      by_cases hxe : x = c
      · subst hxe
        simp only [setKey, if_true, Option.some.injEq] at hxc
        subst hxc
        exact ⟨htc.symm, fun _ => hto.symm⟩
      · simp only [setKey, hxe, if_false] at hxc
        exact hT x hx ch hxc
    refine ⟨hT2, ?_, ?_, ?_, ?_⟩
    · intro x hx
      rw [hch]
      by_cases hxe : x = c <;> simp [setKey, hxe, hx]
    · left
      rw [hch]
      simp [setKey]
    · intro hne x ch hxc
      rw [hch] at hxc
      by_cases hxe : x = c
      · simp only [setKey, hxe, if_true, Option.some.injEq] at hxc
        subst hxc
        exact hpos
      · simp only [setKey, hxe, if_false] at hxc
        exact hne x ch hxc
    · intro hhi hA
      obtain ⟨a1, a2, a3⟩ := hA
      have htot := (chunkLeaf_spec e hb hN ex hK hrep).2
      have hle := local_sum_le e ex _ hT2 htot hhi
      have hsc : chunkCount s c = 0 := by simp [chunkCount, hs]
      by_cases hloc : e.local_chunk_start_ ≤ c ∧ c < e.local_chunk_end_
      · have hl : IsLocalChunk e c = true := (IsLocalChunk_iff e c).2 hloc
        have hsum := sum_Ico_update (chunkCount s) (chunkCount (storeChunk e c leaf s))
          e.local_chunk_start_ e.local_chunk_end_ c leaf.n hloc hsc hcount
        refine ⟨?_, ?_, ?_⟩
        · rw [storeChunk_num, hl, if_pos rfl, hsum, add64_eq (by omega), a1]
        · intro x hx1 hx2 ch hxc hn
          rw [hch] at hxc
          rw [storeChunk_start, hl, if_pos rfl]
          by_cases hxe : x = c
          · simp only [setKey, hxe, if_true, Option.some.injEq] at hxc
            subst hxc
            dsimp only
            split <;> omega
          · simp only [setKey, hxe, if_false] at hxc
            have := a2 x hx1 hx2 ch hxc hn
            split <;> omega
        · rw [storeChunk_start, hl, if_pos rfl]
          by_cases hlt : leaf.offset < s.start_node_
          · right
            refine ⟨c, hloc.1, hloc.2, Chunk.mk leaf.n ((leaf.chunk_start_row : F) * e.chunk_size_)
              ((leaf.chunk_start_column : F) * e.chunk_size_)
              ((leaf.chunk_start_depth : F) * e.chunk_size_) false leaf.offset,
              by rw [hch]; simp [setKey], hpos, ?_⟩
            simp [hlt]
          · simp only [hlt, if_false]
            rcases a3 with a3 | ⟨x, hx1, hx2, ch, hxc, hn, ho⟩
            · exact Or.inl a3
            · right
              refine ⟨x, hx1, hx2, ch, ?_, hn, ho⟩
              rw [hch]
              have hxe : x ≠ c := by
                intro hxe
                rw [hxe, hs] at hxc
                exact Option.noConfusion hxc
              simp [setKey, hxe, hxc]
      · have hl : ¬(IsLocalChunk e c = true) := fun h => hloc ((IsLocalChunk_iff e c).1 h)
        have hsum := sum_Ico_update_outside (chunkCount s)
          (chunkCount (storeChunk e c leaf s)) e.local_chunk_start_ e.local_chunk_end_ c hloc
          (fun x hx => by rw [hcount x, if_neg hx])
        have hother : ∀ x, e.local_chunk_start_ ≤ x → x < e.local_chunk_end_ →
            (storeChunk e c leaf s).chunks_ x = s.chunks_ x := by
          intro x hx1 hx2
          have hxe : x ≠ c := by
            intro hxe
            exact hloc ⟨by omega, by omega⟩
          rw [hch]
          simp [setKey, hxe]
        refine ⟨?_, ?_, ?_⟩
        · rw [storeChunk_num, if_neg hl, hsum, a1]
        · intro x hx1 hx2 ch hxc hn
          rw [hother x hx1 hx2] at hxc
          rw [storeChunk_start, if_neg hl]
          exact a2 x hx1 hx2 ch hxc hn
        · rw [storeChunk_start, if_neg hl]
          rcases a3 with a3 | ⟨x, hx1, hx2, ch, hxc, hn, ho⟩
          · exact Or.inl a3
          · exact Or.inr ⟨x, hx1, hx2, ch, by rw [hother x hx1 hx2]; exact hxc, hn, ho⟩

theorem Grows_trans {s t u : State F} (h1 : Grows s t) (h2 : Grows t u) : Grows s u :=
  fun c hc => h2 c (h1 c hc)

theorem Settled_mono {e : Env F} {ex : Nat} {s t : State F} {c : Nat}
    (h : Settled e ex s c) (hg : Grows s t) : Settled e ex t c := by
  rcases h with h | h
  · exact Or.inl (hg c h)
  · exact Or.inr h

/-- A truthful table records the count of the descent for every settled chunk. -/
theorem chunkCount_of_settled (e : Env F) (ex : Nat) (s : State F) (hT : Truthful e ex s)
    (c : Nat) (hc : c < 8 ^ ex) (hs : Settled e ex s c) : chunkCount s c = trueCount e ex c := by
  unfold chunkCount
  cases hch : s.chunks_ c with
  | some ch => exact (hT c hc ch hch).1
  | none =>
    rcases hs with hs | hs
    · exact absurd hch hs
    · exact hs.symm

/-- The function `ComputeChunk` run over a list of valid chunk ids. -/
theorem ComputeChunk_fold (e : Env F) (hb : ∀ h m p, e.GenerateBinomial h m p ≤ m)
    (hN : e.n < 2 ^ 64) (ex : Nat) (hK : e.chunks_per_dim_ = 2 ^ ex)
    (hrep : (2 ^ ex) ^ 3 < 2 ^ 64) (fuel : Nat) (hfuel : ex < fuel) (cs : List Nat) :
    ∀ (s : State F), (∀ c, c ∈ cs → c < 8 ^ ex) → Truthful e ex s →
    ∃ t, cs.foldlM (fun s c => ComputeChunk e fuel c s) s = some t ∧ Truthful e ex t ∧
      Grows s t ∧ (∀ c, c ∈ cs → Settled e ex t c) ∧ (NoEmpty s → NoEmpty t) ∧
      (e.local_chunk_end_ ≤ 8 ^ ex → Account e s → Account e t) := by
  induction cs with
  | nil =>
    intro s _ hT
    exact ⟨s, rfl, hT, fun _ h => h, fun c hc => by simp at hc, fun h => h, fun _ h => h⟩
  | cons c cs ih =>
    intro s hcs hT
    obtain ⟨t1, h1, hT1, hG1, hS1, hE1, hA1⟩ :=
      ComputeChunk_inv e hb hN ex hK hrep fuel hfuel c (hcs c (by simp)) s hT
    obtain ⟨t, h2, hT2, hG2, hS2, hE2, hA2⟩ := ih t1 (fun x hx => hcs x (by simp [hx])) hT1
    refine ⟨t, ?_, hT2, Grows_trans hG1 hG2, ?_, fun h => hE2 (hE1 h), fun hh h => hA2 hh (hA1 hh h)⟩
    · simp only [List.foldlM_cons, h1]
      exact h2
    · intro x hx
      rcases List.mem_cons.1 hx with hx | hx
      · subst hx
        exact Settled_mono hS1 hG2
      · exact hS2 x hx

theorem Truthful_init (e : Env F) (ex : Nat) : Truthful e ex (State.init : State F) := by
  intro c _ ch h
  simp [State.init] at h

theorem NoEmpty_init : NoEmpty (State.init : State F) := by
  intro c ch h
  simp [State.init] at h

/-- After `ComputeChunk` has run for every chunk id of a power-of-two grid, the
table holds the counts and offsets of the descent. -/
theorem computeChunks_spec (e : Env F) (hb : ∀ h m p, e.GenerateBinomial h m p ≤ m)
    (hN : e.n < 2 ^ 64) (ex : Nat) (hK : e.chunks_per_dim_ = 2 ^ ex)
    (hrep : e.chunks_per_dim_ ^ 3 < 2 ^ 64) (fuel : Nat) (hfuel : ex < fuel) (cs : List Nat)
    (hcs : ∀ c, c ∈ cs ↔ c < e.chunks_per_dim_ ^ 3) :
    ∃ t, computeChunks e fuel cs = some t ∧
      (∀ c ch, c < e.chunks_per_dim_ ^ 3 → t.chunks_ c = some ch →
        0 < ch.n ∧ ch.offset = ∑ u in Finset.range c, chunkCount t u) ∧
      ∑ c in Finset.range (e.chunks_per_dim_ ^ 3), chunkCount t c = e.n := by
  rw [hK] at hrep
  have h8 : e.chunks_per_dim_ ^ 3 = 8 ^ ex := by rw [hK]; exact cube_two_pow ex
  rw [h8] at hcs ⊢
  obtain ⟨t, ht, hT, _, hS, hE, _⟩ := ComputeChunk_fold e hb hN ex hK hrep fuel hfuel cs
    State.init (fun c hc => (hcs c).1 hc) (Truthful_init e ex)
  obtain ⟨sp1, sp2⟩ := chunkLeaf_spec e hb hN ex hK hrep
  have hcount : ∀ c, c < 8 ^ ex → chunkCount t c = trueCount e ex c :=
    fun c hc => chunkCount_of_settled e ex t hT c hc (hS c ((hcs c).2 hc))
  refine ⟨t, ht, ?_, ?_⟩
  · intro c ch hc hch
    have hpos := hE NoEmpty_init c ch hch
    obtain ⟨k1, k2⟩ := hT c hc ch hch
    refine ⟨hpos, ?_⟩
    rw [k2 hpos]
    obtain ⟨r, hr, hl⟩ := sp1 c hc
    have hsum : ∑ u in Finset.range c, chunkCount t u =
        ∑ u in Finset.range c, trueCount e ex u :=
      Finset.sum_congr rfl (fun u hu => hcount u (by have := Finset.mem_range.1 hu; omega))
    rw [hsum]
    cases r with
    | none =>
      rw [trueCount, hr] at k1
      simp [leafCount] at k1
      omega
    | some leaf =>
      rw [trueOffset, hr]
      exact (hl leaf rfl).2.2
  · rw [← sp2]
    exact Finset.sum_congr rfl (fun u hu => hcount u (Finset.mem_range.1 hu))

/-- C1: for `K = chunks_per_dim` a power of two (with `K ^ 3` and `N` 64-bit
values), every seed and every `N`, with any sampler that returns a value in
`[0, n]` on `(key, n, p)` and Encode / Decode as bit interleaving: after
`ComputeChunk(c)` has run for every chunk id `c` in `[0, K ^ 3)` (in any order),
the offset of every stored chunk is the sum of the counts of all chunks with a
smaller id (absent chunks counting as empty), and the counts add up to `N`; so
the id intervals `[off(c), off(c) + n(c))`, taken in increasing chunk-id order,
are consecutive and exactly cover `[0, N)`. -/
theorem ComputeChunk_intervals_cover (e : Env F) (ex fuel : Nat) (cs : List Nat)
    (hK : e.chunks_per_dim_ = 2 ^ ex) (hrep : e.chunks_per_dim_ ^ 3 < 2 ^ 64)
    (hN : e.n < 2 ^ 64) (hb : ∀ h m p, e.GenerateBinomial h m p ≤ m) (hfuel : ex < fuel)
    (hcs : ∀ c, c ∈ cs ↔ c < e.chunks_per_dim_ ^ 3) :
    ∃ t, computeChunks e fuel cs = some t ∧
      (∀ c ch, c < e.chunks_per_dim_ ^ 3 → t.chunks_ c = some ch →
        ch.offset = ∑ u in Finset.range c, chunkCount t u) ∧
      ∑ c in Finset.range (e.chunks_per_dim_ ^ 3), chunkCount t c = e.n := by
  obtain ⟨t, h1, h2, h3⟩ := computeChunks_spec e hb hN ex hK hrep fuel hfuel cs hcs
  exact ⟨t, h1, fun c ch hc hch => (h2 c ch hc hch).2, h3⟩

/-- C1 at a concrete input: 10 points on a 2 x 2 x 2 grid. -/
theorem ComputeChunk_intervals_cover_witness :
    ∃ t, computeChunks (sampleEnv 2 10 halfSampler 0 8) 2 (List.range 8) = some t ∧
      (∀ c ch, c < (sampleEnv 2 10 halfSampler 0 8).chunks_per_dim_ ^ 3 →
        t.chunks_ c = some ch → ch.offset = ∑ u in Finset.range c, chunkCount t u) ∧
      ∑ c in Finset.range ((sampleEnv 2 10 halfSampler 0 8).chunks_per_dim_ ^ 3),
        chunkCount t c = (sampleEnv 2 10 halfSampler 0 8).n :=
  ComputeChunk_intervals_cover (sampleEnv 2 10 halfSampler 0 8) 1 2 (List.range 8) rfl
    (by decide) (by decide) (fun _ m _ => Nat.div_le_self m 2) (by decide)
    (fun _ => List.mem_range)

/-- C2 fails for a grid that is not a power of two: with `K = 3`, `N = 1` and a
sampler that returns a value in `[0, n]`, after `ComputeChunk(c)` has run for
every `c` in `[0, 27)` the recorded counts sum to `0`, not to `1`: the point
lies in the chunk with coordinates `(2, 2, 2)`, whose Morton id `56` is not
below `K ^ 3 = 27`. -/
theorem ComputeChunk_sum_counterexample :
    (sampleEnv 3 1 halfSampler 0 27).chunks_per_dim_ = 3 ∧
    (sampleEnv 3 1 halfSampler 0 27).n = 1 ∧
    (∀ h m p, (sampleEnv 3 1 halfSampler 0 27).GenerateBinomial h m p ≤ m) ∧
    (computeChunks (sampleEnv 3 1 halfSampler 0 27) 10 (List.range 27)).map
      (fun t => ∑ c in Finset.range 27, chunkCount t c) = some 0 ∧
    (ComputeChunk (sampleEnv 3 1 halfSampler 0 27) 10 56 State.init).map
      (fun t => chunkCount t 56) = some 1 :=
  ⟨rfl, rfl, fun _ m _ => Nat.div_le_self m 2, by decide, by decide⟩

/-- C2, amended: for every seed, every `N` and every `K` that is a power of two
(with `K ^ 3` and `N` 64-bit values and a sampler returning a value in
`[0, n]`): after `ComputeChunk(c)` has run for every chunk id `c` in
`[0, K ^ 3)`, the point counts recorded in the chunk table for those ids sum to
exactly `N`, and every recorded count is positive (so `>= 0`). -/
theorem ComputeChunk_sum (e : Env F) (ex fuel : Nat) (cs : List Nat)
    (hK : e.chunks_per_dim_ = 2 ^ ex) (hrep : e.chunks_per_dim_ ^ 3 < 2 ^ 64)
    (hN : e.n < 2 ^ 64) (hb : ∀ h m p, e.GenerateBinomial h m p ≤ m) (hfuel : ex < fuel)
    (hcs : ∀ c, c ∈ cs ↔ c < e.chunks_per_dim_ ^ 3) :
    ∃ t, computeChunks e fuel cs = some t ∧
      ∑ c in Finset.range (e.chunks_per_dim_ ^ 3), chunkCount t c = e.n ∧
      ∀ c ch, c < e.chunks_per_dim_ ^ 3 → t.chunks_ c = some ch → 0 < ch.n := by
  obtain ⟨t, h1, h2, h3⟩ := computeChunks_spec e hb hN ex hK hrep fuel hfuel cs hcs
  exact ⟨t, h1, h3, fun c ch hc hch => (h2 c ch hc hch).1⟩

/-- C2 (amended) at a concrete input: 100 points on a 4 x 4 x 4 grid. -/
theorem ComputeChunk_sum_witness :
    ∃ t, computeChunks (sampleEnv 4 100 halfSampler 0 64) 3 (List.range 64) = some t ∧
      ∑ c in Finset.range ((sampleEnv 4 100 halfSampler 0 64).chunks_per_dim_ ^ 3),
        chunkCount t c = (sampleEnv 4 100 halfSampler 0 64).n ∧
      ∀ c ch, c < (sampleEnv 4 100 halfSampler 0 64).chunks_per_dim_ ^ 3 →
        t.chunks_ c = some ch → 0 < ch.n :=
  ComputeChunk_sum (sampleEnv 4 100 halfSampler 0 64) 2 3 (List.range 64) rfl
    (by decide) (by decide) (fun _ m _ => Nat.div_le_self m 2) (by decide)
    (fun _ => List.mem_range)

/-! ### The member functions keep the chunk table and the bookkeeping consistent -/

/-- The vertex loop leaves the bookkeeping of the local vertices alone. -/
theorem vertexLoop_account (e : Env F) (g : Nat) (cell : Cell F) (b : Bool) (l : List Nat)
    (s : State F) :
    (l.foldl (vertexStep e g cell b) s).num_nodes_ = s.num_nodes_ ∧
    (l.foldl (vertexStep e g cell b) s).start_node_ = s.start_node_ := by
  induction l generalizing s with
  | nil => exact ⟨rfl, rfl⟩
  | cons i l ih =>
    simp only [List.foldl_cons]
    obtain ⟨h1, h2⟩ := ih (vertexStep e g cell b s i)
    rw [h1, h2]
    unfold vertexStep PushCoordinate
    split <;> exact ⟨rfl, rfl⟩

theorem Marks_trans {c : Nat} {s t u : State F} (h1 : Marks c s t) (h2 : Marks c t u) :
    Marks c s u := by
  obtain ⟨a1, ⟨ch, a2, a3, a4⟩, a5, a6⟩ := h1
  obtain ⟨b1, ⟨ch2, b2, b3, b4⟩, b5, b6⟩ := h2
  have hat : chunkAt c t = ch := chunkAt_of_some c t ch a2
  refine ⟨fun x hx => by rw [b1 x hx, a1 x hx], ⟨ch2, b2, ?_, ?_⟩, by rw [b5, a5], by rw [b6, a6]⟩
  · rw [b3, hat, a3]
  · rw [b4, hat, a4]

theorem Marks_of_same {c : Nat} {s t u : State F} (h1 : Marks c s t)
    (h2 : u.chunks_ = t.chunks_) (h3 : u.num_nodes_ = t.num_nodes_)
    (h4 : u.start_node_ = t.start_node_) : Marks c s u := by
  obtain ⟨a1, ⟨ch, a2, a3, a4⟩, a5, a6⟩ := h1
  exact ⟨fun x hx => by rw [h2, a1 x hx], ⟨ch, by rw [h2, a2], a3, a4⟩, by rw [h3, a5],
    by rw [h4, a6]⟩

theorem touchChunk_marks (c : Nat) (s : State F) : Marks c s (touchChunk c s) := by
  refine ⟨fun x hx => ?_, ⟨chunkAt c s, touchChunk_chunks_self c s, rfl, rfl⟩, rfl, rfl⟩
  simp [touchChunk, setKey, hx]

/-- The function `GenerateCells` is the lazy computation of the chunk followed by changes that
keep the counts and offsets of the chunk table. -/
theorem GenerateCells_marks (e : Env F) (fuel c : Nat) (s s1 : State F)
    (h : lazyChunk e fuel c s = some s1) :
    ∃ t, GenerateCells e fuel c s = some t ∧ Marks c s1 t := by
  unfold lazyChunk at h
  unfold GenerateCells
  rw [h]
  dsimp only
  by_cases hg : (chunkAt c s1).generated = true
  · rw [if_pos hg]
    exact ⟨_, rfl, touchChunk_marks c s1⟩
  · rw [if_neg hg]
    refine ⟨_, rfl, fun x hx => ?_,
      ⟨Chunk.mk (chunkAt c s1).n (chunkAt c s1).x_off (chunkAt c s1).y_off (chunkAt c s1).z_off
        true (chunkAt c s1).offset, by simp [setKey], rfl, rfl⟩, rfl, rfl⟩
    simp [touchChunk, setKey, hx]

theorem lazyChunk_of_some (e : Env F) (fuel c : Nat) (s : State F) (ch : Chunk F)
    (h : s.chunks_ c = some ch) : lazyChunk e fuel c s = some s := by
  simp [lazyChunk, h]

/-- The function `GenerateVertices` is the lazy computation of the chunk followed by changes
that keep the counts and offsets of the chunk table. -/
theorem GenerateVertices_marks (e : Env F) (fuel c i : Nat) (b : Bool) (s s1 : State F)
    (h : lazyChunk e fuel c s = some s1) :
    ∃ t, GenerateVertices e fuel c i b s = some t ∧ Marks c s1 t := by
  unfold lazyChunk at h
  unfold GenerateVertices
  rw [h]
  dsimp only
  have hm2 := touchChunk_marks c s1
  have h3 : ∃ s3, (if (chunkAt c s1).generated = true then some (touchChunk c s1)
      else GenerateCells e fuel c (touchChunk c s1)) = some s3 ∧ Marks c s1 s3 := by
    by_cases hg : (chunkAt c s1).generated = true
    · rw [if_pos hg]
      exact ⟨_, rfl, hm2⟩
    · rw [if_neg hg]
      obtain ⟨s3, k1, k2⟩ := GenerateCells_marks e fuel c (touchChunk c s1) (touchChunk c s1)
        (lazyChunk_of_some e fuel c _ _ (touchChunk_chunks_self c s1))
      exact ⟨s3, k1, Marks_trans hm2 k2⟩
  obtain ⟨s3, k1, k2⟩ := h3
  rw [k1]
  dsimp only
  cases hcell : s3.cells_ (ComputeGlobalCellId e c i) with
  | none => exact ⟨s3, rfl, k2⟩
  | some cell =>
    dsimp only
    by_cases hg : cell.generated = true
    · rw [if_pos hg]
      exact ⟨s3, rfl, k2⟩
    · rw [if_neg hg]
      refine ⟨_, rfl, Marks_of_same k2 ?_ ?_ ?_⟩
      · exact (vertexLoop_tables e _ cell b _ _).1
      · exact (vertexLoop_account e _ cell b _ _).1
      · exact (vertexLoop_account e _ cell b _ _).2

theorem Keeps_refl {e : Env F} {ex : Nat} {s : State F} (h : Truthful e ex s) :
    Keeps e ex s s :=
  ⟨h, fun _ h => h, fun _ h => h⟩

theorem Keeps_trans {e : Env F} {ex : Nat} {s t u : State F} (h1 : Keeps e ex s t)
    (h2 : Keeps e ex t u) : Keeps e ex s u :=
  ⟨h2.1, Grows_trans h1.2.1 h2.2.1, fun hh h => h2.2.2 hh (h1.2.2 hh h)⟩

theorem chunkAt_n (c : Nat) (s : State F) : (chunkAt c s).n = chunkCount s c := by
  unfold chunkAt chunkCount
  cases s.chunks_ c <;> rfl

/-- Changes that keep the counts and offsets keep the invariants. -/
theorem Marks_keeps {e : Env F} {ex c : Nat} {s t : State F} (hm : Marks c s t)
    (hT : Truthful e ex s) (hS : Settled e ex s c) :
    Keeps e ex s t ∧ t.chunks_ c ≠ none := by
  obtain ⟨a1, ⟨ch, a2, a3, a4⟩, a5, a6⟩ := hm
  have hcount : ∀ x, chunkCount t x = chunkCount s x := by
    intro x
    by_cases hx : x = c
    · subst hx
      rw [← chunkAt_n x s, ← a3]
      simp [chunkCount, a2]
    · simp [chunkCount, a1 x hx]
  have hback : ∀ x ch2, t.chunks_ x = some ch2 → 0 < ch2.n →
      ∃ ch1, s.chunks_ x = some ch1 ∧ ch1.n = ch2.n ∧ ch1.offset = ch2.offset := by
    intro x ch2 hx hn
    by_cases hxc : x = c
    · subst hxc
      rw [a2] at hx
      simp only [Option.some.injEq] at hx
      subst hx
      cases hs : s.chunks_ x with
      | none =>
        rw [chunkAt, hs] at a3
        simp [Chunk.fresh] at a3
        omega
      | some ch1 =>
        rw [chunkAt_of_some x s ch1 hs] at a3 a4
        exact ⟨ch1, rfl, a3.symm, a4.symm⟩
    · rw [a1 x hxc] at hx
      exact ⟨ch2, hx, rfl, rfl⟩
  have hfwd : ∀ x ch1, s.chunks_ x = some ch1 →
      ∃ ch2, t.chunks_ x = some ch2 ∧ ch2.n = ch1.n ∧ ch2.offset = ch1.offset := by
    intro x ch1 hx
    by_cases hxc : x = c
    · subst hxc
      rw [chunkAt_of_some x s ch1 hx] at a3 a4
      exact ⟨ch, a2, a3, a4⟩
    · exact ⟨ch1, by rw [a1 x hxc]; exact hx, rfl, rfl⟩
  refine ⟨⟨?_, ?_, ?_⟩, by rw [a2]; simp⟩
  · intro x hx ch2 hx2
    by_cases hn : 0 < ch2.n
    · obtain ⟨ch1, k1, k2, k3⟩ := hback x ch2 hx2 hn
      obtain ⟨t1, t2⟩ := hT x hx ch1 k1
      exact ⟨by rw [← k2]; exact t1, fun _ => by rw [← k3]; exact t2 (by omega)⟩
    · have hz : ch2.n = 0 := by omega
      refine ⟨?_, fun h => absurd h hn⟩
      have hc2 : chunkCount t x = 0 := by simp [chunkCount, hx2, hz]
      rw [hcount x] at hc2
      rw [hz]
      by_cases hxc : x = c
      · subst hxc
        cases hs : s.chunks_ x with
        | none =>
          rcases hS with hS | hS
          · exact absurd hs hS
          · exact hS.symm
        | some ch1 =>
          have := (hT x hx ch1 hs).1
          simp [chunkCount, hs] at hc2
          omega
      · rw [a1 x hxc] at hx2
        have := (hT x hx ch2 hx2).1
        omega
  · intro x hx
    by_cases hxc : x = c
    · subst hxc
      rw [a2]
      simp
    · rw [a1 x hxc]
      exact hx
  · intro _ hA
    obtain ⟨b1, b2, b3⟩ := hA
    refine ⟨?_, ?_, ?_⟩
    · rw [a5, b1]
      exact Finset.sum_congr rfl (fun x _ => (hcount x).symm)
    · intro x hx1 hx2 ch2 hxc hn
      obtain ⟨ch1, k1, k2, k3⟩ := hback x ch2 hxc hn
      rw [a6, ← k3]
      exact b2 x hx1 hx2 ch1 k1 (by omega)
    · rw [a6]
      rcases b3 with b3 | ⟨x, hx1, hx2, ch1, k1, k2, k3⟩
      · exact Or.inl b3
      · obtain ⟨ch2, l1, l2, l3⟩ := hfwd x ch1 k1
        exact Or.inr ⟨x, hx1, hx2, ch2, l1, by omega, by omega⟩

/-- The function `ComputeChunk(c)` keeps the invariants and settles `c`. -/
theorem ComputeChunk_keeps (e : Env F) (hb : ∀ h m p, e.GenerateBinomial h m p ≤ m)
    (hN : e.n < 2 ^ 64) (ex : Nat) (hK : e.chunks_per_dim_ = 2 ^ ex)
    (hrep : (2 ^ ex) ^ 3 < 2 ^ 64) (fuel : Nat) (hfuel : ex < fuel) (c : Nat)
    (hc : c < 8 ^ ex) (s : State F) (hT : Truthful e ex s) :
    ∃ t, ComputeChunk e fuel c s = some t ∧ Keeps e ex s t ∧ Settled e ex t c := by
  obtain ⟨t, h1, h2, h3, h4, _, h6⟩ := ComputeChunk_inv e hb hN ex hK hrep fuel hfuel c hc s hT
  exact ⟨t, h1, ⟨h2, h3, h6⟩, h4⟩

/-- The lazy computation of a chunk keeps the invariants and settles the chunk. -/
theorem lazyChunk_keeps (e : Env F) (hb : ∀ h m p, e.GenerateBinomial h m p ≤ m)
    (hN : e.n < 2 ^ 64) (ex : Nat) (hK : e.chunks_per_dim_ = 2 ^ ex)
    (hrep : (2 ^ ex) ^ 3 < 2 ^ 64) (fuel : Nat) (hfuel : ex < fuel) (c : Nat)
    (hc : c < 8 ^ ex) (s : State F) (hT : Truthful e ex s) :
    ∃ t, lazyChunk e fuel c s = some t ∧ Keeps e ex s t ∧ Settled e ex t c := by
  cases hs : s.chunks_ c with
  | none =>
    have : lazyChunk e fuel c s = ComputeChunk e fuel c s := by simp [lazyChunk, hs]
    rw [this]
    exact ComputeChunk_keeps e hb hN ex hK hrep fuel hfuel c hc s hT
  | some ch =>
    exact ⟨s, lazyChunk_of_some e fuel c s ch hs, Keeps_refl hT, Or.inl (by simp [hs])⟩

/-- Every call that an implementation of `GenerateEdges` can issue keeps the
invariants and settles its chunk. -/
theorem runCall_keeps (e : Env F) (hb : ∀ h m p, e.GenerateBinomial h m p ≤ m)
    (hN : e.n < 2 ^ 64) (ex : Nat) (hK : e.chunks_per_dim_ = 2 ^ ex)
    (hrep : (2 ^ ex) ^ 3 < 2 ^ 64) (fuel : Nat) (hfuel : ex < fuel) (call : Call)
    (hc : call.chunk < 8 ^ ex) (s : State F) (hT : Truthful e ex s) :
    ∃ t, runCall e fuel s call = some t ∧ Keeps e ex s t ∧ Settled e ex t call.chunk := by
  cases call with
  | ComputeChunk c => exact ComputeChunk_keeps e hb hN ex hK hrep fuel hfuel c hc s hT
  | GenerateCells c =>
    obtain ⟨s1, k1, k2, k3⟩ := lazyChunk_keeps e hb hN ex hK hrep fuel hfuel c hc s hT
    obtain ⟨t, l1, l2⟩ := GenerateCells_marks e fuel c s s1 k1
    obtain ⟨m1, m2⟩ := Marks_keeps l2 k2.1 k3
    exact ⟨t, l1, Keeps_trans k2 m1, Or.inl m2⟩
  | GenerateVertices c i b =>
    obtain ⟨s1, k1, k2, k3⟩ := lazyChunk_keeps e hb hN ex hK hrep fuel hfuel c hc s hT
    obtain ⟨t, l1, l2⟩ := GenerateVertices_marks e fuel c i b s s1 k1
    obtain ⟨m1, m2⟩ := Marks_keeps l2 k2.1 k3
    exact ⟨t, l1, Keeps_trans k2 m1, Or.inl m2⟩

/-- On a power-of-two grid `GenerateVertices` returns for every valid chunk id,
from every state with a truthful chunk table. -/
theorem GenerateVertices_returns (e : Env F) (hb : ∀ h m p, e.GenerateBinomial h m p ≤ m)
    (hN : e.n < 2 ^ 64) (ex : Nat) (hK : e.chunks_per_dim_ = 2 ^ ex)
    (hrep : (2 ^ ex) ^ 3 < 2 ^ 64) (fuel : Nat) (hfuel : ex < fuel) (c i : Nat) (b : Bool)
    (hc : c < 8 ^ ex) (s : State F) (hT : Truthful e ex s) :
    ∃ t, GenerateVertices e fuel c i b s = some t := by
  obtain ⟨t, h1, _⟩ :=
    runCall_keeps e hb hN ex hK hrep fuel hfuel (Call.GenerateVertices c i b) hc s hT
  exact ⟨t, h1⟩

/-- A loop whose steps keep the invariants keeps the invariants. -/
theorem foldlM_keeps {α : Type} (e : Env F) (ex : Nat) (f : State F → α → Option (State F))
    (l : List α)
    (hstep : ∀ s x, x ∈ l → Truthful e ex s → ∃ t, f s x = some t ∧ Keeps e ex s t) :
    ∀ s, Truthful e ex s → ∃ t, l.foldlM f s = some t ∧ Keeps e ex s t := by
  induction l with
  | nil => intro s hT; exact ⟨s, rfl, Keeps_refl hT⟩
  | cons x l ih =>
    intro s hT
    obtain ⟨t1, h1, k1⟩ := hstep s x (by simp) hT
    obtain ⟨t, h2, k2⟩ := ih (fun s y hy => hstep s y (by simp [hy])) t1 k1.1
    refine ⟨t, ?_, Keeps_trans k1 k2⟩
    simp only [List.foldlM_cons, h1]
    exact h2

/-- The function `GenerateChunk(c)` keeps the invariants. -/
theorem GenerateChunk_keeps (e : Env F) (hb : ∀ h m p, e.GenerateBinomial h m p ≤ m)
    (hN : e.n < 2 ^ 64) (ex : Nat) (hK : e.chunks_per_dim_ = 2 ^ ex)
    (hrep : (2 ^ ex) ^ 3 < 2 ^ 64) (fuel : Nat) (hfuel : ex < fuel)
    (hcalls : ∀ r c d call, call ∈ e.GenerateEdges r c d → call.chunk < 8 ^ ex) (c : Nat)
    (hc : c < 8 ^ ex) (s : State F) (hT : Truthful e ex s) :
    ∃ t, GenerateChunk e fuel c s = some t ∧ Keeps e ex s t := by
  obtain ⟨s1, h1, k1, _⟩ :=
    runCall_keeps e hb hN ex hK hrep fuel hfuel (Call.GenerateCells c) hc s hT
  obtain ⟨s2, h2, k2⟩ := foldlM_keeps e ex (fun t i => GenerateVertices e fuel c i true t)
    (List.range e.cells_per_chunk_)
    (fun u i _ hu => by
      obtain ⟨t, l1, l2, _⟩ :=
        runCall_keeps e hb hN ex hK hrep fuel hfuel (Call.GenerateVertices c i true) hc u hu
      exact ⟨t, l1, l2⟩) s1 k1.1
  obtain ⟨s3, h3, k3⟩ := foldlM_keeps e ex (runCall e fuel)
    (e.GenerateEdges (Decode c).2.1 (Decode c).1 (Decode c).2.2)
    (fun u call hcall hu => by
      obtain ⟨t, l1, l2, _⟩ := runCall_keeps e hb hN ex hK hrep fuel hfuel call
        (hcalls _ _ _ call hcall) u hu
      exact ⟨t, l1, l2⟩) s2 k2.1
  refine ⟨s3, ?_, Keeps_trans (Keeps_trans k1 k2) k3⟩
  unfold GenerateChunk
  dsimp only
  have h1' : GenerateCells e fuel c s = some s1 := h1
  rw [h1']
  dsimp only
  rw [h2]
  exact h3

/-! ### GenerateEdgeList and the vertex range -/

theorem Account_init (e : Env F) : Account e (State.init : State F) := by
  refine ⟨?_, ?_, Or.inl rfl⟩
  · show 0 = _
    symm
    apply Finset.sum_eq_zero
    intro c _
    rfl
  · intro c _ _ ch h
    simp [State.init] at h

theorem mem_localChunks (e : Env F) (c : Nat) :
    c ∈ localChunks e ↔ e.local_chunk_start_ ≤ c ∧ c < e.local_chunk_end_ := by
  unfold localChunks
  rw [List.mem_range'_1]
  omega

/-- The function `GenerateEdgeList` on a power-of-two grid: it returns, the chunk table is
truthful, the bookkeeping agrees with the table, every local chunk is settled,
and the vertex range is set from the bookkeeping. -/
theorem GenerateEdgeList_spec (e : Env F) (hb : ∀ h m p, e.GenerateBinomial h m p ≤ m)
    (hN : e.n < 2 ^ 64) (ex : Nat) (hK : e.chunks_per_dim_ = 2 ^ ex)
    (hrep : (2 ^ ex) ^ 3 < 2 ^ 64) (fuel : Nat) (hfuel : ex < fuel)
    (hcalls : ∀ r c d call, call ∈ e.GenerateEdges r c d → call.chunk < 8 ^ ex)
    (hhi : e.local_chunk_end_ ≤ 8 ^ ex) :
    ∃ t, GenerateEdgeList e fuel State.init = some t ∧ Truthful e ex t ∧ Account e t ∧
      (∀ c, e.local_chunk_start_ ≤ c → c < e.local_chunk_end_ → Settled e ex t c) ∧
      t.vertex_range_ = (t.start_node_, add64 t.start_node_ t.num_nodes_) := by
  have hloc : ∀ c, c ∈ localChunks e → c < 8 ^ ex := by
    intro c hc
    have := (mem_localChunks e c).1 hc
    omega
  obtain ⟨s1, h1, hT1, _, hS1, _, hA1⟩ := ComputeChunk_fold e hb hN ex hK hrep fuel hfuel
    (localChunks e) State.init hloc (Truthful_init e ex)
  obtain ⟨s2, h2, hT2, hG2, hA2⟩ := foldlM_keeps e ex (fun t i => GenerateChunk e fuel i t)
    (localChunks e)
    (fun u c hc hu => GenerateChunk_keeps e hb hN ex hK hrep fuel hfuel hcalls c (hloc c hc) u hu)
    s1 hT1
  refine ⟨SetVertexRange s2.start_node_ (add64 s2.start_node_ s2.num_nodes_) s2, ?_, hT2,
    hA2 hhi (hA1 hhi (Account_init e)), ?_, rfl⟩
  · unfold GenerateEdgeList
    rw [h1]
    dsimp only
    rw [h2]
  · intro c hc1 hc2
    exact Settled_mono (hS1 c ((mem_localChunks e c).2 ⟨hc1, hc2⟩)) hG2

/-- The offset recorded for a non-empty chunk is the number of points in the
chunks before it. -/
theorem offset_of_stored (e : Env F) (hb : ∀ h m p, e.GenerateBinomial h m p ≤ m)
    (hN : e.n < 2 ^ 64) (ex : Nat) (hK : e.chunks_per_dim_ = 2 ^ ex)
    (hrep : (2 ^ ex) ^ 3 < 2 ^ 64) (t : State F) (hT : Truthful e ex t) (c : Nat)
    (hc : c < 8 ^ ex) (ch : Chunk F) (hch : t.chunks_ c = some ch) (hn : 0 < ch.n) :
    ch.offset = ∑ u in Finset.range c, trueCount e ex u := by
  obtain ⟨k1, k2⟩ := hT c hc ch hch
  rw [k2 hn]
  obtain ⟨r, hr, hl⟩ := (chunkLeaf_spec e hb hN ex hK hrep).1 c hc
  cases r with
  | none =>
    rw [trueCount, hr] at k1
    simp [leafCount] at k1
    omega
  | some leaf =>
    rw [trueOffset, hr]
    exact (hl leaf rfl).2.2

theorem sum_range_mono (f : Nat → Nat) {a b : Nat} (h : a ≤ b) :
    ∑ u in Finset.range a, f u ≤ ∑ u in Finset.range b, f u :=
  Finset.sum_le_sum_of_subset (Finset.range_mono h)

/-- The vertex range of a rank that owns at least one point: it starts at the
number of points in the chunks before its first chunk and ends at the number
of points in the chunks before its last chunk. -/
theorem range_of_account (e : Env F) (hb : ∀ h m p, e.GenerateBinomial h m p ≤ m)
    (hN : e.n < 2 ^ 64) (ex : Nat) (hK : e.chunks_per_dim_ = 2 ^ ex)
    (hrep : (2 ^ ex) ^ 3 < 2 ^ 64) (t : State F) (hT : Truthful e ex t) (hA : Account e t)
    (hS : ∀ c, e.local_chunk_start_ ≤ c → c < e.local_chunk_end_ → Settled e ex t c)
    (hhi : e.local_chunk_end_ ≤ 8 ^ ex) (hpos : 0 < t.num_nodes_) :
    t.start_node_ = ∑ u in Finset.range e.local_chunk_start_, trueCount e ex u ∧
    t.start_node_ + t.num_nodes_ = ∑ u in Finset.range e.local_chunk_end_, trueCount e ex u ∧
    t.start_node_ + t.num_nodes_ ≤ e.n := by
  obtain ⟨a1, a2, a3⟩ := hA
  have htot := (chunkLeaf_spec e hb hN ex hK hrep).2
  have hnum : t.num_nodes_ =
      ∑ c in Finset.Ico e.local_chunk_start_ e.local_chunk_end_, trueCount e ex c := by
    rw [a1]
    apply Finset.sum_congr rfl
    intro c hc
    obtain ⟨c1, c2⟩ := Finset.mem_Ico.1 hc
    exact chunkCount_of_settled e ex t hT c (by omega) (hS c c1 c2)
  have hlohi : e.local_chunk_start_ ≤ e.local_chunk_end_ := by
    by_contra hcon
    rw [hnum, Finset.Ico_eq_empty (by omega), Finset.sum_empty] at hpos
    omega
  have hsplit := Finset.sum_range_add_sum_Ico (trueCount e ex) hlohi
  have hB : ∑ u in Finset.range e.local_chunk_end_, trueCount e ex u ≤ e.n := by
    rw [← htot]
    exact sum_range_mono _ hhi
  -- the first non-empty local chunk
  have hex : ∃ c, e.local_chunk_start_ ≤ c ∧ c < e.local_chunk_end_ ∧ 0 < trueCount e ex c := by
    by_contra hcon
    have hz : ∑ c in Finset.Ico e.local_chunk_start_ e.local_chunk_end_, trueCount e ex c = 0 := by
      apply Finset.sum_eq_zero
      intro c hc
      obtain ⟨c1, c2⟩ := Finset.mem_Ico.1 hc
      by_contra hne
      exact hcon ⟨c, c1, c2, by omega⟩
    omega
  classical
  obtain ⟨f1, f2, f3⟩ := Nat.find_spec hex
  have fmin : ∀ u, e.local_chunk_start_ ≤ u → u < Nat.find hex → trueCount e ex u = 0 := by
    intro u hu1 hu2
    by_contra hne
    exact Nat.find_min hex hu2 ⟨hu1, by omega, by omega⟩
  have hBfirst : ∑ u in Finset.range (Nat.find hex), trueCount e ex u =
      ∑ u in Finset.range e.local_chunk_start_, trueCount e ex u := by
    rw [← Finset.sum_range_add_sum_Ico (trueCount e ex) f1]
    have : ∑ u in Finset.Ico e.local_chunk_start_ (Nat.find hex), trueCount e ex u = 0 := by
      apply Finset.sum_eq_zero
      intro u hu
      obtain ⟨u1, u2⟩ := Finset.mem_Ico.1 hu
      exact fmin u u1 u2
    omega
  have hfirst : ∃ ch, t.chunks_ (Nat.find hex) = some ch ∧ 0 < ch.n := by
    cases hch : t.chunks_ (Nat.find hex) with
    | none =>
      rcases hS _ f1 f2 with h | h
      · exact absurd hch h
      · omega
    | some ch => exact ⟨ch, rfl, by rw [(hT _ (by omega) ch hch).1]; exact f3⟩
  obtain ⟨ch1, g1, g2⟩ := hfirst
  have g3 := offset_of_stored e hb hN ex hK hrep t hT _ (by omega) ch1 g1 g2
  have hle := a2 _ f1 f2 ch1 g1 g2
  have hcnt1 : ch1.n = trueCount e ex (Nat.find hex) := (hT _ (by omega) ch1 g1).1
  have hB1 : ∑ u in Finset.range (Nat.find hex + 1), trueCount e ex u ≤
      ∑ u in Finset.range e.local_chunk_end_, trueCount e ex u := sum_range_mono _ (by omega)
  rw [Finset.sum_range_succ] at hB1
  have hstart : t.start_node_ =
      ∑ u in Finset.range e.local_chunk_start_, trueCount e ex u := by
    rcases a3 with a3 | ⟨c2, d1, d2, ch2, d3, d4, d5⟩
    · omega
    · have d6 := offset_of_stored e hb hN ex hK hrep t hT c2 (by omega) ch2 d3 d4
      have d7 : ∑ u in Finset.range e.local_chunk_start_, trueCount e ex u ≤
          ∑ u in Finset.range c2, trueCount e ex u := sum_range_mono _ d1
      omega
  refine ⟨hstart, ?_, ?_⟩ <;> omega

/-- C9 fails on a grid that is not a power of two: with `K = 5`, `N = 10` and a
rank owning the chunk ids `[112, 114)`, `GenerateEdgeList` ends with
`num_nodes_ = 3` although the counts recorded for the owned chunks sum to `1`.
The decoded depth `5` of chunk id `113` lies outside the grid; its descent ends
in the chunk with id `112`, stores that chunk once more and counts its point
for the local id `113` each time `ComputeChunk(113)` runs (once in the first
loop and once through `GenerateCells`). -/
theorem GenerateEdgeList_vertex_range_counterexample :
    (GenerateEdgeList (sampleEnv 5 10 halfSampler 112 114) 10 State.init).map
      (fun t => (t.num_nodes_, ∑ c in Finset.Ico 112 114, chunkCount t c, t.vertex_range_)) =
      some (3, 1, (1, 4)) := by
  decide

/-- C9, amended: on a grid with `K` a power of two (`K ^ 3` and `N` 64-bit values,
a sampler returning a value in `[0, n]`), for a rank owning the chunk ids
`[local_chunk_start_, local_chunk_end_)` below `K ^ 3` and an implementation of
`GenerateEdges` that names only chunk ids below `K ^ 3`: `GenerateEdgeList`
returns; the vertex range is `[start_node_, start_node_ + num_nodes_)`;
`num_nodes_` is the sum of the counts recorded for the owned chunks, each of
which is the count that `ComputeChunk` computes for that chunk (whatever calls
`GenerateEdges` issues); and if that sum is positive, `start_node_` is the
smallest offset among the non-empty owned chunks. -/
theorem GenerateEdgeList_vertex_range (e : Env F) (ex fuel : Nat)
    (hK : e.chunks_per_dim_ = 2 ^ ex) (hrep : e.chunks_per_dim_ ^ 3 < 2 ^ 64)
    (hN : e.n < 2 ^ 64) (hb : ∀ h m p, e.GenerateBinomial h m p ≤ m) (hfuel : ex < fuel)
    (hhi : e.local_chunk_end_ ≤ e.chunks_per_dim_ ^ 3)
    (hcalls : ∀ r c d call, call ∈ e.GenerateEdges r c d →
      call.chunk < e.chunks_per_dim_ ^ 3) :
    ∃ t, GenerateEdgeList e fuel State.init = some t ∧
      t.vertex_range_ = (t.start_node_, t.start_node_ + t.num_nodes_) ∧
      t.num_nodes_ =
        ∑ c in Finset.Ico e.local_chunk_start_ e.local_chunk_end_, chunkCount t c ∧
      (∀ c, e.local_chunk_start_ ≤ c → c < e.local_chunk_end_ →
        (ComputeChunk e fuel c State.init).map (fun u => chunkCount u c) =
          some (chunkCount t c)) ∧
      (0 < t.num_nodes_ →
        (∃ c, e.local_chunk_start_ ≤ c ∧ c < e.local_chunk_end_ ∧
          ∃ ch, t.chunks_ c = some ch ∧ 0 < ch.n ∧ ch.offset = t.start_node_) ∧
        ∀ c, e.local_chunk_start_ ≤ c → c < e.local_chunk_end_ →
          ∀ ch, t.chunks_ c = some ch → 0 < ch.n → t.start_node_ ≤ ch.offset) := by
  have h8 : e.chunks_per_dim_ ^ 3 = 8 ^ ex := by rw [hK]; exact cube_two_pow ex
  rw [hK] at hrep
  rw [h8] at hhi hcalls
  obtain ⟨t, ht, hT, hA, hS, hvr⟩ :=
    GenerateEdgeList_spec e hb hN ex hK hrep fuel hfuel hcalls hhi
  have hrange := range_of_account e hb hN ex hK hrep t hT hA hS hhi
  obtain ⟨a1, a2, a3⟩ := hA
  have htot := (chunkLeaf_spec e hb hN ex hK hrep).2
  have hstart : t.start_node_ < 2 ^ 64 := by
    rcases a3 with a3 | ⟨c, c1, c2, ch, c3, c4, c5⟩
    · omega
    · have := offset_of_stored e hb hN ex hK hrep t hT c (by omega) ch c3 c4
      have hle : ∑ u in Finset.range c, trueCount e ex u ≤
          ∑ u in Finset.range (8 ^ ex), trueCount e ex u := sum_range_mono _ (by omega)
      omega
  refine ⟨t, ht, ?_, a1, ?_, ?_⟩
  · rw [hvr]
    by_cases hpos : 0 < t.num_nodes_
    · rw [add64_eq (by have := (hrange hpos).2.2; omega)]
    · rw [add64_eq (by omega)]
  · intro c c1 c2
    obtain ⟨u, hu, ku, su⟩ := ComputeChunk_keeps e hb hN ex hK hrep fuel hfuel c (by omega)
      State.init (Truthful_init e ex)
    rw [hu]
    simp only [Option.map_some', Option.some.injEq]
    rw [chunkCount_of_settled e ex u ku.1 c (by omega) su,
      chunkCount_of_settled e ex t hT c (by omega) (hS c c1 c2)]
  · intro hpos
    refine ⟨?_, a2⟩
    rcases a3 with a3 | a3
    · have := (hrange hpos).2.2
      omega
    · exact a3

/-- C9 (amended) at a concrete input: 10 points on a 2 x 2 x 2 grid, the rank
owning the chunk ids `[2, 5)`. -/
theorem GenerateEdgeList_vertex_range_witness :
    ∃ t, GenerateEdgeList (sampleEnv 2 10 halfSampler 2 5) 2 State.init = some t ∧
      t.vertex_range_ = (t.start_node_, t.start_node_ + t.num_nodes_) ∧
      t.num_nodes_ =
        ∑ c in Finset.Ico (sampleEnv 2 10 halfSampler 2 5).local_chunk_start_
          (sampleEnv 2 10 halfSampler 2 5).local_chunk_end_, chunkCount t c ∧
      (∀ c, (sampleEnv 2 10 halfSampler 2 5).local_chunk_start_ ≤ c →
        c < (sampleEnv 2 10 halfSampler 2 5).local_chunk_end_ →
        (ComputeChunk (sampleEnv 2 10 halfSampler 2 5) 2 c State.init).map
          (fun u => chunkCount u c) = some (chunkCount t c)) ∧
      (0 < t.num_nodes_ →
        (∃ c, (sampleEnv 2 10 halfSampler 2 5).local_chunk_start_ ≤ c ∧
          c < (sampleEnv 2 10 halfSampler 2 5).local_chunk_end_ ∧
          ∃ ch, t.chunks_ c = some ch ∧ 0 < ch.n ∧ ch.offset = t.start_node_) ∧
        ∀ c, (sampleEnv 2 10 halfSampler 2 5).local_chunk_start_ ≤ c →
          c < (sampleEnv 2 10 halfSampler 2 5).local_chunk_end_ →
          ∀ ch, t.chunks_ c = some ch → 0 < ch.n → t.start_node_ ≤ ch.offset) :=
  GenerateEdgeList_vertex_range (sampleEnv 2 10 halfSampler 2 5) 1 2 rfl (by decide) (by decide)
    (fun _ m _ => Nat.div_le_self m 2) (by decide) (by decide)
    (fun _ _ _ _ h => absurd h (List.not_mem_nil _))

/-! ### The vertex ranges of all ranks -/

/-- The chunk distribution of `InitDatastructures` in closed form: rank `r` of
`P` owns the chunk ids from `r * (T / P) + min r (T % P)` up to
`(r + 1) * (T / P) + min (r + 1) (T % P)`. -/
theorem rankEnv_chunks (e : Env F) (P r : Nat) (hT : e.total_chunks_ < 2 ^ 64) (hr : r < P) :
    (rankEnv e P r).local_chunk_start_ =
      r * (e.total_chunks_ / P) + min r (e.total_chunks_ % P) ∧
    (rankEnv e P r).local_chunk_end_ =
      (r + 1) * (e.total_chunks_ / P) + min (r + 1) (e.total_chunks_ % P) ∧
    (r + 1) * (e.total_chunks_ / P) + min (r + 1) (e.total_chunks_ % P) ≤ e.total_chunks_ := by
  have hP : 0 < P := by omega
  have h1 : P * (e.total_chunks_ / P) + e.total_chunks_ % P = e.total_chunks_ :=
    Nat.div_add_mod _ _
  have h2 : e.total_chunks_ % P < P := Nat.mod_lt _ hP
  have h3 : (r + 1) * (e.total_chunks_ / P) ≤ P * (e.total_chunks_ / P) :=
    Nat.mul_le_mul_right _ (by omega)
  have h4 : (r + 1) * (e.total_chunks_ / P) = r * (e.total_chunks_ / P) + e.total_chunks_ / P :=
    Nat.succ_mul _ _
  have h5 : r * (e.total_chunks_ / P + 1) = r * (e.total_chunks_ / P) + r := Nat.mul_succ _ _
  show add64 (mul64 r (add64 (e.total_chunks_ / P) (if r < e.total_chunks_ % P then 1 else 0)))
      (if e.total_chunks_ % P ≤ r then e.total_chunks_ % P else 0) = _ ∧
    add64 (add64 (mul64 r (add64 (e.total_chunks_ / P)
      (if r < e.total_chunks_ % P then 1 else 0)))
      (if e.total_chunks_ % P ≤ r then e.total_chunks_ % P else 0))
      (add64 (e.total_chunks_ / P) (if r < e.total_chunks_ % P then 1 else 0)) = _ ∧ _
  generalize e.total_chunks_ / P = q at *
  generalize e.total_chunks_ % P = l at *
  generalize ha : r * q = a at *
  generalize hb : P * q = b at *
  by_cases hl : r < l
  · have hnl : ¬(l ≤ r) := by omega
    simp only [hl, hnl, if_true, if_false]
    have e1 : add64 q 1 = q + 1 := add64_eq (by omega)
    rw [e1]
    have e2 : mul64 r (q + 1) = a + r := by
      rw [mul64_eq (by rw [h5]; omega), h5]
    rw [e2]
    have e3 : add64 (a + r) 0 = a + r := add64_eq (by omega)
    rw [e3]
    have e4 : add64 (a + r) (q + 1) = a + r + (q + 1) := add64_eq (by omega)
    rw [e4, h4]
    refine ⟨?_, ?_, ?_⟩ <;> omega
  · have hnl : l ≤ r := by omega
    simp only [hl, hnl, if_true, if_false]
    have e1 : add64 q 0 = q := add64_eq (by omega)
    rw [e1]
    have e2 : mul64 r q = a := by
      rw [mul64_eq (by omega), ha]
    rw [e2]
    have e3 : add64 a l = a + l := add64_eq (by omega)
    rw [e3]
    have e4 : add64 (a + l) q = a + l + q := add64_eq (by omega)
    rw [e4, h4]
    refine ⟨?_, ?_, ?_⟩ <;> omega

/-- The counts of the descent do not depend on the rank. -/
theorem trueCount_rankEnv (e : Env F) (P r ex c : Nat) :
    trueCount (rankEnv e P r) ex c = trueCount e ex c := by
  unfold trueCount chunkLeaf
  have hr : rootArgs (rankEnv e P r) = rootArgs e := rfl
  rw [hr, descend_env e (rankEnv e P r) rfl rfl rfl rfl rfl]

/-- The vertex range of one rank: `GenerateEdgeList` returns, and a non-empty
range starts at the number of points in the chunks before the first chunk of
the rank and ends at the number of points in the chunks before its last
chunk. -/
theorem rankRange_spec (e : Env F) (hb : ∀ h m p, e.GenerateBinomial h m p ≤ m)
    (hN : e.n < 2 ^ 64) (ex : Nat) (hK : e.chunks_per_dim_ = 2 ^ ex)
    (hTC : e.total_chunks_ = 8 ^ ex) (hrep : (2 ^ ex) ^ 3 < 2 ^ 64) (fuel : Nat)
    (hfuel : ex < fuel)
    (hcalls : ∀ r c d call, call ∈ e.GenerateEdges r c d → call.chunk < 8 ^ ex)
    (P r : Nat) (hr : r < P) :
    ∃ rg, rankRange e fuel P r = some rg ∧
      (rg.1 < rg.2 →
        rg.1 = ∑ u in Finset.range (r * (e.total_chunks_ / P) + min r (e.total_chunks_ % P)),
          trueCount e ex u ∧
        rg.2 = ∑ u in Finset.range
            ((r + 1) * (e.total_chunks_ / P) + min (r + 1) (e.total_chunks_ % P)),
          trueCount e ex u) := by
  have h8 := cube_two_pow ex
  obtain ⟨c1, c2, c3⟩ := rankEnv_chunks e P r (by omega) hr
  have hhi : (rankEnv e P r).local_chunk_end_ ≤ 8 ^ ex := by omega
  obtain ⟨t, ht, hT, hA, hS, hvr⟩ :=
    GenerateEdgeList_spec (rankEnv e P r) hb hN ex hK hrep fuel hfuel hcalls hhi
  have hrange := range_of_account (rankEnv e P r) hb hN ex hK hrep t hT hA hS hhi
  refine ⟨t.vertex_range_, by simp [rankRange, ht], ?_⟩
  rw [hvr]
  intro hlt
  have hpos : 0 < t.num_nodes_ := by
    by_contra hcon
    have hz : t.num_nodes_ = 0 := by omega
    rw [hz] at hlt
    simp only [add64, add_zero] at hlt
    have := Nat.mod_le t.start_node_ (2 ^ 64)
    omega
  obtain ⟨k1, k2, k3⟩ := hrange hpos
  have hn : (rankEnv e P r).n = e.n := rfl
  rw [hn] at k3
  dsimp only
  rw [add64_eq (by omega), k2, k1, c1, c2]
  simp only [trueCount_rankEnv]
  exact ⟨trivial, trivial⟩

/-- C10 fails in two ways.  On a grid that is not a power of two (`K = 3`,
`N = 2`, one rank) the only range is `[0, 1)` and does not end at `N = 2`: the
second point lies in a chunk whose Morton id is not below `K ^ 3`.  On a
power-of-two grid (`K = 2`, `N = 1`, two ranks) rank 1 owns no point and its
range is `[2 ^ 64 - 1, 2 ^ 64 - 1)`, the initial value of `start_node_`: it does
not start where the range `[0, 1)` of rank 0 ends, and it does not end at
`N = 1`. -/
theorem vertex_ranges_partition_counterexample :
    ((sampleEnv 3 2 ceilSampler 0 0).n = 2 ∧
      rankRange (sampleEnv 3 2 ceilSampler 0 0) 10 1 0 = some (0, 1)) ∧
    ((sampleEnv 2 1 lowSampler 0 0).n = 1 ∧
      rankRange (sampleEnv 2 1 lowSampler 0 0) 10 2 0 = some (0, 1) ∧
      rankRange (sampleEnv 2 1 lowSampler 0 0) 10 2 1 = some (2 ^ 64 - 1, 2 ^ 64 - 1)) := by
  decide

/-- C10, amended: on a grid with `K` a power of two (`total_chunks_ = K ^ 3` and
`N` 64-bit values, a sampler returning a value in `[0, n]`, `GenerateEdges`
naming only chunk ids below `K ^ 3`), for every number of ranks `P >= 1`, with
the chunk ownership computed by `InitDatastructures`: `GenerateEdgeList` sets a
vertex range on every rank, and if the range of every rank is non-empty (every
rank owns at least one point), the ranges of the ranks `0, …, P - 1` form a
contiguous partition of `[0, N)`: the range of rank 0 starts at `0`, the range
of every other rank starts where the range of the rank before it ends, and the
last range ends at `N`. -/
theorem vertex_ranges_partition (e : Env F) (ex fuel P : Nat)
    (hK : e.chunks_per_dim_ = 2 ^ ex) (hTC : e.total_chunks_ = e.chunks_per_dim_ ^ 3)
    (hrep : e.chunks_per_dim_ ^ 3 < 2 ^ 64) (hN : e.n < 2 ^ 64)
    (hb : ∀ h m p, e.GenerateBinomial h m p ≤ m) (hfuel : ex < fuel)
    (hcalls : ∀ r c d call, call ∈ e.GenerateEdges r c d →
      call.chunk < e.chunks_per_dim_ ^ 3)
    (hP : 0 < P) :
    ∃ ranges : Nat → Nat × Nat,
      (∀ r, r < P → rankRange e fuel P r = some (ranges r)) ∧
      ((∀ r, r < P → (ranges r).1 < (ranges r).2) →
        (ranges 0).1 = 0 ∧ (∀ r, r + 1 < P → (ranges (r + 1)).1 = (ranges r).2) ∧
        (ranges (P - 1)).2 = e.n) := by
  have h8 : e.chunks_per_dim_ ^ 3 = 8 ^ ex := by rw [hK]; exact cube_two_pow ex
  rw [hK] at hrep
  rw [h8] at hTC hcalls
  have hspec := rankRange_spec e hb hN ex hK hTC hrep fuel hfuel hcalls P
  have hsome : ∀ r, r < P → rankRange e fuel P r = some ((rankRange e fuel P r).getD (0, 0)) := by
    intro r hr
    obtain ⟨rg, k1, _⟩ := hspec r hr
    rw [k1]
    rfl
  refine ⟨fun r => (rankRange e fuel P r).getD (0, 0), hsome, ?_⟩
  intro hne
  have hval : ∀ r, r < P →
      ((rankRange e fuel P r).getD (0, 0)).1 =
        ∑ u in Finset.range (r * (e.total_chunks_ / P) + min r (e.total_chunks_ % P)),
          trueCount e ex u ∧
      ((rankRange e fuel P r).getD (0, 0)).2 =
        ∑ u in Finset.range
            ((r + 1) * (e.total_chunks_ / P) + min (r + 1) (e.total_chunks_ % P)),
          trueCount e ex u := by
    intro r hr
    obtain ⟨rg, k1, k2⟩ := hspec r hr
    have hrg : (rankRange e fuel P r).getD (0, 0) = rg := by rw [k1]; rfl
    have := hne r hr
    dsimp only at this
    rw [hrg] at this ⊢
    exact k2 this
  refine ⟨?_, ?_, ?_⟩
  · dsimp only
    rw [(hval 0 hP).1]
    simp
  · intro r hr
    dsimp only
    rw [(hval (r + 1) hr).1, (hval r (by omega)).2]
  · dsimp only
    rw [(hval (P - 1) (by omega)).2]
    have hP1 : P - 1 + 1 = P := by omega
    have hmod : e.total_chunks_ % P < P := Nat.mod_lt _ hP
    rw [hP1, Nat.min_eq_right (le_of_lt hmod), Nat.div_add_mod, hTC]
    exact (chunkLeaf_spec e hb hN ex hK hrep).2

/-- C10 (amended) at a concrete input: 10 points on a 2 x 2 x 2 grid, two ranks. -/
theorem vertex_ranges_partition_witness :
    ∃ ranges : Nat → Nat × Nat,
      (∀ r, r < 2 → rankRange (sampleEnv 2 10 halfSampler 0 0) 2 2 r = some (ranges r)) ∧
      ((∀ r, r < 2 → (ranges r).1 < (ranges r).2) →
        (ranges 0).1 = 0 ∧ (∀ r, r + 1 < 2 → (ranges (r + 1)).1 = (ranges r).2) ∧
        (ranges (2 - 1)).2 = (sampleEnv 2 10 halfSampler 0 0).n) :=
  vertex_ranges_partition (sampleEnv 2 10 halfSampler 0 0) 1 2 2 rfl rfl (by decide) (by decide)
    (fun _ m _ => Nat.div_le_self m 2) (by decide)
    (fun _ _ _ _ h => absurd h (List.not_mem_nil _)) (by decide)

/-! ### A single point, and no point at all -/

/-- A sum of natural numbers that equals one has exactly one summand that is
one, and all other summands are zero. -/
theorem sum_range_eq_one (f : Nat → Nat) (n : Nat) (h : ∑ c in Finset.range n, f c = 1) :
    ∃ c0, c0 < n ∧ f c0 = 1 ∧ ∀ c, c < n → c ≠ c0 → f c = 0 := by
  have hex : ∃ c0 ∈ Finset.range n, f c0 ≠ 0 := by
    by_contra hne
    push_neg at hne
    rw [Finset.sum_eq_zero hne] at h
    omega
  obtain ⟨c0, hc0, hf⟩ := hex
  have hsplit := Finset.add_sum_erase (Finset.range n) f hc0
  have hrest : ∑ c in (Finset.range n).erase c0, f c = 0 := by omega
  refine ⟨c0, Finset.mem_range.1 hc0, by omega, fun c hc hne => ?_⟩
  exact (Finset.sum_eq_zero_iff.1 hrest) c (Finset.mem_erase.2 ⟨hne, Finset.mem_range.2 hc⟩)

/-- C11 fails for a grid that is not a power of two: with `K = 3`, `N = 1` and a
sampler that returns a value in `[0, n]`, after `ComputeChunk(c)` has run for
every `c` in `[0, 27)` no chunk id in `[0, 27)` has a recorded count of `1`. -/
theorem ComputeChunk_single_point_counterexample :
    (sampleEnv 3 1 halfSampler 0 27).chunks_per_dim_ = 3 ∧
    (sampleEnv 3 1 halfSampler 0 27).n = 1 ∧
    (∀ h m p, (sampleEnv 3 1 halfSampler 0 27).GenerateBinomial h m p ≤ m) ∧
    (computeChunks (sampleEnv 3 1 halfSampler 0 27) 10 (List.range 27)).map
      (fun t => (List.range 27).filter (fun c => decide (chunkCount t c = 1))) = some [] :=
  ⟨rfl, rfl, fun _ m _ => Nat.div_le_self m 2, by decide⟩

/-- C11, amended: for `N = 1` and every `K` that is a power of two (with `K ^ 3`
a 64-bit value and a sampler returning a value in `[0, n]`), so in particular
for `K = 2, 4, 8, …`: after `ComputeChunk` has run for every chunk id in
`[0, K ^ 3)`, exactly one chunk id `c0` has a recorded count of `1`, and every
other chunk id below `K ^ 3` has no entry. -/
theorem ComputeChunk_single_point (e : Env F) (ex fuel : Nat) (cs : List Nat)
    (hK : e.chunks_per_dim_ = 2 ^ ex) (hrep : e.chunks_per_dim_ ^ 3 < 2 ^ 64)
    (hN : e.n = 1) (hb : ∀ h m p, e.GenerateBinomial h m p ≤ m) (hfuel : ex < fuel)
    (hcs : ∀ c, c ∈ cs ↔ c < e.chunks_per_dim_ ^ 3) :
    ∃ t, computeChunks e fuel cs = some t ∧
      ∃ c0, c0 < e.chunks_per_dim_ ^ 3 ∧ (∃ ch, t.chunks_ c0 = some ch ∧ ch.n = 1) ∧
        ∀ c, c < e.chunks_per_dim_ ^ 3 → c ≠ c0 → t.chunks_ c = none := by
  obtain ⟨t, h1, h2, h3⟩ :=
    computeChunks_spec e hb (by rw [hN]; decide) ex hK hrep fuel hfuel cs hcs
  rw [hN] at h3
  obtain ⟨c0, hc0, hone, hrest⟩ := sum_range_eq_one _ _ h3
  refine ⟨t, h1, c0, hc0, ?_, fun c hc hne => ?_⟩
  · cases hch : t.chunks_ c0 with
    | none => simp [chunkCount, hch] at hone
    | some ch => exact ⟨ch, rfl, by simpa [chunkCount, hch] using hone⟩
  · cases hch : t.chunks_ c with
    | none => rfl
    | some ch =>
      have hz := hrest c hc hne
      have hp := (h2 c ch hc hch).1
      simp [chunkCount, hch] at hz
      omega

/-- C11 (amended) at a concrete input: one point on a 2 x 2 x 2 grid. -/
theorem ComputeChunk_single_point_witness :
    ∃ t, computeChunks (sampleEnv 2 1 halfSampler 0 8) 2 (List.range 8) = some t ∧
      ∃ c0, c0 < (sampleEnv 2 1 halfSampler 0 8).chunks_per_dim_ ^ 3 ∧
        (∃ ch, t.chunks_ c0 = some ch ∧ ch.n = 1) ∧
        ∀ c, c < (sampleEnv 2 1 halfSampler 0 8).chunks_per_dim_ ^ 3 → c ≠ c0 →
          t.chunks_ c = none :=
  ComputeChunk_single_point (sampleEnv 2 1 halfSampler 0 8) 1 2 (List.range 8) rfl
    (by decide) rfl (fun _ m _ => Nat.div_le_self m 2) (by decide) (fun _ => List.mem_range)

/-- C12 does not hold of the code: for `N = 0` on a 2 x 2 x 2 grid and a single
rank, `GenerateEdgeList` leaves every chunk with count `0` and materialises no
vertex, but the vertex range it sets is `[2 ^ 64 - 1, 2 ^ 64 - 1)`, the initial
value of `start_node_`, and not `[0, 0)`; the same holds for the first of two
ranks. -/
theorem GenerateEdgeList_empty_graph :
    (GenerateEdgeList (sampleEnv 2 0 halfSampler 0 8) 10 State.init).map
      (fun t => (t.vertex_range_, t.num_nodes_,
        (List.range 8).all (fun c => decide (chunkCount t c = 0) && (t.vertices_ c).isNone))) =
      some ((2 ^ 64 - 1, 2 ^ 64 - 1), 0, true) ∧
    rankRange (sampleEnv 2 0 halfSampler 0 0) 10 1 0 = some (2 ^ 64 - 1, 2 ^ 64 - 1) ∧
    rankRange (sampleEnv 2 0 halfSampler 0 0) 10 2 0 = some (2 ^ 64 - 1, 2 ^ 64 - 1) :=
  ⟨by decide, by decide, by decide⟩

/-! ### The validator: order, sorting and duplicates -/

theorem Edge.le_iff (a b : Edge) :
    Edge.le a b ↔ a.1 < b.1 ∨ (a.1 = b.1 ∧ (a.2.1 < b.2.1 ∨ (a.2.1 = b.2.1 ∧ a.2.2 ≤ b.2.2))) := by
  obtain ⟨a1, a2, a3⟩ := a
  obtain ⟨b1, b2, b3⟩ := b
  simp only [Edge.le, Edge.less, Bool.or_eq_false_iff, Bool.and_eq_false_iff, decide_eq_false_iff_not]
  omega

theorem Edge.less_iff (a b : Edge) :
    Edge.less a b = true ↔
      a.1 < b.1 ∨ (a.1 = b.1 ∧ (a.2.1 < b.2.1 ∨ (a.2.1 = b.2.1 ∧ a.2.2 < b.2.2))) := by
  simp only [Edge.less, Bool.or_eq_true, Bool.and_eq_true, decide_eq_true_eq]

theorem Edge.le_total (a b : Edge) : Edge.le a b ∨ Edge.le b a := by
  rw [Edge.le_iff, Edge.le_iff]; omega

theorem Edge.le_trans (a b c : Edge) (h1 : Edge.le a b) (h2 : Edge.le b c) : Edge.le a c := by
  rw [Edge.le_iff] at *; omega

theorem Edge.le_antisymm (a b : Edge) (h1 : Edge.le a b) (h2 : Edge.le b a) : a = b := by
  rw [Edge.le_iff] at *
  obtain ⟨a1, a2, a3⟩ := a
  obtain ⟨b1, b2, b3⟩ := b
  simp only [Prod.mk.injEq]
  simp only at h1 h2
  omega

theorem sortEdges_perm (l : List Edge) : (sortEdges l).Perm l :=
  @List.perm_insertionSort Edge Edge.le Edge.decLe l

theorem sortEdges_sorted (l : List Edge) : (sortEdges l).Pairwise Edge.le :=
  @List.sorted_insertionSort Edge Edge.le Edge.decLe ⟨Edge.le_total⟩ ⟨Edge.le_trans⟩ l

theorem attachWeights_keys (el : List (Nat × Nat)) : ∀ (ew : List Int),
    (attachWeights el ew).map (fun e => (e.1, e.2.1)) = el := by
  induction el with
  | nil => intro ew; rfl
  | cons e es ih =>
    intro ew
    cases ew with
    | nil => simp [attachWeights, ih]
    | cons w ws => simp [attachWeights, ih]

theorem findDuplicate_none_iff (l : List Edge) (hs : l.Pairwise Edge.le) :
    findDuplicate l = none ↔ (l.map (fun e => (e.1, e.2.1))).Nodup := by
  induction l with
  | nil => simp [findDuplicate]
  | cons a rest ih =>
    cases rest with
    | nil => simp [findDuplicate]
    | cons b rest =>
      have hs2 := (List.pairwise_cons.1 hs).2
      have hab := (List.pairwise_cons.1 hs).1 b (by simp)
      unfold findDuplicate
      by_cases h : a.1 = b.1 ∧ a.2.1 = b.2.1
      · rw [if_pos h]
        simp only [List.map_cons, List.nodup_cons, List.mem_cons, not_or, false_iff, reduceCtorEq]
        intro hh
        exact hh.1.1 (Prod.ext h.1 h.2)
      · rw [if_neg h, ih hs2]
        simp only [List.map_cons, List.nodup_cons, List.mem_cons, not_or, List.mem_map,
          not_exists, not_and]
        constructor
        · rintro ⟨h1, h2⟩
          refine ⟨⟨fun heq => h ?_, fun c hc heq => h ?_⟩, h1, h2⟩
          · simp only [Prod.mk.injEq] at heq; exact heq
          · have hbc := (List.pairwise_cons.1 hs2).1 c hc
            rw [Edge.le_iff] at hab hbc
            simp only [Prod.mk.injEq] at heq
            omega
        · rintro ⟨-, h1, h2⟩
          exact ⟨h1, h2⟩

theorem findDuplicate_some (l : List Edge) (e : Edge) (h : findDuplicate l = some e) :
    List.Duplicate (e.1, e.2.1) (l.map (fun e => (e.1, e.2.1))) := by
  induction l with
  | nil => simp [findDuplicate] at h
  | cons a rest ih =>
    cases rest with
    | nil => simp [findDuplicate] at h
    | cons b rest =>
      unfold findDuplicate at h
      by_cases hk : a.1 = b.1 ∧ a.2.1 = b.2.1
      · rw [if_pos hk] at h
        simp only [Option.some.injEq] at h
        subst h
        simp only [List.map_cons, hk.1, hk.2]
        exact List.Duplicate.cons_mem (List.mem_cons_self _ _)
      · rw [if_neg hk] at h
        exact List.Duplicate.cons_duplicate (ih h)

theorem duplicate_perm {l1 l2 : List (Nat × Nat)} (x : Nat × Nat) (h : l1.Perm l2)
    (hd : List.Duplicate x l1) : List.Duplicate x l2 := by
  rw [List.duplicate_iff_two_le_count] at hd ⊢
  rwa [← h.count_eq]

theorem duplicate_positions (l : List (Nat × Nat)) (x : Nat × Nat) :
    List.Duplicate x l ↔ ∃ (i j : Nat), i < j ∧ l[i]? = some x ∧ l[j]? = some x := by
  rw [List.duplicate_iff_exists_distinct_get]
  constructor
  · rintro ⟨n, m, hnm, h1, h2⟩
    refine ⟨n, m, hnm, ?_, ?_⟩
    · rw [List.getElem?_eq_getElem n.2, h1]; rfl
    · rw [List.getElem?_eq_getElem m.2, h2]; rfl
  · rintro ⟨i, j, hij, h1, h2⟩
    have hi : i < l.length := by
      by_contra hcon
      rw [List.getElem?_eq_none (by omega)] at h1
      simp at h1
    have hj : j < l.length := by
      by_contra hcon
      rw [List.getElem?_eq_none (by omega)] at h2
      simp at h2
    refine ⟨⟨i, hi⟩, ⟨j, hj⟩, hij, ?_, ?_⟩
    · rw [List.getElem?_eq_getElem hi] at h1
      simp only [Option.some.injEq] at h1
      exact h1.symm
    · rw [List.getElem?_eq_getElem hj] at h2
      simp only [Option.some.injEq] at h2
      exact h2.symm

/-! ### The validator: node offsets and binary search -/

theorem increment_fold (g : Edge → Nat) (l : List Edge) : ∀ (v : List Nat),
    (∀ e, e ∈ l → g e < v.length) →
    ∃ w, l.foldlM (fun v e => increment v (g e)) v = some w ∧ w.length = v.length ∧
      ∀ i, i < v.length → w.getD i 0 = v.getD i 0 + l.countP (fun e => decide (g e = i)) := by
  induction l with
  | nil =>
    intro v _
    exact ⟨v, rfl, rfl, fun i _ => by simp⟩
  | cons e rest ih =>
    intro v hv
    have he : g e < v.length := hv e (by simp)
    obtain ⟨w, hw, hlen, hget⟩ := ih (v.set (g e) (v.getD (g e) 0 + 1))
      (fun x hx => by rw [List.length_set]; exact hv x (by simp [hx]))
    refine ⟨w, ?_, by rw [hlen, List.length_set], fun i hi => ?_⟩
    · simp only [List.foldlM_cons, increment, he, if_true]
      exact hw
    · rw [hget i (by rw [List.length_set]; exact hi), List.countP_cons]
      simp only [List.getD_eq_getElem?_getD, List.getElem?_set, he, if_true]
      by_cases hgi : g e = i
      · subst hgi
        simp only [if_true, Option.getD_some, decide_True]
        omega
      · simp only [hgi, if_false, decide_False]
        simp

theorem partial_sum_length (l : List Nat) : ∀ acc, (partial_sum acc l).length = l.length := by
  induction l with
  | nil => intro acc; rfl
  | cons x xs ih => intro acc; simp [partial_sum, ih]

theorem partial_sum_get (l : List Nat) : ∀ acc k, k < l.length →
    (partial_sum acc l)[k]? = some (acc + (l.take (k + 1)).sum) := by
  induction l with
  | nil => intro acc k hk; simp at hk
  | cons x xs ih =>
    intro acc k hk
    cases k with
    | zero => simp [partial_sum]
    | succ k =>
      simp only [partial_sum, List.getElem?_cons_succ]
      rw [ih (acc + x) k (by simpa using hk)]
      simp [List.take_succ_cons, Nat.add_assoc]

theorem countP_le_succ (g : Edge → Nat) (l : List Edge) (k : Nat) :
    l.countP (fun e => decide (g e ≤ k + 1)) =
      l.countP (fun e => decide (g e ≤ k)) + l.countP (fun e => decide (g e = k + 1)) := by
  induction l with
  | nil => rfl
  | cons e rest ih =>
    simp only [List.countP_cons, ih]
    by_cases h1 : g e ≤ k
    · have h2 : g e ≤ k + 1 := by omega
      have h3 : ¬g e = k + 1 := by omega
      simp [h1, h2, h3]; omega
    · by_cases h3 : g e = k + 1
      · have h2 : g e ≤ k + 1 := by omega
        simp [h1, h2, h3]; omega
      · have h2 : ¬g e ≤ k + 1 := by omega
        simp [h1, h2, h3]

theorem sum_take_counts (g : Edge → Nat) (l : List Edge) (w : List Nat)
    (hw : ∀ i, i < w.length → w.getD i 0 = l.countP (fun e => decide (g e = i))) :
    ∀ k, k < w.length → (w.take (k + 1)).sum = l.countP (fun e => decide (g e ≤ k)) := by
  intro k
  induction k with
  | zero =>
    intro hk
    have h0 := hw 0 hk
    cases w with
    | nil => simp at hk
    | cons a as =>
      simp only [List.getD_cons_zero] at h0
      simp only [zero_add, List.take_succ_cons, List.take_zero, List.sum_cons, List.sum_nil,
        add_zero, h0, Nat.le_zero_eq]
  | succ k ih =>
    intro hk
    have hk1 := hw (k + 1) hk
    rw [List.getD_eq_getElem?_getD, List.getElem?_eq_getElem hk, Option.getD_some] at hk1
    rw [List.sum_take_succ w (k + 1) hk, ih (by omega), hk1, countP_le_succ]

theorem nodeOffset_spec (lf lt : Nat) (S : List Edge) (hlt : lt + 1 < 2 ^ 64) (hle : lf ≤ lt)
    (hS : ∀ e, e ∈ S → lf ≤ e.1 ∧ e.1 < lt) :
    ∃ off, nodeOffset lf lt S = some off ∧ off.length = lt - lf + 1 ∧
      ∀ k, k ≤ lt - lf → off[k]? = some (S.countP (fun e => decide (e.1 < lf + k))) := by
  have hsize : add64 (sub64 lt lf) 1 = lt - lf + 1 := by
    rw [sub64_eq hle (by omega), add64_eq (by omega)]
  have hg : ∀ e, e ∈ S → add64 (sub64 e.1 lf) 1 = e.1 - lf + 1 := by
    intro e he
    have := hS e he
    rw [sub64_eq this.1 (by omega), add64_eq (by omega)]
  obtain ⟨w, hw, hlen, hget⟩ := increment_fold (fun e => add64 (sub64 e.1 lf) 1) S
    (List.replicate (add64 (sub64 lt lf) 1) 0)
    (fun e he => by
      have := hS e he
      show add64 (sub64 e.1 lf) 1 < _
      rw [hg e he, List.length_replicate, hsize]
      omega)
  rw [List.length_replicate, hsize] at hlen
  refine ⟨partial_sum 0 w, ?_, by rw [partial_sum_length, hlen], fun k hk => ?_⟩
  · simp only [nodeOffset, hw, Option.map_some']
  · have hget2 : ∀ i, i < w.length →
        w.getD i 0 = S.countP (fun e => decide (add64 (sub64 e.1 lf) 1 = i)) := by
      intro i hi
      rw [hget i (by rw [List.length_replicate, hsize]; omega)]
      have hi2 : i < add64 (sub64 lt lf) 1 := by rw [hsize]; omega
      simp [List.getD_eq_getElem?_getD, List.getElem?_replicate, hi2]
    rw [partial_sum_get w 0 k (by omega), zero_add,
      sum_take_counts (fun e => add64 (sub64 e.1 lf) 1) S w hget2 k (by omega)]
    congr 1
    apply List.countP_congr
    intro e he
    have := hS e he
    simp only [hg e he, decide_eq_true_eq]
    omega

theorem Edge.le_refl (a : Edge) : Edge.le a a := by
  rw [Edge.le_iff]; omega

theorem sorted_getD_le (l : List Edge) (hs : l.Pairwise Edge.le) (i j : Nat) (hij : i ≤ j)
    (hj : j < l.length) : Edge.le (l.getD i (0, 0, 0)) (l.getD j (0, 0, 0)) := by
  have hi : i < l.length := by omega
  rw [List.getD_eq_getElem?_getD, List.getD_eq_getElem?_getD, List.getElem?_eq_getElem hi,
    List.getElem?_eq_getElem hj, Option.getD_some, Option.getD_some]
  rcases Nat.lt_or_eq_of_le hij with h | h
  · exact List.pairwise_iff_getElem.1 hs i j hi hj h
  · subst h; exact Edge.le_refl _

theorem prefix_tail (l : List Edge) (hs : l.Pairwise Edge.le) (t : Nat) :
    ∀ j, j < l.length →
      ((l.getD j (0, 0, 0)).1 < t ↔ j < l.countP (fun e => decide (e.1 < t))) := by
  induction l with
  | nil => intro j hj; simp at hj
  | cons a rest ih =>
    intro j hj
    have hs2 := (List.pairwise_cons.1 hs).2
    have ha := (List.pairwise_cons.1 hs).1
    by_cases hat : a.1 < t
    · rw [List.countP_cons_of_pos _ _ (by simpa using hat)]
      cases j with
      | zero => simp [hat]
      | succ j =>
        simp only [List.getD_cons_succ]
        rw [ih hs2 j (by simpa using hj)]
        omega
    · have hzero : rest.countP (fun e => decide (e.1 < t)) = 0 := by
        rw [List.countP_eq_zero]
        intro e he
        have := ha e he
        rw [Edge.le_iff] at this
        simp only [decide_eq_true_eq]
        omega
      rw [List.countP_cons_of_neg _ _ (by simpa using hat), hzero]
      cases j with
      | zero => simp [hat]
      | succ j =>
        simp only [List.getD_cons_succ]
        have hj2 : j < rest.length := by simpa using hj
        have : rest.getD j (0, 0, 0) ∈ rest := by
          rw [List.getD_eq_getElem?_getD, List.getElem?_eq_getElem hj2, Option.getD_some]
          exact List.getElem_mem _
        have := ha _ this
        rw [Edge.le_iff] at this
        omega

theorem lower_bound_spec (l : List Edge) (hs : l.Pairwise Edge.le) (x : Edge) :
    ∀ (fuel first len : Nat), len ≤ fuel → first + len ≤ l.length →
      first ≤ lower_bound l x fuel first len ∧ lower_bound l x fuel first len ≤ first + len ∧
      (∀ j, first ≤ j → j < lower_bound l x fuel first len →
        Edge.less (l.getD j (0, 0, 0)) x = true) ∧
      (∀ j, lower_bound l x fuel first len ≤ j → j < first + len →
        Edge.less (l.getD j (0, 0, 0)) x = false) := by
  intro fuel
  induction fuel with
  | zero =>
    intro first len hlen _
    have : len = 0 := by omega
    subst this
    simp only [lower_bound]
    exact ⟨le_refl _, by omega, fun j h1 h2 => by omega, fun j h1 h2 => by omega⟩
  | succ fuel ih =>
    intro first len hlen hbound
    simp only [lower_bound]
    by_cases h0 : len = 0
    · rw [if_pos h0]
      exact ⟨le_refl _, by omega, fun j h1 h2 => by omega, fun j h1 h2 => by omega⟩
    rw [if_neg h0]
    have hhalf : len / 2 < len := Nat.div_lt_self (by omega) (by decide)
    by_cases hm : Edge.less (l.getD (first + len / 2) (0, 0, 0)) x = true
    · rw [if_pos hm]
      obtain ⟨k1, k2, k3, k4⟩ := ih (first + len / 2 + 1) (len - len / 2 - 1) (by omega)
        (by omega)
      refine ⟨by omega, by omega, fun j h1 h2 => ?_, fun j h1 h2 => k4 j h1 (by omega)⟩
      by_cases hj : j ≤ first + len / 2
      · have hle := sorted_getD_le l hs j (first + len / 2) hj (by omega)
        rw [Edge.le_iff] at hle
        rw [Edge.less_iff] at hm ⊢
        omega
      · exact k3 j (by omega) h2
    · rw [if_neg hm]
      obtain ⟨k1, k2, k3, k4⟩ := ih first (len / 2) (by omega) (by omega)
      refine ⟨k1, by omega, k3, fun j h1 h2 => ?_⟩
      by_cases hj : j < first + len / 2
      · exact k4 j h1 hj
      · have hle := sorted_getD_le l hs (first + len / 2) j (by omega) (by omega)
        rw [Edge.le_iff] at hle
        have hm2 : ¬Edge.less (l.getD (first + len / 2) (0, 0, 0)) x = true := hm
        rw [Edge.less_iff] at hm2
        have : ¬Edge.less (l.getD j (0, 0, 0)) x = true := by
          rw [Edge.less_iff]; omega
        simpa using this

theorem binary_search_iff (l : List Edge) (hs : l.Pairwise Edge.le) (lo hi : Nat) (x : Edge)
    (hlo : lo ≤ hi) (hhi : hi ≤ l.length) :
    binary_search l lo hi x = true ↔ ∃ j, lo ≤ j ∧ j < hi ∧ l[j]? = some x := by
  obtain ⟨k1, k2, k3, k4⟩ := lower_bound_spec l hs x (hi - lo) lo (hi - lo) (le_refl _) (by omega)
  have hsum : lo + (hi - lo) = hi := by omega
  rw [hsum] at k2 k4
  simp only [binary_search, Bool.and_eq_true, decide_eq_true_eq, Bool.not_eq_true']
  constructor
  · rintro ⟨hne, hnl⟩
    refine ⟨_, k1, by omega, ?_⟩
    have hlt : lower_bound l x (hi - lo) lo (hi - lo) < l.length := by omega
    have h1 := k4 _ (le_refl _) (by omega)
    rw [List.getD_eq_getElem?_getD, List.getElem?_eq_getElem hlt, Option.getD_some] at h1 hnl
    rw [List.getElem?_eq_getElem hlt]
    exact congrArg some (Edge.le_antisymm _ _ hnl h1)
  · rintro ⟨j, hj1, hj2, hj⟩
    have hjl : j < l.length := by omega
    have hx : l.getD j (0, 0, 0) = x := by
      rw [List.getD_eq_getElem?_getD, hj, Option.getD_some]
    have hij : lower_bound l x (hi - lo) lo (hi - lo) ≤ j := by
      by_contra hcon
      have := k3 j hj1 (by omega)
      rw [hx, Edge.less_iff] at this
      omega
    refine ⟨by omega, ?_⟩
    have := sorted_getD_le l hs _ j hij hjl
    rw [hx] at this
    exact this

/-! ### The validator: vertex ranges -/

theorem consecutive_iff (l : List (Nat × Nat)) :
    consecutive l = true ↔ ∀ i a b, l[i]? = some a → l[i + 1]? = some b → b.1 = a.2 := by
  induction l with
  | nil => simp [consecutive]
  | cons x xs ih =>
    cases xs with
    | nil => simp [consecutive]
    | cons y ys =>
      simp only [consecutive, Bool.and_eq_true, beq_iff_eq, ih]
      constructor
      · rintro ⟨h1, h2⟩ i a b ha hb
        cases i with
        | zero =>
          simp only [List.getElem?_cons_zero, Option.some.injEq, zero_add,
            List.getElem?_cons_succ] at ha hb
          subst ha; subst hb; exact h1
        | succ i =>
          simp only [List.getElem?_cons_succ] at ha hb
          exact h2 i a b ha (by simpa using hb)
      · intro h
        refine ⟨h 0 x y rfl (by simp), fun i a b ha hb => h (i + 1) a b ?_ ?_⟩
        · simpa using ha
        · simpa using hb

theorem ValidateVertexRanges_spec (edge_list ranges : List (Nat × Nat)) (rank : Nat)
    (hrank : rank < ranges.length) :
    ValidateVertexRanges edge_list ranges rank =
      some (@decide (VertexRangesValid edge_list ranges rank) (Classical.propDecidable _)) := by
  obtain ⟨loc, hloc⟩ : ∃ loc, ranges[rank]? = some loc := ⟨ranges[rank], by simp [hrank]⟩
  have hne : ranges ≠ [] := by rintro rfl; simp at hrank
  obtain ⟨front, hfront⟩ : ∃ front, ranges.head? = some front := by
    cases ranges with
    | nil => exact absurd rfl hne
    | cons a b => exact ⟨a, rfl⟩
  obtain ⟨back, hback⟩ : ∃ back, ranges.getLast? = some back :=
    ⟨ranges.getLast hne, List.getLast?_eq_getLast _ hne⟩
  unfold ValidateVertexRanges
  simp only [hfront, hloc, hback]
  by_cases h1 : ranges.any (fun r => decide (r.1 > r.2)) = true
  · rw [if_pos h1]
    congr 1
    symm
    rw [decide_eq_false_iff_not]
    rintro ⟨k1, -⟩
    simp only [List.any_eq_true, decide_eq_true_eq] at h1
    obtain ⟨r, hr, hgt⟩ := h1
    have := k1 r hr
    omega
  rw [if_neg h1]
  by_cases h2 : front.1 ≠ 0
  · rw [if_pos h2]
    congr 1
    symm
    rw [decide_eq_false_iff_not]
    rintro ⟨-, k2, -⟩
    exact h2 (k2 front hfront)
  rw [if_neg h2]
  by_cases h3 : (!consecutive ranges) = true
  · rw [if_pos h3]
    congr 1
    symm
    rw [decide_eq_false_iff_not]
    rintro ⟨-, -, k3, -⟩
    rw [← consecutive_iff] at k3
    simp [k3] at h3
  rw [if_neg h3]
  congr 1
  simp only [Bool.not_eq_true, Bool.not_eq_false'] at h3
  rw [consecutive_iff] at h3
  simp only [List.any_eq_true, decide_eq_true_eq, not_exists, not_and, not_lt] at h1
  push_neg at h2
  rw [Bool.eq_iff_iff]
  simp only [List.all_eq_true, Bool.and_eq_true, Bool.not_eq_true', Bool.or_eq_false_iff,
    decide_eq_false_iff_not, decide_eq_true_eq, VertexRangesValid, hloc, hback, hfront,
    Option.some.injEq, forall_eq']
  constructor
  · intro h
    refine ⟨fun r hr => by have := h1 r hr; omega, h2, h3, fun e he => ?_, fun e he => ?_⟩
    · have := h e he; omega
    · have := h e he; omega
  · rintro ⟨-, -, -, k4, k5⟩ e he
    have := k4 e he
    have := k5 e he
    omega

/-- C13: seen as a function of the gathered list of ranges, of the local rank
(an index of that list) and of the local edge list, `ValidateVertexRanges`
returns `true` if and only if every range has `first <= first_invalid`, the
first range starts at `0`, every range starts where the previous one ends,
every edge tail lies in the local range `[local_from, local_to)` and every edge
head is smaller than the end of the last range; otherwise it returns `false`. -/
theorem ValidateVertexRanges_iff (edge_list ranges : List (Nat × Nat)) (rank : Nat)
    (hrank : rank < ranges.length) :
    (ValidateVertexRanges edge_list ranges rank = some true ↔
      VertexRangesValid edge_list ranges rank) ∧
    (ValidateVertexRanges edge_list ranges rank = some false ↔
      ¬VertexRangesValid edge_list ranges rank) := by
  rw [ValidateVertexRanges_spec edge_list ranges rank hrank]
  simp

/-- C13 at a concrete input: two ranks with the ranges `[0, 2)` and `[2, 5)`, and
the edges `(2, 0)` and `(3, 4)` on rank 1. -/
theorem ValidateVertexRanges_iff_witness :
    1 < [((0 : Nat), (2 : Nat)), (2, 5)].length ∧
    ValidateVertexRanges [(2, 0), (3, 4)] [(0, 2), (2, 5)] 1 = some true ∧
    VertexRangesValid [(2, 0), (3, 4)] [(0, 2), (2, 5)] 1 :=
  ⟨by decide, by decide,
    (ValidateVertexRanges_iff [(2, 0), (3, 4)] [(0, 2), (2, 5)] 1 (by decide)).1.1 (by decide)⟩

/-! ### The validator: the checks before the exchange -/

theorem hasReverse_spec (S : List Edge) (hs : S.Pairwise Edge.le) (lf lt : Nat)
    (off : List Nat) (hoff : OffsetsOk lf lt S off) (hlt : lt + 1 < 2 ^ 64) (u v : Nat)
    (w : Int) (hv : lf ≤ v ∧ v < lt) :
    ∃ b, hasReverse S off lf u v w = some b ∧ (b = true ↔ (v, u, w) ∈ S) := by
  have h1 : sub64 v lf = v - lf := sub64_eq hv.1 (by omega)
  have h2 : add64 (v - lf) 1 = v - lf + 1 := add64_eq (by omega)
  have e1 := hoff.2 (v - lf) (by omega)
  have e2 := hoff.2 (v - lf + 1) (by omega)
  have hv1 : lf + (v - lf) = v := by omega
  have hv2 : lf + (v - lf + 1) = v + 1 := by omega
  rw [hv1] at e1
  rw [hv2] at e2
  refine ⟨binary_search S (S.countP (fun e => decide (e.1 < v)))
    (S.countP (fun e => decide (e.1 < v + 1))) (v, u, w),
    by simp only [hasReverse, h1, h2, e1, e2], ?_⟩
  have hmono : S.countP (fun e => decide (e.1 < v)) ≤ S.countP (fun e => decide (e.1 < v + 1)) :=
    List.countP_mono_left (fun e _ he => by
      simp only [decide_eq_true_eq] at he ⊢; omega)
  rw [binary_search_iff S hs _ _ _ hmono (List.countP_le_length _)]
  constructor
  · rintro ⟨j, -, -, hj⟩
    exact List.getElem?_mem hj
  · intro hmem
    obtain ⟨j, hj, hjx⟩ := List.getElem_of_mem hmem
    have hget : S.getD j (0, 0, 0) = (v, u, w) := by
      rw [List.getD_eq_getElem?_getD, List.getElem?_eq_getElem hj, Option.getD_some, hjx]
    have p1 := prefix_tail S hs v j hj
    have p2 := prefix_tail S hs (v + 1) j hj
    rw [hget] at p1 p2
    simp only at p1 p2
    refine ⟨j, by omega, by omega, ?_⟩
    rw [List.getElem?_eq_getElem hj, hjx]

theorem checkInternal_spec (S : List Edge) (hs : S.Pairwise Edge.le) (lf lt : Nat)
    (off : List Nat) (hoff : OffsetsOk lf lt S off) (hlt : lt + 1 < 2 ^ 64) (rest : List Edge) :
    ∃ r, checkInternal S off lf lt rest = some r ∧
      (r = none ↔ ∀ e, e ∈ rest → lf ≤ e.2.1 → e.2.1 < lt → (e.2.1, e.1, e.2.2) ∈ S) := by
  induction rest with
  | nil => exact ⟨none, rfl, by simp⟩
  | cons e rest ih =>
    obtain ⟨r, hr, hiff⟩ := ih
    unfold checkInternal
    by_cases hloc : lf ≤ e.2.1 ∧ e.2.1 < lt
    · rw [if_pos hloc]
      obtain ⟨b, hb, hbiff⟩ := hasReverse_spec S hs lf lt off hoff hlt e.1 e.2.1 e.2.2 hloc
      rw [hb]
      cases b with
      | false =>
        refine ⟨_, rfl, ?_⟩
        simp only [reduceCtorEq, false_iff]
        intro hall
        have := hbiff.2 (hall e (by simp) hloc.1 hloc.2)
        simp at this
      | true =>
        refine ⟨r, hr, ?_⟩
        rw [hiff]
        constructor
        · intro h x hx
          rcases List.mem_cons.1 hx with hx | hx
          · subst hx; intro _ _; exact hbiff.1 rfl
          · exact h x hx
        · intro h x hx
          exact h x (by simp [hx])
    · rw [if_neg hloc]
      refine ⟨r, hr, ?_⟩
      rw [hiff]
      constructor
      · intro h x hx
        rcases List.mem_cons.1 hx with hx | hx
        · subst hx; intro h1 h2; exact absurd ⟨h1, h2⟩ hloc
        · exact h x hx
      · intro h x hx
        exact h x (by simp [hx])

theorem mem_sortEdges (l : List Edge) (x : Edge) : x ∈ sortEdges l ↔ x ∈ l :=
  (sortEdges_perm l).mem_iff

theorem keys_perm (el : List (Nat × Nat)) (ew : List Int) :
    ((sortEdges (attachWeights el ew)).map (fun e => (e.1, e.2.1))).Perm el := by
  have := (sortEdges_perm (attachWeights el ew)).map (fun e => (e.1, e.2.1))
  rwa [attachWeights_keys] at this

theorem mem_attachWeights_key (el : List (Nat × Nat)) (ew : List Int) (e : Edge)
    (h : e ∈ attachWeights el ew) : (e.1, e.2.1) ∈ el := by
  have : (e.1, e.2.1) ∈ (attachWeights el ew).map (fun e => (e.1, e.2.1)) :=
    List.mem_map.2 ⟨e, h, rfl⟩
  rwa [attachWeights_keys] at this

theorem exists_attachWeights (el : List (Nat × Nat)) (ew : List Int) (p : Nat × Nat)
    (h : p ∈ el) : ∃ w, (p.1, p.2, w) ∈ attachWeights el ew := by
  rw [← attachWeights_keys el ew] at h
  obtain ⟨e, he, rfl⟩ := List.mem_map.1 h
  exact ⟨e.2.2, he⟩

theorem selfLoop_iff (el : List (Nat × Nat)) (ew : List Int) :
    (sortEdges (attachWeights el ew)).any (fun e => decide (e.1 = e.2.1)) = true ↔
      ∃ e, e ∈ el ∧ e.1 = e.2 := by
  simp only [List.any_eq_true, decide_eq_true_eq, mem_sortEdges]
  constructor
  · rintro ⟨e, he, heq⟩
    exact ⟨_, mem_attachWeights_key el ew e he, heq⟩
  · rintro ⟨p, hp, heq⟩
    obtain ⟨w, hw⟩ := exists_attachWeights el ew p hp
    exact ⟨_, hw, heq⟩

theorem localChecks_spec (edge_list : List (Nat × Nat)) (vertex_range : Nat × Nat)
    (vertex_weights edge_weights : List Int) (ranges : List (Nat × Nat)) (rank : Nat)
    (r : Nat × Nat) (hr : ranges[rank]? = some r) (hlt : r.2 + 1 < 2 ^ 64) :
    ∃ res, localChecks edge_list vertex_range vertex_weights edge_weights ranges rank = some res ∧
      ((∃ v, res = Except.ok v) ↔
        LocalChecksPass edge_list vertex_range vertex_weights edge_weights ranges rank) ∧
      ∀ S off, res = Except.ok (S, off) →
        S = sortEdges (attachWeights edge_list edge_weights) ∧ OffsetsOk r.1 r.2 S off := by
  have hrank : rank < ranges.length := by
    by_contra hcon
    rw [List.getElem?_eq_none (by omega)] at hr
    exact absurd hr (by simp)
  have hspec := ValidateVertexRanges_spec edge_list ranges rank hrank
  have hvt : VertexRangesValid edge_list ranges rank →
      ValidateVertexRanges edge_list ranges rank = some true := fun h => by
    rw [hspec]; simp [h]
  have hvf : ¬VertexRangesValid edge_list ranges rank →
      ValidateVertexRanges edge_list ranges rank = some false := fun h => by
    rw [hspec]; simp [h]
  unfold localChecks
  by_cases hV : VertexRangesValid edge_list ranges rank
  swap
  · rw [hvf hV]
    exact ⟨_, rfl, ⟨fun ⟨v, hv⟩ => by simp at hv, fun h => absurd h.1 hV⟩,
      fun S off h => by simp at h⟩
  rw [hvt hV]
  simp only
  by_cases hvw : (!vertex_weights.isEmpty) = true ∧
      vertex_weights.length ≠ sub64 vertex_range.2 vertex_range.1
  · rw [if_pos hvw]
    refine ⟨_, rfl, ⟨fun ⟨v, hv⟩ => by simp at hv, fun h => ?_⟩, fun S off h => by simp at h⟩
    rcases h.2.1 with h1 | h1
    · simp [h1] at hvw
    · exact absurd h1 hvw.2
  rw [if_neg hvw]
  by_cases hew : (!edge_weights.isEmpty) = true ∧ edge_list.length ≠ edge_weights.length
  · rw [if_pos hew]
    refine ⟨_, rfl, ⟨fun ⟨v, hv⟩ => by simp at hv, fun h => ?_⟩, fun S off h => by simp at h⟩
    rcases h.2.2.1 with h1 | h1
    · simp [h1] at hew
    · exact absurd h1.symm hew.2
  rw [if_neg hew]
  by_cases hsl : (sortEdges (attachWeights edge_list edge_weights)).any
      (fun e => decide (e.1 = e.2.1)) = true
  · rw [if_pos hsl]
    refine ⟨_, rfl, ⟨fun ⟨v, hv⟩ => by simp at hv, fun h => ?_⟩, fun S off h => by simp at h⟩
    obtain ⟨e, he, heq⟩ := (selfLoop_iff _ _).1 hsl
    exact (h.2.2.2.1 e he heq).elim
  rw [if_neg hsl]
  have hsorted := sortEdges_sorted (attachWeights edge_list edge_weights)
  cases hdup : findDuplicate (sortEdges (attachWeights edge_list edge_weights)) with
  | some e =>
    refine ⟨_, rfl, ⟨fun ⟨v, hv⟩ => by simp at hv, fun h => ?_⟩, fun S off h => by simp at h⟩
    have hnd := (keys_perm edge_list edge_weights).nodup_iff.2 h.2.2.2.2.1
    rw [← findDuplicate_none_iff _ hsorted, hdup] at hnd
    simp at hnd
  | none =>
    simp only [hr]
    have hle : r.1 ≤ r.2 := hV.1 r (List.getElem?_mem hr)
    have htails : ∀ e, e ∈ sortEdges (attachWeights edge_list edge_weights) →
        r.1 ≤ e.1 ∧ e.1 < r.2 := by
      intro e he
      have := hV.2.2.2.1 r hr _ (mem_attachWeights_key _ _ e ((mem_sortEdges _ _).1 he))
      exact this
    obtain ⟨off, hoff, hlen, hget⟩ := nodeOffset_spec r.1 r.2 _ hlt hle htails
    rw [hoff]
    simp only
    obtain ⟨res, hres, hiff⟩ := checkInternal_spec _ hsorted r.1 r.2 off ⟨hlen, hget⟩ hlt
      (sortEdges (attachWeights edge_list edge_weights))
    rw [hres]
    have hvw2 : vertex_weights = [] ∨
        vertex_weights.length = sub64 vertex_range.2 vertex_range.1 := by
      cases vertex_weights with
      | nil => exact Or.inl rfl
      | cons a b => right; by_contra hne; exact hvw ⟨by simp, hne⟩
    have hew2 : edge_weights = [] ∨ edge_weights.length = edge_list.length := by
      cases edge_weights with
      | nil => exact Or.inl rfl
      | cons a b => right; by_contra hne; exact hew ⟨by simp, fun h => hne h.symm⟩
    have hnoloop : ∀ e, e ∈ edge_list → e.1 ≠ e.2 := by
      intro e he heq
      exact hsl ((selfLoop_iff _ _).2 ⟨e, he, heq⟩)
    have hnodup : edge_list.Nodup :=
      (keys_perm edge_list edge_weights).nodup_iff.1 ((findDuplicate_none_iff _ hsorted).1 hdup)
    cases res with
    | some d =>
      refine ⟨_, rfl, ⟨fun ⟨v, hv⟩ => by simp at hv, fun h => ?_⟩, fun S off h => by simp at h⟩
      have : (some d : Option Diagnostic) = none := by
        rw [hiff]
        intro e he h1 h2
        rw [mem_sortEdges] at he ⊢
        exact h.2.2.2.2.2 r hr e he h1 h2
      simp at this
    | none =>
      refine ⟨_, rfl, ⟨fun _ => ⟨hV, hvw2, hew2, hnoloop, hnodup, ?_⟩, fun _ => ⟨_, rfl⟩⟩, ?_⟩
      · intro r2 hr2 e he h1 h2
        rw [hr] at hr2
        simp only [Option.some.injEq] at hr2
        subst hr2
        have := hiff.1 rfl e ((mem_sortEdges _ _).2 he) h1 h2
        exact (mem_sortEdges _ _).1 this
      · intro S off2 h
        simp only [Except.ok.injEq, Prod.mk.injEq] at h
        obtain ⟨rfl, rfl⟩ := h
        exact ⟨rfl, hlen, hget⟩

theorem toSSInt_toSInt (w : Int) (h1 : -2 ^ 63 ≤ w) (h2 : w < 2 ^ 63) :
    toSSInt (toSInt w) = w := by
  unfold toSSInt toSInt
  split <;> omega

theorem toSInt_natCast (i : Nat) (h : i < 2 ^ 64) : toSInt (i : Int) = i := by
  unfold toSInt
  omega

theorem findRange_iff (v : Nat) (ranges : List (Nat × Nat)) : ∀ q,
    findRange v ranges = some q ↔
      (∃ r, ranges[q]? = some r ∧ r.1 ≤ v ∧ v < r.2) ∧
      ∀ p, p < q → ∀ r, ranges[p]? = some r → ¬(r.1 ≤ v ∧ v < r.2) := by
  induction ranges with
  | nil => intro q; simp [findRange]
  | cons a rest ih =>
    intro q
    unfold findRange
    by_cases ha : a.1 ≤ v ∧ v < a.2
    · rw [if_pos ha]
      constructor
      · intro h
        simp only [Option.some.injEq] at h
        subst h
        exact ⟨⟨a, by simp, ha⟩, fun p hp => by omega⟩
      · rintro ⟨-, h2⟩
        cases q with
        | zero => rfl
        | succ q => exact absurd ha (h2 0 (by omega) a (by simp))
    · rw [if_neg ha]
      cases q with
      | zero =>
        simp only [Option.map_eq_some', List.getElem?_cons_zero, Option.some.injEq]
        constructor
        · rintro ⟨i, -, hi⟩; omega
        · rintro ⟨⟨r, rfl, hr⟩, -⟩; exact absurd hr ha
      | succ q =>
        simp only [Option.map_eq_some', List.getElem?_cons_succ]
        constructor
        · rintro ⟨i, hi, hiq⟩
          have hiq2 : i = q := by omega
          subst hiq2
          obtain ⟨k1, k2⟩ := (ih i).1 hi
          refine ⟨k1, fun p hp r hr => ?_⟩
          cases p with
          | zero =>
            simp only [List.getElem?_cons_zero, Option.some.injEq] at hr
            subst hr; exact ha
          | succ p =>
            simp only [List.getElem?_cons_succ] at hr
            exact k2 p (by omega) r hr
        · rintro ⟨k1, k2⟩
          refine ⟨q, (ih q).2 ⟨k1, fun p hp r hr => k2 (p + 1) (by omega) r (by simpa using hr)⟩,
            rfl⟩

theorem findRange_exists (v : Nat) (ranges : List (Nat × Nat)) (q : Nat) (r : Nat × Nat)
    (hq : ranges[q]? = some r) (hv : r.1 ≤ v ∧ v < r.2) : ∃ pe, findRange v ranges = some pe := by
  induction ranges generalizing q with
  | nil => simp at hq
  | cons a rest ih =>
    unfold findRange
    by_cases ha : a.1 ≤ v ∧ v < a.2
    · exact ⟨0, by rw [if_pos ha]⟩
    · rw [if_neg ha]
      cases q with
      | zero =>
        simp only [List.getElem?_cons_zero, Option.some.injEq] at hq
        subst hq; exact absurd hv ha
      | succ q =>
        obtain ⟨pe, hpe⟩ := ih q (by simpa using hq)
        exact ⟨pe + 1, by simp [hpe]⟩

theorem findRange_lt (v : Nat) (ranges : List (Nat × Nat)) (q : Nat)
    (h : findRange v ranges = some q) : q < ranges.length := by
  obtain ⟨⟨r, hr, -⟩, -⟩ := (findRange_iff v ranges q).1 h
  by_contra hcon
  rw [List.getElem?_eq_none (by omega)] at hr
  simp at hr

/-- The ranges of a valid list are ordered: a range with a smaller index ends
before a range with a larger index starts. -/
theorem ranges_ordered (ranges : List (Nat × Nat)) (h1 : ∀ r, r ∈ ranges → r.1 ≤ r.2)
    (h2 : consecutive ranges = true) :
    ∀ (p q : Nat) (a b : Nat × Nat), p < q → ranges[p]? = some a → ranges[q]? = some b →
      a.2 ≤ b.1 := by
  induction ranges with
  | nil => intro p q a b _ ha; simp at ha
  | cons x rest ih =>
    cases rest with
    | nil =>
      intro p q a b hpq ha hb
      cases q with
      | zero => omega
      | succ q => simp at hb
    | cons y rest =>
      simp only [consecutive, Bool.and_eq_true, beq_iff_eq] at h2
      have ih2 := ih (fun r hr => h1 r (by simp [hr])) h2.2
      intro p q a b hpq ha hb
      cases q with
      | zero => omega
      | succ q =>
        simp only [List.getElem?_cons_succ] at hb
        cases p with
        | zero =>
          simp only [List.getElem?_cons_zero, Option.some.injEq] at ha
          subst ha
          cases q with
          | zero =>
            simp only [List.getElem?_cons_zero, Option.some.injEq] at hb
            subst hb; omega
          | succ q =>
            have := ih2 0 (q + 1) y b (by omega) (by simp) hb
            have hy := h1 y (by simp)
            omega
        | succ p =>
          simp only [List.getElem?_cons_succ] at ha
          exact ih2 p q a b (by omega) ha hb

theorem exists_range (ranges : List (Nat × Nat)) (h2 : consecutive ranges = true) (v : Nat) :
    ∀ (front back : Nat × Nat), ranges.head? = some front → ranges.getLast? = some back →
      front.1 ≤ v → v < back.2 →
      ∃ (q : Nat) (r : Nat × Nat), ranges[q]? = some r ∧ r.1 ≤ v ∧ v < r.2 := by
  induction ranges with
  | nil => intro front back h; simp at h
  | cons x rest ih =>
    intro front back hf hb hv1 hv2
    simp only [List.head?_cons, Option.some.injEq] at hf
    subst hf
    cases rest with
    | nil =>
      simp only [List.getLast?_singleton, Option.some.injEq] at hb
      subst hb
      exact ⟨0, x, by simp, hv1, hv2⟩
    | cons y rest =>
      simp only [consecutive, Bool.and_eq_true, beq_iff_eq] at h2
      by_cases hx : v < x.2
      · exact ⟨0, x, by simp, hv1, hx⟩
      · have hb2 : (y :: rest).getLast? = some back := by
          rw [List.getLast?_cons_cons] at hb; exact hb
        obtain ⟨q, r, hq, hr⟩ := ih h2.2 y back (by simp) hb2 (by omega) hv2
        exact ⟨q + 1, r, by simpa using hq, hr⟩

theorem pushMessage_fold (ranges : List (Nat × Nat)) (lf lt : Nat) (hP : ranges.length < 2 ^ 64)
    (S : List Edge) : ∀ (bufs : List (List Nat)), bufs.length = ranges.length →
    (∀ e, e ∈ S → (e.2.1 < lf ∨ e.2.1 ≥ lt) → ∃ pe, findRange e.2.1 ranges = some pe) →
    ∃ out, S.foldlM (pushMessage ranges lf lt) bufs = some out ∧ out.length = ranges.length ∧
      ∀ q, q < ranges.length → out.getD q [] = bufs.getD q [] ++
        (S.filter (fun e => (decide (e.2.1 < lf) || decide (e.2.1 ≥ lt)) &&
          decide (findRange e.2.1 ranges = some q))).flatMap
          (fun e => [e.1, e.2.1, toSInt e.2.2]) := by
  induction S with
  | nil =>
    intro bufs hlen _
    exact ⟨bufs, rfl, hlen, fun q _ => by simp⟩
  | cons e rest ih =>
    intro bufs hlen hS
    by_cases hout : e.2.1 < lf ∨ e.2.1 ≥ lt
    · obtain ⟨pe, hpe⟩ := hS e (by simp) hout
      have hpelt := findRange_lt _ _ _ hpe
      have hcast : toSInt (FindPEInRange e.2.1 ranges) = pe := by
        simp only [FindPEInRange, hpe]
        exact toSInt_natCast pe (by omega)
      obtain ⟨out, ho, hol, hoq⟩ := ih
        (bufs.set pe (bufs.getD pe [] ++ [e.1, e.2.1, toSInt e.2.2]))
        (by rw [List.length_set]; exact hlen) (fun x hx => hS x (by simp [hx]))
      refine ⟨out, ?_, hol, fun q hq => ?_⟩
      · simp only [List.foldlM_cons, pushMessage, hout, if_true, hcast, hlen, hpelt]
        exact ho
      · rw [hoq q hq, List.filter_cons]
        have hdec : (decide (e.2.1 < lf) || decide (e.2.1 ≥ lt)) = true := by
          simpa using hout
        simp only [hdec, Bool.true_and, decide_eq_true_eq, hpe, Option.some.injEq]
        simp only [List.getD_eq_getElem?_getD, List.getElem?_set, hlen, hpelt, if_true]
        by_cases hq2 : pe = q
        · subst hq2
          simp
        · simp [hq2]
    · obtain ⟨out, ho, hol, hoq⟩ := ih bufs hlen (fun x hx => hS x (by simp [hx]))
      refine ⟨out, ?_, hol, fun q hq => ?_⟩
      · simp only [List.foldlM_cons, pushMessage, hout, if_false]
        exact ho
      · rw [hoq q hq, List.filter_cons]
        have hdec : (decide (e.2.1 < lf) || decide (e.2.1 ≥ lt)) = false := by
          simpa using hout
        simp [hdec]

theorem messageBuffers_spec (ranges : List (Nat × Nat)) (lf lt : Nat)
    (hP : ranges.length < 2 ^ 64) (S : List Edge)
    (hS : ∀ e, e ∈ S → (e.2.1 < lf ∨ e.2.1 ≥ lt) → ∃ pe, findRange e.2.1 ranges = some pe) :
    ∃ out, messageBuffers ranges lf lt S = some out ∧ out.length = ranges.length ∧
      ∀ q, q < ranges.length → out.getD q [] =
        (S.filter (fun e => (decide (e.2.1 < lf) || decide (e.2.1 ≥ lt)) &&
          decide (findRange e.2.1 ranges = some q))).flatMap
          (fun e => [e.1, e.2.1, toSInt e.2.2]) := by
  obtain ⟨out, h1, h2, h3⟩ := pushMessage_fold ranges lf lt hP S
    (List.replicate ranges.length []) (by simp) hS
  refine ⟨out, h1, h2, fun q hq => ?_⟩
  rw [h3 q hq]
  simp [List.getD_eq_getElem?_getD, List.getElem?_replicate, hq]

theorem checkReceived_spec (S : List Edge) (hs : S.Pairwise Edge.le) (lf lt : Nat)
    (off : List Nat) (hoff : OffsetsOk lf lt S off) (hlt : lt + 1 < 2 ^ 64) (T : List Edge)
    (hT : ∀ e, e ∈ T → lf ≤ e.2.1 ∧ e.2.1 < lt)
    (hw : ∀ e, e ∈ T → -2 ^ 63 ≤ e.2.2 ∧ e.2.2 < 2 ^ 63) :
    ∃ r, checkReceived S off lf (T.flatMap (fun e => [e.1, e.2.1, toSInt e.2.2])) = some r ∧
      (r = none ↔ ∀ e, e ∈ T → (e.2.1, e.1, e.2.2) ∈ S) := by
  induction T with
  | nil => exact ⟨none, rfl, by simp⟩
  | cons e rest ih =>
    obtain ⟨r, hr, hiff⟩ := ih (fun x hx => hT x (by simp [hx])) (fun x hx => hw x (by simp [hx]))
    have hwe := hw e (by simp)
    obtain ⟨b, hb, hbiff⟩ := hasReverse_spec S hs lf lt off hoff hlt e.1 e.2.1 e.2.2
      (hT e (by simp))
    simp only [List.flatMap_cons, List.cons_append, List.nil_append, checkReceived,
      toSSInt_toSInt e.2.2 hwe.1 hwe.2, hb]
    cases b with
    | false =>
      refine ⟨_, rfl, ?_⟩
      simp only [reduceCtorEq, false_iff]
      intro hall
      have := hbiff.2 (hall e (by simp))
      simp at this
    | true =>
      refine ⟨r, hr, ?_⟩
      rw [hiff]
      constructor
      · intro h x hx
        rcases List.mem_cons.1 hx with hx | hx
        · subst hx; exact hbiff.1 rfl
        · exact h x hx
      · intro h x hx
        exact h x (by simp [hx])

/-- C14 fails: an empty range (`first = first_invalid`) passes the first check of
the validator. With the ranges `[0, 0)` and `[0, 2)` and the edges `(0, 1)`,
`(1, 0)` on rank 1, and with the single range `[0, 0)` without edges,
`ValidateVertexRanges` returns `true`. -/
theorem ValidateVertexRanges_empty_range_counterexample :
    ValidateVertexRanges [(0, 1), (1, 0)] [(0, 0), (0, 2)] 1 = some true ∧
    ValidateVertexRanges [] [(0, 0)] 0 = some true := by
  decide

/-- C14, amended: the first check of the validator requires every range to have
`first <= first_invalid`: whenever the range of some rank has
`first > first_invalid`, `ValidateVertexRanges` returns `false`, whatever the
other ranges, the edges and the rank of the caller are. -/
theorem ValidateVertexRanges_inverted (edge_list ranges : List (Nat × Nat)) (rank : Nat)
    (r : Nat × Nat) (hr : r ∈ ranges) (hgt : r.1 > r.2) :
    ValidateVertexRanges edge_list ranges rank = some false := by
  unfold ValidateVertexRanges
  rw [if_pos]
  simp only [List.any_eq_true, decide_eq_true_eq]
  exact ⟨r, hr, hgt⟩

/-- C14 (amended) at a concrete input: the second of two ranges is `[5, 3)`. -/
theorem ValidateVertexRanges_inverted_witness :
    ((5 : Nat), (3 : Nat)) ∈ [((0 : Nat), (5 : Nat)), (5, 3)] ∧
    ((5 : Nat), (3 : Nat)).1 > ((5 : Nat), (3 : Nat)).2 ∧
    ValidateVertexRanges [] [(0, 5), (5, 3)] 0 = some false :=
  ⟨by decide, by decide, ValidateVertexRanges_inverted [] [(0, 5), (5, 3)] 0 (5, 3) (by decide)
    (by decide)⟩

theorem attachWeights_getElem? (el : List (Nat × Nat)) : ∀ (ew : List Int) (i : Nat),
    (attachWeights el ew)[i]? = (el[i]?).map (fun p => (p.1, p.2, ew.getD i 1)) := by
  induction el with
  | nil => intro ew i; simp [attachWeights]
  | cons e es ih =>
    intro ew i
    cases ew with
    | nil =>
      cases i with
      | zero => simp [attachWeights]
      | succ i => simp [attachWeights, ih]
    | cons w ws =>
      cases i with
      | zero => simp [attachWeights]
      | succ i => simp [attachWeights, ih]

theorem mem_attachWeights (el : List (Nat × Nat)) (ew : List Int) (x : Edge) :
    x ∈ attachWeights el ew ↔ ∃ i, el[i]? = some (x.1, x.2.1) ∧ x.2.2 = ew.getD i 1 := by
  rw [List.mem_iff_getElem?]
  constructor
  · rintro ⟨i, hi⟩
    rw [attachWeights_getElem?] at hi
    cases hel : el[i]? with
    | none => simp [hel] at hi
    | some p =>
      simp only [hel, Option.map_some', Option.some.injEq] at hi
      subst hi
      exact ⟨i, hel, rfl⟩
  · rintro ⟨i, hi, hw⟩
    refine ⟨i, ?_⟩
    rw [attachWeights_getElem?, hi]
    simp only [Option.map_some', Option.some.injEq]
    obtain ⟨a, b, c⟩ := x
    simp only at hw
    simp [hw]

theorem getD_one_eq_weightOf (el : List (Nat × Nat)) (ew : List Int)
    (hew : ew = [] ∨ ew.length = el.length) (i : Nat) (hi : i < el.length) :
    ew.getD i 1 = weightOf ew i := by
  unfold weightOf
  rcases hew with h | h
  · subst h; simp
  · have hne : ew.isEmpty = false := by
      cases ew with
      | nil => simp at h; omega
      | cons a b => rfl
    rw [hne]
    simp only [Bool.false_eq_true, if_false, List.getD_eq_getElem?_getD]
    rw [List.getElem?_eq_getElem (by omega)]
    simp

theorem Report_of_ok (edge_list : List (Nat × Nat)) (vertex_range : Nat × Nat)
    (vertex_weights edge_weights : List Int) (ranges : List (Nat × Nat)) (rank : Nat)
    (A : List (List Nat) → List Nat) (S : List Edge) (off : List Nat) (r : Nat × Nat)
    (bufs : List (List Nat))
    (h1 : localChecks edge_list vertex_range vertex_weights edge_weights ranges rank =
      some (Except.ok (S, off)))
    (hr : ranges[rank]? = some r) (hb : messageBuffers ranges r.1 r.2 S = some bufs) :
    ValidateSimpleGraphReport edge_list vertex_range vertex_weights edge_weights ranges rank A =
      checkReceived S off r.1 (A bufs) := by
  simp only [ValidateSimpleGraphReport, h1, hr, hb]

theorem Report_of_error (edge_list : List (Nat × Nat)) (vertex_range : Nat × Nat)
    (vertex_weights edge_weights : List Int) (ranges : List (Nat × Nat)) (rank : Nat)
    (A : List (List Nat) → List Nat) (d : Diagnostic)
    (h1 : localChecks edge_list vertex_range vertex_weights edge_weights ranges rank =
      some (Except.error d)) :
    ValidateSimpleGraphReport edge_list vertex_range vertex_weights edge_weights ranges rank A =
      some (some d) := by
  simp only [ValidateSimpleGraphReport, h1]

theorem single_rank_ranges (edge_list : List (Nat × Nat)) (N : Nat) :
    VertexRangesValid edge_list [(0, N)] 0 ↔ ∀ e, e ∈ edge_list → e.1 < N ∧ e.2 < N := by
  unfold VertexRangesValid
  constructor
  · rintro ⟨-, -, -, h4, h5⟩ e he
    exact ⟨(h4 (0, N) rfl e he).2, h5 (0, N) rfl e he⟩
  · intro h
    refine ⟨?_, ?_, ?_, ?_, ?_⟩
    · intro r hr
      simp only [List.mem_singleton] at hr
      subst hr; exact Nat.zero_le _
    · intro front hf
      simp only [List.head?_cons, Option.some.injEq] at hf
      subst hf; rfl
    · intro i a b _ hb
      simp at hb
    · intro loc hl e he
      simp only [List.getElem?_cons_zero, Option.some.injEq] at hl
      subst hl
      exact ⟨Nat.zero_le _, (h e he).1⟩
    · intro back hb e he
      simp only [List.getLast?_singleton, Option.some.injEq] at hb
      subst hb
      exact (h e he).2

theorem reverse_iff (el : List (Nat × Nat)) (ew : List Int)
    (hew : ew = [] ∨ ew.length = el.length) :
    (∀ e, e ∈ attachWeights el ew → (e.2.1, e.1, e.2.2) ∈ attachWeights el ew) ↔
      ∀ i u v, el[i]? = some (u, v) →
        ∃ j, el[j]? = some (v, u) ∧ weightOf ew j = weightOf ew i := by
  have hlt : ∀ (i : Nat) (p : Nat × Nat), el[i]? = some p → i < el.length := by
    intro i p hp
    by_contra hcon
    rw [List.getElem?_eq_none (by omega)] at hp
    simp at hp
  constructor
  · intro h i u v hi
    have hmem : (u, v, ew.getD i 1) ∈ attachWeights el ew :=
      (mem_attachWeights el ew _).2 ⟨i, hi, rfl⟩
    obtain ⟨j, hj, hw⟩ := (mem_attachWeights el ew _).1 (h _ hmem)
    refine ⟨j, hj, ?_⟩
    simp only at hw
    rw [← getD_one_eq_weightOf el ew hew j (hlt j _ hj),
      ← getD_one_eq_weightOf el ew hew i (hlt i _ hi), hw]
  · intro h e he
    obtain ⟨i, hi, hw⟩ := (mem_attachWeights el ew e).1 he
    obtain ⟨j, hj, hjw⟩ := h i e.1 e.2.1 hi
    refine (mem_attachWeights el ew _).2 ⟨j, hj, ?_⟩
    simp only
    rw [hw, getD_one_eq_weightOf el ew hew j (hlt j _ hj),
      getD_one_eq_weightOf el ew hew i (hlt i _ hi), hjw]

theorem single_rank_pass_iff (edge_list : List (Nat × Nat)) (N : Nat)
    (vertex_weights edge_weights : List Int) (hN : N < 2 ^ 64) :
    LocalChecksPass edge_list (0, N) vertex_weights edge_weights [(0, N)] 0 ↔
      ((∀ e, e ∈ edge_list → e.1 < N ∧ e.2 < N) ∧
      (vertex_weights = [] ∨ vertex_weights.length = N) ∧
      (edge_weights = [] ∨ edge_weights.length = edge_list.length) ∧
      (∀ e, e ∈ edge_list → e.1 ≠ e.2) ∧
      edge_list.Nodup ∧
      ∀ i u v, edge_list[i]? = some (u, v) →
        ∃ j, edge_list[j]? = some (v, u) ∧ weightOf edge_weights j = weightOf edge_weights i) := by
  unfold LocalChecksPass
  rw [single_rank_ranges]
  have hsub : sub64 (0, N).2 (0, N).1 = N := by
    show sub64 N 0 = N
    rw [sub64_eq (Nat.zero_le _) hN]; rfl
  rw [hsub]
  constructor
  · rintro ⟨h1, h2, h3, h4, h5, h6⟩
    refine ⟨h1, h2, h3, h4, h5, (reverse_iff edge_list edge_weights h3).1 (fun e he => ?_)⟩
    have hk := h1 _ (mem_attachWeights_key _ _ e he)
    exact h6 (0, N) rfl e he (Nat.zero_le _) hk.2
  · rintro ⟨h1, h2, h3, h4, h5, h6⟩
    refine ⟨h1, h2, h3, h4, h5, fun r hr e he _ _ => ?_⟩
    exact (reverse_iff edge_list edge_weights h3).2 h6 e he

theorem single_rank_exchange (edge_list : List (Nat × Nat)) (N : Nat)
    (vertex_weights edge_weights : List Int) (bufs : List (List Nat)) :
    Alltoallv [RankInput.mk edge_list (0, N) vertex_weights edge_weights] 0 bufs =
      bufs.getD 0 [] := by
  simp [Alltoallv, List.range_succ]

/-- C15 fails at the largest vertex count: on a single rank with the range
`[0, 2 ^ 64 - 1)` and the edges `0 -> 1`, `1 -> 0`, all six conditions hold,
but `node_offset` is created with `to - from + 1 = 2 ^ 64` entries, which is `0`
in 64-bit arithmetic, and the first `++node_offset[u - from + 1]` is out of
bounds: `ValidateSimpleGraph` does not return `true`. -/
theorem ValidateSimpleGraph_single_rank_counterexample :
    ((∀ e, e ∈ [((0 : Nat), (1 : Nat)), (1, 0)] → e.1 < 2 ^ 64 - 1 ∧ e.2 < 2 ^ 64 - 1) ∧
      (∀ e, e ∈ [((0 : Nat), (1 : Nat)), (1, 0)] → e.1 ≠ e.2) ∧
      [((0 : Nat), (1 : Nat)), (1, 0)].Nodup ∧
      ∀ (i u v : Nat), ([(0, 1), (1, 0)] : List (Nat × Nat))[i]? = some (u, v) →
        ∃ j, ([(0, 1), (1, 0)] : List (Nat × Nat))[j]? = some (v, u) ∧
          weightOf [] j = weightOf [] i) ∧
    add64 (sub64 (2 ^ 64 - 1) 0) 1 = 0 ∧
    nodeOffset 0 (2 ^ 64 - 1) (sortEdges (attachWeights [(0, 1), (1, 0)] [])) = none ∧
    ValidateSimpleGraph [(0, 1), (1, 0)] (0, 2 ^ 64 - 1) [] [] [(0, 2 ^ 64 - 1)] 0
      (Alltoallv [RankInput.mk [(0, 1), (1, 0)] (0, 2 ^ 64 - 1) [] []] 0) = none :=
  ⟨⟨by decide, by decide, by decide, fun i u v h => by
      rcases i with _ | _ | i
      · simp only [List.getElem?_cons_zero, Option.some.injEq, Prod.mk.injEq] at h
        obtain ⟨rfl, rfl⟩ := h
        exact ⟨1, by simp, rfl⟩
      · simp only [List.getElem?_cons_succ, List.getElem?_cons_zero, Option.some.injEq,
          Prod.mk.injEq] at h
        obtain ⟨rfl, rfl⟩ := h
        exact ⟨0, by simp, rfl⟩
      · simp at h⟩,
    by decide, by decide, by decide⟩

/-- C15, amended: on a single rank with the vertex range `[0, N)` (`N + 1` a 64-bit value,
`N + 1` being the number of entries of `node_offset`), `ValidateSimpleGraph`
returns `true` if and only if every tail and head is `< N`, `vertex_weights` is
empty or has `N` entries, `edge_weights` is empty or has one entry for every
edge, no edge has `tail = head`, no two entries have the same `(tail, head)`,
and for every edge `(u, v)` with weight `w` (`w = 1` when `edge_weights` is
empty) the edge `(v, u)` with the same weight is in the list; and it returns
`false` otherwise. The exchange of a single rank hands the own message buffer
back. -/
theorem ValidateSimpleGraph_single_rank (edge_list : List (Nat × Nat)) (N : Nat)
    (vertex_weights edge_weights : List Int) (hN : N + 1 < 2 ^ 64) :
    (ValidateSimpleGraph edge_list (0, N) vertex_weights edge_weights [(0, N)] 0
        (Alltoallv [RankInput.mk edge_list (0, N) vertex_weights edge_weights] 0) = some true ↔
      ((∀ e, e ∈ edge_list → e.1 < N ∧ e.2 < N) ∧
      (vertex_weights = [] ∨ vertex_weights.length = N) ∧
      (edge_weights = [] ∨ edge_weights.length = edge_list.length) ∧
      (∀ e, e ∈ edge_list → e.1 ≠ e.2) ∧
      edge_list.Nodup ∧
      ∀ i u v, edge_list[i]? = some (u, v) →
        ∃ j, edge_list[j]? = some (v, u) ∧
          weightOf edge_weights j = weightOf edge_weights i)) ∧
    (ValidateSimpleGraph edge_list (0, N) vertex_weights edge_weights [(0, N)] 0
        (Alltoallv [RankInput.mk edge_list (0, N) vertex_weights edge_weights] 0) = some true ∨
      ValidateSimpleGraph edge_list (0, N) vertex_weights edge_weights [(0, N)] 0
        (Alltoallv [RankInput.mk edge_list (0, N) vertex_weights edge_weights] 0) =
          some false) := by
  rw [← single_rank_pass_iff edge_list N vertex_weights edge_weights (by omega)]
  obtain ⟨res, hres, hiff, hok⟩ := localChecks_spec edge_list (0, N) vertex_weights
    edge_weights [(0, N)] 0 (0, N) rfl hN
  cases res with
  | error d =>
    have hrep := Report_of_error edge_list (0, N) vertex_weights edge_weights [(0, N)] 0
      (Alltoallv [RankInput.mk edge_list (0, N) vertex_weights edge_weights] 0) d hres
    have hno : ¬LocalChecksPass edge_list (0, N) vertex_weights edge_weights [(0, N)] 0 := by
      intro h
      obtain ⟨v, hv⟩ := hiff.2 h
      simp at hv
    simp only [ValidateSimpleGraph, hrep, Option.map_some', Option.isNone_some]
    exact ⟨by simp [hno], by simp⟩
  | ok v =>
    obtain ⟨S, off⟩ := v
    obtain ⟨hS, hoff⟩ := hok S off rfl
    have hpass := hiff.1 ⟨_, rfl⟩
    have hheads : ∀ e, e ∈ S → e.2.1 < N := by
      intro e he
      rw [hS, mem_sortEdges] at he
      exact ((single_rank_ranges edge_list N).1 hpass.1 _ (mem_attachWeights_key _ _ e he)).2
    obtain ⟨bufs, hb, hbl, hbq⟩ := messageBuffers_spec [(0, N)] 0 N (by simp) S
      (fun e he hout => by have := hheads e he; omega)
    have hb0 : bufs.getD 0 [] = [] := by
      rw [hbq 0 (by simp)]
      have : S.filter (fun e => (decide (e.2.1 < 0) || decide (e.2.1 ≥ N)) &&
          decide (findRange e.2.1 [(0, N)] = some 0)) = [] := by
        rw [List.filter_eq_nil_iff]
        intro e he
        have := hheads e he
        simp only [Bool.and_eq_true, Bool.or_eq_true, decide_eq_true_eq, not_and]
        intro h
        omega
      rw [this]; rfl
    have hrep := Report_of_ok edge_list (0, N) vertex_weights edge_weights [(0, N)] 0
      (Alltoallv [RankInput.mk edge_list (0, N) vertex_weights edge_weights] 0) S off (0, N)
      bufs hres rfl hb
    rw [single_rank_exchange, hb0] at hrep
    simp only [ValidateSimpleGraph, hrep, checkReceived, Option.map_some', Option.isNone_none]
    exact ⟨by simp [hpass], by simp⟩

/-- C15 at a concrete input: the two directions of one edge with the weight `7`. -/
theorem ValidateSimpleGraph_single_rank_witness :
    (2 : Nat) + 1 < 2 ^ 64 ∧
    (ValidateSimpleGraph [(0, 1), (1, 0)] (0, 2) [] [7, 7] [(0, 2)] 0
        (Alltoallv [RankInput.mk [(0, 1), (1, 0)] (0, 2) [] [7, 7]] 0) = some true ↔
      ((∀ e, e ∈ [((0 : Nat), (1 : Nat)), (1, 0)] → e.1 < 2 ∧ e.2 < 2) ∧
      (([] : List Int) = [] ∨ ([] : List Int).length = 2) ∧
      (([7, 7] : List Int) = [] ∨
        ([7, 7] : List Int).length = [((0 : Nat), (1 : Nat)), (1, 0)].length) ∧
      (∀ e, e ∈ [((0 : Nat), (1 : Nat)), (1, 0)] → e.1 ≠ e.2) ∧
      [((0 : Nat), (1 : Nat)), (1, 0)].Nodup ∧
      ∀ i u v, [((0 : Nat), (1 : Nat)), (1, 0)][i]? = some (u, v) →
        ∃ j, [((0 : Nat), (1 : Nat)), (1, 0)][j]? = some (v, u) ∧
          weightOf [7, 7] j = weightOf [7, 7] i)) ∧
    ValidateSimpleGraph [(0, 1), (1, 0)] (0, 2) [] [7, 7] [(0, 2)] 0
        (Alltoallv [RankInput.mk [(0, 1), (1, 0)] (0, 2) [] [7, 7]] 0) = some true :=
  ⟨by decide, (ValidateSimpleGraph_single_rank [(0, 1), (1, 0)] 2 [] [7, 7] (by decide)).1,
    by decide⟩

/-- C16: for every local edge list that passes the range check and the weight
size checks and has no self-loop, if two entries (at any two positions `i < j`
of the unsorted list, whatever their weights) have the same `(tail, head)`,
then `ValidateSimpleGraph` returns `false`, and the pair that it reports as a
duplicated edge occurs at two positions of the edge list. -/
theorem ValidateSimpleGraph_duplicate (edge_list : List (Nat × Nat)) (vertex_range : Nat × Nat)
    (vertex_weights edge_weights : List Int) (ranges : List (Nat × Nat)) (rank : Nat)
    (A : List (List Nat) → List Nat) (e : Nat × Nat)
    (hranges : ValidateVertexRanges edge_list ranges rank = some true)
    (hvw : vertex_weights = [] ∨ vertex_weights.length = sub64 vertex_range.2 vertex_range.1)
    (hew : edge_weights = [] ∨ edge_weights.length = edge_list.length)
    (hloop : ∀ x, x ∈ edge_list → x.1 ≠ x.2)
    (i j : Nat) (hij : i < j) (hi : edge_list[i]? = some e) (hj : edge_list[j]? = some e) :
    ValidateSimpleGraph edge_list vertex_range vertex_weights edge_weights ranges rank A =
      some false ∧
    ∃ u v, ValidateSimpleGraphReport edge_list vertex_range vertex_weights edge_weights ranges
        rank A = some (some (Diagnostic.duplicated_edge u v)) ∧
      ∃ (k l : Nat), k < l ∧ edge_list[k]? = some (u, v) ∧ edge_list[l]? = some (u, v) := by
  have hsorted := sortEdges_sorted (attachWeights edge_list edge_weights)
  have hnd : ¬edge_list.Nodup := by
    intro h
    exact List.nodup_iff_forall_not_duplicate.1 h e
      ((duplicate_positions edge_list e).2 ⟨i, j, hij, hi, hj⟩)
  have hvw2 : ¬((!vertex_weights.isEmpty) = true ∧
      vertex_weights.length ≠ sub64 vertex_range.2 vertex_range.1) := by
    rintro ⟨h1, h2⟩
    rcases hvw with h | h
    · simp [h] at h1
    · exact h2 h
  have hew2 : ¬((!edge_weights.isEmpty) = true ∧ edge_list.length ≠ edge_weights.length) := by
    rintro ⟨h1, h2⟩
    rcases hew with h | h
    · simp [h] at h1
    · exact h2 h.symm
  have hsl : ¬(sortEdges (attachWeights edge_list edge_weights)).any
      (fun e => decide (e.1 = e.2.1)) = true := by
    intro h
    obtain ⟨x, hx, heq⟩ := (selfLoop_iff _ _).1 h
    exact hloop x hx heq
  cases hfd : findDuplicate (sortEdges (attachWeights edge_list edge_weights)) with
  | none =>
    exact absurd ((keys_perm edge_list edge_weights).nodup_iff.1
      ((findDuplicate_none_iff _ hsorted).1 hfd)) hnd
  | some d =>
    have hloc : localChecks edge_list vertex_range vertex_weights edge_weights ranges rank =
        some (Except.error (Diagnostic.duplicated_edge d.1 d.2.1)) := by
      unfold localChecks
      rw [hranges]
      simp only
      rw [if_neg hvw2, if_neg hew2, if_neg hsl, hfd]
    have hrep := Report_of_error edge_list vertex_range vertex_weights edge_weights ranges rank
      A _ hloc
    refine ⟨by simp only [ValidateSimpleGraph, hrep, Option.map_some', Option.isNone_some],
      d.1, d.2.1, hrep, ?_⟩
    exact (duplicate_positions edge_list _).1
      (duplicate_perm _ (keys_perm edge_list edge_weights) (findDuplicate_some _ d hfd))

/-- C16 at a concrete input: the edge `(0, 1)` occurs first and last, with the
weights `5` and `6`. -/
theorem ValidateSimpleGraph_duplicate_witness :
    ValidateVertexRanges [(0, 1), (1, 0), (0, 1)] [(0, 2)] 0 = some true ∧
    ValidateSimpleGraph [(0, 1), (1, 0), (0, 1)] (0, 2) [] [5, 5, 6] [(0, 2)] 0 (fun _ => []) =
      some false ∧
    ∃ u v, ValidateSimpleGraphReport [(0, 1), (1, 0), (0, 1)] (0, 2) [] [5, 5, 6] [(0, 2)] 0
        (fun _ => []) = some (some (Diagnostic.duplicated_edge u v)) ∧
      ∃ (k l : Nat), k < l ∧ [((0 : Nat), (1 : Nat)), (1, 0), (0, 1)][k]? = some (u, v) ∧
        [((0 : Nat), (1 : Nat)), (1, 0), (0, 1)][l]? = some (u, v) :=
  ⟨by decide,
    ValidateSimpleGraph_duplicate [(0, 1), (1, 0), (0, 1)] (0, 2) [] [5, 5, 6] [(0, 2)] 0
      (fun _ => []) (0, 1) (by decide) (Or.inl rfl) (Or.inr rfl) (by decide) 0 2 (by decide)
      (by decide) (by decide)⟩

/-! ### The validator: the exchange between ranks -/

theorem getElem?_lt {α : Type} (l : List α) (i : Nat) (a : α) (h : l[i]? = some a) :
    i < l.length := by
  by_contra hcon
  rw [List.getElem?_eq_none (by omega)] at h
  simp at h

theorem Allgather_getElem? (job : List RankInput) (p : Nat) (rp : RankInput)
    (h : job[p]? = some rp) : (AllgatherVertexRange job)[p]? = some rp.vertex_range := by
  simp [AllgatherVertexRange, List.getElem?_map, h]

theorem localChecks_of_pass (edge_list : List (Nat × Nat)) (vertex_range : Nat × Nat)
    (vertex_weights edge_weights : List Int) (ranges : List (Nat × Nat)) (rank : Nat)
    (r : Nat × Nat) (hr : ranges[rank]? = some r) (hlt : r.2 + 1 < 2 ^ 64)
    (hpass : LocalChecksPass edge_list vertex_range vertex_weights edge_weights ranges rank) :
    ∃ off, localChecks edge_list vertex_range vertex_weights edge_weights ranges rank =
        some (Except.ok (sortEdges (attachWeights edge_list edge_weights), off)) ∧
      OffsetsOk r.1 r.2 (sortEdges (attachWeights edge_list edge_weights)) off := by
  obtain ⟨res, hres, hiff, hok⟩ := localChecks_spec edge_list vertex_range vertex_weights
    edge_weights ranges rank r hr hlt
  obtain ⟨v, hv⟩ := hiff.2 hpass
  obtain ⟨S, off⟩ := v
  obtain ⟨hS, hoff⟩ := hok S off hv
  subst hS
  exact ⟨off, by rw [hres, hv], hoff⟩

theorem passes_iff (edge_list : List (Nat × Nat)) (vertex_range : Nat × Nat)
    (vertex_weights edge_weights : List Int) (ranges : List (Nat × Nat)) (rank : Nat)
    (r : Nat × Nat) (hr : ranges[rank]? = some r) (hlt : r.2 + 1 < 2 ^ 64) :
    passesLocalChecks edge_list vertex_range vertex_weights edge_weights ranges rank = true ↔
      LocalChecksPass edge_list vertex_range vertex_weights edge_weights ranges rank := by
  obtain ⟨res, hres, hiff, -⟩ := localChecks_spec edge_list vertex_range vertex_weights
    edge_weights ranges rank r hr hlt
  rw [← hiff]
  unfold passesLocalChecks
  rw [hres]
  cases res with
  | error d => simp
  | ok v => simp

theorem forall_of_enum {α : Type} (l : List α) (P : Nat → α → Prop)
    (h : ∀ x, x ∈ l.enum → P x.1 x.2) : ∀ (p : Nat) (a : α), l[p]? = some a → P p a := by
  intro p a hp
  exact h (p, a) (List.mk_mem_enum_iff_getElem?.2 hp)

theorem messageBuffers_of_valid (edge_list : List (Nat × Nat)) (ranges : List (Nat × Nat))
    (rank : Nat) (r : Nat × Nat) (hr : ranges[rank]? = some r) (hP : ranges.length < 2 ^ 64)
    (hV : VertexRangesValid edge_list ranges rank) (S : List Edge)
    (hS : ∀ e, e ∈ S → (e.1, e.2.1) ∈ edge_list) :
    ∃ out, messageBuffers ranges r.1 r.2 S = some out ∧ out.length = ranges.length ∧
      ∀ q, q < ranges.length → out.getD q [] =
        (S.filter (fun e => (decide (e.2.1 < r.1) || decide (e.2.1 ≥ r.2)) &&
          decide (findRange e.2.1 ranges = some q))).flatMap
          (fun e => [e.1, e.2.1, toSInt e.2.2]) := by
  apply messageBuffers_spec ranges r.1 r.2 hP S
  intro e he _
  have hne : ranges ≠ [] := by
    rintro rfl
    simp at hr
  obtain ⟨front, hfront⟩ : ∃ front, ranges.head? = some front := by
    cases ranges with
    | nil => exact absurd rfl hne
    | cons a b => exact ⟨a, rfl⟩
  have hback : ranges.getLast? = some (ranges.getLast hne) := List.getLast?_eq_getLast _ hne
  obtain ⟨k1, k2, k3, k4, k5⟩ := hV
  have h0 := k2 front hfront
  have hlt := k5 _ hback _ (hS e he)
  obtain ⟨q, rr, hq, hv⟩ := exists_range ranges ((consecutive_iff ranges).2 k3) e.2.1 front _
    hfront hback (by simp only at hlt ⊢; omega) hlt
  exact findRange_exists _ _ q rr hq hv

theorem sentBy_spec (job : List RankInput) (p : Nat) (rp : RankInput) (hp : job[p]? = some rp)
    (hP : job.length < 2 ^ 31) (h64 : rp.vertex_range.2 + 1 < 2 ^ 64)
    (hpass : LocalChecksPass rp.edge_list rp.vertex_range rp.vertex_weights rp.edge_weights
      (AllgatherVertexRange job) p) :
    ∃ out, messageBuffers (AllgatherVertexRange job) rp.vertex_range.1 rp.vertex_range.2
        (sortEdges (attachWeights rp.edge_list rp.edge_weights)) = some out ∧
      sentBy job p = out ∧
      ∀ q, q < job.length → out.getD q [] =
        (addressedTo job q p).flatMap (fun e => [e.1, e.2.1, toSInt e.2.2]) := by
  have hr := Allgather_getElem? job p rp hp
  have hlen : (AllgatherVertexRange job).length = job.length := by simp [AllgatherVertexRange]
  obtain ⟨off, hloc, -⟩ := localChecks_of_pass _ _ _ _ _ p _ hr h64 hpass
  obtain ⟨out, ho, -, hoq⟩ := messageBuffers_of_valid rp.edge_list (AllgatherVertexRange job) p
    rp.vertex_range hr (by rw [hlen]; omega) hpass.1
    (sortEdges (attachWeights rp.edge_list rp.edge_weights))
    (fun e he => mem_attachWeights_key _ _ e ((mem_sortEdges _ _).1 he))
  refine ⟨out, ho, ?_, fun q hq => ?_⟩
  · simp only [sentBy, hp, hloc, ho, Option.getD_some]
  · rw [hoq q (by rw [hlen]; exact hq)]
    simp only [addressedTo, hp]

theorem weight_bounds (el : List (Nat × Nat)) (ew : List Int)
    (hw : ∀ w, w ∈ ew → -2 ^ 63 ≤ w ∧ w < 2 ^ 63) (e : Edge) (he : e ∈ attachWeights el ew) :
    -2 ^ 63 ≤ e.2.2 ∧ e.2.2 < 2 ^ 63 := by
  obtain ⟨i, -, hi⟩ := (mem_attachWeights el ew e).1 he
  rw [hi, List.getD_eq_getElem?_getD]
  cases h : ew[i]? with
  | none => simp
  | some w => exact hw w (List.getElem?_mem h)

theorem hasEdge_iff (r : RankInput) (hew : r.edge_weights = [] ∨
    r.edge_weights.length = r.edge_list.length) (u v : Nat) (w : Int) :
    r.hasEdge u v w ↔ (u, v, w) ∈ attachWeights r.edge_list r.edge_weights := by
  rw [mem_attachWeights]
  unfold RankInput.hasEdge
  constructor
  · rintro ⟨i, hi, hw⟩
    refine ⟨i, hi, ?_⟩
    rw [getD_one_eq_weightOf _ _ hew i (getElem?_lt _ _ _ hi)]
    exact hw.symm
  · rintro ⟨i, hi, hw⟩
    refine ⟨i, hi, ?_⟩
    rw [← getD_one_eq_weightOf _ _ hew i (getElem?_lt _ _ _ hi)]
    exact hw.symm

theorem exchange_eq (job : List RankInput) (q : Nat) (rq : RankInput) (hq : job[q]? = some rq)
    (hP : job.length < 2 ^ 31)
    (hpass : ∀ (p : Nat) (rp : RankInput), job[p]? = some rp → LocalChecksPass rp.edge_list rp.vertex_range
      rp.vertex_weights rp.edge_weights (AllgatherVertexRange job) p)
    (h64 : ∀ (p : Nat) (rp : RankInput), job[p]? = some rp → rp.vertex_range.2 + 1 < 2 ^ 64) :
    Alltoallv job q (sentBy job q) =
      ((List.range job.length).flatMap (addressedTo job q)).flatMap
        (fun e => [e.1, e.2.1, toSInt e.2.2]) := by
  have hql := getElem?_lt _ _ _ hq
  rw [List.flatMap_assoc, List.flatMap_def]
  unfold Alltoallv
  congr 1
  apply List.map_congr_left
  intro p hp
  have hpl := List.mem_range.1 hp
  obtain ⟨rp, hrp⟩ : ∃ rp, job[p]? = some rp := ⟨job[p], by simp [hpl]⟩
  obtain ⟨out, -, hs, hoq⟩ := sentBy_spec job p rp hrp hP (h64 p rp hrp) (hpass p rp hrp)
  have : (if p = q then sentBy job q else sentBy job p) = sentBy job p := by
    split
    · next h => rw [h]
    · rfl
  rw [this, hs, hoq q hql]

theorem mem_addressed_iff (job : List RankInput) (q : Nat) (rq : RankInput)
    (hq : job[q]? = some rq)
    (hV : VertexRangesValid rq.edge_list (AllgatherVertexRange job) q) (e : Edge) :
    e ∈ (List.range job.length).flatMap (addressedTo job q) ↔
      ∃ (p : Nat) (rp : RankInput), p ≠ q ∧ job[p]? = some rp ∧ e ∈ attachWeights rp.edge_list rp.edge_weights ∧
        rq.vertex_range.1 ≤ e.2.1 ∧ e.2.1 < rq.vertex_range.2 := by
  have hrq := Allgather_getElem? job q rq hq
  obtain ⟨k1, -, k3, -, -⟩ := hV
  have hord := ranges_ordered _ k1 ((consecutive_iff _).2 k3)
  rw [List.mem_flatMap]
  constructor
  · rintro ⟨p, hp, he⟩
    have hpl := List.mem_range.1 hp
    obtain ⟨rp, hrp⟩ : ∃ rp, job[p]? = some rp := ⟨job[p], by simp [hpl]⟩
    simp only [addressedTo, hrp, List.mem_filter, mem_sortEdges, Bool.and_eq_true,
      Bool.or_eq_true, decide_eq_true_eq] at he
    obtain ⟨hmem, hout, hfind⟩ := he
    obtain ⟨⟨r, hr, hin⟩, -⟩ := (findRange_iff _ _ _).1 hfind
    rw [hrq] at hr
    simp only [Option.some.injEq] at hr
    subst hr
    refine ⟨p, rp, ?_, hrp, hmem, hin⟩
    rintro rfl
    rw [hq] at hrp
    simp only [Option.some.injEq] at hrp
    subst hrp
    omega
  · rintro ⟨p, rp, hpq, hrp, hmem, hin⟩
    have hpl := getElem?_lt _ _ _ hrp
    have hrpr := Allgather_getElem? job p rp hrp
    refine ⟨p, List.mem_range.2 hpl, ?_⟩
    simp only [addressedTo, hrp, List.mem_filter, mem_sortEdges, Bool.and_eq_true,
      Bool.or_eq_true, decide_eq_true_eq]
    refine ⟨hmem, ?_, ?_⟩
    · rcases Nat.lt_or_gt_of_ne hpq with h | h
      · have := hord p q _ _ h hrpr hrq
        right; omega
      · have := hord q p _ _ h hrq hrpr
        left; omega
    · rw [findRange_iff]
      refine ⟨⟨_, hrq, hin⟩, fun p2 hp2 r2 hr2 => ?_⟩
      have := hord p2 q _ _ hp2 hr2 hrq
      omega

/-- C17: for a job of ranks (at most `2 ^ 31`, with vertex ranges ending below
`2 ^ 64 - 1` and 64-bit signed edge weights) that all pass the range, weight,
self-loop, duplicate and local-symmetry checks, the exchange delivering to each
rank the triples `(u, v, w)` that the ranks address to it: `ValidateSimpleGraph`
on rank `q` returns `true` if and only if for every edge `(u, v)` with weight
`w` of another rank whose head `v` lies in the range of `q`, the edge list of
`q` contains the edge `(v, u)` with weight `w`; and it returns `false`
otherwise. -/
theorem ValidateSimpleGraph_cross_rank (job : List RankInput) (q : Nat) (rq : RankInput)
    (hq : job[q]? = some rq) (hP : job.length < 2 ^ 31)
    (hpass : ∀ (p : Nat) (rp : RankInput), job[p]? = some rp →
      passesLocalChecks rp.edge_list rp.vertex_range rp.vertex_weights rp.edge_weights
        (AllgatherVertexRange job) p = true)
    (h64 : ∀ (p : Nat) (rp : RankInput), job[p]? = some rp → rp.vertex_range.2 + 1 < 2 ^ 64)
    (hw : ∀ (p : Nat) (rp : RankInput), job[p]? = some rp →
      ∀ w, w ∈ rp.edge_weights → -2 ^ 63 ≤ w ∧ w < 2 ^ 63) :
    (ValidateSimpleGraph rq.edge_list rq.vertex_range rq.vertex_weights rq.edge_weights
        (AllgatherVertexRange job) q (Alltoallv job q) = some true ↔
      ∀ (p : Nat) (rp : RankInput), p ≠ q → job[p]? = some rp → ∀ u v w, rp.hasEdge u v w →
        rq.vertex_range.1 ≤ v → v < rq.vertex_range.2 → rq.hasEdge v u w) ∧
    (ValidateSimpleGraph rq.edge_list rq.vertex_range rq.vertex_weights rq.edge_weights
        (AllgatherVertexRange job) q (Alltoallv job q) = some true ∨
      ValidateSimpleGraph rq.edge_list rq.vertex_range rq.vertex_weights rq.edge_weights
        (AllgatherVertexRange job) q (Alltoallv job q) = some false) := by
  have hpass : ∀ (p : Nat) (rp : RankInput), job[p]? = some rp →
      LocalChecksPass rp.edge_list rp.vertex_range rp.vertex_weights rp.edge_weights
        (AllgatherVertexRange job) p := fun p rp hrp =>
    (passes_iff _ _ _ _ _ p _ (Allgather_getElem? job p rp hrp) (h64 p rp hrp)).1
      (hpass p rp hrp)
  have hrq := Allgather_getElem? job q rq hq
  have hpq := hpass q rq hq
  obtain ⟨off, hloc, hoff⟩ := localChecks_of_pass _ _ _ _ _ q _ hrq (h64 q rq hq) hpq
  obtain ⟨out, ho, hs, -⟩ := sentBy_spec job q rq hq hP (h64 q rq hq) hpq
  have hrep := Report_of_ok _ _ _ _ _ q (Alltoallv job q) _ off _ out hloc hrq ho
  rw [← hs, exchange_eq job q rq hq hP hpass h64] at hrep
  have hmem := mem_addressed_iff job q rq hq hpq.1
  obtain ⟨r, hr, hiff⟩ := checkReceived_spec _ (sortEdges_sorted _) rq.vertex_range.1
    rq.vertex_range.2 off hoff (h64 q rq hq)
    ((List.range job.length).flatMap (addressedTo job q))
    (fun e he => by
      obtain ⟨p, rp, -, -, -, hin⟩ := (hmem e).1 he
      exact hin)
    (fun e he => by
      obtain ⟨p, rp, -, hrp, hin, -⟩ := (hmem e).1 he
      exact weight_bounds _ _ (hw p rp hrp) e hin)
  rw [hr] at hrep
  have hkey : r = none ↔ ∀ (p : Nat) (rp : RankInput), p ≠ q → job[p]? = some rp → ∀ u v w, rp.hasEdge u v w →
      rq.vertex_range.1 ≤ v → v < rq.vertex_range.2 → rq.hasEdge v u w := by
    rw [hiff]
    constructor
    · intro h p rp hne hrp u v w he h1 h2
      rw [hasEdge_iff rq hpq.2.2.1, ← mem_sortEdges]
      rw [hasEdge_iff rp (hpass p rp hrp).2.2.1] at he
      exact h (u, v, w) ((hmem _).2 ⟨p, rp, hne, hrp, he, h1, h2⟩)
    · intro h e he
      obtain ⟨p, rp, hne, hrp, hin, h1, h2⟩ := (hmem e).1 he
      rw [mem_sortEdges, ← hasEdge_iff rq hpq.2.2.1]
      exact h p rp hne hrp e.1 e.2.1 e.2.2 ((hasEdge_iff rp (hpass p rp hrp).2.2.1 _ _ _).2 hin)
        h1 h2
  rw [← hkey]
  simp only [ValidateSimpleGraph, hrep, Option.map_some', Option.some.injEq]
  cases r with
  | none => simp
  | some d => simp

/-- C17 at a concrete input: rank 0 of the sample job, whose edges `(0, 2)` and
`(1, 2)` have their reverse edges on rank 1 with the same weights. -/
theorem ValidateSimpleGraph_cross_rank_witness :
    (ValidateSimpleGraph [(0, 2), (1, 2)] (0, 2) [] [5, 6] (AllgatherVertexRange sampleJob) 0
        (Alltoallv sampleJob 0) = some true ↔
      ∀ (p : Nat) (rp : RankInput), p ≠ 0 → sampleJob[p]? = some rp → ∀ u v w,
        rp.hasEdge u v w → 0 ≤ v → v < 2 →
        (RankInput.mk [(0, 2), (1, 2)] (0, 2) [] [5, 6]).hasEdge v u w) ∧
    ValidateSimpleGraph [(0, 2), (1, 2)] (0, 2) [] [5, 6] (AllgatherVertexRange sampleJob) 0
        (Alltoallv sampleJob 0) = some true :=
  ⟨(ValidateSimpleGraph_cross_rank sampleJob 0 (RankInput.mk [(0, 2), (1, 2)] (0, 2) [] [5, 6])
      rfl (by decide)
      (forall_of_enum sampleJob (fun p rp => passesLocalChecks rp.edge_list rp.vertex_range
        rp.vertex_weights rp.edge_weights (AllgatherVertexRange sampleJob) p = true) (by decide))
      (forall_of_enum sampleJob (fun _ rp => rp.vertex_range.2 + 1 < 2 ^ 64) (by decide))
      (forall_of_enum sampleJob (fun _ rp => ∀ w, w ∈ rp.edge_weights →
        -2 ^ 63 ≤ w ∧ w < 2 ^ 63) (by decide))).1,
    by decide⟩

/-! ### The image mesh configuration -/

theorem isqrtBelow_le (n : Nat) : ∀ k, isqrtBelow n k ≤ k := by
  intro k
  induction k with
  | zero => simp [isqrtBelow]
  | succ k ih =>
    unfold isqrtBelow
    split
    · exact le_refl _
    · omega

theorem isqrtBelow_pos (n : Nat) (hn : 1 ≤ n) : ∀ k, 1 ≤ k → 1 ≤ isqrtBelow n k := by
  intro k
  induction k with
  | zero => intro h; omega
  | succ k ih =>
    intro _
    unfold isqrtBelow
    split
    · omega
    · next h =>
      cases k with
      | zero => simp at h; omega
      | succ k => exact ih (by omega)

theorem isqrt_bounds (size : Nat) (h : 1 ≤ size) : 1 ≤ isqrt size ∧ isqrt size ≤ size :=
  ⟨isqrtBelow_pos size h size h, isqrtBelow_le size size⟩

theorem useWholeGrid_spec (config : ImageMeshConfig) (size : Nat) (hs : 1 ≤ size)
    (hf : Fits config size) :
    (useWholeGrid config size).cols_per_pe = config.cols_per_pe ∧
    (useWholeGrid config size).rows_per_pe = config.rows_per_pe ∧
    1 ≤ (useWholeGrid config size).grid_x ∧ (useWholeGrid config size).grid_x < 2 ^ 21 ∧
    1 ≤ (useWholeGrid config size).grid_y ∧ (useWholeGrid config size).grid_y < 2 ^ 21 := by
  obtain ⟨h1, h2⟩ := isqrt_bounds size hs
  obtain ⟨f1, f2, f3, f4, f5, f6, f7⟩ := hf
  obtain ⟨mx, my, gx, gy, cp, rp⟩ := config
  unfold useWholeGrid
  simp only at f2 f3 f4 f5 f6 f7 ⊢
  split_ifs <;> (try simp only at *) <;> refine ⟨trivial, trivial, ?_⟩ <;> omega

theorem mul64_mul64 (a b c : Nat) (h : a * b * c < 2 ^ 64) : mul64 (mul64 a b) c = a * b * c := by
  unfold mul64
  rw [Nat.mod_mul_mod, Nat.mod_eq_of_lt h]

theorem checkTiling_returned (c d : ImageMeshConfig) (size : Nat)
    (h : checkTiling c size = some (Normalized.returned d)) :
    d = c ∧ mul64 (mul64 size c.cols_per_pe) c.rows_per_pe = mul64 c.grid_x c.grid_y ∧
      c.cols_per_pe ≠ 0 ∧ c.grid_x % c.cols_per_pe = 0 ∧
      c.rows_per_pe ≠ 0 ∧ c.grid_y % c.rows_per_pe = 0 := by
  unfold checkTiling mod64 at h
  by_cases h1 : mul64 (mul64 size c.cols_per_pe) c.rows_per_pe ≠ mul64 c.grid_x c.grid_y
  · rw [if_pos h1] at h; simp at h
  rw [if_neg h1] at h
  by_cases h2 : c.cols_per_pe = 0
  · rw [if_pos h2] at h; simp at h
  rw [if_neg h2] at h
  simp only at h
  by_cases h3 : c.grid_x % c.cols_per_pe ≠ 0
  · rw [if_pos h3] at h; simp at h
  rw [if_neg h3] at h
  by_cases h4 : c.rows_per_pe = 0
  · rw [if_pos h4] at h; simp at h
  rw [if_neg h4] at h
  simp only at h
  by_cases h5 : c.grid_y % c.rows_per_pe ≠ 0
  · rw [if_pos h5] at h; simp at h
  rw [if_neg h5] at h
  simp only [Option.some.injEq, Normalized.returned.injEq] at h
  push_neg at h1 h3 h5
  exact ⟨h.symm, h1, h2, h3, h4, h5⟩

theorem checkTiling_thrown (c : ImageMeshConfig) (size : Nat) (e : ConfigurationError)
    (h : checkTiling c size = some (Normalized.thrown e)) :
    ¬(mul64 (mul64 size c.cols_per_pe) c.rows_per_pe = mul64 c.grid_x c.grid_y ∧
      c.grid_x % c.cols_per_pe = 0 ∧ c.grid_y % c.rows_per_pe = 0) := by
  rintro ⟨k1, k2, k3⟩
  unfold checkTiling mod64 at h
  rw [if_neg (by simpa using k1)] at h
  by_cases h2 : c.cols_per_pe = 0
  · rw [if_pos h2] at h; simp at h
  rw [if_neg h2] at h
  simp only at h
  rw [if_neg (by simpa using k2)] at h
  by_cases h4 : c.rows_per_pe = 0
  · rw [if_pos h4] at h; simp at h
  rw [if_neg h4] at h
  simp only at h
  rw [if_neg (by simpa using k3)] at h
  simp at h

theorem checkTiling_fits (c : ImageMeshConfig) (size : Nat)
    (hprod : size * c.cols_per_pe * c.rows_per_pe < 2 ^ 64)
    (hg : c.grid_x * c.grid_y < 2 ^ 64) (hpos : 1 ≤ c.grid_x * c.grid_y) :
    (Tiles c size → checkTiling c size = some (Normalized.returned c)) ∧
    (¬Tiles c size → ∃ e, checkTiling c size = some (Normalized.thrown e)) := by
  have e1 := mul64_mul64 size c.cols_per_pe c.rows_per_pe hprod
  have e2 : mul64 c.grid_x c.grid_y = c.grid_x * c.grid_y := mul64_eq hg
  unfold checkTiling mod64 Tiles
  rw [e1, e2]
  by_cases h1 : size * c.cols_per_pe * c.rows_per_pe = c.grid_x * c.grid_y
  swap
  · rw [if_pos h1]
    exact ⟨fun h => absurd h.1 h1, fun _ => ⟨_, rfl⟩⟩
  rw [if_neg (by simpa using h1)]
  have hc : c.cols_per_pe ≠ 0 := by
    intro h0
    have hz : size * c.cols_per_pe * c.rows_per_pe = 0 := by rw [h0]; simp
    omega
  have hr : c.rows_per_pe ≠ 0 := by
    intro h0
    have hz : size * c.cols_per_pe * c.rows_per_pe = 0 := by rw [h0]; simp
    omega
  rw [if_neg hc]
  simp only
  by_cases h3 : c.grid_x % c.cols_per_pe = 0
  swap
  · rw [if_pos h3]
    exact ⟨fun h => absurd h.2.1 h3, fun _ => ⟨_, rfl⟩⟩
  rw [if_neg (by simpa using h3), if_neg hr]
  simp only
  by_cases h5 : c.grid_y % c.rows_per_pe = 0
  swap
  · rw [if_pos h5]
    exact ⟨fun h => absurd h.2.2 h5, fun _ => ⟨_, rfl⟩⟩
  rw [if_neg (by simpa using h5)]
  exact ⟨fun _ => rfl, fun h => absurd ⟨h1, h3, h5⟩ h⟩

theorem mul_lt_42 {a b : Nat} (ha : a < 2 ^ 21) (hb : b < 2 ^ 21) : a * b < 2 ^ 42 := by
  have := Nat.mul_lt_mul'' ha hb
  calc a * b < 2 ^ 21 * 2 ^ 21 := this
    _ = 2 ^ 42 := by norm_num

theorem mul_lt_63 {a b c : Nat} (ha : a < 2 ^ 21) (hb : b < 2 ^ 21) (hc : c < 2 ^ 21) :
    a * b * c < 2 ^ 64 := by
  have h1 := mul_lt_42 ha hb
  have := Nat.mul_lt_mul'' h1 hc
  calc a * b * c < 2 ^ 42 * 2 ^ 21 := this
    _ < 2 ^ 64 := by norm_num

theorem derivedConfig_fits (config : ImageMeshConfig) (size : Nat) (hs : 1 ≤ size)
    (hf : Fits config size) :
    ∃ c, derivedConfig config size = some c ∧
      size * c.cols_per_pe * c.rows_per_pe < 2 ^ 64 ∧ c.grid_x * c.grid_y < 2 ^ 64 ∧
      1 ≤ c.grid_x * c.grid_y := by
  obtain ⟨k1, k2, k3, k4, k5, k6⟩ := useWholeGrid_spec config size hs hf
  have hsz : size < 2 ^ 21 := hf.1
  have hcols : config.cols_per_pe < 2 ^ 21 := hf.2.2.2.2.2.1
  have hrows : config.rows_per_pe < 2 ^ 21 := hf.2.2.2.2.2.2
  have hg42 := mul_lt_42 k4 k6
  have hg : (useWholeGrid config size).grid_x * (useWholeGrid config size).grid_y < 2 ^ 64 := by
    omega
  have hg1 : 1 ≤ (useWholeGrid config size).grid_x * (useWholeGrid config size).grid_y :=
    Nat.mul_pos k3 k5
  unfold derivedConfig deriveRectangles
  rw [k1, k2]
  by_cases hA : config.cols_per_pe = 0 ∧ config.rows_per_pe = 0
  · rw [if_pos hA]
    have hd1 : div64 (useWholeGrid config size).grid_y size =
        some ((useWholeGrid config size).grid_y / size) := by
      unfold div64; rw [if_neg (by omega)]
    have hd2 : div64 size (useWholeGrid config size).grid_y =
        some (size / (useWholeGrid config size).grid_y) := by
      unfold div64; rw [if_neg (by omega)]
    rw [hd1, hd2]
    simp only
    have hd3 : div64 (useWholeGrid config size).grid_x
        (max 1 (size / (useWholeGrid config size).grid_y)) =
        some ((useWholeGrid config size).grid_x /
          max 1 (size / (useWholeGrid config size).grid_y)) := by
      unfold div64; rw [if_neg (by omega)]
    rw [hd3]
    refine ⟨_, rfl, ?_, hg, hg1⟩
    simp only
    have hr : max 1 ((useWholeGrid config size).grid_y / size) < 2 ^ 21 := by
      have := Nat.div_le_self (useWholeGrid config size).grid_y size
      omega
    have hc : (useWholeGrid config size).grid_x /
        max 1 (size / (useWholeGrid config size).grid_y) < 2 ^ 21 := by
      have := Nat.div_le_self (useWholeGrid config size).grid_x
        (max 1 (size / (useWholeGrid config size).grid_y))
      omega
    exact mul_lt_63 hsz hc hr
  rw [if_neg hA]
  by_cases hB : config.cols_per_pe = 0
  · rw [if_pos hB]
    have hr0 : config.rows_per_pe ≠ 0 := fun h => hA ⟨hB, h⟩
    have hsr := mul_lt_42 hsz hrows
    have hsr1 : 1 ≤ size * config.rows_per_pe := Nat.mul_pos hs (by omega)
    rw [mul64_eq hg, mul64_eq (by omega : size * config.rows_per_pe < 2 ^ 64)]
    unfold div64
    rw [if_neg (by omega)]
    refine ⟨_, rfl, ?_, hg, hg1⟩
    simp only [Option.map_some']
    have := Nat.mul_div_le ((useWholeGrid config size).grid_x * (useWholeGrid config size).grid_y)
      (size * config.rows_per_pe)
    have hre : size * ((useWholeGrid config size).grid_x * (useWholeGrid config size).grid_y /
        (size * config.rows_per_pe)) * config.rows_per_pe =
        size * config.rows_per_pe * ((useWholeGrid config size).grid_x *
          (useWholeGrid config size).grid_y / (size * config.rows_per_pe)) := by ring
    rw [hre]
    omega
  rw [if_neg hB]
  by_cases hC : config.rows_per_pe = 0
  · rw [if_pos hC]
    have hsc := mul_lt_42 hsz hcols
    have hsc1 : 1 ≤ size * config.cols_per_pe := Nat.mul_pos hs (by omega)
    rw [mul64_eq hg, mul64_eq (by omega : size * config.cols_per_pe < 2 ^ 64)]
    unfold div64
    rw [if_neg (by omega)]
    refine ⟨_, rfl, ?_, hg, hg1⟩
    simp only [Option.map_some']
    have := Nat.mul_div_le ((useWholeGrid config size).grid_x * (useWholeGrid config size).grid_y)
      (size * config.cols_per_pe)
    omega
  rw [if_neg hC]
  refine ⟨_, rfl, ?_, hg, hg1⟩
  rw [k1, k2]
  exact mul_lt_63 hsz hcols hrows

/-! ### The binary edge list -/

theorem bytesOf_length (k : Nat) : ∀ x, (bytesOf k x).length = k := by
  induction k with
  | zero => intro x; rfl
  | succ k ih => intro x; simp [bytesOf, ih]

theorem valueOf_bytesOf (k : Nat) : ∀ x, valueOf (bytesOf k x) = x % 256 ^ k := by
  induction k with
  | zero => intro x; simp [bytesOf, valueOf, Nat.mod_one]
  | succ k ih =>
    intro x
    simp only [bytesOf, valueOf, ih]
    rw [pow_succ', Nat.mod_mul]

theorem AppendTo_eq (width_ : Nat) (edges_ : List (Nat × Nat)) : ∀ (file : List Nat),
    BinaryEdgeListWriter.AppendTo width_ edges_ file =
      file ++ edges_.flatMap (fun e =>
        bytesOf (if width_ = 64 then 8 else 4) e.1 ++ bytesOf (if width_ = 64 then 8 else 4) e.2) := by
  induction edges_ with
  | nil => intro file; simp [BinaryEdgeListWriter.AppendTo]
  | cons e rest ih =>
    intro file
    unfold BinaryEdgeListWriter.AppendTo at ih ⊢
    rw [List.foldl_cons, ih]
    by_cases h : width_ = 64
    · simp [h]
    · simp [h]

theorem readPairs_flatMap (k : Nat) (edges : List (Nat × Nat)) :
    readPairs k edges.length (edges.flatMap (fun e => bytesOf k e.1 ++ bytesOf k e.2)) =
      some (edges.map (fun e => (e.1 % 256 ^ k, e.2 % 256 ^ k))) := by
  induction edges with
  | nil => rfl
  | cons e rest ih =>
    simp only [List.length_cons, List.flatMap_cons, readPairs, List.length_append,
      bytesOf_length, List.map_cons]
    rw [if_neg (by omega)]
    have h1 : (bytesOf k e.1 ++ bytesOf k e.2 ++
        rest.flatMap (fun e => bytesOf k e.1 ++ bytesOf k e.2)).drop (2 * k) =
        rest.flatMap (fun e => bytesOf k e.1 ++ bytesOf k e.2) := by
      rw [List.drop_append_of_le_length (by simp [bytesOf_length]; omega)]
      rw [List.drop_of_length_le (by simp [bytesOf_length]; omega)]
      rfl
    have h2 : (bytesOf k e.1 ++ bytesOf k e.2 ++
        rest.flatMap (fun e => bytesOf k e.1 ++ bytesOf k e.2)).take k = bytesOf k e.1 := by
      rw [List.append_assoc, List.take_append_of_le_length (by simp [bytesOf_length])]
      rw [List.take_of_length_le (by simp [bytesOf_length])]
    have h3 : ((bytesOf k e.1 ++ bytesOf k e.2 ++
        rest.flatMap (fun e => bytesOf k e.1 ++ bytesOf k e.2)).drop k).take k =
        bytesOf k e.2 := by
      rw [List.append_assoc, List.drop_append_of_le_length (by simp [bytesOf_length])]
      rw [List.drop_of_length_le (by simp [bytesOf_length]), List.nil_append]
      rw [List.take_append_of_le_length (by simp [bytesOf_length])]
      rw [List.take_of_length_le (by simp [bytesOf_length])]
    rw [h1, h2, h3, ih, valueOf_bytesOf, valueOf_bytesOf]
    rfl

/-- C19: the bytes that `AppendHeaderTo(n, m)` followed by `AppendTo` append to a
file for an edge list of `m` edges (`n` and `m` 64-bit values, `width` 64 or
32, the bytes of a number being those of a little-endian machine) are the 8
bytes of `n`, the 8 bytes of `m` and then, in edge order and without padding,
the `width / 8` bytes of the tail and of the head of every edge, which makes
`16 + 2 * (width / 8) * m` bytes; read back as the format of the specification
they yield `n`, `m` and every id modulo `2 ^ width`, so the original edges when
all ids are below `2 ^ width`. -/
theorem BinaryEdgeList_round_trip (width n m : Nat) (file : List Nat)
    (edges : List (Nat × Nat)) (hw : width = 64 ∨ width = 32) (hn : n < 2 ^ 64)
    (hm : m = edges.length) (hm64 : m < 2 ^ 64) :
    BinaryEdgeListWriter.AppendTo width edges (BinaryEdgeListWriter.AppendHeaderTo file n m) =
      file ++ (bytesOf 8 n ++ bytesOf 8 m ++
        edges.flatMap (fun e => bytesOf (width / 8) e.1 ++ bytesOf (width / 8) e.2)) ∧
    (bytesOf 8 n ++ bytesOf 8 m ++
      edges.flatMap (fun e => bytesOf (width / 8) e.1 ++ bytesOf (width / 8) e.2)).length =
      16 + 2 * (width / 8) * m ∧
    readBinaryEdgeList width (bytesOf 8 n ++ bytesOf 8 m ++
      edges.flatMap (fun e => bytesOf (width / 8) e.1 ++ bytesOf (width / 8) e.2)) =
      some (n, m, edges.map (fun e => (e.1 % 2 ^ width, e.2 % 2 ^ width))) ∧
    ((∀ e, e ∈ edges → e.1 < 2 ^ width ∧ e.2 < 2 ^ width) →
      readBinaryEdgeList width (bytesOf 8 n ++ bytesOf 8 m ++
        edges.flatMap (fun e => bytesOf (width / 8) e.1 ++ bytesOf (width / 8) e.2)) =
        some (n, m, edges)) := by
  have hk : (if width = 64 then 8 else 4) = width / 8 := by
    rcases hw with h | h <;> subst h <;> rfl
  have hpow : 256 ^ (width / 8) = 2 ^ width := by
    rcases hw with h | h <;> subst h <;> norm_num
  have hlen : ∀ (l : List (Nat × Nat)),
      (l.flatMap (fun e => bytesOf (width / 8) e.1 ++ bytesOf (width / 8) e.2)).length =
        2 * (width / 8) * l.length := by
    intro l
    induction l with
    | nil => rfl
    | cons e rest ih =>
      simp only [List.flatMap_cons, List.length_append, bytesOf_length, ih, List.length_cons]
      ring
  have hread : readBinaryEdgeList width (bytesOf 8 n ++ bytesOf 8 m ++
      edges.flatMap (fun e => bytesOf (width / 8) e.1 ++ bytesOf (width / 8) e.2)) =
      some (n, m, edges.map (fun e => (e.1 % 2 ^ width, e.2 % 2 ^ width))) := by
    unfold readBinaryEdgeList
    rw [if_neg (by simp only [List.length_append, bytesOf_length]; omega)]
    have h1 : (bytesOf 8 n ++ bytesOf 8 m ++
        edges.flatMap (fun e => bytesOf (width / 8) e.1 ++ bytesOf (width / 8) e.2)).take 8 =
        bytesOf 8 n := by
      rw [List.append_assoc, List.take_append_of_le_length (by simp [bytesOf_length])]
      rw [List.take_of_length_le (by simp [bytesOf_length])]
    have h2 : ((bytesOf 8 n ++ bytesOf 8 m ++
        edges.flatMap (fun e => bytesOf (width / 8) e.1 ++ bytesOf (width / 8) e.2)).drop 8).take
        8 = bytesOf 8 m := by
      rw [List.append_assoc, List.drop_append_of_le_length (by simp [bytesOf_length])]
      rw [List.drop_of_length_le (by simp [bytesOf_length]), List.nil_append]
      rw [List.take_append_of_le_length (by simp [bytesOf_length])]
      rw [List.take_of_length_le (by simp [bytesOf_length])]
    have h3 : (bytesOf 8 n ++ bytesOf 8 m ++
        edges.flatMap (fun e => bytesOf (width / 8) e.1 ++ bytesOf (width / 8) e.2)).drop 16 =
        edges.flatMap (fun e => bytesOf (width / 8) e.1 ++ bytesOf (width / 8) e.2) := by
      rw [List.drop_append_of_le_length (by simp [bytesOf_length])]
      rw [List.drop_of_length_le (by simp [bytesOf_length])]
      rfl
    have hn8 : n % 256 ^ 8 = n := Nat.mod_eq_of_lt (by norm_num; omega)
    have hm8 : m % 256 ^ 8 = m := Nat.mod_eq_of_lt (by norm_num; omega)
    rw [h1, h2, h3, valueOf_bytesOf, valueOf_bytesOf, hn8, hm8, hm, readPairs_flatMap, hpow]
    simp only [Option.map_some']
  refine ⟨?_, ?_, hread, fun hall => ?_⟩
  · rw [AppendTo_eq, hk]
    simp [BinaryEdgeListWriter.AppendHeaderTo, List.append_assoc]
  · simp only [List.length_append, bytesOf_length, hlen, hm]
  · have : edges.map (fun e => (e.1 % 2 ^ width, e.2 % 2 ^ width)) = edges.map id := by
      apply List.map_congr_left
      intro e he
      obtain ⟨h1, h2⟩ := hall e he
      simp [Nat.mod_eq_of_lt h1, Nat.mod_eq_of_lt h2]
    rw [hread, this, List.map_id]

/-- C19 at a concrete input: two edges written in 32-bit mode. -/
theorem BinaryEdgeList_round_trip_witness :
    BinaryEdgeListWriter.AppendTo 32 [(1, 2), (3, 2 ^ 32 + 5)]
        (BinaryEdgeListWriter.AppendHeaderTo [] 7 2) =
      [7, 0, 0, 0, 0, 0, 0, 0, 2, 0, 0, 0, 0, 0, 0, 0, 1, 0, 0, 0, 2, 0, 0, 0, 3, 0, 0, 0,
        5, 0, 0, 0] ∧
    readBinaryEdgeList 32 (bytesOf 8 7 ++ bytesOf 8 2 ++
      [((1 : Nat), (2 : Nat)), (3, 2 ^ 32 + 5)].flatMap
        (fun e => bytesOf (32 / 8) e.1 ++ bytesOf (32 / 8) e.2)) =
      some (7, 2, [((1 : Nat), (2 : Nat)), (3, 2 ^ 32 + 5)].map
        (fun e => (e.1 % 2 ^ 32, e.2 % 2 ^ 32))) :=
  ⟨by decide, (BinaryEdgeList_round_trip 32 7 2 [] [(1, 2), (3, 2 ^ 32 + 5)] (Or.inr rfl)
    (by decide) rfl (by decide)).2.2.1⟩

/-! ### Reading a KARGB image -/

theorem readPixels_spec (file : List Nat) (base : Nat) : ∀ (n c : Nat),
    3 * (base + c) + 3 * n ≤ file.length →
    readPixels file n (3 * (base + c)) =
      some ((List.range' c n).map (fun c => pixelAt file (3 * (base + c)))) := by
  intro n
  induction n with
  | zero => intro c _; rfl
  | succ n ih =>
    intro c h
    have h0 : file[3 * (base + c)]? = some (file.getD (3 * (base + c)) 0) := by
      rw [List.getD_eq_getElem?_getD, List.getElem?_eq_getElem (by omega)]; rfl
    have h1 : file[3 * (base + c) + 1]? = some (file.getD (3 * (base + c) + 1) 0) := by
      rw [List.getD_eq_getElem?_getD, List.getElem?_eq_getElem (by omega)]; rfl
    have h2 : file[3 * (base + c) + 2]? = some (file.getD (3 * (base + c) + 2) 0) := by
      rw [List.getD_eq_getElem?_getD, List.getElem?_eq_getElem (by omega)]; rfl
    have hpos : 3 * (base + c) + 3 = 3 * (base + (c + 1)) := by omega
    simp only [readPixels, h0, h1, h2]
    rw [hpos, ih (c + 1) (by omega)]
    simp [List.range'_succ, pixelAt]

theorem rows_fold (file : List Nat) (C col num_cols : Nat) (hlen : file.length < 2 ^ 64)
    (rows : List Nat) : ∀ (acc : List RGB),
    (∀ r, r ∈ rows → 3 * (r * C + col) + 3 * num_cols ≤ file.length) →
    rows.foldlM
      (fun pixels cur_row =>
        (readPixels file num_cols (mul64 (mul64 (add64 (mul64 cur_row C) col) 3) 1)).map
          (fun read => pixels ++ read))
      acc =
    some (acc ++ rows.flatMap
      (fun r => (List.range' col num_cols).map (fun c => pixelAt file (3 * (r * C + c))))) := by
  induction rows with
  | nil => intro acc _; simp
  | cons r rest ih =>
    intro acc h
    have hr := h r (by simp)
    have e1 : mul64 r C = r * C := mul64_eq (by omega)
    have e2 : add64 (r * C) col = r * C + col := add64_eq (by omega)
    have e3 : mul64 (r * C + col) 3 = 3 * (r * C + col) := by
      rw [mul64_eq (by omega)]; omega
    have e4 : mul64 (3 * (r * C + col)) 1 = 3 * (r * C + col) := by
      rw [mul64_eq (by omega)]; omega
    simp only [List.foldlM_cons, e1, e2, e3, e4]
    rw [readPixels_spec file (r * C) num_cols col hr]
    simp only [Option.map_some', Option.bind_eq_bind, Option.some_bind]
    rw [ih _ (fun x hx => h x (by simp [hx]))]
    simp [List.flatMap_cons, List.append_assoc]

/-- C20 does not hold of the code: `ReadRect` seeks to the position
`3 * (r * C + col)` counted from the start of the file, without the 21 bytes of
the header, so that the pixel it returns for `(r, c)` is made of the three
bytes at the file offset `3 * (r * C + c)` and not of those at
`21 + 3 * (r * C + c)`. The statement holds for every file of at least 21 and
fewer than `2 ^ 64` bytes, `C` being the number of columns in its header, and
every rectangle whose reads stay inside the file, as they do for a rectangle
inside the image of a well-formed file. -/
theorem ReadRect_ignores_header (file : List Nat) (row col num_rows num_cols : Nat)
    (hhead : kKargbHeaderLength + 16 ≤ file.length) (hlen : file.length < 2 ^ 64)
    (hfit : ∀ r, r ∈ List.range' row num_rows →
      3 * (r * valueOf ((file.drop (kKargbHeaderLength + 8)).take 8) + col) + 3 * num_cols ≤
        file.length) :
    ReadRect file row col num_rows num_cols =
      some ((List.range' row num_rows).flatMap (fun r => (List.range' col num_cols).map
        (fun c => pixelAt file
          (3 * (r * valueOf ((file.drop (kKargbHeaderLength + 8)).take 8) + c))))) := by
  unfold ReadRect
  rw [if_neg (by omega)]
  simp only
  rw [rows_fold file _ col num_cols hlen (List.range' row num_rows) [] hfit]
  simp

/-- C20 on a well-formed file of two rows and two columns: the whole image is
read as the bytes `K A R`, `G B 2` and six zero bytes of the header, and the
pixel `(1, 1)`, which is `(10, 11, 12)`, is read as `(0, 0, 0)`. -/
theorem ReadRect_ignores_header_witness :
    ReadDimensions (kargbFile 2 2 sampleImage) = some (2, 2) ∧
    ReadRect (kargbFile 2 2 sampleImage) 0 0 2 2 =
      some [RGB.mk 75 65 82, RGB.mk 71 66 2, RGB.mk 0 0 0, RGB.mk 0 0 0] ∧
    ReadRect (kargbFile 2 2 sampleImage) 1 1 1 1 = some [RGB.mk 0 0 0] ∧
    ReadRect (kargbFile 2 2 sampleImage) 1 1 1 1 =
      some ((List.range' 1 1).flatMap (fun r => (List.range' 1 1).map
        (fun c => pixelAt (kargbFile 2 2 sampleImage)
          (3 * (r * valueOf (((kargbFile 2 2 sampleImage).drop (kKargbHeaderLength + 8)).take 8)
            + c))))) :=
  ⟨by decide, by decide, by decide,
    ReadRect_ignores_header (kargbFile 2 2 sampleImage) 1 1 1 1 (by decide) (by decide)
      (by decide)⟩

/-! ### The Graph500 edge buffer -/

theorem copies_append (l m : List (Int × Int)) (u v : Int) :
    copies (l ++ m) u v = copies l u v + copies m u v := by
  simp [copies, List.countP_append]

theorem copies_singleton (a b u v : Int) :
    copies [(a, b)] u v = if a = u ∧ b = v then 1 else 0 := by
  simp [copies, List.countP_cons]

theorem copies_swap (a b u v : Int) : copies [(a, b)] u v = copies [(b, a)] v u := by
  simp only [copies_singleton]
  by_cases h1 : a = u <;> by_cases h2 : b = v <;> simp [h1, h2]

/-- One undirected call keeps the buffer symmetric. -/
theorem PushLocalEdge_symmetric_step (config_ : PGeneratorConfig)
    (hd : config_.directed = false) (l : List (Int × Int)) (a b : Int)
    (hl : ∀ u v, copies l u v = copies l v u) (u v : Int) :
    copies (Graph500Generator.PushLocalEdge config_ l a b) u v =
      copies (Graph500Generator.PushLocalEdge config_ l a b) v u := by
  unfold Graph500Generator.PushLocalEdge
  simp only [hd]
  by_cases hab : a = b
  · subst hab
    by_cases hs : config_.self_loops = true
    · simp only [hs, true_or, if_true, ne_eq, not_true_eq_false, and_false, if_false,
        copies_append, hl u v, copies_swap a a u v]
    · simp [hs, hl u v]
  · simp only [ne_eq, hab, not_false_eq_true, or_true, if_true, Bool.false_eq_true, and_self,
      copies_append, hl u v, copies_swap a b u v, copies_swap b a u v]
    omega

theorem pushAll_symmetric (config_ : PGeneratorConfig) (hd : config_.directed = false)
    (calls : List (Int × Int)) : ∀ (l : List (Int × Int)),
    (∀ u v, copies l u v = copies l v u) →
    ∀ u v, copies (Graph500Generator.pushAll config_ l calls) u v =
      copies (Graph500Generator.pushAll config_ l calls) v u := by
  induction calls with
  | nil => intro l hl; exact hl
  | cons c cs ih =>
    intro l hl
    exact ih _ (PushLocalEdge_symmetric_step config_ hd l c.1 c.2 hl)

/-- C21 (undirected buffers are symmetric): with `config.directed = false`, after
any sequence of `PushLocalEdge` calls starting from an empty buffer, the number
of stored copies of `(u, v)` equals the number of stored copies of `(v, u)`,
for all `u` and `v`. -/
theorem PushLocalEdge_symmetric (config_ : PGeneratorConfig) (hd : config_.directed = false)
    (calls : List (Int × Int)) (u v : Int) :
    copies (Graph500Generator.pushAll config_ [] calls) u v =
      copies (Graph500Generator.pushAll config_ [] calls) v u :=
  pushAll_symmetric config_ hd calls [] (fun _ _ => rfl) u v

theorem PushLocalEdge_symmetric_witness :
    (PGeneratorConfig.mk true false).directed = false ∧
    Graph500Generator.pushAll (PGeneratorConfig.mk true false) [] [(1, 2), (3, 3), (2, 1)] =
      [(1, 2), (2, 1), (3, 3), (2, 1), (1, 2)] ∧
    copies (Graph500Generator.pushAll (PGeneratorConfig.mk true false) []
      [(1, 2), (3, 3), (2, 1)]) 1 2 =
    copies (Graph500Generator.pushAll (PGeneratorConfig.mk true false) []
      [(1, 2), (3, 3), (2, 1)]) 2 1 :=
  ⟨rfl, by decide,
    PushLocalEdge_symmetric (PGeneratorConfig.mk true false) rfl [(1, 2), (3, 3), (2, 1)] 1 2⟩

/-! ### Global cell ids and chunk ownership -/

/-- The seed that `cellDraw` hashes is `cellCountSeed`. -/
theorem cellDraw_seed (e : Env F) (chunk_id : Nat) (l : CellLoop F) (i : Nat) :
    cellDraw e chunk_id l i =
      e.GenerateBinomial (e.hash (cellCountSeed e chunk_id i)) l.n
        (e.cell_size_ * e.cell_size_ * e.cell_size_ / l.total_area) := rfl

theorem cell_index_lt (T m c i : Nat) (hc : c < T) (hi : i < m) : c * m + i < T * m := by
  have h1 : (c + 1) * m ≤ T * m := Nat.mul_le_mul_right m hc
  have h2 : (c + 1) * m = c * m + m := by ring
  omega

theorem cell_index_inj (m c1 i1 c2 i2 : Nat) (h1 : i1 < m) (h2 : i2 < m)
    (h : c1 * m + i1 = c2 * m + i2) : c1 = c2 ∧ i1 = i2 := by
  have hm : 0 < m := by omega
  have d1 : (c1 * m + i1) / m = c1 := by
    rw [mul_comm, Nat.mul_add_div hm, Nat.div_eq_of_lt h1]; rfl
  have d2 : (c2 * m + i2) / m = c2 := by
    rw [mul_comm, Nat.mul_add_div hm, Nat.div_eq_of_lt h2]; rfl
  have hc : c1 = c2 := by rw [← d1, ← d2, h]
  subst hc
  exact ⟨rfl, by omega⟩

theorem ComputeGlobalCellId_eq (e : Env F)
    (hrep : e.total_chunks_ * e.cells_per_chunk_ < 2 ^ 64) (chunk_id cell_id : Nat)
    (hc : chunk_id < e.total_chunks_) (hi : cell_id < e.cells_per_chunk_) :
    ComputeGlobalCellId e chunk_id cell_id = chunk_id * e.cells_per_chunk_ + cell_id := by
  have h := cell_index_lt _ _ _ _ hc hi
  unfold ComputeGlobalCellId add64 mul64
  rw [Nat.mod_eq_of_lt (by omega), Nat.mod_eq_of_lt (by omega)]

theorem vertexSeed_eq (e : Env F) (chunk_id cell_id : Nat) :
    vertexSeed e chunk_id cell_id = add64 e.seed (ComputeGlobalCellId e chunk_id cell_id) := by
  unfold vertexSeed ComputeGlobalCellId add64 mul64
  omega

theorem cellCountSeed_eq (e : Env F) (chunk_id i : Nat) :
    cellCountSeed e chunk_id i =
      add64 (add64 e.seed (ComputeGlobalCellId e chunk_id i)) (cellsEmptyKey e) := by
  unfold cellCountSeed cellsEmptyKey ComputeGlobalCellId add64 mul64
  omega

theorem add64_left_inj (s x y : Nat) (hx : x < 2 ^ 64) (hy : y < 2 ^ 64)
    (h : add64 s x = add64 s y) : x = y := by
  unfold add64 at h
  omega

theorem add64_right_inj (s x y : Nat) (hx : x < 2 ^ 64) (hy : y < 2 ^ 64)
    (h : add64 x s = add64 y s) : x = y := by
  unfold add64 at h
  omega

theorem add64_lt (a b : Nat) : add64 a b < 2 ^ 64 := Nat.mod_lt _ (by norm_num)

/-- C26 fails when the number of cells is not a 64-bit value: with `K = 2 ^ 20`
(`2 ^ 60` chunks) and `4 ^ 3` cells per chunk, the empty key
`total_chunks_ * cells_per_chunk_` wraps around to `0`, which is the global
cell id of cell `0` of chunk `0`, and cell `0` of chunk `2 ^ 58` has the same
global cell id, vertex seed and cell-count seed. -/
theorem ComputeGlobalCellId_counterexample :
    (sampleHugeEnv.total_chunks_ = sampleHugeEnv.chunks_per_dim_ ^ 3 ∧
      sampleHugeEnv.cells_per_chunk_ = sampleHugeEnv.cells_per_dim_ ^ 3 ∧
      sampleHugeEnv.total_chunks_ < 2 ^ 64 ∧ sampleHugeEnv.cells_per_chunk_ < 2 ^ 64) ∧
    (0 < sampleHugeEnv.total_chunks_ ∧ 2 ^ 58 < sampleHugeEnv.total_chunks_ ∧
      0 < sampleHugeEnv.cells_per_chunk_) ∧
    cellsEmptyKey sampleHugeEnv = 0 ∧
    ComputeGlobalCellId sampleHugeEnv 0 0 = 0 ∧
    ComputeGlobalCellId sampleHugeEnv (2 ^ 58) 0 = 0 ∧
    vertexSeed sampleHugeEnv 0 0 = vertexSeed sampleHugeEnv (2 ^ 58) 0 ∧
    cellCountSeed sampleHugeEnv 0 0 = cellCountSeed sampleHugeEnv (2 ^ 58) 0 :=
  ⟨by decide, by decide, by decide, by decide, by decide, by decide, by decide⟩

/-- C26, amended (global cell ids): when the number of cells
`total_chunks_ * cells_per_chunk_` (the reserved empty key) is a 64-bit value,
for all `chunk_id < total_chunks_` and `cell_id < cells_per_chunk_` the global
cell id is `chunk_id * cells_per_chunk_ + cell_id`, lies below
`total_chunks_ * cells_per_chunk_` and differs from the empty key; and two
different valid pairs have different global cell ids, different vertex seeds
and different cell-count seeds. -/
theorem ComputeGlobalCellId_injective (e : Env F)
    (hrep : e.total_chunks_ * e.cells_per_chunk_ < 2 ^ 64) :
    (∀ chunk_id cell_id, chunk_id < e.total_chunks_ → cell_id < e.cells_per_chunk_ →
      ComputeGlobalCellId e chunk_id cell_id = chunk_id * e.cells_per_chunk_ + cell_id ∧
      ComputeGlobalCellId e chunk_id cell_id < e.total_chunks_ * e.cells_per_chunk_ ∧
      ComputeGlobalCellId e chunk_id cell_id ≠ cellsEmptyKey e) ∧
    (∀ c1 i1 c2 i2, c1 < e.total_chunks_ → i1 < e.cells_per_chunk_ →
      c2 < e.total_chunks_ → i2 < e.cells_per_chunk_ → (c1, i1) ≠ (c2, i2) →
      ComputeGlobalCellId e c1 i1 ≠ ComputeGlobalCellId e c2 i2 ∧
      vertexSeed e c1 i1 ≠ vertexSeed e c2 i2 ∧
      cellCountSeed e c1 i1 ≠ cellCountSeed e c2 i2) := by
  have hk : cellsEmptyKey e = e.total_chunks_ * e.cells_per_chunk_ := by
    unfold cellsEmptyKey mul64
    exact Nat.mod_eq_of_lt hrep
  constructor
  · intro c i hc hi
    have h := cell_index_lt _ _ _ _ hc hi
    rw [ComputeGlobalCellId_eq e hrep c i hc hi, hk]
    exact ⟨rfl, h, by omega⟩
  · intro c1 i1 c2 i2 hc1 hi1 hc2 hi2 hne
    have b1 := cell_index_lt _ _ _ _ hc1 hi1
    have b2 := cell_index_lt _ _ _ _ hc2 hi2
    have g1 := ComputeGlobalCellId_eq e hrep c1 i1 hc1 hi1
    have g2 := ComputeGlobalCellId_eq e hrep c2 i2 hc2 hi2
    have hid : ComputeGlobalCellId e c1 i1 ≠ ComputeGlobalCellId e c2 i2 := by
      intro h
      rw [g1, g2] at h
      obtain ⟨h1, h2⟩ := cell_index_inj _ _ _ _ _ hi1 hi2 h
      exact hne (by rw [h1, h2])
    have l1 : ComputeGlobalCellId e c1 i1 < 2 ^ 64 := by omega
    have l2 : ComputeGlobalCellId e c2 i2 < 2 ^ 64 := by omega
    refine ⟨hid, ?_, ?_⟩
    · rw [vertexSeed_eq, vertexSeed_eq]
      exact fun h => hid (add64_left_inj _ _ _ l1 l2 h)
    · rw [cellCountSeed_eq, cellCountSeed_eq]
      exact fun h => hid (add64_left_inj _ _ _ l1 l2
        (add64_right_inj _ _ _ (add64_lt _ _) (add64_lt _ _) h))

theorem ComputeGlobalCellId_injective_witness :
    sampleCellEnv.total_chunks_ * sampleCellEnv.cells_per_chunk_ < 2 ^ 64 ∧
    (ComputeGlobalCellId sampleCellEnv 3 5 = 3 * sampleCellEnv.cells_per_chunk_ + 5 ∧
      ComputeGlobalCellId sampleCellEnv 3 5 <
        sampleCellEnv.total_chunks_ * sampleCellEnv.cells_per_chunk_ ∧
      ComputeGlobalCellId sampleCellEnv 3 5 ≠ cellsEmptyKey sampleCellEnv) :=
  ⟨by decide,
    (ComputeGlobalCellId_injective sampleCellEnv (by decide)).1 3 5 (by decide) (by decide)⟩

/-- A monotone sequence of interval ends that starts at or below `c` and ends
above `c` has exactly one interval around `c`. -/
theorem interval_of_monotone (f : Nat → Nat) (c : Nat) : ∀ (n : Nat),
    (∀ r, r < n → f r ≤ f (r + 1)) → f 0 ≤ c → c < f n →
    ∃ r, r < n ∧ f r ≤ c ∧ c < f (r + 1) := by
  intro n
  induction n with
  | zero => intro _ h0 hn; omega
  | succ n ih =>
    intro hm h0 hn
    by_cases h : c < f n
    · obtain ⟨r, hr, h1, h2⟩ := ih (fun r hr => hm r (by omega)) h0 h
      exact ⟨r, by omega, h1, h2⟩
    · exact ⟨n, by omega, by omega, hn⟩

theorem monotone_of_steps (f : Nat → Nat) (n : Nat) (hm : ∀ r, r < n → f r ≤ f (r + 1)) :
    ∀ (a b : Nat), a ≤ b → b ≤ n → f a ≤ f b := by
  intro a b hab
  induction b with
  | zero =>
    intro _
    have : a = 0 := by omega
    subst this
    exact le_refl _
  | succ b ih =>
    intro hb
    by_cases h : a = b + 1
    · subst h; exact le_refl _
    · exact le_trans (ih (by omega) (by omega)) (hm b (by omega))

/-- C27 (chunk ownership partition): for every number of chunks `T` (a 64-bit
value) and every number of ranks `P >= 1`, the intervals
`[local_chunk_start_, local_chunk_end_)` that `InitDatastructures` computes
for the ranks `0, …, P - 1` partition `[0, T)` contiguously in rank order: rank
0 starts at `0`, every rank starts where the rank before it ends, rank `P - 1`
ends at `T`, rank `r` owns `T / P + 1` chunks when `r < T mod P` and `T / P`
chunks otherwise, and every chunk id below `T` lies in the interval of exactly
one rank. -/
theorem InitDatastructures_partition (e : Env F) (P : Nat) (hP : 1 ≤ P)
    (hT : e.total_chunks_ < 2 ^ 64) :
    (rankEnv e P 0).local_chunk_start_ = 0 ∧
    (∀ r, r + 1 < P →
      (rankEnv e P (r + 1)).local_chunk_start_ = (rankEnv e P r).local_chunk_end_) ∧
    (rankEnv e P (P - 1)).local_chunk_end_ = e.total_chunks_ ∧
    (∀ r, r < P →
      (rankEnv e P r).local_chunk_end_ = (rankEnv e P r).local_chunk_start_ +
        (e.total_chunks_ / P + if r < e.total_chunks_ % P then 1 else 0)) ∧
    (∀ c, c < e.total_chunks_ → ∃ r, r < P ∧
      ((rankEnv e P r).local_chunk_start_ ≤ c ∧ c < (rankEnv e P r).local_chunk_end_) ∧
      ∀ r2, r2 < P → (rankEnv e P r2).local_chunk_start_ ≤ c →
        c < (rankEnv e P r2).local_chunk_end_ → r2 = r) := by
  have hdm : P * (e.total_chunks_ / P) + e.total_chunks_ % P = e.total_chunks_ :=
    Nat.div_add_mod _ _
  have hml : e.total_chunks_ % P < P := Nat.mod_lt _ (by omega)
  have hstep : ∀ r, (r + 1) * (e.total_chunks_ / P) =
      r * (e.total_chunks_ / P) + e.total_chunks_ / P := fun r => by ring
  have hS : ∀ r, r < P → (rankEnv e P r).local_chunk_start_ =
      r * (e.total_chunks_ / P) + min r (e.total_chunks_ % P) :=
    fun r hr => (rankEnv_chunks e P r hT hr).1
  have hE : ∀ r, r < P → (rankEnv e P r).local_chunk_end_ =
      (r + 1) * (e.total_chunks_ / P) + min (r + 1) (e.total_chunks_ % P) :=
    fun r hr => (rankEnv_chunks e P r hT hr).2.1
  generalize e.total_chunks_ / P = q at *
  generalize e.total_chunks_ % P = m at *
  have hmono : ∀ r, r < P → r * q + min r m ≤ (r + 1) * q + min (r + 1) m := by
    intro r _
    rw [hstep r]
    omega
  refine ⟨?_, ?_, ?_, ?_, ?_⟩
  · rw [hS 0 (by omega)]
    simp
  · intro r hr
    rw [hS (r + 1) hr, hE r (by omega)]
  · rw [hE (P - 1) (by omega)]
    have h1 : P - 1 + 1 = P := by omega
    rw [h1]
    omega
  · intro r hr
    rw [hS r hr, hE r hr, hstep r]
    split_ifs <;> omega
  · intro c hc
    obtain ⟨r, hr, h1, h2⟩ := interval_of_monotone (fun r => r * q + min r m) c P hmono
      (by simp) (by
        show c < P * q + min P m
        omega)
    have h1b : r * q + min r m ≤ c := h1
    have h2b : c < (r + 1) * q + min (r + 1) m := h2
    refine ⟨r, hr, ⟨by rw [hS r hr]; exact h1b, by rw [hE r hr]; exact h2b⟩, ?_⟩
    intro r2 hr2 k1 k2
    rw [hS r2 hr2] at k1
    rw [hE r2 hr2] at k2
    have mono := monotone_of_steps (fun r => r * q + min r m) P hmono
    by_contra hne
    rcases Nat.lt_or_gt_of_ne hne with hlt | hgt
    · have h3 : (r2 + 1) * q + min (r2 + 1) m ≤ r * q + min r m :=
        mono (r2 + 1) r (by omega) (by omega)
      omega
    · have h3 : (r + 1) * q + min (r + 1) m ≤ r2 * q + min r2 m :=
        mono (r + 1) r2 (by omega) (by omega)
      omega

theorem InitDatastructures_partition_witness :
    1 ≤ 3 ∧ (sampleEnv 2 10 halfSampler 0 0).total_chunks_ < 2 ^ 64 ∧
    (rankEnv (sampleEnv 2 10 halfSampler 0 0) 3 0).local_chunk_start_ = 0 ∧
    (rankEnv (sampleEnv 2 10 halfSampler 0 0) 3 (3 - 1)).local_chunk_end_ =
      (sampleEnv 2 10 halfSampler 0 0).total_chunks_ :=
  ⟨by decide, by decide,
    (InitDatastructures_partition (sampleEnv 2 10 halfSampler 0 0) 3 (by decide) (by decide)).1,
    (InitDatastructures_partition (sampleEnv 2 10 halfSampler 0 0) 3 (by decide)
      (by decide)).2.2.1⟩

/-! ### The validator: bucketed lookup and index bounds -/

theorem attachWeights_length (el : List (Nat × Nat)) (ew : List Int) :
    (attachWeights el ew).length = el.length := by
  have h := congrArg List.length (attachWeights_keys el ew)
  simpa using h

theorem sortEdges_length (l : List Edge) : (sortEdges l).length = l.length :=
  (sortEdges_perm l).length_eq

/-- A passed range check gives the conditions of the range check. -/
theorem valid_of_ValidateVertexRanges (edge_list ranges : List (Nat × Nat)) (rank : Nat)
    (r : Nat × Nat) (hr : ranges[rank]? = some r)
    (hvalid : ValidateVertexRanges edge_list ranges rank = some true) :
    VertexRangesValid edge_list ranges rank := by
  have hrank : rank < ranges.length := by
    by_contra h
    rw [List.getElem?_eq_none (by omega)] at hr
    cases hr
  have hspec := ValidateVertexRanges_spec edge_list ranges rank hrank
  rw [hvalid] at hspec
  by_contra hV
  rw [Option.some.injEq] at hspec
  simp [hV] at hspec

/-- After a passed range check, the range list has a range for every head that
is not local, and `FindPEInRange` finds it. -/
theorem FindPEInRange_of_valid (edge_list ranges : List (Nat × Nat)) (rank : Nat)
    (r : Nat × Nat) (hr : ranges[rank]? = some r) (hP : ranges.length < 2 ^ 31)
    (hV : VertexRangesValid edge_list ranges rank) (tail head : Nat)
    (he : (tail, head) ∈ edge_list) (hout : head < r.1 ∨ head ≥ r.2) :
    ∃ (pe : Nat), FindPEInRange head ranges = (pe : Int) ∧
      toSInt (FindPEInRange head ranges) = pe ∧ pe < ranges.length ∧ pe ≠ rank ∧
      ∃ (rp : Nat × Nat), ranges[pe]? = some rp ∧ rp.1 ≤ head ∧ head < rp.2 := by
  have hne : ranges ≠ [] := by
    rintro rfl
    simp at hr
  obtain ⟨front, hfront⟩ : ∃ front, ranges.head? = some front := by
    cases ranges with
    | nil => exact absurd rfl hne
    | cons a b => exact ⟨a, rfl⟩
  have hback : ranges.getLast? = some (ranges.getLast hne) := List.getLast?_eq_getLast _ hne
  obtain ⟨-, k2, k3, -, k5⟩ := hV
  have h0 := k2 front hfront
  have hlt := k5 _ hback _ he
  obtain ⟨q, rr, hq, hv⟩ := exists_range ranges ((consecutive_iff ranges).2 k3) head front _
    hfront hback (by omega) hlt
  obtain ⟨pe, hpe⟩ := findRange_exists _ _ q rr hq hv
  have hlen := findRange_lt _ _ _ hpe
  obtain ⟨⟨rp, hrp, hin⟩, -⟩ := (findRange_iff head ranges pe).1 hpe
  have hF : FindPEInRange head ranges = (pe : Int) := by
    simp only [FindPEInRange, hpe]
  refine ⟨pe, hF, ?_, hlen, ?_, rp, hrp, hin.1, hin.2⟩
  · rw [hF]
    exact toSInt_natCast pe (by omega)
  · rintro rfl
    rw [hr] at hrp
    have : r = rp := Option.some.inj hrp
    subst this
    omega

/-- C30 fails for a range that ends at `2 ^ 64 - 1`: on a single rank with the
range `[0, 2 ^ 64 - 1)` and the edges `5 -> 7`, `7 -> 5`, `ValidateVertexRanges`
returns `true`, `node_offset` is created with `to - from + 1` entries, which is
`0` in 64-bit arithmetic, and the index `u - from + 1 = 6` of the first
increment is out of bounds. -/
theorem ValidateSimpleGraph_in_bounds_counterexample :
    ValidateVertexRanges [(5, 7), (7, 5)] [(0, 2 ^ 64 - 1)] 0 = some true ∧
    ([(0, 2 ^ 64 - 1)] : List (Nat × Nat))[0]? = some (0, 2 ^ 64 - 1) ∧
    List.replicate (add64 (sub64 (2 ^ 64 - 1) 0) 1) 0 = [] ∧
    increment (List.replicate (add64 (sub64 (2 ^ 64 - 1) 0) 1) 0) (add64 (sub64 5 0) 1) = none ∧
    nodeOffset 0 (2 ^ 64 - 1) (sortEdges (attachWeights [(5, 7), (7, 5)] [])) = none ∧
    (localChecks [(5, 7), (7, 5)] (0, 2 ^ 64 - 1) [] [] [(0, 2 ^ 64 - 1)] 0).isNone = true :=
  ⟨by decide, by decide, by decide, by decide, by decide, by decide⟩

/-- C30, amended (no index out of bounds after the range check): whenever
`ValidateVertexRanges` returned `true` (the own range ending below
`2 ^ 64 - 1`, fewer than `2 ^ 31` ranks), every index that
`ValidateSimpleGraph` uses afterwards is valid: once the size check of the edge
weights has passed, the indices of `edge_weights` are below the size of
`sorted_edges`; for every sorted edge `(u, v, weight)` the index `u - from + 1`
is at most `to - from`, and so are `v - from` and `v - from + 1` when `v` is
local; `node_offset` is built without leaving the vector, has `to - from + 1`
entries, and all of them are at most the size of `sorted_edges`; for every edge
whose head is not local, `FindPEInRange` returns an index below the number of
ranks (never `-1`) that differs from the own rank and whose range contains the
head; and neither the checks before the exchange nor the filling of the message
buffers leave a vector. -/
theorem ValidateSimpleGraph_in_bounds (edge_list : List (Nat × Nat)) (vertex_range : Nat × Nat)
    (vertex_weights edge_weights : List Int) (ranges : List (Nat × Nat)) (rank : Nat)
    (r : Nat × Nat) (hr : ranges[rank]? = some r)
    (hvalid : ValidateVertexRanges edge_list ranges rank = some true)
    (hlt : r.2 + 1 < 2 ^ 64) (hP : ranges.length < 2 ^ 31) :
    ((edge_weights = [] ∨ edge_list.length = edge_weights.length) →
      ∀ e, e < edge_weights.length →
        e < (sortEdges (attachWeights edge_list edge_weights)).length) ∧
    (∀ e, e ∈ sortEdges (attachWeights edge_list edge_weights) →
      add64 (sub64 e.1 r.1) 1 = e.1 - r.1 + 1 ∧ e.1 - r.1 + 1 ≤ r.2 - r.1 ∧
      (r.1 ≤ e.2.1 → e.2.1 < r.2 →
        sub64 e.2.1 r.1 = e.2.1 - r.1 ∧ add64 (sub64 e.2.1 r.1) 1 = e.2.1 - r.1 + 1 ∧
        e.2.1 - r.1 + 1 ≤ r.2 - r.1)) ∧
    (∃ node_offset,
      nodeOffset r.1 r.2 (sortEdges (attachWeights edge_list edge_weights)) = some node_offset ∧
      node_offset.length = r.2 - r.1 + 1 ∧
      ∀ x, x ∈ node_offset → x ≤ (sortEdges (attachWeights edge_list edge_weights)).length) ∧
    (∀ e, e ∈ sortEdges (attachWeights edge_list edge_weights) →
      (e.2.1 < r.1 ∨ e.2.1 ≥ r.2) →
      ∃ (pe : Nat), FindPEInRange e.2.1 ranges = (pe : Int) ∧
        toSInt (FindPEInRange e.2.1 ranges) = pe ∧ pe < ranges.length ∧ pe ≠ rank ∧
        ∃ (rp : Nat × Nat), ranges[pe]? = some rp ∧ rp.1 ≤ e.2.1 ∧ e.2.1 < rp.2) ∧
    (∃ res, localChecks edge_list vertex_range vertex_weights edge_weights ranges rank =
      some res) ∧
    (∃ message_buffers, messageBuffers ranges r.1 r.2
      (sortEdges (attachWeights edge_list edge_weights)) = some message_buffers ∧
      message_buffers.length = ranges.length) := by
  have hV := valid_of_ValidateVertexRanges edge_list ranges rank r hr hvalid
  have hkey : ∀ e, e ∈ sortEdges (attachWeights edge_list edge_weights) →
      (e.1, e.2.1) ∈ edge_list :=
    fun e he => mem_attachWeights_key _ _ e ((mem_sortEdges _ _).1 he)
  have htail : ∀ e, e ∈ sortEdges (attachWeights edge_list edge_weights) →
      r.1 ≤ e.1 ∧ e.1 < r.2 := fun e he => hV.2.2.2.1 r hr _ (hkey e he)
  have hle : r.1 ≤ r.2 := by
    have := hV.1 r (List.getElem?_mem hr)
    exact this
  refine ⟨?_, ?_, ?_, ?_, ?_, ?_⟩
  · intro hw e he
    rw [sortEdges_length, attachWeights_length]
    rcases hw with hw | hw
    · rw [hw] at he
      simp at he
    · omega
  · intro e he
    have ht := htail e he
    have s1 : sub64 e.1 r.1 = e.1 - r.1 := sub64_eq ht.1 (by omega)
    have s2 : add64 (e.1 - r.1) 1 = e.1 - r.1 + 1 := add64_eq (by omega)
    refine ⟨by rw [s1, s2], by omega, fun h1 h2 => ?_⟩
    have s3 : sub64 e.2.1 r.1 = e.2.1 - r.1 := sub64_eq h1 (by omega)
    have s4 : add64 (e.2.1 - r.1) 1 = e.2.1 - r.1 + 1 := add64_eq (by omega)
    exact ⟨s3, by rw [s3, s4], by omega⟩
  · obtain ⟨off, hoff, hlen, hget⟩ := nodeOffset_spec r.1 r.2 _ hlt hle htail
    refine ⟨off, hoff, hlen, fun x hx => ?_⟩
    obtain ⟨k, hk, hkx⟩ := List.getElem_of_mem hx
    have := hget k (by omega)
    rw [List.getElem?_eq_getElem hk, hkx] at this
    rw [Option.some.inj this]
    exact List.countP_le_length _
  · intro e he hout
    exact FindPEInRange_of_valid edge_list ranges rank r hr hP hV e.1 e.2.1 (hkey e he) hout
  · obtain ⟨res, hres, -⟩ := localChecks_spec edge_list vertex_range vertex_weights edge_weights
      ranges rank r hr hlt
    exact ⟨res, hres⟩
  · obtain ⟨out, ho, hlen, -⟩ := messageBuffers_of_valid edge_list ranges rank r hr
      (by omega) hV _ hkey
    exact ⟨out, ho, hlen⟩

theorem ValidateSimpleGraph_in_bounds_witness :
    ([(0, 2), (2, 3)] : List (Nat × Nat))[0]? = some (0, 2) ∧
    ValidateVertexRanges [(0, 2), (1, 2)] [(0, 2), (2, 3)] 0 = some true ∧
    (∃ node_offset,
      nodeOffset 0 2 (sortEdges (attachWeights [(0, 2), (1, 2)] [5, 6])) = some node_offset ∧
      node_offset.length = 2 - 0 + 1 ∧
      ∀ x, x ∈ node_offset → x ≤ (sortEdges (attachWeights [(0, 2), (1, 2)] [5, 6])).length) ∧
    (∀ e, e ∈ sortEdges (attachWeights [(0, 2), (1, 2)] [5, 6]) → (e.2.1 < 0 ∨ e.2.1 ≥ 2) →
      ∃ (pe : Nat), FindPEInRange e.2.1 [(0, 2), (2, 3)] = (pe : Int) ∧
        toSInt (FindPEInRange e.2.1 [(0, 2), (2, 3)]) = pe ∧
        pe < ([(0, 2), (2, 3)] : List (Nat × Nat)).length ∧ pe ≠ 0 ∧
        ∃ (rp : Nat × Nat), ([(0, 2), (2, 3)] : List (Nat × Nat))[pe]? = some rp ∧
          rp.1 ≤ e.2.1 ∧ e.2.1 < rp.2) :=
  ⟨by simp, by decide,
    (ValidateSimpleGraph_in_bounds [(0, 2), (1, 2)] (0, 2) [] [5, 6] [(0, 2), (2, 3)] 0 (0, 2)
      (by simp) (by decide) (by decide) (by decide)).2.2.1,
    (ValidateSimpleGraph_in_bounds [(0, 2), (1, 2)] (0, 2) [] [5, 6] [(0, 2), (2, 3)] 0 (0, 2)
      (by simp) (by decide) (by decide) (by decide)).2.2.2.1⟩

/-! ### The buffer overload of GenerateVertices -/

/-- The first write of the loop into a cleared buffer is out of bounds. -/
theorem bufferStep_cleared (e : Env F) (cell : Cell F) (s : State F)
    (vertex_buffer : VertexBuffer F) (n i : Nat) :
    bufferStep e cell (s, (vertex_buffer.clear).reserve n) i = none := by
  simp [bufferStep, VertexBuffer.assign, VertexBuffer.clear, VertexBuffer.reserve]

/-- C28 does not hold of the code: on a stored, not yet materialised cell with
count `n >= 1`, the buffer overload of `GenerateVertices` writes
`vertex_buffer[0]` into a vector that `clear()` has just emptied (`reserve(n)`
changes the capacity, not the size), so that with checked indexing the first
write is out of bounds, whatever the buffer held before the call. -/
theorem GenerateVerticesBuffer_out_of_bounds (e : Env F) (fuel chunk_id cell_id : Nat)
    (vertex_buffer : VertexBuffer F) (s : State F) (chunk : Chunk F) (cell : Cell F)
    (hchunk : s.chunks_ chunk_id = some chunk) (hgen : chunk.generated = true)
    (hcell : s.cells_ (ComputeGlobalCellId e chunk_id cell_id) = some cell)
    (hnew : cell.generated = false) (hn : 1 ≤ cell.n) :
    GenerateVerticesBuffer e fuel chunk_id cell_id vertex_buffer s = some none := by
  obtain ⟨m, hm⟩ : ∃ m, cell.n = m + 1 := ⟨cell.n - 1, by omega⟩
  have hc : (touchChunk chunk_id s).cells_ (ComputeGlobalCellId e chunk_id cell_id) =
      some cell := hcell
  unfold GenerateVerticesBuffer
  simp only [hchunk, Option.isNone_some, Bool.false_eq_true, if_false, chunkAt,
    Option.getD_some, hgen, if_true, hc, hnew, hm]
  rw [List.range_succ_eq_map, List.foldlM_cons, bufferStep_cleared]
  rfl

/-- C28 on the cell `0` of chunk `1` of a sample state, stored with count `3` and
offset `5` and not materialised, and a buffer that holds three vertices from an
earlier use: the call ends in the out-of-bounds write `vertex_buffer[0]` and
not with the ids `5, 6, 7` in the buffer. -/
theorem GenerateVerticesBuffer_out_of_bounds_witness :
    sampleCellState.chunks_ 1 = some (Chunk.mk 3 0 0 0 true 5) ∧
    sampleCellState.cells_ (ComputeGlobalCellId (sampleEnv 2 10 halfSampler 0 8) 1 0) =
      some (Chunk.mk 3 0 0 0 false 5) ∧
    GenerateVerticesBuffer (sampleEnv 2 10 halfSampler 0 8) 10 1 0
      (VertexBuffer.mk [Vertex.mk 0 0 0 0, Vertex.mk 0 0 0 1, Vertex.mk 0 0 0 2] 3)
      sampleCellState = some none :=
  ⟨rfl, rfl,
    GenerateVerticesBuffer_out_of_bounds (sampleEnv 2 10 halfSampler 0 8) 10 1 0
      (VertexBuffer.mk [Vertex.mk 0 0 0 0, Vertex.mk 0 0 0 1, Vertex.mk 0 0 0 2] 3)
      sampleCellState (Chunk.mk 3 0 0 0 true 5) (Chunk.mk 3 0 0 0 false 5) rfl rfl rfl rfl
      (by decide)⟩

/-! ### The descent of ComputeChunk on an arbitrary grid -/

/-- One axis of the step into an octant: the half that is chosen holds the
target coordinate, has at least one chunk, lies in the grid and has at most
`(k + 1) / 2` chunks. -/
theorem axis_step (K k start coord : Nat) (hK : K + 1 < 2 ^ 64) (h1 : 1 ≤ k)
    (h2 : start ≤ coord) (h3 : coord < start + k) (h4 : start + k ≤ K) :
    (1 ≤ (if decide (coord < add64 (add64 k 1 / 2) start) = true then add64 k 1 / 2
        else sub64 k (add64 k 1 / 2)) ∧
      (if decide (coord < add64 (add64 k 1 / 2) start) = true then start
        else add64 start (add64 k 1 / 2)) ≤ coord ∧
      coord < (if decide (coord < add64 (add64 k 1 / 2) start) = true then start
          else add64 start (add64 k 1 / 2)) +
        (if decide (coord < add64 (add64 k 1 / 2) start) = true then add64 k 1 / 2
          else sub64 k (add64 k 1 / 2)) ∧
      (if decide (coord < add64 (add64 k 1 / 2) start) = true then start
          else add64 start (add64 k 1 / 2)) +
        (if decide (coord < add64 (add64 k 1 / 2) start) = true then add64 k 1 / 2
          else sub64 k (add64 k 1 / 2)) ≤ K) ∧
    (if decide (coord < add64 (add64 k 1 / 2) start) = true then add64 k 1 / 2
      else sub64 k (add64 k 1 / 2)) ≤ (k + 1) / 2 := by
  have e1 : add64 k 1 = k + 1 := add64_eq (by omega)
  rw [e1]
  have e2 : add64 ((k + 1) / 2) start = (k + 1) / 2 + start := add64_eq (by omega)
  have e3 : add64 start ((k + 1) / 2) = start + (k + 1) / 2 := add64_eq (by omega)
  have e4 : sub64 k ((k + 1) / 2) = k - (k + 1) / 2 := sub64_eq (by omega) (by omega)
  rw [e2, e3, e4]
  by_cases h : coord < (k + 1) / 2 + start
  · simp only [h, decide_True, if_true]
    omega
  · simp only [h, decide_False, Bool.false_eq_true, if_false]
    omega

/-- The step into the octant of the target keeps the target inside the region
and at least halves every axis, rounding up. -/
theorem Inside_child (e : Env F) (K chunk_id : Nat) (a : Args) (hK : K + 1 < 2 ^ 64)
    (h : Inside K chunk_id a) :
    Inside K chunk_id
      (octant e a
        (decide ((Decode chunk_id).2.1 < add64 (add64 a.row_k 1 / 2) a.chunk_start_row))
        (decide ((Decode chunk_id).1 < add64 (add64 a.column_k 1 / 2) a.chunk_start_column))
        (decide ((Decode chunk_id).2.2 < add64 (add64 a.depth_k 1 / 2) a.chunk_start_depth))) ∧
    (octant e a
        (decide ((Decode chunk_id).2.1 < add64 (add64 a.row_k 1 / 2) a.chunk_start_row))
        (decide ((Decode chunk_id).1 < add64 (add64 a.column_k 1 / 2) a.chunk_start_column))
        (decide ((Decode chunk_id).2.2 < add64 (add64 a.depth_k 1 / 2) a.chunk_start_depth))).row_k
      ≤ (a.row_k + 1) / 2 ∧
    (octant e a
        (decide ((Decode chunk_id).2.1 < add64 (add64 a.row_k 1 / 2) a.chunk_start_row))
        (decide ((Decode chunk_id).1 < add64 (add64 a.column_k 1 / 2) a.chunk_start_column))
        (decide ((Decode chunk_id).2.2 < add64 (add64 a.depth_k 1 / 2) a.chunk_start_depth))).column_k
      ≤ (a.column_k + 1) / 2 ∧
    (octant e a
        (decide ((Decode chunk_id).2.1 < add64 (add64 a.row_k 1 / 2) a.chunk_start_row))
        (decide ((Decode chunk_id).1 < add64 (add64 a.column_k 1 / 2) a.chunk_start_column))
        (decide ((Decode chunk_id).2.2 < add64 (add64 a.depth_k 1 / 2) a.chunk_start_depth))).depth_k
      ≤ (a.depth_k + 1) / 2 := by
  obtain ⟨⟨r1, r2, r3, r4⟩, ⟨c1, c2, c3, c4⟩, ⟨d1, d2, d3, d4⟩⟩ := h
  obtain ⟨o1, o2, o3, o4, o5, o6⟩ := octant_region e a
    (decide ((Decode chunk_id).2.1 < add64 (add64 a.row_k 1 / 2) a.chunk_start_row))
    (decide ((Decode chunk_id).1 < add64 (add64 a.column_k 1 / 2) a.chunk_start_column))
    (decide ((Decode chunk_id).2.2 < add64 (add64 a.depth_k 1 / 2) a.chunk_start_depth))
  have R := axis_step K a.row_k a.chunk_start_row (Decode chunk_id).2.1 hK r1 r2 r3 r4
  have C := axis_step K a.column_k a.chunk_start_column (Decode chunk_id).1 hK c1 c2 c3 c4
  have D := axis_step K a.depth_k a.chunk_start_depth (Decode chunk_id).2.2 hK d1 d2 d3 d4
  unfold Inside
  rw [o1, o2, o3, o4, o5, o6]
  exact ⟨⟨R.1, C.1, D.1⟩, R.2, C.2, D.2⟩

/-- Every recursion node below a node that holds the target holds the target. -/
theorem recursionNodes_inside (e : Env F) (K chunk_id : Nat) (hK : K + 1 < 2 ^ 64) :
    ∀ (fuel : Nat) (a0 : Args), Inside K chunk_id a0 →
      ∀ a, a ∈ recursionNodes e fuel chunk_id a0 → Inside K chunk_id a := by
  intro fuel
  induction fuel with
  | zero => intro a0 _ a ha; simp [recursionNodes] at ha
  | succ fuel ih =>
    intro a0 h0 a ha
    rw [recursionNodes, List.mem_cons] at ha
    rcases ha with rfl | ha
    · exact h0
    · by_cases c1 : a0.n = 0 ∨ e.n < a0.n
      · simp [c1] at ha
      · by_cases c2 : a0.row_k = 1 ∧ a0.column_k = 1 ∧ a0.depth_k = 1
        · simp [c1, c2] at ha
        · simp only [c1, c2, if_false] at ha
          exact ih _ (Inside_child e K chunk_id a0 hK h0).1 a ha

/-- A region whose axes have at most `2 ^ j` chunks is resolved after at most `j`
recursive steps. -/
theorem descend_terminates (e : Env F) (K chunk_id : Nat) (hK : K + 1 < 2 ^ 64) :
    ∀ (j : Nat) (a0 : Args), Inside K chunk_id a0 →
      a0.row_k ≤ 2 ^ j → a0.column_k ≤ 2 ^ j → a0.depth_k ≤ 2 ^ j →
      (∃ r, descend e (j + 1) chunk_id a0 = some r) ∧
      ∀ fuel, (recursionNodes e fuel chunk_id a0).length ≤ j + 1 := by
  intro j
  induction j with
  | zero =>
    intro a0 h0 b1 b2 b3
    have k1 : a0.row_k = 1 := by have := h0.1.1; omega
    have k2 : a0.column_k = 1 := by have := h0.2.1.1; omega
    have k3 : a0.depth_k = 1 := by have := h0.2.2.1; omega
    constructor
    · rw [descend]
      by_cases c1 : a0.n = 0 ∨ e.n < a0.n
      · exact ⟨none, by simp [c1]⟩
      · exact ⟨some a0, by simp [c1, k1, k2, k3]⟩
    · intro fuel
      cases fuel with
      | zero => simp [recursionNodes]
      | succ fuel =>
        rw [recursionNodes]
        by_cases c1 : a0.n = 0 ∨ e.n < a0.n
        · simp [c1]
        · simp [c1, k1, k2, k3]
  | succ j ih =>
    intro a0 h0 b1 b2 b3
    have hp : (2 : Nat) ^ (j + 1) = 2 * 2 ^ j := by rw [pow_succ]; ring
    obtain ⟨hin, s1, s2, s3⟩ := Inside_child e K chunk_id a0 hK h0
    obtain ⟨⟨r, hr⟩, hlen⟩ := ih _ hin (by omega) (by omega) (by omega)
    constructor
    · rw [descend]
      by_cases c1 : a0.n = 0 ∨ e.n < a0.n
      · exact ⟨none, by simp [c1]⟩
      · by_cases c2 : a0.row_k = 1 ∧ a0.column_k = 1 ∧ a0.depth_k = 1
        · exact ⟨some a0, by simp [c1, c2]⟩
        · exact ⟨r, by simp only [c1, c2, if_false]; exact hr⟩
    · intro fuel
      cases fuel with
      | zero => simp [recursionNodes]
      | succ fuel =>
        rw [recursionNodes]
        by_cases c1 : a0.n = 0 ∨ e.n < a0.n
        · simp [c1]
        · by_cases c2 : a0.row_k = 1 ∧ a0.column_k = 1 ∧ a0.depth_k = 1
          · simp [c1, c2]
          · simp only [c1, c2, if_false, List.length_cons]
            have := hlen fuel
            omega

/-- The leaf that a descent reaches is one of its recursion nodes, and its
region is a single chunk. -/
theorem descend_mem (e : Env F) (chunk_id : Nat) : ∀ (fuel : Nat) (a0 a : Args),
    descend e fuel chunk_id a0 = some (some a) →
    a ∈ recursionNodes e fuel chunk_id a0 ∧ a.row_k = 1 ∧ a.column_k = 1 ∧ a.depth_k = 1 := by
  intro fuel
  induction fuel with
  | zero => intro a0 a h; simp [descend] at h
  | succ fuel ih =>
    intro a0 a h
    rw [descend] at h
    rw [recursionNodes]
    by_cases c1 : a0.n = 0 ∨ e.n < a0.n
    · simp [c1] at h
    · by_cases c2 : a0.row_k = 1 ∧ a0.column_k = 1 ∧ a0.depth_k = 1
      · simp only [c1, c2, if_false, and_self, if_true, Option.some.injEq] at h
        subst h
        exact ⟨List.mem_cons_self _ _, c2⟩
      · simp only [c1, c2, if_false] at h ⊢
        obtain ⟨k1, k2⟩ := ih _ a h
        exact ⟨List.mem_cons_of_mem _ k1, k2⟩

/-- The root region holds every chunk whose decoded coordinates lie in the grid. -/
theorem Inside_root (e : Env F) (chunk_id : Nat) (hK : 1 ≤ e.chunks_per_dim_)
    (hc : (Decode chunk_id).1 < e.chunks_per_dim_ ∧ (Decode chunk_id).2.1 < e.chunks_per_dim_ ∧
      (Decode chunk_id).2.2 < e.chunks_per_dim_) :
    Inside e.chunks_per_dim_ chunk_id (rootArgs e) := by
  unfold Inside rootArgs
  simp only
  omega

theorem lt_of_cube_lt (K : Nat) (h : K ^ 3 < 2 ^ 64) : K < 2 ^ 22 := by
  by_contra hn
  have h1 : (2 ^ 22) ^ 3 ≤ K ^ 3 := Nat.pow_le_pow_left (by omega) 3
  norm_num at h1 h
  omega

/-- The descent of a chunk of the grid from the root, with any fuel above
`ceil(log2 K)`. -/
theorem descend_root (e : Env F) (hK : 1 ≤ e.chunks_per_dim_)
    (hrep : e.chunks_per_dim_ ^ 3 < 2 ^ 64) (chunk_id : Nat)
    (hc : (Decode chunk_id).1 < e.chunks_per_dim_ ∧ (Decode chunk_id).2.1 < e.chunks_per_dim_ ∧
      (Decode chunk_id).2.2 < e.chunks_per_dim_)
    (fuel : Nat) (hfuel : Nat.clog 2 e.chunks_per_dim_ < fuel) :
    ∃ r, descend e fuel chunk_id (rootArgs e) = some r := by
  have hlt := lt_of_cube_lt _ hrep
  have hpow : e.chunks_per_dim_ ≤ 2 ^ Nat.clog 2 e.chunks_per_dim_ :=
    Nat.le_pow_clog (by norm_num) _
  obtain ⟨⟨r, hr⟩, -⟩ := descend_terminates e e.chunks_per_dim_ chunk_id (by omega)
    (Nat.clog 2 e.chunks_per_dim_) (rootArgs e) (Inside_root e chunk_id hK hc) hpow hpow hpow
  have := descend_mono e chunk_id (Nat.clog 2 e.chunks_per_dim_ + 1)
    (fuel - (Nat.clog 2 e.chunks_per_dim_ + 1)) (rootArgs e) r hr
  have hf : Nat.clog 2 e.chunks_per_dim_ + 1 + (fuel - (Nat.clog 2 e.chunks_per_dim_ + 1)) =
      fuel := by omega
  rw [hf] at this
  exact ⟨r, this⟩

/-- The function `ComputeChunk` in terms of the descent, for a chunk that is
not in the table. -/
theorem ComputeChunk_of_descend (e : Env F) (fuel chunk_id : Nat) (s : State F)
    (hs : s.chunks_ chunk_id = none) (r : Option Args)
    (hr : descend e fuel chunk_id (rootArgs e) = some r) :
    ComputeChunk e fuel chunk_id s = some (applyLeaf e chunk_id s r) := by
  unfold ComputeChunk
  rw [ComputeChunkRec_eq_descend e fuel chunk_id (rootArgs e) s hs, hr]
  rfl

/-- The function `ComputeChunk` on a chunk that is in the table. -/
theorem ComputeChunk_of_some (e : Env F) (fuel chunk_id : Nat) (s : State F) (hf : 0 < fuel)
    (hs : (s.chunks_ chunk_id).isSome = true) : ComputeChunk e fuel chunk_id s = some s := by
  obtain ⟨f, rfl⟩ : ∃ f, fuel = f + 1 := ⟨fuel - 1, by omega⟩
  exact ComputeChunkRec_of_some e f chunk_id (rootArgs e) s hs

/-- C23 (termination of the chunk descent): for every `K >= 1` (`K ^ 3` a 64-bit
value), every `N` and every chunk id whose decoded coordinates all lie in
`[0, K)`, the recursion of `ComputeChunk` started at the root region reaches
the single-chunk base case or an empty region after at most `ceil(log2 K)`
recursive steps: the descent and `ComputeChunk` return with the fuel
`ceil(log2 K) + 1`, one unit per call, and there are never more than
`ceil(log2 K) + 1` recursion nodes; and at every recursion node each of
`row_k`, `column_k`, `depth_k` is at least `1`. -/
theorem ComputeChunk_terminates (e : Env F) (hK : 1 ≤ e.chunks_per_dim_)
    (hrep : e.chunks_per_dim_ ^ 3 < 2 ^ 64) (chunk_id : Nat)
    (hc : (Decode chunk_id).1 < e.chunks_per_dim_ ∧ (Decode chunk_id).2.1 < e.chunks_per_dim_ ∧
      (Decode chunk_id).2.2 < e.chunks_per_dim_) :
    (∃ r, descend e (Nat.clog 2 e.chunks_per_dim_ + 1) chunk_id (rootArgs e) = some r) ∧
    (∀ s : State F, ∃ t,
      ComputeChunk e (Nat.clog 2 e.chunks_per_dim_ + 1) chunk_id s = some t) ∧
    (∀ fuel, (recursionNodes e fuel chunk_id (rootArgs e)).length ≤
      Nat.clog 2 e.chunks_per_dim_ + 1) ∧
    (∀ fuel a, a ∈ recursionNodes e fuel chunk_id (rootArgs e) →
      1 ≤ a.row_k ∧ 1 ≤ a.column_k ∧ 1 ≤ a.depth_k) := by
  have hlt := lt_of_cube_lt _ hrep
  have hpow : e.chunks_per_dim_ ≤ 2 ^ Nat.clog 2 e.chunks_per_dim_ :=
    Nat.le_pow_clog (by norm_num) _
  have hroot := Inside_root e chunk_id hK hc
  obtain ⟨⟨r, hr⟩, hlen⟩ := descend_terminates e e.chunks_per_dim_ chunk_id (by omega)
    (Nat.clog 2 e.chunks_per_dim_) (rootArgs e) hroot hpow hpow hpow
  refine ⟨⟨r, hr⟩, fun s => ?_, hlen, fun fuel a ha => ?_⟩
  · by_cases hs : (s.chunks_ chunk_id).isSome = true
    · exact ⟨s, ComputeChunk_of_some e _ chunk_id s (by omega) hs⟩
    · have hn : s.chunks_ chunk_id = none := by
        cases h : s.chunks_ chunk_id with
        | none => rfl
        | some v => simp [h] at hs
      exact ⟨_, ComputeChunk_of_descend e _ chunk_id s hn r hr⟩
  · have h := recursionNodes_inside e e.chunks_per_dim_ chunk_id (by omega) fuel (rootArgs e)
      hroot a ha
    exact ⟨h.1.1, h.2.1.1, h.2.2.1⟩

theorem ComputeChunk_terminates_witness :
    (1 ≤ (sampleEnv 5 10 halfSampler 0 0).chunks_per_dim_ ∧
      (sampleEnv 5 10 halfSampler 0 0).chunks_per_dim_ ^ 3 < 2 ^ 64 ∧
      Decode 112 = (2, 2, 4)) ∧
    (∃ r, descend (sampleEnv 5 10 halfSampler 0 0)
      (Nat.clog 2 (sampleEnv 5 10 halfSampler 0 0).chunks_per_dim_ + 1) 112
      (rootArgs (sampleEnv 5 10 halfSampler 0 0)) = some r) ∧
    (∀ fuel, (recursionNodes (sampleEnv 5 10 halfSampler 0 0) fuel 112
      (rootArgs (sampleEnv 5 10 halfSampler 0 0))).length ≤
        Nat.clog 2 (sampleEnv 5 10 halfSampler 0 0).chunks_per_dim_ + 1) :=
  ⟨by decide,
    (ComputeChunk_terminates (sampleEnv 5 10 halfSampler 0 0) (by decide) (by decide) 112
      (by decide)).1,
    (ComputeChunk_terminates (sampleEnv 5 10 halfSampler 0 0) (by decide) (by decide) 112
      (by decide)).2.2.1⟩

/-- C24 (the descent keeps the target inside the region): for every `K >= 1`
(`K ^ 3` a 64-bit value) and every chunk id whose decoded coordinates lie in
`[0, K)`, at every recursion node
`chunk_start_row <= chunk_row < chunk_start_row + row_k`, and likewise for the
column and the depth; the region start of the base case is the decoded triple
of the chunk id, so that `Encode(region start)` is the requested chunk id; and
when the chunk is not in the table, `ComputeChunk` stores under the key
`chunk_id` the count and offset of the base case with the lower corner
`(row, column, depth) * chunk_size_`, and changes no other entry. -/
theorem ComputeChunk_target_inside (e : Env F) (hK : 1 ≤ e.chunks_per_dim_)
    (hrep : e.chunks_per_dim_ ^ 3 < 2 ^ 64) (chunk_id : Nat) (h64 : chunk_id < 2 ^ 64)
    (hc : (Decode chunk_id).1 < e.chunks_per_dim_ ∧ (Decode chunk_id).2.1 < e.chunks_per_dim_ ∧
      (Decode chunk_id).2.2 < e.chunks_per_dim_) :
    (∀ fuel a, a ∈ recursionNodes e fuel chunk_id (rootArgs e) →
      (a.chunk_start_row ≤ (Decode chunk_id).2.1 ∧
        (Decode chunk_id).2.1 < a.chunk_start_row + a.row_k) ∧
      (a.chunk_start_column ≤ (Decode chunk_id).1 ∧
        (Decode chunk_id).1 < a.chunk_start_column + a.column_k) ∧
      (a.chunk_start_depth ≤ (Decode chunk_id).2.2 ∧
        (Decode chunk_id).2.2 < a.chunk_start_depth + a.depth_k)) ∧
    (∀ fuel a, descend e fuel chunk_id (rootArgs e) = some (some a) →
      (a.chunk_start_column, a.chunk_start_row, a.chunk_start_depth) = Decode chunk_id ∧
      Encode a.chunk_start_column a.chunk_start_row a.chunk_start_depth = chunk_id ∧
      ∀ s : State F, s.chunks_ chunk_id = none →
        ComputeChunk e fuel chunk_id s = some (storeChunk e chunk_id a s) ∧
        (storeChunk e chunk_id a s).chunks_ = setKey s.chunks_ chunk_id
          (Chunk.mk a.n (((Decode chunk_id).2.1 : Nat) * e.chunk_size_)
            (((Decode chunk_id).1 : Nat) * e.chunk_size_)
            (((Decode chunk_id).2.2 : Nat) * e.chunk_size_) false a.offset)) := by
  have hlt := lt_of_cube_lt _ hrep
  have hroot := Inside_root e chunk_id hK hc
  constructor
  · intro fuel a ha
    have h := recursionNodes_inside e e.chunks_per_dim_ chunk_id (by omega) fuel (rootArgs e)
      hroot a ha
    exact ⟨⟨h.1.2.1, h.1.2.2.1⟩, ⟨h.2.1.2.1, h.2.1.2.2.1⟩, ⟨h.2.2.2.1, h.2.2.2.2.1⟩⟩
  · intro fuel a ha
    obtain ⟨hmem, k1, k2, k3⟩ := descend_mem e chunk_id fuel (rootArgs e) a ha
    have h := recursionNodes_inside e e.chunks_per_dim_ chunk_id (by omega) fuel (rootArgs e)
      hroot a hmem
    have er : a.chunk_start_row = (Decode chunk_id).2.1 := by
      have := h.1.2.1; have := h.1.2.2.1; omega
    have ec : a.chunk_start_column = (Decode chunk_id).1 := by
      have := h.2.1.2.1; have := h.2.1.2.2.1; omega
    have ed : a.chunk_start_depth = (Decode chunk_id).2.2 := by
      have := h.2.2.2.1; have := h.2.2.2.2.1; omega
    have henc : Encode a.chunk_start_column a.chunk_start_row a.chunk_start_depth = chunk_id := by
      rw [er, ec, ed]
      exact Encode_Decode chunk_id h64
    refine ⟨by rw [er, ec, ed], henc, fun s hs => ⟨?_, ?_⟩⟩
    · rw [ComputeChunk_of_descend e fuel chunk_id s hs _ ha]
      rfl
    · rw [storeChunk_chunks, henc, er, ec, ed]

theorem ComputeChunk_target_inside_witness :
    (1 ≤ (sampleEnv 5 10 halfSampler 0 0).chunks_per_dim_ ∧
      (sampleEnv 5 10 halfSampler 0 0).chunks_per_dim_ ^ 3 < 2 ^ 64 ∧ 112 < 2 ^ 64 ∧
      Decode 112 = (2, 2, 4)) ∧
    descend (sampleEnv 5 10 halfSampler 0 0) 4 112
        (rootArgs (sampleEnv 5 10 halfSampler 0 0)) =
        some (some (Args.mk 1 1 1 1 2 2 4 3 1)) ∧
    ((2, 2, 4) = Decode 112 ∧ Encode 2 2 4 = 112 ∧
      ∀ s : State ℚ, s.chunks_ 112 = none →
        ComputeChunk (sampleEnv 5 10 halfSampler 0 0) 4 112 s =
          some (storeChunk (sampleEnv 5 10 halfSampler 0 0) 112 (Args.mk 1 1 1 1 2 2 4 3 1) s) ∧
        (storeChunk (sampleEnv 5 10 halfSampler 0 0) 112 (Args.mk 1 1 1 1 2 2 4 3 1) s).chunks_ =
          setKey s.chunks_ 112
            (Chunk.mk 1 (((Decode 112).2.1 : Nat) * (sampleEnv 5 10 halfSampler 0 0).chunk_size_)
              (((Decode 112).1 : Nat) * (sampleEnv 5 10 halfSampler 0 0).chunk_size_)
              (((Decode 112).2.2 : Nat) * (sampleEnv 5 10 halfSampler 0 0).chunk_size_)
              false 1)) :=
  ⟨by decide, by decide,
    (ComputeChunk_target_inside (sampleEnv 5 10 halfSampler 0 0) (by decide) (by decide) 112
      (by decide) (by decide)).2 4 (Args.mk 1 1 1 1 2 2 4 3 1) (by decide)⟩

/-- C22 fails for a chunk id outside the grid: with `K = 5` the chunk id `113`
is below `K ^ 3 = 125`, but its decoded depth `5` is not below `K`. Its
descent ends in the chunk with the coordinates `(2, 2, 4)` and stores that
chunk under the key `112`, so that the table never holds an entry for `113`:
on a rank owning the chunk ids `[112, 114)`, one call of `ComputeChunk(113)`
leaves `num_nodes_ = 1` and a second call, which descends again, leaves
`num_nodes_ = 2`. -/
theorem ComputeChunk_twice_counterexample :
    113 < (sampleEnv 5 10 halfSampler 112 114).total_chunks_ ∧ Decode 113 = (2, 2, 5) ∧
    (ComputeChunk (sampleEnv 5 10 halfSampler 112 114) 10 113 State.init).map
      (fun t => (t.num_nodes_, chunkCount t 112, (t.chunks_ 113).isSome)) =
        some (1, 1, false) ∧
    ((ComputeChunk (sampleEnv 5 10 halfSampler 112 114) 10 113 State.init).bind
      (ComputeChunk (sampleEnv 5 10 halfSampler 112 114) 10 113)).map
      (fun t => (t.num_nodes_, chunkCount t 112, (t.chunks_ 113).isSome)) =
        some (2, 1, false) := by
  decide

/-- C22, amended: if the chunk table already holds an entry for a chunk id,
`ComputeChunk` of that id leaves the whole generator state unchanged; and for
every chunk id whose decoded coordinates lie in `[0, K)` (`K >= 1`, `K ^ 3` and
the chunk id 64-bit values), `ComputeChunk(chunk_id)` returns, and calling it
again on the state that it returned leaves that state unchanged, also when the
chunk resolves to zero points. -/
theorem ComputeChunk_memoised (e : Env F) (hK : 1 ≤ e.chunks_per_dim_)
    (hrep : e.chunks_per_dim_ ^ 3 < 2 ^ 64) (chunk_id : Nat) (h64 : chunk_id < 2 ^ 64)
    (hc : (Decode chunk_id).1 < e.chunks_per_dim_ ∧ (Decode chunk_id).2.1 < e.chunks_per_dim_ ∧
      (Decode chunk_id).2.2 < e.chunks_per_dim_)
    (fuel : Nat) (hfuel : Nat.clog 2 e.chunks_per_dim_ < fuel) :
    (∀ (c : Nat) (s : State F), (s.chunks_ c).isSome = true →
      ComputeChunk e fuel c s = some s) ∧
    (∀ s : State F, ∃ t, ComputeChunk e fuel chunk_id s = some t ∧
      ComputeChunk e fuel chunk_id t = some t) := by
  refine ⟨fun c s hs => ComputeChunk_of_some e fuel c s (by omega) hs, fun s => ?_⟩
  by_cases hs : (s.chunks_ chunk_id).isSome = true
  · have h := ComputeChunk_of_some e fuel chunk_id s (by omega) hs
    exact ⟨s, h, h⟩
  · have hn : s.chunks_ chunk_id = none := by
      cases h : s.chunks_ chunk_id with
      | none => rfl
      | some v => simp [h] at hs
    obtain ⟨r, hr⟩ := descend_root e hK hrep chunk_id hc fuel hfuel
    have h1 := ComputeChunk_of_descend e fuel chunk_id s hn r hr
    cases r with
    | none => exact ⟨s, h1, h1⟩
    | some a =>
      refine ⟨storeChunk e chunk_id a s, h1, ?_⟩
      obtain ⟨hmem, -, -, -⟩ := descend_mem e chunk_id fuel (rootArgs e) a hr
      have hlt := lt_of_cube_lt _ hrep
      have h := recursionNodes_inside e e.chunks_per_dim_ chunk_id (by omega) fuel (rootArgs e)
        (Inside_root e chunk_id hK hc) a hmem
      obtain ⟨-, k1, k2, k3⟩ := descend_mem e chunk_id fuel (rootArgs e) a hr
      have er : a.chunk_start_row = (Decode chunk_id).2.1 := by
        have := h.1.2.1; have := h.1.2.2.1; omega
      have ec : a.chunk_start_column = (Decode chunk_id).1 := by
        have := h.2.1.2.1; have := h.2.1.2.2.1; omega
      have ed : a.chunk_start_depth = (Decode chunk_id).2.2 := by
        have := h.2.2.2.1; have := h.2.2.2.2.1; omega
      have henc : Encode a.chunk_start_column a.chunk_start_row a.chunk_start_depth =
          chunk_id := by
        rw [er, ec, ed]
        exact Encode_Decode chunk_id h64
      apply ComputeChunk_of_some e fuel chunk_id _ (by omega)
      rw [storeChunk_chunks, henc]
      simp [setKey]

theorem ComputeChunk_memoised_witness :
    (1 ≤ (sampleEnv 5 10 halfSampler 112 114).chunks_per_dim_ ∧
      (sampleEnv 5 10 halfSampler 112 114).chunks_per_dim_ ^ 3 < 2 ^ 64 ∧ 112 < 2 ^ 64 ∧
      Decode 112 = (2, 2, 4)) ∧
    ((ComputeChunk (sampleEnv 5 10 halfSampler 112 114) 10 112 State.init).bind
      (ComputeChunk (sampleEnv 5 10 halfSampler 112 114) 10 112)).map
      (fun t => (t.num_nodes_, chunkCount t 112)) = some (1, 1) ∧
    ∃ t, ComputeChunk (sampleEnv 5 10 halfSampler 112 114) 10 112 State.init = some t ∧
      ComputeChunk (sampleEnv 5 10 halfSampler 112 114) 10 112 t = some t :=
  ⟨by decide, by decide,
    (ComputeChunk_memoised (sampleEnv 5 10 halfSampler 112 114) (by decide) (by decide) 112
      (by decide) (by decide) 10 (by
        show Nat.clog 2 5 < 10
        have h : Nat.clog 2 5 ≤ 3 := (Nat.le_pow_iff_clog_le (by norm_num)).1 (by norm_num)
        omega)).2 State.init⟩

/-! ### The hash keys of the recursion nodes -/

/-- The hash of a recursion node is taken of `hashKey`. -/
theorem octant_hashKey (e : Env F) (a : Args) :
    (octant e a true true true).n =
      e.GenerateBinomial (e.hash (hashKey e a))
        (e.GenerateBinomial (e.hash (hashKey e a))
          (e.GenerateBinomial (e.hash (hashKey e a)) a.n
            (((add64 a.row_k 1 / 2 : Nat) : F) / (a.row_k : F)))
          (((add64 a.column_k 1 / 2 : Nat) : F) / (a.column_k : F)))
        (((add64 a.depth_k 1 / 2 : Nat) : F) / (a.depth_k : F)) := rfl

theorem octant_level (e : Env F) (a : Args) (u l f : Bool) :
    (octant e a u l f).level = add64 a.level 1 := by
  cases u <;> cases l <;> cases f <;> rfl

/-- Interleaving coordinates below `2 ^ j` gives a code below `8 ^ j`. -/
theorem m3D_e_lt (b : Nat) : ∀ (j x y z : Nat), x < 2 ^ j → y < 2 ^ j → z < 2 ^ j →
    m3D_e b x y z < 8 ^ j := by
  induction b with
  | zero => intro j x y z _ _ _; simp [m3D_e]
  | succ b ih =>
    intro j x y z hx hy hz
    cases j with
    | zero =>
      have h1 : x = 0 := by simpa using hx
      have h2 : y = 0 := by simpa using hy
      have h3 : z = 0 := by simpa using hz
      subst h1 h2 h3
      have := ih 0 0 0 0 (by simp) (by simp) (by simp)
      simp only [m3D_e]
      simp at this ⊢
      exact this
    | succ j =>
      have h8 : (8 : Nat) ^ (j + 1) = 8 * 8 ^ j := by rw [pow_succ]; ring
      have h2 : (2 : Nat) ^ (j + 1) = 2 * 2 ^ j := by rw [pow_succ]; ring
      have := ih j (x / 2) (y / 2) (z / 2) (by omega) (by omega) (by omega)
      simp only [m3D_e]
      omega

/-- De-interleaving undoes interleaving on coordinates of at most `b` bits. -/
theorem m3D_d_e (b : Nat) : ∀ (x y z : Nat), x < 2 ^ b → y < 2 ^ b → z < 2 ^ b →
    m3D_d b (m3D_e b x y z) = (x, y, z) := by
  induction b with
  | zero =>
    intro x y z hx hy hz
    have h1 : x = 0 := by simpa using hx
    have h2 : y = 0 := by simpa using hy
    have h3 : z = 0 := by simpa using hz
    subst h1 h2 h3
    rfl
  | succ b ih =>
    intro x y z hx hy hz
    have h2 : (2 : Nat) ^ (b + 1) = 2 * 2 ^ b := by rw [pow_succ]; ring
    have hi := ih (x / 2) (y / 2) (z / 2) (by omega) (by omega) (by omega)
    simp only [m3D_e, m3D_d]
    have d8 : (x % 2 + 2 * (y % 2) + 4 * (z % 2) + 8 * m3D_e b (x / 2) (y / 2) (z / 2)) / 8 =
        m3D_e b (x / 2) (y / 2) (z / 2) := by omega
    rw [d8, hi]
    refine Prod.ext ?_ (Prod.ext ?_ ?_) <;> simp only <;> omega

/-- The Morton code of a region start inside a grid of `2 ^ ex` chunks per
dimension (`ex <= 21`) is below `8 ^ ex`, and different starts have different
codes. -/
theorem Encode_lt (ex : Nat) (hex : ex ≤ 21) (x y z : Nat) (hx : x < 2 ^ ex) (hy : y < 2 ^ ex)
    (hz : z < 2 ^ ex) : Encode x y z = m3D_e 22 z x y ∧ Encode x y z < 8 ^ ex := by
  have h := m3D_e_lt 22 ex z x y hz hx hy
  have h8 : (8 : Nat) ^ ex ≤ 8 ^ 21 := Nat.pow_le_pow_right (by norm_num) hex
  have h64 : (8 : Nat) ^ 21 < 2 ^ 64 := by norm_num
  unfold Encode
  rw [Nat.mod_eq_of_lt (by omega)]
  exact ⟨rfl, h⟩

theorem Encode_inj (ex : Nat) (hex : ex ≤ 21) (x y z x2 y2 z2 : Nat) (hx : x < 2 ^ ex)
    (hy : y < 2 ^ ex) (hz : z < 2 ^ ex) (hx2 : x2 < 2 ^ ex) (hy2 : y2 < 2 ^ ex)
    (hz2 : z2 < 2 ^ ex) (h : Encode x y z = Encode x2 y2 z2) : x = x2 ∧ y = y2 ∧ z = z2 := by
  rw [(Encode_lt ex hex x y z hx hy hz).1, (Encode_lt ex hex x2 y2 z2 hx2 hy2 hz2).1] at h
  have hp : (2 : Nat) ^ ex ≤ 2 ^ 22 := Nat.pow_le_pow_right (by norm_num) (by omega)
  have d1 := m3D_d_e 22 z x y (by omega) (by omega) (by omega)
  have d2 := m3D_d_e 22 z2 x2 y2 (by omega) (by omega) (by omega)
  rw [h, d2] at d1
  simp only [Prod.mk.injEq] at d1
  exact ⟨d1.2.1.symm, d1.2.2.symm, d1.1.symm⟩

theorem ex_le_of_fit (ex T : Nat) (hT : T = 8 ^ ex) (hfit : (ex + 1) * T ≤ 2 ^ 64) : ex ≤ 21 := by
  by_contra hn
  have h1 : (8 : Nat) ^ 22 ≤ 8 ^ ex := Nat.pow_le_pow_right (by norm_num) (by omega)
  have h2 : T ≤ (ex + 1) * T := Nat.le_mul_of_pos_left T (by omega)
  have h3 : (2 : Nat) ^ 64 < 8 ^ 22 := by norm_num
  omega

/-- The hash keys of two recursion nodes at the levels `1, …, ex` with region
starts inside the grid coincide only if the levels and the region starts
do. -/
theorem hashKey_inj (e : Env F) (ex : Nat) (hT : e.total_chunks_ = 8 ^ ex)
    (hfit : (ex + 1) * e.total_chunks_ ≤ 2 ^ 64) (a b : Args)
    (ha : a.level ≤ ex) (hb : b.level ≤ ex)
    (ar : a.chunk_start_row < 2 ^ ex) (ac : a.chunk_start_column < 2 ^ ex)
    (ad : a.chunk_start_depth < 2 ^ ex) (br : b.chunk_start_row < 2 ^ ex)
    (bc : b.chunk_start_column < 2 ^ ex) (bd : b.chunk_start_depth < 2 ^ ex)
    (h : hashKey e a = hashKey e b) :
    a.level = b.level ∧ a.chunk_start_row = b.chunk_start_row ∧
      a.chunk_start_column = b.chunk_start_column ∧
      a.chunk_start_depth = b.chunk_start_depth := by
  have hex := ex_le_of_fit ex _ hT hfit
  have ea := (Encode_lt ex hex _ _ _ ac ar ad).2
  have eb := (Encode_lt ex hex _ _ _ bc br bd).2
  rw [← hT] at ea eb
  have la : a.level * e.total_chunks_ ≤ ex * e.total_chunks_ := Nat.mul_le_mul_right _ ha
  have lb : b.level * e.total_chunks_ ≤ ex * e.total_chunks_ := Nat.mul_le_mul_right _ hb
  have hs : (ex + 1) * e.total_chunks_ = ex * e.total_chunks_ + e.total_chunks_ := by ring
  have ma : mul64 a.level e.total_chunks_ = a.level * e.total_chunks_ := mul64_eq (by omega)
  have mb : mul64 b.level e.total_chunks_ = b.level * e.total_chunks_ := mul64_eq (by omega)
  unfold hashKey at h
  rw [ma, mb] at h
  unfold add64 at h
  have hsum : a.level * e.total_chunks_ +
        Encode a.chunk_start_column a.chunk_start_row a.chunk_start_depth =
      b.level * e.total_chunks_ +
        Encode b.chunk_start_column b.chunk_start_row b.chunk_start_depth := by
    omega
  obtain ⟨h1, h2⟩ := cell_index_inj _ _ _ _ _ ea eb hsum
  obtain ⟨k1, k2, k3⟩ := Encode_inj ex hex _ _ _ _ _ _ ac ar ad bc br bd h2
  exact ⟨h1, k2, k1, k3⟩

theorem CubeNode_child (e : Env F) (ex j : Nat) (hex : ex ≤ 21) (a : Args)
    (h : CubeNode ex (j + 1) a) (u l f : Bool) : CubeNode ex j (octant e a u l f) := by
  obtain ⟨h0, h1, h2, h3, h4, h5, h6, h7⟩ := h
  have hp : (2 : Nat) ^ (j + 1) = 2 * 2 ^ j := by rw [pow_succ]; ring
  have hpos : 0 < 2 ^ j := Nat.two_pow_pos j
  have hb : (2 : Nat) ^ ex ≤ 2 ^ 21 := Nat.pow_le_pow_right (by norm_num) hex
  have h21 : (2 : Nat) ^ 21 = 2097152 := by norm_num
  obtain ⟨o1, o2, o3, o4, o5, o6⟩ := octant_region e a u l f
  have ol := octant_level e a u l f
  have hl : add64 a.level 1 = a.level + 1 := add64_eq (by omega)
  have sp : ∀ k, k = 2 ^ (j + 1) → add64 k 1 / 2 = 2 ^ j ∧ sub64 k (2 ^ j) = 2 ^ j := by
    intro k hk
    have e1 : add64 k 1 = k + 1 := add64_eq (by omega)
    have e2 : sub64 k (2 ^ j) = k - 2 ^ j := sub64_eq (by omega) (by omega)
    rw [e1, e2]
    omega
  obtain ⟨r1, r2⟩ := sp _ h1
  obtain ⟨c1, c2⟩ := sp _ h2
  obtain ⟨d1, d2⟩ := sp _ h3
  have ar : add64 a.chunk_start_row (2 ^ j) = a.chunk_start_row + 2 ^ j := add64_eq (by omega)
  have ac : add64 a.chunk_start_column (2 ^ j) = a.chunk_start_column + 2 ^ j :=
    add64_eq (by omega)
  have ad : add64 a.chunk_start_depth (2 ^ j) = a.chunk_start_depth + 2 ^ j :=
    add64_eq (by omega)
  rw [r1, r2] at o1
  rw [c1, c2] at o2
  rw [d1, d2] at o3
  rw [r1, ar] at o4
  rw [c1, ac] at o5
  rw [d1, ad] at o6
  unfold CubeNode
  rw [o1, o2, o3, o4, o5, o6, ol, hl]
  refine ⟨by omega, ?_, ?_, ?_, by omega, ?_, ?_, ?_⟩
  · split <;> rfl
  · split <;> rfl
  · split <;> rfl
  · split <;> omega
  · split <;> omega
  · split <;> omega

theorem recursionNodes_cube (e : Env F) (ex : Nat) (hex : ex ≤ 21) (chunk_id : Nat) :
    ∀ (fuel j : Nat) (a0 : Args), CubeNode ex j a0 →
      ∀ a, a ∈ recursionNodes e fuel chunk_id a0 → ∃ i, CubeNode ex i a := by
  intro fuel
  induction fuel with
  | zero => intro j a0 _ a ha; simp [recursionNodes] at ha
  | succ fuel ih =>
    intro j a0 h0 a ha
    rw [recursionNodes, List.mem_cons] at ha
    rcases ha with rfl | ha
    · exact ⟨j, h0⟩
    · by_cases c1 : a0.n = 0 ∨ e.n < a0.n
      · simp [c1] at ha
      · by_cases c2 : a0.row_k = 1 ∧ a0.column_k = 1 ∧ a0.depth_k = 1
        · simp [c1, c2] at ha
        · simp only [c1, c2, if_false] at ha
          cases j with
          | zero =>
            exfalso
            apply c2
            obtain ⟨-, h1, h2, h3, -⟩ := h0
            simp only [pow_zero] at h1 h2 h3
            exact ⟨h1, h2, h3⟩
          | succ j => exact ih j _ (CubeNode_child e ex j hex a0 h0 _ _ _) a ha

/-- A recursion node of a power-of-two grid at which a hash is taken lies at one
of the levels `1, …, ex`, and its region starts inside the grid. -/
theorem CubeNode_bounds (ex i : Nat) (a : Args) (h : CubeNode ex i a)
    (hn : ¬(a.row_k = 1 ∧ a.column_k = 1 ∧ a.depth_k = 1)) :
    1 ≤ a.level ∧ a.level ≤ ex ∧ a.chunk_start_row < 2 ^ ex ∧ a.chunk_start_column < 2 ^ ex ∧
      a.chunk_start_depth < 2 ^ ex := by
  obtain ⟨h0, h1, h2, h3, h4, h5, h6, h7⟩ := h
  have hpos : 0 < 2 ^ i := Nat.two_pow_pos i
  have hi : i ≠ 0 := by
    rintro rfl
    simp only [pow_zero] at h1 h2 h3
    exact hn ⟨h1, h2, h3⟩
  refine ⟨by omega, by omega, by omega, by omega, by omega⟩

theorem CubeNode_root (e : Env F) (ex : Nat) (hK : e.chunks_per_dim_ = 2 ^ ex) :
    CubeNode ex ex (rootArgs e) := by
  unfold CubeNode rootArgs
  refine ⟨le_refl _, hK, hK, hK, ?_, ?_, ?_, ?_⟩
  · show 1 + ex = ex + 1
    omega
  · show 0 + 2 ^ ex ≤ 2 ^ ex
    omega
  · show 0 + 2 ^ ex ≤ 2 ^ ex
    omega
  · show 0 + 2 ^ ex ≤ 2 ^ ex
    omega

/-- C25 fails in 64-bit arithmetic on a large grid: with `K = 2 ^ 20`
(`total_chunks_ = 2 ^ 60`), seed `1`, one point and a sampler that keeps it on
the low side, the descent of chunk `0` visits the root (level `1`, region
start `(0, 0, 0)`, side `2 ^ 20`) and, sixteen steps later, the node at level
`17` with the same region start and the side `2 ^ 4`; `17 * 2 ^ 60` wraps
around to `2 ^ 60`, and both nodes hash the key `2 ^ 60 + 1`. -/
theorem hashKey_counterexample :
    (sampleEnv (2 ^ 20) 1 lowSampler 0 0).chunks_per_dim_ = 2 ^ 20 ∧
    (sampleEnv (2 ^ 20) 1 lowSampler 0 0).total_chunks_ = (2 ^ 20) ^ 3 ∧
    ((recursionNodes (sampleEnv (2 ^ 20) 1 lowSampler 0 0) 21 0
        (rootArgs (sampleEnv (2 ^ 20) 1 lowSampler 0 0))).map
      (fun a => (a.level, a.row_k, a.chunk_start_row, a.chunk_start_column, a.chunk_start_depth,
        hashKey (sampleEnv (2 ^ 20) 1 lowSampler 0 0) a)))[0]? =
      some (1, 2 ^ 20, 0, 0, 0, 2 ^ 60 + 1) ∧
    ((recursionNodes (sampleEnv (2 ^ 20) 1 lowSampler 0 0) 21 0
        (rootArgs (sampleEnv (2 ^ 20) 1 lowSampler 0 0))).map
      (fun a => (a.level, a.row_k, a.chunk_start_row, a.chunk_start_column, a.chunk_start_depth,
        hashKey (sampleEnv (2 ^ 20) 1 lowSampler 0 0) a)))[16]? =
      some (17, 2 ^ 4, 0, 0, 0, 2 ^ 60 + 1) :=
  ⟨by decide, by decide, by decide, by decide⟩

/-- C25, amended: for `K = 2 ^ ex` with `total_chunks_ = K ^ 3` and
`(ex + 1) * total_chunks_ <= 2 ^ 64` (no hash key wraps around), the map
`(region start, level) -> seed + Encode(region start) + level * total_chunks_`
is injective over the levels `1, …, ex` and the region starts inside the grid;
every recursion node of every descent at which a hash is taken (every node
whose region is not a single chunk) has such a level and region start; hence
two such nodes, of the same descent or of two descents, with the same hash key
have the same level and the same region. -/
theorem hashKey_injective (e : Env F) (ex : Nat) (hK : e.chunks_per_dim_ = 2 ^ ex)
    (hT : e.total_chunks_ = e.chunks_per_dim_ ^ 3)
    (hfit : (ex + 1) * e.total_chunks_ ≤ 2 ^ 64) :
    (∀ a b : Args, 1 ≤ a.level → a.level ≤ ex → 1 ≤ b.level → b.level ≤ ex →
      a.chunk_start_row < e.chunks_per_dim_ → a.chunk_start_column < e.chunks_per_dim_ →
      a.chunk_start_depth < e.chunks_per_dim_ → b.chunk_start_row < e.chunks_per_dim_ →
      b.chunk_start_column < e.chunks_per_dim_ → b.chunk_start_depth < e.chunks_per_dim_ →
      hashKey e a = hashKey e b →
      a.level = b.level ∧ a.chunk_start_row = b.chunk_start_row ∧
        a.chunk_start_column = b.chunk_start_column ∧
        a.chunk_start_depth = b.chunk_start_depth) ∧
    (∀ fuel chunk_id a, a ∈ recursionNodes e fuel chunk_id (rootArgs e) →
      ¬(a.row_k = 1 ∧ a.column_k = 1 ∧ a.depth_k = 1) →
      1 ≤ a.level ∧ a.level ≤ ex ∧ a.chunk_start_row < e.chunks_per_dim_ ∧
        a.chunk_start_column < e.chunks_per_dim_ ∧ a.chunk_start_depth < e.chunks_per_dim_) ∧
    (∀ fuel1 chunk_id1 fuel2 chunk_id2 a b,
      a ∈ recursionNodes e fuel1 chunk_id1 (rootArgs e) →
      b ∈ recursionNodes e fuel2 chunk_id2 (rootArgs e) →
      ¬(a.row_k = 1 ∧ a.column_k = 1 ∧ a.depth_k = 1) →
      ¬(b.row_k = 1 ∧ b.column_k = 1 ∧ b.depth_k = 1) →
      hashKey e a = hashKey e b →
      a.level = b.level ∧ a.chunk_start_row = b.chunk_start_row ∧
        a.chunk_start_column = b.chunk_start_column ∧
        a.chunk_start_depth = b.chunk_start_depth ∧
        a.row_k = b.row_k ∧ a.column_k = b.column_k ∧ a.depth_k = b.depth_k) := by
  have hT8 : e.total_chunks_ = 8 ^ ex := by rw [hT, hK, cube_two_pow]
  have hex := ex_le_of_fit ex _ hT8 hfit
  have hnode : ∀ fuel chunk_id a, a ∈ recursionNodes e fuel chunk_id (rootArgs e) →
      ¬(a.row_k = 1 ∧ a.column_k = 1 ∧ a.depth_k = 1) →
      ∃ i, CubeNode ex i a ∧ 1 ≤ a.level ∧ a.level ≤ ex ∧ a.chunk_start_row < 2 ^ ex ∧
        a.chunk_start_column < 2 ^ ex ∧ a.chunk_start_depth < 2 ^ ex := by
    intro fuel chunk_id a ha hn
    obtain ⟨i, hi⟩ := recursionNodes_cube e ex hex chunk_id fuel ex (rootArgs e)
      (CubeNode_root e ex hK) a ha
    exact ⟨i, hi, CubeNode_bounds ex i a hi hn⟩
  refine ⟨?_, ?_, ?_⟩
  · intro a b _ ha _ hb ar ac ad br bc bd h
    rw [hK] at ar ac ad br bc bd
    exact hashKey_inj e ex hT8 hfit a b ha hb ar ac ad br bc bd h
  · intro fuel chunk_id a ha hn
    obtain ⟨i, -, h⟩ := hnode fuel chunk_id a ha hn
    rw [hK]
    exact h
  · intro fuel1 chunk_id1 fuel2 chunk_id2 a b ha hb hna hnb h
    obtain ⟨i, ci, -, la, ar, ac, ad⟩ := hnode fuel1 chunk_id1 a ha hna
    obtain ⟨k, ck, -, lb, br, bc, bd⟩ := hnode fuel2 chunk_id2 b hb hnb
    obtain ⟨h1, h2, h3, h4⟩ := hashKey_inj e ex hT8 hfit a b la lb ar ac ad br bc bd h
    obtain ⟨-, i1, i2, i3, i4, -⟩ := ci
    obtain ⟨-, k1, k2, k3, k4, -⟩ := ck
    have hik : i = k := by omega
    subst hik
    exact ⟨h1, h2, h3, h4, by rw [i1, k1], by rw [i2, k2], by rw [i3, k3]⟩

theorem hashKey_injective_witness :
    ((sampleEnv 4 10 halfSampler 0 0).chunks_per_dim_ = 2 ^ 2 ∧
      (sampleEnv 4 10 halfSampler 0 0).total_chunks_ =
        (sampleEnv 4 10 halfSampler 0 0).chunks_per_dim_ ^ 3 ∧
      (2 + 1) * (sampleEnv 4 10 halfSampler 0 0).total_chunks_ ≤ 2 ^ 64) ∧
    (recursionNodes (sampleEnv 4 10 halfSampler 0 0) 3 63
        (rootArgs (sampleEnv 4 10 halfSampler 0 0))).map
      (fun a => (a.level, a.row_k, a.chunk_start_row, a.chunk_start_column, a.chunk_start_depth,
        hashKey (sampleEnv 4 10 halfSampler 0 0) a)) =
      [(1, 4, 0, 0, 0, 65), (2, 2, 2, 2, 2, 185), (3, 1, 3, 3, 3, 256)] ∧
    (1 ≤ (Args.mk 2 2 2 2 2 2 2 2 8).level ∧ (Args.mk 2 2 2 2 2 2 2 2 8).level ≤ 2 ∧
      (Args.mk 2 2 2 2 2 2 2 2 8).chunk_start_row <
        (sampleEnv 4 10 halfSampler 0 0).chunks_per_dim_ ∧
      (Args.mk 2 2 2 2 2 2 2 2 8).chunk_start_column <
        (sampleEnv 4 10 halfSampler 0 0).chunks_per_dim_ ∧
      (Args.mk 2 2 2 2 2 2 2 2 8).chunk_start_depth <
        (sampleEnv 4 10 halfSampler 0 0).chunks_per_dim_) :=
  ⟨by decide, by decide,
    (hashKey_injective (sampleEnv 4 10 halfSampler 0 0) 2 (by decide) (by decide)
      (by decide)).2.1 3 63 (Args.mk 2 2 2 2 2 2 2 2 8) (by decide) (by decide)⟩

/-! ### The image mesh configuration: zero divisors and idempotence -/

/-- The defaults of the grid, for a communicator size `>= 1`: the four grid
fields are non-zero afterwards, a field that was non-zero keeps its value, and
the rectangle of a PE is left as it is. -/
theorem useWholeGrid_pos (config : ImageMeshConfig) (size : Nat) (hs : 1 ≤ size) :
    ((useWholeGrid config size).max_grid_x ≠ 0 ∧ (useWholeGrid config size).max_grid_y ≠ 0 ∧
      (useWholeGrid config size).grid_x ≠ 0 ∧ (useWholeGrid config size).grid_y ≠ 0) ∧
    ((config.max_grid_x ≠ 0 → (useWholeGrid config size).max_grid_x = config.max_grid_x) ∧
      (config.max_grid_y ≠ 0 → (useWholeGrid config size).max_grid_y = config.max_grid_y) ∧
      (config.grid_x ≠ 0 → (useWholeGrid config size).grid_x = config.grid_x) ∧
      (config.grid_y ≠ 0 → (useWholeGrid config size).grid_y = config.grid_y)) ∧
    (useWholeGrid config size).cols_per_pe = config.cols_per_pe ∧
    (useWholeGrid config size).rows_per_pe = config.rows_per_pe := by
  obtain ⟨h1, -⟩ := isqrt_bounds size hs
  obtain ⟨mx, my, gx, gy, cp, rp⟩ := config
  unfold useWholeGrid
  simp only
  split_ifs <;> refine ⟨⟨?_, ?_, ?_, ?_⟩, ⟨?_, ?_, ?_, ?_⟩, rfl, rfl⟩ <;>
    (try simp only at *) <;> intros <;> first | trivial | omega

/-- A config whose four grid fields are non-zero is left as it is by the
defaults of the grid. -/
theorem useWholeGrid_id (c : ImageMeshConfig) (size : Nat) (h1 : c.max_grid_x ≠ 0)
    (h2 : c.max_grid_y ≠ 0) (h3 : c.grid_x ≠ 0) (h4 : c.grid_y ≠ 0) :
    useWholeGrid c size = c := by
  obtain ⟨mx, my, gx, gy, cp, rp⟩ := c
  unfold useWholeGrid
  simp only at h1 h2 h3 h4 ⊢
  simp [h1, h2, h3, h4]

/-- A rectangle with non-zero sides is left as it is. -/
theorem deriveRectangles_id (c : ImageMeshConfig) (size : Nat) (h1 : c.cols_per_pe ≠ 0)
    (h2 : c.rows_per_pe ≠ 0) : deriveRectangles c size = some c := by
  unfold deriveRectangles
  simp [h1, h2]

/-- The derivation of the rectangle changes no grid field and no side of the
rectangle that is non-zero. -/
theorem deriveRectangles_keeps (c d : ImageMeshConfig) (size : Nat)
    (h : deriveRectangles c size = some d) :
    d.max_grid_x = c.max_grid_x ∧ d.max_grid_y = c.max_grid_y ∧ d.grid_x = c.grid_x ∧
    d.grid_y = c.grid_y ∧ (c.cols_per_pe ≠ 0 → d.cols_per_pe = c.cols_per_pe) ∧
    (c.rows_per_pe ≠ 0 → d.rows_per_pe = c.rows_per_pe) := by
  unfold deriveRectangles at h
  by_cases hA : c.cols_per_pe = 0 ∧ c.rows_per_pe = 0
  · rw [if_pos hA] at h
    cases h1 : div64 c.grid_y size with
    | none => simp [h1] at h
    | some a =>
      cases h2 : div64 size c.grid_y with
      | none => simp [h1, h2] at h
      | some b =>
        cases h3 : div64 c.grid_x (max 1 b) with
        | none => simp [h1, h2, h3] at h
        | some cols =>
          simp only [h1, h2, h3, Option.some.injEq] at h
          subst h
          exact ⟨rfl, rfl, rfl, rfl, fun k => absurd hA.1 k, fun k => absurd hA.2 k⟩
  rw [if_neg hA] at h
  by_cases hB : c.cols_per_pe = 0
  · rw [if_pos hB] at h
    cases h1 : div64 (mul64 c.grid_x c.grid_y) (mul64 size c.rows_per_pe) with
    | none => simp [h1] at h
    | some cols =>
      simp only [h1, Option.map_some', Option.some.injEq] at h
      subst h
      exact ⟨rfl, rfl, rfl, rfl, fun k => absurd hB k, fun _ => rfl⟩
  rw [if_neg hB] at h
  by_cases hC : c.rows_per_pe = 0
  · rw [if_pos hC] at h
    cases h1 : div64 (mul64 c.grid_x c.grid_y) (mul64 size c.cols_per_pe) with
    | none => simp [h1] at h
    | some rows =>
      simp only [h1, Option.map_some', Option.some.injEq] at h
      subst h
      exact ⟨rfl, rfl, rfl, rfl, fun _ => rfl, fun k => absurd hC k⟩
  rw [if_neg hC, Option.some.injEq] at h
  subst h
  exact ⟨rfl, rfl, rfl, rfl, fun _ => rfl, fun _ => rfl⟩

/-- The derivation of the rectangle divides by non-zero numbers only, when the
grid in use has a row, the communicator a rank, and the products
`size * rows_per_pe` and `size * cols_per_pe` do not wrap around. -/
theorem deriveRectangles_some (c : ImageMeshConfig) (size : Nat) (hs : 1 ≤ size)
    (hy : c.grid_y ≠ 0) (hc : size * c.cols_per_pe < 2 ^ 64)
    (hr : size * c.rows_per_pe < 2 ^ 64) : ∃ d, deriveRectangles c size = some d := by
  unfold deriveRectangles
  by_cases hA : c.cols_per_pe = 0 ∧ c.rows_per_pe = 0
  · rw [if_pos hA]
    have hd1 : div64 c.grid_y size = some (c.grid_y / size) := by
      unfold div64; rw [if_neg (by omega)]
    have hd2 : div64 size c.grid_y = some (size / c.grid_y) := by
      unfold div64; rw [if_neg hy]
    have hd3 : div64 c.grid_x (max 1 (size / c.grid_y)) =
        some (c.grid_x / max 1 (size / c.grid_y)) := by
      unfold div64; rw [if_neg (by omega)]
    rw [hd1, hd2]
    simp only
    rw [hd3]
    exact ⟨_, rfl⟩
  rw [if_neg hA]
  by_cases hB : c.cols_per_pe = 0
  · rw [if_pos hB]
    have hr0 : c.rows_per_pe ≠ 0 := fun h => hA ⟨hB, h⟩
    have h1 : 1 ≤ size * c.rows_per_pe := Nat.mul_pos hs (by omega)
    rw [mul64_eq hr]
    unfold div64
    rw [if_neg (by omega)]
    exact ⟨_, rfl⟩
  rw [if_neg hB]
  by_cases hC : c.rows_per_pe = 0
  · rw [if_pos hC]
    have h1 : 1 ≤ size * c.cols_per_pe := Nat.mul_pos hs (by omega)
    rw [mul64_eq hc]
    unfold div64
    rw [if_neg (by omega)]
    exact ⟨_, rfl⟩
  rw [if_neg hC]
  exact ⟨_, rfl⟩

/-- The tiling check takes remainders by non-zero numbers only, when the number
of cells of the grid in use is positive and does not wrap around: a rectangle
with a zero side never covers the grid. -/
theorem checkTiling_some (c : ImageMeshConfig) (size : Nat) (hg : c.grid_x * c.grid_y < 2 ^ 64)
    (hx : c.grid_x ≠ 0) (hy : c.grid_y ≠ 0) :
    (mul64 (mul64 size c.cols_per_pe) c.rows_per_pe = mul64 c.grid_x c.grid_y →
      c.cols_per_pe ≠ 0 ∧ c.rows_per_pe ≠ 0) ∧
    ∃ r, checkTiling c size = some r := by
  have hpos : 1 ≤ c.grid_x * c.grid_y := Nat.mul_pos (by omega) (by omega)
  have hne : mul64 (mul64 size c.cols_per_pe) c.rows_per_pe = mul64 c.grid_x c.grid_y →
      c.cols_per_pe ≠ 0 ∧ c.rows_per_pe ≠ 0 := by
    intro h
    rw [mul64_eq hg] at h
    constructor
    · intro h0
      rw [h0] at h
      simp [mul64] at h
      omega
    · intro h0
      rw [h0] at h
      simp [mul64] at h
      omega
  refine ⟨hne, ?_⟩
  unfold checkTiling
  by_cases h1 : mul64 (mul64 size c.cols_per_pe) c.rows_per_pe = mul64 c.grid_x c.grid_y
  swap
  · rw [if_pos h1]
    exact ⟨_, rfl⟩
  rw [if_neg (by simpa using h1)]
  obtain ⟨k1, k2⟩ := hne h1
  unfold mod64
  rw [if_neg k1]
  simp only
  by_cases h3 : c.grid_x % c.cols_per_pe = 0
  swap
  · rw [if_pos h3]
    exact ⟨_, rfl⟩
  rw [if_neg (by simpa using h3), if_neg k2]
  simp only
  by_cases h5 : c.grid_y % c.rows_per_pe = 0
  swap
  · rw [if_pos h5]
    exact ⟨_, rfl⟩
  rw [if_neg (by simpa using h5)]
  exact ⟨_, rfl⟩

/-- C18 fails in 64-bit arithmetic. For the config with `grid_x = 2 ^ 33`,
`grid_y = 2 ^ 32`, `cols_per_pe = rows_per_pe = 2 ^ 32` on one rank, both
products of the covering check wrap around to `0`, the two remainders are `0`,
and the config is returned although `1 * 2 ^ 32 * 2 ^ 32` is not
`2 ^ 33 * 2 ^ 32`. For the config with `grid_x = grid_y = 2 ^ 32`,
`rows_per_pe = 1` and `cols_per_pe` derived as `0`, the derived values violate
the covering condition and no `ConfigurationError` is thrown: the call divides
by zero. -/
theorem NormalizeParameters_tiling_counterexample :
    (ImageMeshFactory.NormalizeParameters
        (ImageMeshConfig.mk 0 0 (2 ^ 33) (2 ^ 32) (2 ^ 32) (2 ^ 32)) 1 =
      some (Normalized.returned
        (ImageMeshConfig.mk (2 ^ 33) (2 ^ 32) (2 ^ 33) (2 ^ 32) (2 ^ 32) (2 ^ 32))) ∧
      mul64 (mul64 1 (2 ^ 32)) (2 ^ 32) = mul64 (2 ^ 33) (2 ^ 32) ∧
      1 * 2 ^ 32 * 2 ^ 32 ≠ 2 ^ 33 * 2 ^ 32 ∧
      ¬Tiles (ImageMeshConfig.mk (2 ^ 33) (2 ^ 32) (2 ^ 33) (2 ^ 32) (2 ^ 32) (2 ^ 32)) 1) ∧
    (derivedConfig (ImageMeshConfig.mk 0 0 (2 ^ 32) (2 ^ 32) 0 1) 1 =
        some (ImageMeshConfig.mk (2 ^ 32) (2 ^ 32) (2 ^ 32) (2 ^ 32) 0 1) ∧
      1 * 0 * 1 ≠ 2 ^ 32 * 2 ^ 32 ∧
      ∀ e, ImageMeshFactory.NormalizeParameters (ImageMeshConfig.mk 0 0 (2 ^ 32) (2 ^ 32) 0 1) 1 ≠
        some (Normalized.thrown e)) :=
  ⟨⟨by decide, by decide, by decide, fun h => absurd h.1 (by decide)⟩, by decide, by decide,
    fun e => by
      have h : ImageMeshFactory.NormalizeParameters
          (ImageMeshConfig.mk 0 0 (2 ^ 32) (2 ^ 32) 0 1) 1 = none := by decide
      rw [h]
      exact fun k => nomatch k⟩

/-- C18, amended: `NormalizeParameters` throws a `ConfigurationError` only when the
values it derives violate one of the three tiling conditions, and every config
it returns is the derived one and satisfies all three in 64-bit arithmetic, as
the code compares them, with non-zero divisors. For a communicator size `>= 1`
and an input for which none of the products `size * cols_per_pe`,
`size * rows_per_pe`, `grid_x * grid_y` (of the grid in use) and
`size * cols_per_pe * rows_per_pe` (of the derived values) wraps around, the
call always ends in one of the two ways: it returns the derived config exactly
when `size * cols_per_pe * rows_per_pe = grid_x * grid_y`,
`grid_x mod cols_per_pe = 0` and `grid_y mod rows_per_pe = 0` hold of it over
the natural numbers, and it throws exactly when they do not. -/
theorem NormalizeParameters_tiling (config : ImageMeshConfig) (size : Nat) :
    (∀ c, ImageMeshFactory.NormalizeParameters config size = some (Normalized.returned c) →
      derivedConfig config size = some c ∧
      mul64 (mul64 size c.cols_per_pe) c.rows_per_pe = mul64 c.grid_x c.grid_y ∧
      c.cols_per_pe ≠ 0 ∧ c.grid_x % c.cols_per_pe = 0 ∧
      c.rows_per_pe ≠ 0 ∧ c.grid_y % c.rows_per_pe = 0) ∧
    (∀ e, ImageMeshFactory.NormalizeParameters config size = some (Normalized.thrown e) →
      ∃ c, derivedConfig config size = some c ∧
        ¬(mul64 (mul64 size c.cols_per_pe) c.rows_per_pe = mul64 c.grid_x c.grid_y ∧
          c.grid_x % c.cols_per_pe = 0 ∧ c.grid_y % c.rows_per_pe = 0)) ∧
    (1 ≤ size → size * config.cols_per_pe < 2 ^ 64 → size * config.rows_per_pe < 2 ^ 64 →
      (useWholeGrid config size).grid_x * (useWholeGrid config size).grid_y < 2 ^ 64 →
      (∀ c, derivedConfig config size = some c →
        size * c.cols_per_pe * c.rows_per_pe < 2 ^ 64) →
      ∃ c, derivedConfig config size = some c ∧
        (ImageMeshFactory.NormalizeParameters config size = some (Normalized.returned c) ↔
          Tiles c size) ∧
        ((∃ e, ImageMeshFactory.NormalizeParameters config size =
          some (Normalized.thrown e)) ↔ ¬Tiles c size)) := by
  refine ⟨fun c h => ?_, fun e h => ?_, fun hs hc hr hg hp => ?_⟩
  · unfold ImageMeshFactory.NormalizeParameters at h
    cases hd : derivedConfig config size with
    | none => simp [hd] at h
    | some d =>
      simp only [hd] at h
      obtain ⟨rfl, k⟩ := checkTiling_returned d c size h
      exact ⟨rfl, k⟩
  · unfold ImageMeshFactory.NormalizeParameters at h
    cases hd : derivedConfig config size with
    | none => simp [hd] at h
    | some d =>
      simp only [hd] at h
      exact ⟨d, rfl, checkTiling_thrown d size e h⟩
  · obtain ⟨⟨-, -, px, py⟩, -, kc, kr⟩ := useWholeGrid_pos config size hs
    obtain ⟨c, hd⟩ := deriveRectangles_some (useWholeGrid config size) size hs py
      (by rw [kc]; exact hc) (by rw [kr]; exact hr)
    have hc2 : derivedConfig config size = some c := hd
    obtain ⟨-, -, gx, gy, -, -⟩ := deriveRectangles_keeps _ _ _ hd
    have h2 : c.grid_x * c.grid_y < 2 ^ 64 := by rw [gx, gy]; exact hg
    have h3 : 1 ≤ c.grid_x * c.grid_y := by
      rw [gx, gy]
      exact Nat.mul_pos (by omega) (by omega)
    obtain ⟨k1, k2⟩ := checkTiling_fits c size (hp c hc2) h2 h3
    refine ⟨c, hc2, ?_, ?_⟩
    · unfold ImageMeshFactory.NormalizeParameters
      simp only [hc2]
      constructor
      · intro h
        by_contra hn
        obtain ⟨e, he⟩ := k2 hn
        rw [he] at h
        simp at h
      · exact k1
    · unfold ImageMeshFactory.NormalizeParameters
      simp only [hc2]
      constructor
      · rintro ⟨e, he⟩ ht
        rw [k1 ht] at he
        simp at he
      · exact k2

/-- C18 at a concrete input: eight PEs on a 4 x 4 grid get rectangles of two
columns and one row. -/
theorem NormalizeParameters_tiling_witness :
    ImageMeshFactory.NormalizeParameters (ImageMeshConfig.mk 0 0 4 4 0 0) 8 =
      some (Normalized.returned (ImageMeshConfig.mk 4 4 4 4 2 1)) ∧
    (1 ≤ 8 ∧ 8 * (ImageMeshConfig.mk 0 0 4 4 0 0).cols_per_pe < 2 ^ 64 ∧
      8 * (ImageMeshConfig.mk 0 0 4 4 0 0).rows_per_pe < 2 ^ 64 ∧
      (useWholeGrid (ImageMeshConfig.mk 0 0 4 4 0 0) 8).grid_x *
        (useWholeGrid (ImageMeshConfig.mk 0 0 4 4 0 0) 8).grid_y < 2 ^ 64 ∧
      derivedConfig (ImageMeshConfig.mk 0 0 4 4 0 0) 8 = some (ImageMeshConfig.mk 4 4 4 4 2 1) ∧
      8 * (ImageMeshConfig.mk 4 4 4 4 2 1).cols_per_pe *
        (ImageMeshConfig.mk 4 4 4 4 2 1).rows_per_pe < 2 ^ 64) ∧
    ∃ c, derivedConfig (ImageMeshConfig.mk 0 0 4 4 0 0) 8 = some c ∧
      (ImageMeshFactory.NormalizeParameters (ImageMeshConfig.mk 0 0 4 4 0 0) 8 =
        some (Normalized.returned c) ↔ Tiles c 8) ∧
      ((∃ e, ImageMeshFactory.NormalizeParameters (ImageMeshConfig.mk 0 0 4 4 0 0) 8 =
        some (Normalized.thrown e)) ↔ ¬Tiles c 8) :=
  ⟨by decide, by decide,
    (NormalizeParameters_tiling (ImageMeshConfig.mk 0 0 4 4 0 0) 8).2.2 (by decide)
      (by decide) (by decide) (by decide)
      (fun c hc => by
        have hd : derivedConfig (ImageMeshConfig.mk 0 0 4 4 0 0) 8 =
            some (ImageMeshConfig.mk 4 4 4 4 2 1) := by decide
        rw [hd] at hc
        cases hc
        decide)⟩

/-- C31 fails in 64-bit arithmetic. For the config with `grid_x = grid_y = 2 ^ 32`,
`rows_per_pe = 1` and the other fields `0`, on one rank, the product
`grid_x * grid_y` wraps around to `0`: `cols_per_pe` is derived as `0 / 1 = 0`,
the tiling check compares `1 * 0 * 1 = 0` with `grid_x * grid_y = 0` and does
not throw, and `grid_x % cols_per_pe` is taken with the divisor `0`. For the
config with `rows_per_pe = 2 ^ 63` and the other fields `0`, on two ranks, the
divisor `size * rows_per_pe` of the derivation of `cols_per_pe` wraps around to
`0`. -/
theorem NormalizeParameters_zero_divisor_counterexample :
    (derivedConfig (ImageMeshConfig.mk 0 0 (2 ^ 32) (2 ^ 32) 0 1) 1 =
        some (ImageMeshConfig.mk (2 ^ 32) (2 ^ 32) (2 ^ 32) (2 ^ 32) 0 1) ∧
      mul64 (mul64 1 0) 1 = mul64 (2 ^ 32) (2 ^ 32) ∧
      mod64 (2 ^ 32) 0 = none ∧
      ImageMeshFactory.NormalizeParameters (ImageMeshConfig.mk 0 0 (2 ^ 32) (2 ^ 32) 0 1) 1 =
        none) ∧
    (useWholeGrid (ImageMeshConfig.mk 0 0 0 0 0 (2 ^ 63)) 2 =
        ImageMeshConfig.mk 1 1 1 1 0 (2 ^ 63) ∧
      mul64 2 (2 ^ 63) = 0 ∧
      ImageMeshFactory.NormalizeParameters (ImageMeshConfig.mk 0 0 0 0 0 (2 ^ 63)) 2 = none) :=
  ⟨⟨by decide, by decide, by decide, by decide⟩, by decide, by decide, by decide⟩

/-- C31, amended: for every communicator size `>= 1` and every input config for
which the products `size * cols_per_pe`, `size * rows_per_pe` and
`grid_x * grid_y` (of the grid in use, after the defaults of lines 16-33) do
not wrap around in 64-bit arithmetic, `NormalizeParameters` never divides by
zero: the grid in use has `grid_y != 0` (the divisor of `size / grid_y`), the
values are derived without a zero divisor, a derived rectangle that passes the
covering check has `cols_per_pe != 0` and `rows_per_pe != 0` (the divisors of
the two remainders), and the call ends by returning or throwing. -/
theorem NormalizeParameters_no_zero_divisor (config : ImageMeshConfig) (size : Nat)
    (hs : 1 ≤ size) (hc : size * config.cols_per_pe < 2 ^ 64)
    (hr : size * config.rows_per_pe < 2 ^ 64)
    (hg : (useWholeGrid config size).grid_x * (useWholeGrid config size).grid_y < 2 ^ 64) :
    (useWholeGrid config size).grid_y ≠ 0 ∧
    (config.rows_per_pe ≠ 0 → mul64 size config.rows_per_pe ≠ 0) ∧
    (config.cols_per_pe ≠ 0 → mul64 size config.cols_per_pe ≠ 0) ∧
    (∃ c, derivedConfig config size = some c ∧
      (mul64 (mul64 size c.cols_per_pe) c.rows_per_pe = mul64 c.grid_x c.grid_y →
        c.cols_per_pe ≠ 0 ∧ c.rows_per_pe ≠ 0)) ∧
    ∃ r, ImageMeshFactory.NormalizeParameters config size = some r := by
  obtain ⟨⟨-, -, px, py⟩, -, kc, kr⟩ := useWholeGrid_pos config size hs
  obtain ⟨d, hd⟩ := deriveRectangles_some (useWholeGrid config size) size hs py
    (by rw [kc]; exact hc) (by rw [kr]; exact hr)
  obtain ⟨-, -, gx, gy, -, -⟩ := deriveRectangles_keeps _ _ _ hd
  obtain ⟨t1, r, t2⟩ := checkTiling_some d size (by rw [gx, gy]; exact hg) (by rw [gx]; exact px)
    (by rw [gy]; exact py)
  refine ⟨py, ?_, ?_, ⟨d, hd, t1⟩, r, ?_⟩
  · intro h0
    have h1 : 1 ≤ size * config.rows_per_pe := Nat.mul_pos hs (by omega)
    rw [mul64_eq hr]
    omega
  · intro h0
    have h1 : 1 ≤ size * config.cols_per_pe := Nat.mul_pos hs (by omega)
    rw [mul64_eq hc]
    omega
  · unfold ImageMeshFactory.NormalizeParameters
    have hd2 : derivedConfig config size = some d := hd
    rw [hd2]
    exact t2

theorem NormalizeParameters_no_zero_divisor_witness :
    (1 ≤ 4 ∧ 4 * (ImageMeshConfig.mk 0 0 1 1 0 0).cols_per_pe < 2 ^ 64 ∧
      4 * (ImageMeshConfig.mk 0 0 1 1 0 0).rows_per_pe < 2 ^ 64 ∧
      (useWholeGrid (ImageMeshConfig.mk 0 0 1 1 0 0) 4).grid_x *
        (useWholeGrid (ImageMeshConfig.mk 0 0 1 1 0 0) 4).grid_y < 2 ^ 64) ∧
    derivedConfig (ImageMeshConfig.mk 0 0 1 1 0 0) 4 = some (ImageMeshConfig.mk 1 1 1 1 0 1) ∧
    ImageMeshFactory.NormalizeParameters (ImageMeshConfig.mk 0 0 1 1 0 0) 4 =
      some (Normalized.thrown ConfigurationError.not_covered) ∧
    ∃ r, ImageMeshFactory.NormalizeParameters (ImageMeshConfig.mk 0 0 1 1 0 0) 4 = some r :=
  ⟨by decide, by decide, by decide,
    (NormalizeParameters_no_zero_divisor (ImageMeshConfig.mk 0 0 1 1 0 0) 4 (by decide)
      (by decide) (by decide) (by decide)).2.2.2.2⟩

/-- C32 (idempotence on successes): for every communicator size `>= 1` and every
config on which `NormalizeParameters(config, size)` returns `c`, the six fields
of `c` are non-zero, `NormalizeParameters(c, size)` returns `c`, and every field
that was non-zero in the input has its input value in `c`. -/
theorem NormalizeParameters_idempotent (config c : ImageMeshConfig) (size : Nat)
    (hs : 1 ≤ size)
    (h : ImageMeshFactory.NormalizeParameters config size = some (Normalized.returned c)) :
    ImageMeshFactory.NormalizeParameters c size = some (Normalized.returned c) ∧
    (c.max_grid_x ≠ 0 ∧ c.max_grid_y ≠ 0 ∧ c.grid_x ≠ 0 ∧ c.grid_y ≠ 0 ∧
      c.cols_per_pe ≠ 0 ∧ c.rows_per_pe ≠ 0) ∧
    ((config.max_grid_x ≠ 0 → c.max_grid_x = config.max_grid_x) ∧
      (config.max_grid_y ≠ 0 → c.max_grid_y = config.max_grid_y) ∧
      (config.grid_x ≠ 0 → c.grid_x = config.grid_x) ∧
      (config.grid_y ≠ 0 → c.grid_y = config.grid_y) ∧
      (config.cols_per_pe ≠ 0 → c.cols_per_pe = config.cols_per_pe) ∧
      (config.rows_per_pe ≠ 0 → c.rows_per_pe = config.rows_per_pe)) := by
  unfold ImageMeshFactory.NormalizeParameters at h
  cases hd : derivedConfig config size with
  | none => simp [hd] at h
  | some d =>
    simp only [hd] at h
    obtain ⟨hcd, -, c1, -, c2, -⟩ := checkTiling_returned d c size h
    subst hcd
    obtain ⟨⟨p1, p2, p3, p4⟩, ⟨q1, q2, q3, q4⟩, kc, kr⟩ := useWholeGrid_pos config size hs
    obtain ⟨g1, g2, g3, g4, g5, g6⟩ := deriveRectangles_keeps _ _ _ hd
    have n1 : c.max_grid_x ≠ 0 := by rw [g1]; exact p1
    have n2 : c.max_grid_y ≠ 0 := by rw [g2]; exact p2
    have n3 : c.grid_x ≠ 0 := by rw [g3]; exact p3
    have n4 : c.grid_y ≠ 0 := by rw [g4]; exact p4
    refine ⟨?_, ⟨n1, n2, n3, n4, c1, c2⟩, ?_⟩
    · unfold ImageMeshFactory.NormalizeParameters derivedConfig
      rw [useWholeGrid_id c size n1 n2 n3 n4, deriveRectangles_id c size c1 c2]
      exact h
    · refine ⟨fun k => ?_, fun k => ?_, fun k => ?_, fun k => ?_, fun k => ?_, fun k => ?_⟩
      · rw [g1]; exact q1 k
      · rw [g2]; exact q2 k
      · rw [g3]; exact q3 k
      · rw [g4]; exact q4 k
      · rw [g5 (by rw [kc]; exact k), kc]
      · rw [g6 (by rw [kr]; exact k), kr]

theorem NormalizeParameters_idempotent_witness :
    (1 ≤ 4 ∧
      ImageMeshFactory.NormalizeParameters (ImageMeshConfig.mk 0 0 0 4 0 0) 4 =
        some (Normalized.returned (ImageMeshConfig.mk 2 4 2 4 2 1))) ∧
    ImageMeshFactory.NormalizeParameters (ImageMeshConfig.mk 2 4 2 4 2 1) 4 =
      some (Normalized.returned (ImageMeshConfig.mk 2 4 2 4 2 1)) :=
  ⟨by decide,
    (NormalizeParameters_idempotent (ImageMeshConfig.mk 0 0 0 4 0 0)
      (ImageMeshConfig.mk 2 4 2 4 2 1) 4 (by decide) (by decide)).1⟩

/-! ### The hash keys of the sampling stages -/

/-- The vertex loop keeps the seed of the Mersenne generator. -/
theorem vertexLoop_seed (e : Env F) (g : Nat) (cell : Cell F) (b : Bool) (l : List Nat)
    (s : State F) : (l.foldl (vertexStep e g cell b) s).mersenne_.1 = s.mersenne_.1 := by
  induction l generalizing s with
  | nil => rfl
  | cons i l ih =>
    simp only [List.foldl_cons]
    rw [ih (vertexStep e g cell b s i)]
    unfold vertexStep PushCoordinate
    split <;> rfl

/-- The vertices of a stored cell are drawn from the Mersenne generator seeded
with the hash of `vertexSeed`. -/
theorem GenerateVertices_seed (e : Env F) (fuel chunk_id cell_id : Nat) (b : Bool)
    (s : State F) (chunk : Chunk F) (cell : Cell F) (hchunk : s.chunks_ chunk_id = some chunk)
    (hgen : chunk.generated = true)
    (hcell : s.cells_ (ComputeGlobalCellId e chunk_id cell_id) = some cell)
    (hnew : cell.generated = false) :
    (GenerateVertices e fuel chunk_id cell_id b s).map (fun t => t.mersenne_.1) =
      some (e.hash (vertexSeed e chunk_id cell_id)) := by
  have hc : (touchChunk chunk_id s).cells_ (ComputeGlobalCellId e chunk_id cell_id) =
      some cell := hcell
  unfold GenerateVertices
  simp only [hchunk, Option.isNone_some, Bool.false_eq_true, if_false, chunkAt,
    Option.getD_some, hgen, if_true, hc, hnew, Option.map_some', vertexLoop_seed]
  rfl

/-- C33, second half, fails in 64-bit arithmetic when the number of cells
exceeds `2 ^ 63`: with `K = 2 ^ 19` chunks per dimension and `5 ^ 3` cells per
chunk (`125 * 2 ^ 57` cells, a 64-bit value) and seed `1`, the cell-count key of
cell `116` of chunk `3458764513820540`, which is
`1 + 3 * 2 ^ 57 + 125 * 2 ^ 57` wrapped around, and the vertex-seed key of cell
`0` of chunk `0` are both `1`. -/
theorem stage_keys_counterexample :
    (sampleWideEnv.total_chunks_ = sampleWideEnv.chunks_per_dim_ ^ 3 ∧
      sampleWideEnv.cells_per_chunk_ = sampleWideEnv.cells_per_dim_ ^ 3 ∧
      sampleWideEnv.total_chunks_ * sampleWideEnv.cells_per_chunk_ < 2 ^ 64) ∧
    (3458764513820540 < sampleWideEnv.total_chunks_ ∧ 116 < sampleWideEnv.cells_per_chunk_ ∧
      0 < sampleWideEnv.total_chunks_ ∧ 0 < sampleWideEnv.cells_per_chunk_) ∧
    cellCountSeed sampleWideEnv 3458764513820540 116 = 1 ∧
    vertexSeed sampleWideEnv 0 0 = 1 :=
  ⟨by decide, by decide, by decide, by decide⟩

/-- C33, amended: hash keys of different sampling stages can coincide, and the
cell-count keys and the vertex-seed keys are disjoint as long as twice the
number of cells is at most `2 ^ 64`. In every configuration with one cell per
chunk (for example `K = 2`), the key
`seed + Encode(region start) + level * total_chunks_` of the root node of the
chunk recursion equals the key
`seed + chunk_id * cells_per_chunk_ + i + total_chunks_ * cells_per_chunk_` of
the cell-count draw of cell `0` of chunk `0`. When
`2 * total_chunks_ * cells_per_chunk_ <= 2 ^ 64`, no cell-count key of a valid
`(chunk_id, i)` equals the vertex-seed key
`seed + chunk_id * cells_per_chunk_ + cell_id` of a valid `(chunk_id, cell_id)`. -/
theorem stage_keys (e : Env F)
    (hfit : 2 * (e.total_chunks_ * e.cells_per_chunk_) ≤ 2 ^ 64) :
    (e.cells_per_chunk_ = 1 → hashKey e (rootArgs e) = cellCountSeed e 0 0) ∧
    (∀ c1 i1 c2 i2, c1 < e.total_chunks_ → i1 < e.cells_per_chunk_ →
      c2 < e.total_chunks_ → i2 < e.cells_per_chunk_ →
      cellCountSeed e c1 i1 ≠ vertexSeed e c2 i2) := by
  constructor
  · intro hm
    have h0 : Encode 0 0 0 = 0 := by decide
    unfold hashKey cellCountSeed rootArgs
    simp only [hm, h0]
    unfold add64 mul64
    omega
  · intro c1 i1 c2 i2 hc1 hi1 hc2 hi2 h
    have hrep : e.total_chunks_ * e.cells_per_chunk_ < 2 ^ 64 := by
      have := cell_index_lt _ _ _ _ hc1 hi1
      omega
    have b1 := cell_index_lt _ _ _ _ hc1 hi1
    have b2 := cell_index_lt _ _ _ _ hc2 hi2
    have g1 := ComputeGlobalCellId_eq e hrep c1 i1 hc1 hi1
    have g2 := ComputeGlobalCellId_eq e hrep c2 i2 hc2 hi2
    have hk : cellsEmptyKey e = e.total_chunks_ * e.cells_per_chunk_ := by
      unfold cellsEmptyKey mul64
      exact Nat.mod_eq_of_lt hrep
    rw [cellCountSeed_eq, vertexSeed_eq, g1, g2, hk] at h
    unfold add64 at h
    omega

theorem stage_keys_witness :
    (2 * ((sampleEnv 2 10 halfSampler 0 8).total_chunks_ *
        (sampleEnv 2 10 halfSampler 0 8).cells_per_chunk_) ≤ 2 ^ 64 ∧
      (sampleEnv 2 10 halfSampler 0 8).cells_per_chunk_ = 1) ∧
    (hashKey (sampleEnv 2 10 halfSampler 0 8) (rootArgs (sampleEnv 2 10 halfSampler 0 8)) = 9 ∧
      cellCountSeed (sampleEnv 2 10 halfSampler 0 8) 0 0 = 9 ∧
      (recursionNodes (sampleEnv 2 10 halfSampler 0 8) 2 0
        (rootArgs (sampleEnv 2 10 halfSampler 0 8))).map (fun a => (a.level, a.row_k)) =
        [(1, 2), (2, 1)]) ∧
    hashKey (sampleEnv 2 10 halfSampler 0 8) (rootArgs (sampleEnv 2 10 halfSampler 0 8)) =
      cellCountSeed (sampleEnv 2 10 halfSampler 0 8) 0 0 :=
  ⟨by decide, by decide,
    (stage_keys (sampleEnv 2 10 halfSampler 0 8) (by decide)).1 rfl⟩

/-! ### Self-loops in the Graph500 edge buffer -/

/-- Without self-loops in the config, a call of `PushLocalEdge` adds no edge
`(u, u)` to a buffer that holds none. -/
theorem PushLocalEdge_no_loop (config_ : PGeneratorConfig) (hs : config_.self_loops = false)
    (l : List (Int × Int)) (a b : Int) (hl : ∀ e, e ∈ l → e.1 ≠ e.2) :
    ∀ e, e ∈ Graph500Generator.PushLocalEdge config_ l a b → e.1 ≠ e.2 := by
  intro e he
  unfold Graph500Generator.PushLocalEdge at he
  simp only [hs, Bool.false_eq_true, false_or] at he
  by_cases hab : a = b
  · simp only [hab, ne_eq, not_true_eq_false, if_false, and_false] at he
    exact hl e he
  · have hba : b ≠ a := fun h => hab h.symm
    cases hd : config_.directed
    · simp only [ne_eq, hab, not_false_eq_true, if_true, hd, Bool.false_eq_true, and_self,
        List.mem_append, List.mem_singleton] at he
      rcases he with (he | rfl) | rfl
      · exact hl e he
      · exact hab
      · exact hba
    · simp only [ne_eq, hab, not_false_eq_true, if_true, hd, not_true_eq_false, false_and,
        if_false, List.mem_append, List.mem_singleton] at he
      rcases he with he | rfl
      · exact hl e he
      · exact hab

theorem pushAll_no_loop (config_ : PGeneratorConfig) (hs : config_.self_loops = false)
    (calls : List (Int × Int)) : ∀ (l : List (Int × Int)), (∀ e, e ∈ l → e.1 ≠ e.2) →
    ∀ e, e ∈ Graph500Generator.pushAll config_ l calls → e.1 ≠ e.2 := by
  induction calls with
  | nil => intro l hl; exact hl
  | cons c cs ih =>
    intro l hl
    exact ih _ (PushLocalEdge_no_loop config_ hs l c.1 c.2 hl)

/-- C34 (self-loop handling of `PushLocalEdge`): with `config.self_loops = false`
the buffer holds no edge `(u, u)` after any sequence of calls from the empty
buffer, and a call `PushLocalEdge(u, u)` appends nothing; with
`config.self_loops = true` a call `PushLocalEdge(u, u)` appends exactly one copy
of `(u, u)`, whatever `config.directed` is; and a call with `from != to`
appends exactly the edge `(from, to)` when directed and exactly the two edges
`(from, to)`, `(to, from)` when undirected, whatever `config.self_loops` is. -/
theorem PushLocalEdge_self_loops (config_ : PGeneratorConfig) (local_edges_ : List (Int × Int))
    (from_v to_v : Int) :
    (config_.self_loops = false →
      (∀ (calls : List (Int × Int)) (u : Int),
        (u, u) ∉ Graph500Generator.pushAll config_ [] calls) ∧
      Graph500Generator.PushLocalEdge config_ local_edges_ from_v from_v = local_edges_) ∧
    (config_.self_loops = true →
      Graph500Generator.PushLocalEdge config_ local_edges_ from_v from_v =
        local_edges_ ++ [(from_v, from_v)]) ∧
    (from_v ≠ to_v → config_.directed = true →
      Graph500Generator.PushLocalEdge config_ local_edges_ from_v to_v =
        local_edges_ ++ [(from_v, to_v)]) ∧
    (from_v ≠ to_v → config_.directed = false →
      Graph500Generator.PushLocalEdge config_ local_edges_ from_v to_v =
        local_edges_ ++ [(from_v, to_v), (to_v, from_v)]) := by
  refine ⟨fun hs => ⟨fun calls u hu => ?_, ?_⟩, fun hs => ?_, fun hne hd => ?_, fun hne hd => ?_⟩
  · exact pushAll_no_loop config_ hs calls [] (fun e he => by simp at he) (u, u) hu rfl
  · simp [Graph500Generator.PushLocalEdge, hs]
  · simp [Graph500Generator.PushLocalEdge, hs]
  · simp [Graph500Generator.PushLocalEdge, hne, hd]
  · simp [Graph500Generator.PushLocalEdge, hne, hd]

theorem PushLocalEdge_self_loops_witness :
    ((PGeneratorConfig.mk false false).self_loops = false ∧ (1 : Int) ≠ 2 ∧
      (PGeneratorConfig.mk false false).directed = false) ∧
    Graph500Generator.pushAll (PGeneratorConfig.mk false false) [] [(1, 2), (3, 3), (2, 1)] =
      [(1, 2), (2, 1), (2, 1), (1, 2)] ∧
    (3, 3) ∉ Graph500Generator.pushAll (PGeneratorConfig.mk false false) []
      [(1, 2), (3, 3), (2, 1)] ∧
    Graph500Generator.PushLocalEdge (PGeneratorConfig.mk false false) [(5, 6)] 1 2 =
      [(5, 6)] ++ [(1, 2), (2, 1)] :=
  ⟨by decide, by decide,
    ((PushLocalEdge_self_loops (PGeneratorConfig.mk false false) [(5, 6)] 1 2).1 rfl).1
      [(1, 2), (3, 3), (2, 1)] 3,
    (PushLocalEdge_self_loops (PGeneratorConfig.mk false false) [(5, 6)] 1 2).2.2.2 (by decide)
      rfl⟩

end KaGen
